import Mathlib

/-!
# comp.c : a small Huffman compressor / decompressor

Shallow embedding of `src/comp.c` and theorems about it.

Conventions of the embedding
* A `FILE*` opened for writing is the list of bytes written so far; a `FILE*`
  opened for reading is the list of bytes not yet read.  `putc (c, f)` appends
  `c mod 256` (the conversion to `unsigned char` done by `putc`), `getc` pops the
  head, and yields `EOF = -1` on the empty list.
* C `int` / `long` values are `Int` where the program can make them negative
  (`curChar`, priorities, results of `getBits` / `getPrio`) and `Nat` where they
  are counters, widths, indices or code values.  The priorities that
  `generateLength` and `generatePrefix` compute from their arguments are C `int`
  values: they are reduced to the 32-bit two's complement range with `toInt32`
  (the wrap-around of the usual compilers).  The other values stay far below
  `2 ^ 31` (block size at most 4096, 256 symbols, widths at most 16).
* `x << k` is `x * 2 ^ k` (or `<<<` on `Nat`), `x >> k` is `>>>`.
* Every loop is a structurally recursive function with a fuel argument that
  bounds the number of iterations of the C loop from above.
-/

namespace Comp

/-! ## Bit streams -/

/-- The C structure `BitStream`: `file` is the underlying byte stream, `curChar` the
byte being written / decoded, `nBit` the bit position inside it. -/
structure BitStream where
  file : List Nat
  curChar : Int
  nBit : Nat
deriving DecidableEq, Repr

/-- The C function `initBits`. -/
def initBits (file : List Nat) : BitStream :=
  { file := file, curChar := 0, nBit := 0 }

/-- The C call `putc (c, f)`: the byte written is `c` converted to `unsigned char`. -/
def putc (c : Int) (file : List Nat) : List Nat :=
  file ++ [(c % 256).toNat]

/-- The C function `closeBits`: flush the last byte (note that `nBit` is left as it is). -/
def closeBits (str : BitStream) : BitStream :=
  if str.nBit > 0 then
    { str with file := putc str.curChar str.file, curChar := 0 }
  else str

/-- The `while (nBit>0)` loop of `putBits`; every iteration sends at least one bit, so
`nBit` iterations are enough. -/
def putBitsLoop : Nat → Nat → Nat → BitStream → BitStream
  | 0, _, _, str => str
  | fuel + 1, val, nBit, str =>
    if nBit > 0 then
      let str1 : BitStream :=
        if str.nBit = 8 then { str with file := putc str.curChar str.file, curChar := 0, nBit := 0 }
        else str
      let toSend0 := 8 - str1.nBit
      let toSend := if toSend0 > nBit then nBit else toSend0
      let valSend := (val >>> (nBit - toSend)) &&& ((1 <<< nBit) - 1)
      let str2 : BitStream :=
        { str1 with
          curChar := Int.lor str1.curChar ((valSend <<< (8 - str1.nBit - toSend) : Nat) : Int)
          nBit := str1.nBit + toSend }
      putBitsLoop fuel val (nBit - toSend) str2
    else str

/-- The C function `putBits`: put the `nBit` low order bits of `val` into the stream. -/
def putBits (val : Nat) (nBit : Nat) (str : BitStream) : BitStream :=
  putBitsLoop nBit val nBit str

/-- The refill step of `getBits`: when no bit is left in `curChar`, the next byte is
read with `getc`; `none` when `getc` yields `EOF`. -/
def refillBits (str : BitStream) : Option BitStream :=
  if str.nBit = 0 then
    match str.file with
    | [] => none
    | c :: rest => some { file := rest, curChar := (c : Int), nBit := 8 }
  else some str

/-- The `while (nBit>0)` loop of `getBits`; the result `-1` is the early `return -1`
taken when `getc` yields `EOF` (`curChar` then holds `EOF`). -/
def getBitsLoop : Nat → Nat → Int → BitStream → Int × BitStream
  | 0, _, ret, str => (ret, str)
  | fuel + 1, nBit, ret, str =>
    if nBit > 0 then
      match refillBits str with
      | none => (-1, { str with curChar := -1 })
      | some str1 =>
        let toGet := if nBit < str1.nBit then nBit else str1.nBit
        let ret1 := Int.lor (ret * 2 ^ toGet)
          (Int.land (str1.curChar >>> (str1.nBit - toGet)) ((((1 <<< toGet) - 1 : Nat)) : Int))
        getBitsLoop fuel (nBit - toGet) ret1 { str1 with nBit := str1.nBit - toGet }
    else (ret, str)

/-- The C function `getBits`: read `nBit` bits; `-1` when the file ends first. -/
def getBits (str : BitStream) (nBit : Nat) : Int × BitStream :=
  getBitsLoop nBit nBit 0 str

/-- A sequence of `putBits (v, w)` calls, in order. -/
def putBitsSeq (ps : List (Nat × Nat)) (str : BitStream) : BitStream :=
  ps.foldl (fun s p => putBits p.1 p.2 s) str

/-- A sequence of `getBits (w)` calls, in order, with the list of their results. -/
def getBitsSeq : List Nat → BitStream → List Int × BitStream
  | [], str => ([], str)
  | w :: ws, str =>
    let r := getBits str w
    let rs := getBitsSeq ws r.2
    (r.1 :: rs.1, rs.2)

/-! ## Priority queue -/

/-- The C structure `PriorityQueue`: a heap stored in slots `1 .. top-1` of the arrays
`data` and `priority`; slot `0` receives the item removed last. -/
structure PriorityQueue where
  top : Nat
  data : List Nat
  priority : List Int
deriving DecidableEq, Repr

/-- The C function `initPrio`; the `malloc`ed cells are modelled as zeroes. -/
def initPrio (nbr : Nat) : PriorityQueue :=
  { top := 1, data := List.replicate (nbr + 2) 0, priority := List.replicate (nbr + 2) 0 }

/-- The `for (i2=1;;i2=i3)` loop of `getPrio`; returns the final `i2`.  `i2` doubles at
every iteration and stays below `top`, so `top` iterations are enough. -/
def getPrioLoop : Nat → Nat → PriorityQueue → Nat × PriorityQueue
  | 0, i2, prio => (i2, prio)
  | fuel + 1, i2, prio =>
    let i3 := i2 <<< 1
    if i3 ≥ prio.top then (i2, prio)
    else
      let i3 := if prio.priority.getD i3 0 < prio.priority.getD (i3 + 1) 0 then i3 + 1 else i3
      if prio.priority.getD i3 0 ≤ prio.priority.getD prio.top 0 then (i2, prio)
      else
        getPrioLoop fuel i3
          { prio with
            data := prio.data.set i2 (prio.data.getD i3 0)
            priority := prio.priority.set i2 (prio.priority.getD i3 0) }

/-- The C function `getPrio`: remove the item in slot 1; `-1` on an empty queue. -/
def getPrio (prio : PriorityQueue) : Int × PriorityQueue :=
  let ret : Int := (prio.data.getD 1 0 : Nat)
  let prio0 : PriorityQueue :=
    { prio with
      data := prio.data.set 0 (prio.data.getD 1 0)
      priority := prio.priority.set 0 (prio.priority.getD 1 0) }
  if prio0.top ≤ 1 then (-1, prio0)
  else
    let prio1 : PriorityQueue := { prio0 with top := prio0.top - 1 }
    let r := getPrioLoop prio1.top 1 prio1
    (ret,
      { r.2 with
        data := r.2.data.set r.1 (r.2.data.getD r.2.top 0)
        priority := r.2.priority.set r.1 (r.2.priority.getD r.2.top 0) })

/-- The `for (i2=prio->top++;i2>1;i2=i3)` loop of `putPrio`; returns the final `i2`.
`i2` is halved at every iteration, so `i2` iterations are enough. -/
def putPrioLoop : Nat → Nat → Int → PriorityQueue → Nat × PriorityQueue
  | 0, i2, _, prio => (i2, prio)
  | fuel + 1, i2, priority, prio =>
    if i2 > 1 then
      let i3 := i2 >>> 1
      if prio.priority.getD i3 0 > priority then (i2, prio)
      else
        putPrioLoop fuel i3 priority
          { prio with
            priority := prio.priority.set i2 (prio.priority.getD i3 0)
            data := prio.data.set i2 (prio.data.getD i3 0) }
    else (i2, prio)

/-- The C function `putPrio`. -/
def putPrio (data : Nat) (priority : Int) (prio : PriorityQueue) : PriorityQueue :=
  let r := putPrioLoop prio.top prio.top priority { prio with top := prio.top + 1 }
  { r.2 with
    priority := r.2.priority.set r.1 priority
    data := r.2.data.set r.1 data }

/-! ## Code lengths and prefix codes -/

/-- The C `int` (32 bits, two's complement) that an arithmetic result `x` is stored as:
`x` itself when `-2^31 ≤ x < 2^31`, else `x` wrapped around modulo `2^32`. -/
def toInt32 (x : Int) : Int := (x + 2 ^ 31) % 2 ^ 32 - 2 ^ 31

/-- The `while (prio.top>1)` loop of `generatePrefix`. -/
def prefixLoop : Nat → PriorityQueue → List Int → Int → Nat → List Nat → List Nat
  | 0, _, _, _, _, table => table
  | fuel + 1, prio, length, nbrPre, codePre, table =>
    if prio.top > 1 then
      let r := getPrio prio
      let i := r.1.toNat
      let codePre1 := (codePre >>> (nbrPre - length.getD i 0).toNat) + 1
      prefixLoop fuel r.2 length (length.getD i 0) codePre1 (table.set i codePre1)
    else table

/-- The first loop of `generatePrefix`: every index with a positive length enters the
heap with priority `length[i]*nbr+i`, an `int`. -/
def prefixFill (length : List Int) (nbr : Nat) : PriorityQueue :=
  (List.range nbr).foldl
    (fun prio i =>
      if length.getD i 0 > 0 then putPrio i (toInt32 (length.getD i 0 * nbr + i)) prio else prio)
    (initPrio nbr)

/-- The C function `generatePrefix`: the contents of `table` after the call.  (On a
length vector without a positive entry the C code indexes with `-1`; the model then
uses index `0`.) -/
def generatePrefix (table : List Nat) (length : List Int) (nbr : Nat) : List Nat :=
  let r := getPrio (prefixFill length nbr)
  let i := r.1.toNat
  prefixLoop r.2.top r.2 length (length.getD i 0) 0 (table.set i 0)

/-- The `for (;prio.top>2;i++)` loop of `generateLength`: combine the two items
taken from the queue into the composite node `i`.  The sum `f` of the two priorities and
the priority `f-1` of the composite node are `int` values. -/
def mergeLoop : Nat → PriorityQueue → List Nat → Nat → PriorityQueue × List Nat × Nat
  | 0, prio, parent, i => (prio, parent, i)
  | fuel + 1, prio, parent, i =>
    if prio.top > 2 then
      let r1 := getPrio prio
      let f1 := r1.2.priority.getD 0 0
      let parent1 := parent.set r1.1.toNat i
      let r2 := getPrio r1.2
      let f2 := toInt32 (f1 + r2.2.priority.getD 0 0)
      let parent2 := parent1.set r2.1.toNat i
      mergeLoop fuel (putPrio i (toInt32 (f2 - 1)) r2.2) parent2 (i + 1)
    else (prio, parent, i)

/-- The `for (;i>=0;i--) parent[i] = parent[parent[i]]+1;` loop of `generateLength`,
started with `i = n - 1`. -/
def depthLoop : Nat → List Nat → List Nat
  | 0, parent => parent
  | n + 1, parent => depthLoop n (parent.set n (parent.getD (parent.getD n 0) 0 + 1))

/-- The first loop of `generateLength`: all `nbr` indices enter the queue, index `i`
with priority `-freq[i]`, an `int`. -/
def lengthFill (freq : List Int) (nbr : Nat) : PriorityQueue :=
  (List.range nbr).foldl (fun prio i => putPrio i (toInt32 (- freq.getD i 0)) prio)
    (initPrio (2 * nbr))

/-- The C function `generateLength`: the contents of `length[0..nbr)` after the call. -/
def generateLength (freq : List Int) (nbr : Nat) : List Int :=
  let m := mergeLoop (nbr + 1) (lengthFill freq nbr) (List.replicate (2 * nbr) 0) nbr
  let i := m.2.2 - 1
  let parent := depthLoop i (m.2.1.set i 0)
  (List.range nbr).map (fun k => ((parent.getD k 0 : Nat) : Int))

/-! ## Compressed blocks -/

/-- The frequency count of `writeHBuffer`: `freq[(unsigned char)buffer[i]]++` for `i < nbr`. -/
def countFreq (buffer : List Nat) (nbr : Nat) : List Int :=
  (List.range nbr).foldl
    (fun freq i => freq.set (buffer.getD i 0) (freq.getD (buffer.getD i 0) 0 + 1))
    (List.replicate 256 0)

/-- The C function `writeHBuffer`: write the first `nbr` bytes of `buffer` as one
compressed block; the result is the file after the call. -/
def writeHBuffer (file : List Nat) (buffer : List Nat) (nbr : Nat) : List Nat :=
  let freq := countFreq buffer nbr
  let length := generateLength freq 256
  let code := generatePrefix (List.replicate 256 0) length 256
  let bs0 := putBits nbr 16 (initBits file)
  let bs1 := (List.range 256).foldl (fun bs i => putBits (length.getD i 0).toNat 4 bs) bs0
  let bs2 := (List.range nbr).foldl
    (fun bs i => putBits (code.getD (buffer.getD i 0) 0) (length.getD (buffer.getD i 0) 0).toNat bs) bs1
  (closeBits bs2).file

/-- The C structure `HOutStream`. -/
structure HOutStream where
  file : List Nat
  buffer : List Nat
  bufSize : Nat
  curIndex : Nat
deriving DecidableEq, Repr

/-- The C function `initHufOutput`. -/
def initHufOutput (file : List Nat) (size : Nat) : HOutStream :=
  { file := file, bufSize := size, buffer := List.replicate size 0, curIndex := 0 }

/-- The C function `closeHufOutput`; the result is the file after the call. -/
def closeHufOutput (str : HOutStream) : List Nat :=
  let file := if str.curIndex > 0 then writeHBuffer str.file str.buffer str.curIndex else str.file
  putc 0 (putc 0 file)

/-- The C function `writeHufOutput`. -/
def writeHufOutput (c : Nat) (str : HOutStream) : HOutStream :=
  let str1 : HOutStream :=
    if str.curIndex ≥ str.bufSize then
      { str with file := writeHBuffer str.file str.buffer str.curIndex, curIndex := 0 }
    else str
  { str1 with buffer := str1.buffer.set str1.curIndex (c % 256), curIndex := str1.curIndex + 1 }

end Comp


namespace Comp

/-! ## Bit strings (specification side) -/

/-- The `w` low order bits of `v`, most significant bit first. -/
def bitsOf : Nat → Nat → List Bool
  | 0, _ => []
  | w + 1, v => v.testBit w :: bitsOf w v

/-- The number written by a bit string, most significant bit first. -/
def bitsVal (l : List Bool) : Nat :=
  l.foldl (fun a b => 2 * a + (if b then 1 else 0)) 0

/-- The bits of a sequence of bytes, each byte most significant bit first. -/
def bytesBits : List Nat → List Bool
  | [] => []
  | b :: bs => bitsOf 8 b ++ bytesBits bs

/-- Cut a bit string into bytes, most significant bit first, the last byte filled up
with zero bits (`fuel` bounds the number of bytes). -/
def packBitsAux : Nat → List Bool → List Nat
  | 0, _ => []
  | _ + 1, [] => []
  | fuel + 1, b :: l =>
    bitsVal ((b :: l).take 8 ++ List.replicate (8 - ((b :: l).take 8).length) false)
      :: packBitsAux fuel ((b :: l).drop 8)

/-- Cut a bit string into bytes, most significant bit first, the last byte filled up
with zero bits. -/
def packBits (l : List Bool) : List Nat :=
  packBitsAux l.length l

/-- The concatenation of the `w`-bit big-endian representations of the values `v` of a
list of pairs `(v, w)`. -/
def seqBits : List (Nat × Nat) → List Bool
  | [] => []
  | p :: ps => bitsOf p.2 p.1 ++ seqBits ps

/-- Every element of the list is a byte. -/
def AllBytes (l : List Nat) : Prop := ∀ b ∈ l, b < 256

/-- The bits a writing stream has received so far: the bytes already in the file, then
the `nBit` high order bits of the low byte of `curChar`. -/
def wbits (str : BitStream) : List Bool :=
  bytesBits str.file ++ bitsOf str.nBit (str.curChar.toNat >>> (8 - str.nBit))

/-- Invariant of a writing stream: at most 8 bits are pending and the bits of the low
byte of `curChar` below them are zero. -/
def WInv (str : BitStream) : Prop :=
  str.nBit ≤ 8 ∧ 0 ≤ str.curChar ∧ ∀ i, i < 8 - str.nBit → str.curChar.toNat.testBit i = false

/-- The bits a reading stream has still to deliver: the `nBit` low order bits of
`curChar`, then the bytes left in the file. -/
def rbits (str : BitStream) : List Bool :=
  bitsOf str.nBit str.curChar.toNat ++ bytesBits str.file

/-- Invariant of a reading stream. -/
def RInv (str : BitStream) : Prop :=
  str.nBit ≤ 8 ∧ 0 ≤ str.curChar

end Comp


namespace Comp

/-! ## The priority queue as a multiset (specification side) -/

/-- The item in slot `k` of a queue: its data and its priority. -/
def cell (prio : PriorityQueue) (k : Nat) : Nat × Int :=
  (prio.data.getD k 0, prio.priority.getD k 0)

/-- The priority in slot `k`. -/
def prioAt (prio : PriorityQueue) (k : Nat) : Int := prio.priority.getD k 0

/-- The items stored in a queue: slots `1 .. top-1`. -/
def contents (prio : PriorityQueue) : Multiset (Nat × Int) :=
  ∑ k ∈ Finset.Ico 1 prio.top, ({cell prio k} : Multiset (Nat × Int))

/-- The items stored in the slots `1 .. top-1` other than slot `h`. -/
def holeSum (prio : PriorityQueue) (h : Nat) : Multiset (Nat × Int) :=
  ∑ k ∈ (Finset.Ico 1 prio.top).erase h, ({cell prio k} : Multiset (Nat × Int))

/-- The slots `1 .. top-1` exist in both arrays. -/
def PQWf (prio : PriorityQueue) : Prop :=
  1 ≤ prio.top ∧ prio.top ≤ prio.data.length ∧ prio.data.length = prio.priority.length

/-- The rule stated in the header comment of the queue: the priority of an item is at
least the priority of its children (slot `k` is a child of slot `k / 2`). -/
def HeapOrd (prio : PriorityQueue) : Prop :=
  ∀ k, 2 ≤ k → k < prio.top → prioAt prio k ≤ prioAt prio (k / 2)

/-- The heap rule during the loop of `putPrio`: slot `h` is free and will receive an
item of priority `p`. -/
def HoleUp (prio : PriorityQueue) (h : Nat) (p : Int) : Prop :=
  (∀ k, 2 ≤ k → k < prio.top → k ≠ h → k / 2 ≠ h → prioAt prio k ≤ prioAt prio (k / 2)) ∧
  (∀ k, 2 ≤ k → k < prio.top → k / 2 = h →
    prioAt prio k ≤ p ∧ (2 ≤ h → prioAt prio k ≤ prioAt prio (h / 2)))

/-- The heap rule during the loop of `getPrio`: slot `h` is free and will receive an
item of priority `p`; the heap occupies the slots below `prio.top`. -/
def HoleDown (prio : PriorityQueue) (h : Nat) (p : Int) : Prop :=
  (∀ k, 2 ≤ k → k < prio.top → k ≠ h → k / 2 ≠ h → prioAt prio k ≤ prioAt prio (k / 2)) ∧
  (2 ≤ h → p ≤ prioAt prio (h / 2)) ∧
  (∀ k, 2 ≤ k → k < prio.top → k / 2 = h → 2 ≤ h → prioAt prio k ≤ prioAt prio (h / 2))

end Comp


namespace Comp

/-! ## The merge loop of `generateLength` (specification side) -/

/-- The state of the merge loop of `generateLength`: the queue, the array `parent` and
the index `i` of the next composite node. -/
abbrev MergeState := PriorityQueue × List Nat × Nat

/-- The body of the `for (;prio.top>2;i++)` loop of `generateLength`. -/
def mergeStep (s : MergeState) : MergeState :=
  let r1 := getPrio s.1
  let f1 := r1.2.priority.getD 0 0
  let parent1 := s.2.1.set r1.1.toNat s.2.2
  let r2 := getPrio r1.2
  let f2 := toInt32 (f1 + r2.2.priority.getD 0 0)
  let parent2 := parent1.set r2.1.toNat s.2.2
  (putPrio s.2.2 (toInt32 (f2 - 1)) r2.2, parent2, s.2.2 + 1)

/-- The nodes stored in a queue. -/
def live (prio : PriorityQueue) : Multiset Nat := (contents prio).map Prod.fst

/-- The structural invariant of the merge loop for `nbr` symbols: the queue holds the
nodes without a parent, every other node below `i` has a parent among the composite
nodes `nbr .. i-1`, and each of these has exactly two children. -/
def MInv (nbr : Nat) (s : MergeState) : Prop :=
  PQWf s.1 ∧ s.1.data.length = 2 * nbr + 2 ∧ s.1.top + s.2.2 = 2 * nbr + 1 ∧ 2 ≤ s.1.top ∧
  nbr ≤ s.2.2 ∧
  (live s.1).Nodup ∧ (∀ c ∈ live s.1, c < s.2.2) ∧ s.2.2 - 1 ∈ live s.1 ∧
  s.2.1.length = 2 * nbr ∧
  (∀ c, c < s.2.2 → c ∉ live s.1 →
    c < s.2.1.getD c 0 ∧ nbr ≤ s.2.1.getD c 0 ∧ s.2.1.getD c 0 < s.2.2) ∧
  (∀ c, (c ∈ live s.1 ∨ s.2.2 ≤ c) → s.2.1.getD c 0 = 0) ∧
  (∀ k, nbr ≤ k → k < s.2.2 →
    ((Finset.range (2 * nbr)).filter (fun c => s.2.1.getD c 0 = k)).card = 2)

end Comp

namespace Comp

/-- The array `parent` at the end of the merge loop of `generateLength`. -/
def finalParent (freq : List Int) (nbr : Nat) : List Nat :=
  (mergeLoop (nbr + 1) (lengthFill freq nbr) (List.replicate (2 * nbr) 0) nbr).2.1

/-- The array `parent` at the end of `generateLength`, when it holds the depth of every
node. -/
def finalDepth (freq : List Int) (nbr : Nat) : List Nat :=
  depthLoop (2 * nbr - 2) ((finalParent freq nbr).set (2 * nbr - 2) 0)

end Comp


namespace Comp

/-! ## The loop of `generatePrefix` (specification side) -/

/-- The state of the loop of `generatePrefix`: the queue, `nbrPre`, `codePre` and the
table of codes. -/
abbrev PrefixState := PriorityQueue × Int × Nat × List Nat

/-- The body of the `while (prio.top>1)` loop of `generatePrefix`. -/
def prefixStep (length : List Int) (s : PrefixState) : PrefixState :=
  let r := getPrio s.1
  let i := r.1.toNat
  let codePre1 := (s.2.2.1 >>> (s.2.1 - length.getD i 0).toNat) + 1
  (r.2, length.getD i 0, codePre1, s.2.2.2.set i codePre1)

/-- The state of `generatePrefix` when its loop starts. -/
def prefixStart (table : List Nat) (length : List Int) (nbr : Nat) : PrefixState :=
  ((getPrio (prefixFill length nbr)).2,
    length.getD (getPrio (prefixFill length nbr)).1.toNat 0, 0,
    table.set (getPrio (prefixFill length nbr)).1.toNat 0)

/-- The length of the code of symbol `s`, as a natural number. -/
def lenOf (length : List Int) (s : Nat) : Nat := (length.getD s 0).toNat

/-- The symbols that have received their code: those with a positive length that are
no longer in the queue. -/
def assigned (length : List Int) (nbr : Nat) (prio : PriorityQueue) : Finset Nat :=
  (Finset.range nbr).filter (fun s => 0 < length.getD s 0 ∧ s ∉ live prio)

/-- Start of the interval of the code `c` of length `l`, in units of `2 ^ (-M)`. -/
def codeLo (M l c : Nat) : Nat := c * 2 ^ (M - l)

/-- End of the interval of the code `c` of length `l`, in units of `2 ^ (-M)`. -/
def codeHi (M l c : Nat) : Nat := (c + 1) * 2 ^ (M - l)

/-- The Kraft sum of a set of symbols, in units of `2 ^ (-M)`. -/
def kraftSum (length : List Int) (M : Nat) (A : Finset Nat) : Nat :=
  ∑ s ∈ A, 2 ^ (M - lenOf length s)

/-- Invariant of the loop of `generatePrefix`: codes are handed out by decreasing
length, the intervals of the codes handed out are disjoint and end where the Kraft sum
of their lengths, rounded up to a multiple of `2 ^ (-nbrPre)`, ends. -/
def PInv (length : List Int) (nbr M : Nat) (s : PrefixState) : Prop :=
  PQWf s.1 ∧ HeapOrd s.1 ∧ (live s.1).Nodup ∧
  (∀ x ∈ contents s.1, x.1 < nbr ∧ 0 < length.getD x.1 0 ∧
    x.2 = length.getD x.1 0 * nbr + x.1 ∧ length.getD x.1 0 ≤ s.2.1) ∧
  nbr ≤ s.2.2.2.length ∧
  0 < s.2.1 ∧ s.2.1.toNat ≤ M ∧
  codeLo M s.2.1.toNat s.2.2.1 < kraftSum length M (assigned length nbr s.1) ∧
  kraftSum length M (assigned length nbr s.1) ≤ codeHi M s.2.1.toNat s.2.2.1 ∧
  (∀ a ∈ assigned length nbr s.1,
    codeHi M (lenOf length a) (s.2.2.2.getD a 0) ≤ codeHi M s.2.1.toNat s.2.2.1 ∧
    codeLo M (lenOf length a) (s.2.2.2.getD a 0) < kraftSum length M (assigned length nbr s.1)) ∧
  (∀ a ∈ assigned length nbr s.1, ∀ b ∈ assigned length nbr s.1, a ≠ b →
    codeHi M (lenOf length a) (s.2.2.2.getD a 0) ≤ codeLo M (lenOf length b) (s.2.2.2.getD b 0) ∨
    codeHi M (lenOf length b) (s.2.2.2.getD b 0) ≤ codeLo M (lenOf length a) (s.2.2.2.getD a 0))

/-- The codeword of symbol `s`: the `length[s]` low order bits of `table[s]`, most
significant bit first. -/
def codeword (table : List Nat) (length : List Int) (s : Nat) : List Bool :=
  bitsOf (lenOf length s) (table.getD s 0)

/-- The keys `length[i]*nbr+i` that `generatePrefix` computes for the positive lengths fit
in a C `int`. -/
def KeysFit (length : List Int) (nbr : Nat) : Prop :=
  ∀ i, i < nbr → 0 < length.getD i 0 → length.getD i 0 * nbr + i < 2 ^ 31

end Comp


namespace Comp

/-! ## Weights of the nodes of the tree of `generateLength` (specification side) -/

/-- The weight invariant of the merge loop, for a weight function `w` on the nodes: a
symbol `c` weighs `freq[c] + 1`, an item of the queue has priority `1 - w`, and every
composite node `k` built so far has two children `c1`, `c2` with `w k = w c1 + w c2` that
were the two lightest nodes without a parent when `k` was built.  The items of the
queue have positive weights, of a sum of at most `2 ^ 31`: then the priorities that the
loop computes stay in the range of a C `int`. -/
def HInv (freq : List Int) (nbr : Nat) (w : Nat → Int) (s : MergeState) : Prop :=
  (∀ c, c < nbr → w c = freq.getD c 0 + 1) ∧
  (∀ x ∈ contents s.1, x.2 = 1 - w x.1) ∧
  (∀ k, nbr ≤ k → k < s.2.2 → ∃ c1 c2, c1 ≠ c2 ∧ c1 < k ∧ c2 < k ∧
    s.2.1.getD c1 0 = k ∧ s.2.1.getD c2 0 = k ∧ w k = w c1 + w c2 ∧ w c1 ≤ w c2 ∧
    ∀ j, j < k → (s.2.1.getD j 0 = 0 ∨ k < s.2.1.getD j 0) → w c2 ≤ w j) ∧
  (∀ x ∈ contents s.1, 1 ≤ w x.1) ∧
  ((contents s.1).map (fun x => w x.1)).sum ≤ 2 ^ 31

/-- The invariant of the merge loop of `generateLength`. -/
def HuffInv (freq : List Int) (nbr : Nat) (s : MergeState) : Prop :=
  MInv nbr s ∧ HeapOrd s.1 ∧ ∃ w, HInv freq nbr w s

end Comp


namespace Comp

/-! ## Huffman trees (specification side) -/

/-- A Huffman tree on `n` leaves, given by the parent `P`, the depth `d` and the weight
`w` of its nodes `0 .. 2n-2`: the leaves are the nodes below `n`, the root is `2n-2`,
every composite node `k` has exactly two children, is built after them, weighs their
sum, and its children are the two lightest of the nodes that have no parent below `k`. -/
def HuffTree (n : Nat) (P d : Nat → Nat) (w : Nat → Int) : Prop :=
  2 ≤ n ∧
  (∀ c, c < 2 * n - 2 → c < P c ∧ n ≤ P c ∧ P c ≤ 2 * n - 2) ∧
  (∀ k, n ≤ k → k ≤ 2 * n - 2 → ∃ c1 c2, c1 ≠ c2 ∧ c1 < k ∧ c2 < k ∧ P c1 = k ∧ P c2 = k ∧
    (∀ c, c < 2 * n - 2 → P c = k → c = c1 ∨ c = c2) ∧
    w k = w c1 + w c2 ∧ w c1 ≤ w c2 ∧ ∀ j, j < k → k < P j → w c2 ≤ w j) ∧
  d (2 * n - 2) = 0 ∧ (∀ c, c < 2 * n - 2 → d c = d (P c) + 1) ∧
  (∀ c, c < n → 1 ≤ w c)

end Comp


namespace Comp

/-! ## The layout of a compressed block (specification side) -/

/-- The 128 header bytes of a block: byte `k` has `length[2k]` in its high nibble and
`length[2k+1]` in its low nibble. -/
def headerBytes (length : List Int) : List Nat :=
  (List.range 128).map (fun k => 16 * lenOf length (2 * k) + lenOf length (2 * k + 1))

/-- The payload of a block: for every byte of the buffer its code and the length of
its code. -/
def payloadSeq (code : List Nat) (length : List Int) (buffer : List Nat) : List (Nat × Nat) :=
  buffer.map (fun b => (code.getD b 0, lenOf length b))

end Comp


namespace Comp

/-- Order invariant of the loop of `generatePrefix`: no symbol that has its code is
shorter than `nbrPre`, and `codePre` is the code of a symbol of length `nbrPre`. -/
def PLast (length : List Int) (nbr : Nat) (s : PrefixState) : Prop :=
  (∀ a ∈ assigned length nbr s.1, s.2.1 ≤ length.getD a 0) ∧
  ∃ a ∈ assigned length nbr s.1, length.getD a 0 = s.2.1 ∧ s.2.2.2.getD a 0 = s.2.2.1

end Comp


namespace Comp

/-! ## Sequences of queue operations (specification side) -/

/-- A sequence of `putPrio (data, priority)` calls, in order. -/
def putPrioSeq (items : List (Nat × Int)) (prio : PriorityQueue) : PriorityQueue :=
  items.foldl (fun q x => putPrio x.1 x.2 q) prio

/-- A call of `putPrio (data, priority)` or of `getPrio`. -/
inductive QOp where
  | put (data : Nat) (priority : Int)
  | get
deriving DecidableEq, Repr

/-- Run a sequence of calls on a queue; `none` when a `putPrio` would exceed the capacity
(the queue made by `initPrio (n)` holds at most `n` items) or a `getPrio` would be made on
an empty queue. -/
def runOps : List QOp → PriorityQueue → Option PriorityQueue
  | [], q => some q
  | QOp.put d p :: ops, q =>
    if q.top + 1 < q.data.length then runOps ops (putPrio d p q) else none
  | QOp.get :: ops, q =>
    if 1 < q.top then runOps ops (getPrio q).2 else none

end Comp


namespace Comp

/-! ## The order of extraction of `generatePrefix` (specification side) -/

/-- The successive values of `i` in the `while (prio.top>1)` loop of `generatePrefix`:
the results of its `getPrio` calls. -/
def extractLoop : Nat → PriorityQueue → List Nat
  | 0, _ => []
  | fuel + 1, prio =>
    if prio.top > 1 then (getPrio prio).1.toNat :: extractLoop fuel (getPrio prio).2 else []

/-- The order in which `generatePrefix` extracts the symbols from its queue: the result
of the `getPrio` call made before the loop, then the results of the calls in the loop. -/
def extractOrder (length : List Int) (nbr : Nat) : List Nat :=
  (getPrio (prefixFill length nbr)).1.toNat ::
    extractLoop (getPrio (prefixFill length nbr)).2.top (getPrio (prefixFill length nbr)).2

/-- The assignments `table[i] = codePre` made by the loop of `generatePrefix` when the
symbols are extracted in the order given. -/
def assignLoop (length : List Int) : List Nat → Int → Nat → List Nat → List Nat
  | [], _, _, table => table
  | i :: rest, nbrPre, codePre, table =>
    assignLoop length rest (length.getD i 0)
      ((codePre >>> (nbrPre - length.getD i 0).toNat) + 1)
      (table.set i ((codePre >>> (nbrPre - length.getD i 0).toNat) + 1))

/-- A length vector for 256 symbols: lengths 1, 2, 2 for the symbols 0, 1, 2 and length 0
for all the others. -/
def lengths122 : List Int := [1, 2, 2] ++ List.replicate 253 0

end Comp


namespace Comp

/-! ## Decoding -/

/-- The C structure `HDecodeNode`: the two links of a node of the decoding tree.  A link
below `nbr` is the index of another node, a link `nbr + c` stands for the character `c`,
and `-1` marks a link that is not set. -/
structure HDecodeNode where
  n0 : Int
  n1 : Int
deriving DecidableEq, Repr

/-- The `for (j=length[i]-1;j>0;j--)` loop of `buildDecodeTable`, started with the value
`j` given: follow the bits `j, ..., 1` of `code` from node `cur` and create the nodes
that are missing.  The result is the array, `top` and `cur`.  (An index outside of the
array reads as a node of zeroes and is not written.) -/
def insertBits : Nat → Nat → List HDecodeNode → Nat → Nat → List HDecodeNode × Nat × Nat
  | 0, _, decode, top, cur => (decode, top, cur)
  | j + 1, code, decode, top, cur =>
    if (code >>> (j + 1)) &&& 1 ≠ 0 then
      if (decode.getD cur ⟨0, 0⟩).n1 < 0 then
        let d1 := decode.set top ⟨-1, -1⟩
        let d2 := d1.set cur { d1.getD cur ⟨0, 0⟩ with n1 := (top : Int) }
        insertBits j code d2 (top + 1) (d2.getD cur ⟨0, 0⟩).n1.toNat
      else insertBits j code decode top (decode.getD cur ⟨0, 0⟩).n1.toNat
    else
      if (decode.getD cur ⟨0, 0⟩).n0 < 0 then
        let d1 := decode.set top ⟨-1, -1⟩
        let d2 := d1.set cur { d1.getD cur ⟨0, 0⟩ with n0 := (top : Int) }
        insertBits j code d2 (top + 1) (d2.getD cur ⟨0, 0⟩).n0.toNat
      else insertBits j code decode top (decode.getD cur ⟨0, 0⟩).n0.toNat

/-- The body of the `for (i=0;i<nbr;i++)` loop of `buildDecodeTable`, on the array and
`top`. -/
def buildDecodeStep (code : List Nat) (length : List Int) (nbr : Nat)
    (st : List HDecodeNode × Nat) (i : Nat) : List HDecodeNode × Nat :=
  let r := insertBits (length.getD i 0 - 1).toNat (code.getD i 0) st.1 st.2 0
  if (code.getD i 0) &&& 1 ≠ 0 then
    (r.1.set r.2.2 { r.1.getD r.2.2 ⟨0, 0⟩ with n1 := (nbr : Int) + i }, r.2.1)
  else
    (r.1.set r.2.2 { r.1.getD r.2.2 ⟨0, 0⟩ with n0 := (nbr : Int) + i }, r.2.1)

/-- The C function `buildDecodeTable`, with the final value of its counter `top`. -/
def buildDecodeLoop (decode : List HDecodeNode) (code : List Nat) (length : List Int)
    (nbr : Nat) : List HDecodeNode × Nat :=
  (List.range nbr).foldl (buildDecodeStep code length nbr) (decode.set 0 ⟨-1, -1⟩, 1)

/-- The C function `buildDecodeTable`: the array `decode` after the call. -/
def buildDecodeTable (decode : List HDecodeNode) (code : List Nat) (length : List Int)
    (nbr : Nat) : List HDecodeNode :=
  (buildDecodeLoop decode code length nbr).1

/-- The C structure `HInStream`. -/
structure HInStream where
  bs : BitStream
  decode : List HDecodeNode
  nbr : Int
deriving DecidableEq, Repr

/-- The C function `initHufInput`; the array `decode` keeps what it holds. -/
def initHufInput (str : HInStream) (file : List Nat) : HInStream :=
  { str with bs := initBits file, nbr := 0 }

/-- The `while (i<256)` loop of `getHufInput`: one bit is read for every node passed; a
result of `getBits` other than 0, also the `-1` of the end of the file, selects `n1`.
The tree has 256 nodes, so 256 iterations are enough when it is well formed.  (A
negative index reads node 0.) -/
def decodeLoop : Nat → List HDecodeNode → Int → BitStream → Int × BitStream
  | 0, _, i, bs => (i, bs)
  | fuel + 1, decode, i, bs =>
    if i < 256 then
      if (getBits bs 1).1 ≠ 0 then
        decodeLoop fuel decode (decode.getD i.toNat ⟨0, 0⟩).n1 (getBits bs 1).2
      else
        decodeLoop fuel decode (decode.getD i.toNat ⟨0, 0⟩).n0 (getBits bs 1).2
    else (i, bs)

/-- The part of `getHufInput` that reads the header of a block once its size `nbr > 0`
has been read: the 256 lengths, then `generatePrefix` and `buildDecodeTable` (the local
array `code` is modelled as zeroes before the call of `generatePrefix`). -/
def readHeader (str : HInStream) : HInStream :=
  let r := getBitsSeq (List.replicate 256 4) str.bs
  let code := generatePrefix (List.replicate 256 0) r.1 256
  { str with bs := r.2, decode := buildDecodeTable str.decode code r.1 256 }

/-- The C function `getHufInput`: the next character of the stream, or `EOF = -1`. -/
def getHufInput (str : HInStream) : Int × HInStream :=
  if str.nbr = -1 then (-1, str)
  else
    let str1 : HInStream :=
      if str.nbr = 0 then
        { str with
          bs := (getBits { str.bs with nBit := 0 } 16).2
          nbr := (getBits { str.bs with nBit := 0 } 16).1 }
      else str
    if str.nbr = 0 ∧ str1.nbr ≤ 0 then (-1, { str1 with nbr := -1 })
    else
      let str2 : HInStream := if str.nbr = 0 then readHeader str1 else str1
      let r := decodeLoop 256 str2.decode 0 str2.bs
      (r.1 - 256, { str2 with bs := r.2, nbr := str2.nbr - 1 })

/-- A sequence of `n` calls of `getHufInput`, with the list of their results. -/
def getHufInputSeq : Nat → HInStream → List Int × HInStream
  | 0, str => ([], str)
  | n + 1, str =>
    ((getHufInput str).1 :: (getHufInputSeq n (getHufInput str).2).1,
      (getHufInputSeq n (getHufInput str).2).2)

/-! ## Walking through the decoding tree (specification side) -/

/-- The link of node `i` taken for the bit `b`. -/
def link (decode : List HDecodeNode) (i : Int) (b : Bool) : Int :=
  if b then (decode.getD i.toNat ⟨0, 0⟩).n1 else (decode.getD i.toNat ⟨0, 0⟩).n0

/-- Where the links lead from `i` along a bit string. -/
def walk (decode : List HDecodeNode) : List Bool → Int → Int
  | [], i => i
  | b :: bs, i => walk decode bs (link decode i b)

/-- Every index at which a link is taken along a bit string from `i` is the index of an
entry of the array of `bound` nodes. -/
def walkInside (decode : List HDecodeNode) (bound : Int) : List Bool → Int → Prop
  | [], _ => True
  | b :: bs, i => 0 ≤ i ∧ i < bound ∧ walkInside decode bound bs (link decode i b)

end Comp


namespace Comp

/-! ## The decoding tree as a trie (specification side) -/

/-- The link of the node with index `m` for the bit `b`. -/
def slot (decode : List HDecodeNode) (m : Nat) (b : Bool) : Int :=
  if b then (decode.getD m ⟨0, 0⟩).n1 else (decode.getD m ⟨0, 0⟩).n0

/-- Set the link of node `m` for the bit `b`. -/
def setLink (decode : List HDecodeNode) (m : Nat) (b : Bool) (v : Int) : List HDecodeNode :=
  decode.set m (if b then { decode.getD m ⟨0, 0⟩ with n1 := v }
    else { decode.getD m ⟨0, 0⟩ with n0 := v })

/-- The inner loop of `buildDecodeTable` on the list of the bits that it follows. -/
def insertPath : List Bool → List HDecodeNode → Nat → Nat → List HDecodeNode × Nat × Nat
  | [], decode, top, cur => (decode, top, cur)
  | b :: bs, decode, top, cur =>
    if slot decode cur b < 0 then
      insertPath bs (setLink (decode.set top ⟨-1, -1⟩) cur b top) (top + 1)
        (slot (setLink (decode.set top ⟨-1, -1⟩) cur b top) cur b).toNat
    else insertPath bs decode top (slot decode cur b).toNat

/-- The proper prefixes of the codewords of the symbols below `k`. -/
def properPrefixes (cw : Nat → List Bool) (k : Nat) : Finset (List Bool) :=
  (Finset.range k).biUnion (fun s => (Finset.range (cw s).length).image (fun l => (cw s).take l))

/-- Invariant of `buildDecodeTable` when the symbols below `k` have their leaves: the
nodes `0 .. top-1` stand for different proper prefixes `path m` of codewords, a link of a
node is not set, or leads to the node of the prefix that is one bit longer, or stands
for the symbol below `k` that has this codeword. -/
def TInv (cw : Nat → List Bool) (nbr k : Nat) (decode : List HDecodeNode) (top : Nat)
    (path : Nat → List Bool) : Prop :=
  1 ≤ top ∧ top ≤ decode.length ∧ path 0 = [] ∧
  (∀ m, m < top → ∀ b, slot decode m b = -1 ∨
    (∃ m', 1 ≤ m' ∧ m' < top ∧ slot decode m b = (m' : Int) ∧ path m' = path m ++ [b]) ∨
    (∃ s, s < k ∧ slot decode m b = (nbr : Int) + s ∧ cw s = path m ++ [b])) ∧
  (∀ m, 1 ≤ m → m < top →
    ∃ m0 b, m0 < top ∧ slot decode m0 b = (m : Int) ∧ path m = path m0 ++ [b]) ∧
  (∀ m, m < top → path m ∈ properPrefixes cw nbr) ∧
  (∀ s, s < k → ∃ m0 b, m0 < top ∧ slot decode m0 b = (nbr : Int) + s ∧ cw s = path m0 ++ [b]) ∧
  (∀ m m', m < top → m' < top → path m = path m' → m = m')

end Comp


namespace Comp

/-! ## Streams used as examples for the decoder -/

/-- The block that `writeHBuffer` emits for 4096 bytes `0x41`. -/
def uniformBlock : List Nat := writeHBuffer [] (List.replicate 4096 0x41) 4096

/-- A decoder opened by `initHufInput` on the first 131 bytes of `uniformBlock`: the size
field, the 128 header bytes and the first byte of the payload. -/
def truncatedReader : HInStream :=
  initHufInput ⟨initBits [], List.replicate 256 ⟨0, 0⟩, 0⟩ (uniformBlock.take 131)

end Comp


namespace Comp

/-! ## Levels of a tree (specification side) -/

/-- The nodes of depth `e` among the nodes `0 .. 2n-2` of a tree on `n` leaves. -/
def level (n : Nat) (d : Nat → Nat) (e : Nat) : Finset Nat :=
  (Finset.range (2 * n - 1)).filter (fun c => d c = e)

end Comp


namespace Comp

/-! ## The two branches of `main` -/

/-- One round of the `for (f=firstFile+1;f<argc;f++)` loop of the compress branch of
`main`, for a file that can be opened: the length of the name, the characters of the
name, then the bytes of the file through `writeHufOutput` with a stage of 4096 bytes,
and `closeHufOutput`.  `name` holds the characters of `argv[f]` before its final NUL, as
bytes; `content` holds the results of `getc (file)` before `EOF`. -/
def compressFile (cFile : List Nat) (name content : List Nat) : List Nat :=
  closeHufOutput (content.foldl (fun (s : HOutStream) (c : Nat) => writeHufOutput c s)
    (initHufOutput (name.foldl (fun (f : List Nat) (c : Nat) => putc (c : Int) f)
      (putc (name.length : Int) cFile))
      4096))

/-- The compress branch of `main`: the two characters `\` and `/`, then the files in the
order of the command line. -/
def compressMain (files : List (List Nat × List Nat)) : List Nat :=
  files.foldl (fun (f : List Nat) (p : List Nat × List Nat) => compressFile f p.1 p.2)
    (putc 0x2F (putc 0x5C []))

/-- The C call `getc (f)`: the next byte and the rest of the file, `-1` (`EOF`) at the
end. -/
def getc (file : List Nat) : Int × List Nat :=
  match file with
  | [] => (-1, [])
  | c :: rest => ((c : Int), rest)

/-- The loop `for (i=0;i<nbr;i++) fn[i] = getc(cFile);` of the extract branch: the
characters stored in `fn`, as bytes, and the rest of the file. -/
def readName : Nat → List Nat → List Nat × List Nat
  | 0, file => ([], file)
  | k + 1, file =>
    ((((getc file).1 % 256).toNat) :: (readName k (getc file).2).1, (readName k (getc file).2).2)

/-- The C string held by an array of characters: the characters before the first NUL. -/
def cString (fn : List Nat) : List Nat := fn.takeWhile (fun c => c ≠ 0)

/-- The loop of the extract branch that calls `getHufInput` until it returns `EOF` and
writes the other results with `putc`: the bytes written and the decoder at the end
(`none` when `fuel` calls are not enough). -/
def extractBytes : Nat → HInStream → List Nat → Option (List Nat × HInStream)
  | 0, _, _ => none
  | fuel + 1, hin, out =>
    if (getHufInput hin).1 = -1 then some (out, (getHufInput hin).2)
    else extractBytes fuel (getHufInput hin).2 (putc (getHufInput hin).1 out)

/-- The outer `for (;;)` loop of the extract branch of `main`: a name length read with
`getc`, the end when it is not positive, else the name, `initHufInput` on the archive
and the bytes of the file; the archive goes on where the decoder stopped.  The result
lists the names and contents of the files written (`none` when the fuel is not enough). -/
def extractFiles : Nat → Nat → HInStream → List Nat → List (List Nat × List Nat) →
    Option (List (List Nat × List Nat))
  | 0, _, _, _, _ => none
  | fuel + 1, fuelBytes, hin, cFile, done =>
    if (getc cFile).1 ≤ 0 then some done
    else
      match extractBytes fuelBytes
        (initHufInput hin (readName (getc cFile).1.toNat (getc cFile).2).2) [] with
      | none => none
      | some r =>
        extractFiles fuel fuelBytes r.2 r.2.bs.file
          (done ++ [(cString (readName (getc cFile).1.toNat (getc cFile).2).1, r.1)])

/-- The extract branch of `main` on an archive: `none` also when the archive does not
start with the characters `\` and `/`. -/
def extractMain (fuel fuelBytes : Nat) (hin : HInStream) (archive : List Nat) :
    Option (List (List Nat × List Nat)) :=
  if (getc archive).1 ≠ 0x5C then none
  else if (getc (getc archive).2).1 ≠ 0x2F then none
  else extractFiles fuel fuelBytes hin (getc (getc archive).2).2 []

/-- The byte stream `E` consists of blocks written by `writeHBuffer`, of 1 to 4096 bytes
each, that hold the bytes `data`. -/
inductive Blocks : List Nat → List Nat → Prop
  | nil : Blocks [] []
  | cons (B E data : List Nat) : (∀ b ∈ B, b < 256) → 1 ≤ B.length → B.length ≤ 4096 →
      Blocks E data → Blocks (writeHBuffer [] B B.length ++ E) (B ++ data)

/-- The byte stream `A` is the part of an archive behind its first two characters that
holds the files `files`: for every file the length of its name, the name, blocks that
hold its bytes, and two zero bytes. -/
inductive Archive : List Nat → List (List Nat × List Nat) → Prop
  | nil : Archive [] []
  | cons (name content E A : List Nat) (files : List (List Nat × List Nat)) :
      Blocks E content → Archive A files →
      Archive (name.length :: (name ++ (E ++ 0 :: 0 :: A))) ((name, content) :: files)

/-- Invariant of an output stream with a stage of 4096 bytes that has received the
bytes `done` since `initHufOutput` on the file `f0`: the file holds blocks for all the
bytes but the last `curIndex` ones, which are in the stage. -/
def OInv (f0 done : List Nat) (s : HOutStream) : Prop :=
  s.bufSize = 4096 ∧ s.buffer.length = 4096 ∧ s.curIndex ≤ 4096 ∧
  (∀ b ∈ s.buffer.take s.curIndex, b < 256) ∧
  ∃ E flushed, Blocks E flushed ∧ s.file = f0 ++ E ∧
    done = flushed ++ s.buffer.take s.curIndex ∧ (s.curIndex = 0 → done = [])

end Comp


namespace Comp

/-! ## Huffman's algorithm on a sorted list of weights (specification side) -/

/-- Insert a weight into a sorted list of weights. -/
def absInsert (a : Int) : List Int → List Int
  | [] => [a]
  | b :: l => if a ≤ b then a :: b :: l else b :: absInsert a l

/-- One step of Huffman's algorithm on a sorted list of weights: the two lightest
weights are replaced by their sum. -/
def absStep : List Int → List Int
  | x :: y :: rest => absInsert (x + y) rest
  | l => l

/-- The sorted list of weights after `t` steps of Huffman's algorithm. -/
def absRun : Nat → List Int → List Int
  | 0, L => L
  | t + 1, L => absRun t (absStep L)

/-- During the first `k` steps of Huffman's algorithm on the list `L`, the two lightest
weights are at least 1 and at most 127. -/
def absCheck : Nat → List Int → Bool
  | 0, _ => true
  | k + 1, L =>
    match L with
    | x :: y :: _ => decide (1 ≤ x) && decide (y ≤ 127) && absCheck k (absStep L)
    | _ => false

/-- The weights of the 255 symbols that do not occur in a buffer. -/
def unitWeights : List Int := List.replicate 255 1

/-- The invariant of the merge loop of `generateLength` on the frequency vector of a
buffer of `n ≥ 127` bytes that are all equal to `b`.  Up to node 509 the item of `b`, of
priority `-n`, stays in the queue, and the other items weigh what Huffman's algorithm
makes of the 255 weights 1; when node 509 is next, `b` is in slot 2 of the queue.  Then
the two other items are combined into node 509, and the last step makes node 510 the
parent of `b`. -/
def UInv (b n : Nat) (s : MergeState) : Prop :=
  (s.2.2 ≤ 509 ∧
    (∃ R : Multiset (Nat × Int), contents s.1 = (b, -(n : Int)) ::ₘ R ∧
      R.map (fun e => 1 - e.2) = ((absRun (s.2.2 - 256) unitWeights : List Int) : Multiset Int)) ∧
    (s.2.2 = 509 → cell s.1 2 = (b, -(n : Int)))) ∨
  (s.2.2 = 510 ∧ (b, -(n : Int)) ∈ contents s.1) ∨
  (s.2.2 = 511 ∧ s.2.1.getD b 0 = 510)

end Comp


namespace Comp

/-! ## Bit strings -/

theorem bitsOf_length (w v : Nat) : (bitsOf w v).length = w := by
  induction w with
  | zero => rfl
  | succ w ih => simp [bitsOf, ih]

theorem bitsOf_congr (w x y : Nat) (h : ∀ j, j < w → x.testBit j = y.testBit j) :
    bitsOf w x = bitsOf w y := by
  induction w with
  | zero => rfl
  | succ w ih =>
    simp only [bitsOf]
    rw [h w (Nat.lt_succ_self w), ih (fun j hj => h j (Nat.lt_succ_of_lt hj))]

theorem bitsOf_add (a b v : Nat) : bitsOf (a + b) v = bitsOf a (v >>> b) ++ bitsOf b v := by
  induction a with
  | zero => simp [bitsOf]
  | succ a ih =>
    have e : a + 1 + b = (a + b) + 1 := by omega
    rw [e]
    simp only [bitsOf, List.cons_append, ih, Nat.testBit_shiftRight]
    rw [Nat.add_comm b a]

theorem bitsOf_mod (w v : Nat) : bitsOf w (v % 2 ^ w) = bitsOf w v := by
  apply bitsOf_congr
  intro j hj
  simp [Nat.testBit_mod_two_pow, hj]

theorem bitsVal_append_bit (l : List Bool) (b : Bool) :
    bitsVal (l ++ [b]) = 2 * bitsVal l + (if b then 1 else 0) := by
  simp [bitsVal, List.foldl_append]

theorem foldl_bits_init (l : List Bool) (a : Nat) :
    l.foldl (fun a b => 2 * a + (if b then 1 else 0)) a = a * 2 ^ l.length + bitsVal l := by
  induction l generalizing a with
  | nil => simp [bitsVal]
  | cons b l ih =>
    simp only [List.foldl_cons, List.length_cons, bitsVal]
    rw [ih (2 * a + _), ih (2 * 0 + _)]
    ring

theorem bitsVal_append (l m : List Bool) :
    bitsVal (l ++ m) = bitsVal l * 2 ^ m.length + bitsVal m := by
  unfold bitsVal
  rw [List.foldl_append, foldl_bits_init]
  rfl

theorem bitsVal_cons (b : Bool) (l : List Bool) :
    bitsVal (b :: l) = (if b then 1 else 0) * 2 ^ l.length + bitsVal l := by
  have := bitsVal_append [b] l
  simpa [bitsVal] using this

theorem bitsVal_lt (l : List Bool) : bitsVal l < 2 ^ l.length := by
  induction l with
  | nil => simp [bitsVal]
  | cons b l ih =>
    rw [bitsVal_cons, List.length_cons, pow_succ]
    split <;> omega

theorem bitsVal_bitsOf (w v : Nat) : bitsVal (bitsOf w v) = v % 2 ^ w := by
  induction w with
  | zero => simp [bitsOf, bitsVal, Nat.mod_one]
  | succ w ih =>
    rw [bitsOf, bitsVal_cons, ih, bitsOf_length]
    have h1 : v % 2 ^ (w + 1) = v % 2 ^ w + 2 ^ w * ((v / 2 ^ w) % 2) := by
      rw [pow_succ, Nat.mod_mul]
    rw [h1, Nat.testBit, Nat.shiftRight_eq_div_pow, Nat.one_and_eq_mod_two]
    rcases Nat.mod_two_eq_zero_or_one (v / 2 ^ w) with h | h <;> simp [h] <;> ring

theorem bitsVal_bitsOf_of_lt (w v : Nat) (h : v < 2 ^ w) : bitsVal (bitsOf w v) = v := by
  rw [bitsVal_bitsOf, Nat.mod_eq_of_lt h]

theorem bitsOf_bitsVal (l : List Bool) : bitsOf l.length (bitsVal l) = l := by
  induction l with
  | nil => rfl
  | cons b l ih =>
    rw [List.length_cons, bitsOf, bitsVal_cons]
    have hlt := bitsVal_lt l
    congr 1
    · rw [Nat.testBit, Nat.shiftRight_eq_div_pow, Nat.one_and_eq_mod_two]
      have : ((if b then 1 else 0) * 2 ^ l.length + bitsVal l) / 2 ^ l.length
          = (if b = true then 1 else 0) := by
        rw [Nat.add_comm, Nat.add_mul_div_right _ _ (by positivity), Nat.div_eq_of_lt hlt]
        simp
      rw [this]
      cases b <;> simp
    · rw [← bitsOf_mod, Nat.add_comm, Nat.add_mul_mod_self_right, Nat.mod_eq_of_lt hlt, ih]

theorem bytesBits_append (a b : List Nat) : bytesBits (a ++ b) = bytesBits a ++ bytesBits b := by
  induction a with
  | nil => rfl
  | cons x a ih => simp [bytesBits, ih]

theorem bytesBits_length (a : List Nat) : (bytesBits a).length = 8 * a.length := by
  induction a with
  | nil => rfl
  | cons x a ih => simp [bytesBits, ih, bitsOf_length]; omega

theorem seqBits_append (a b : List (Nat × Nat)) : seqBits (a ++ b) = seqBits a ++ seqBits b := by
  induction a with
  | nil => rfl
  | cons x a ih => simp [seqBits, ih]

theorem seqBits_length (ps : List (Nat × Nat)) :
    (seqBits ps).length = (ps.map (fun p => p.2)).sum := by
  induction ps with
  | nil => rfl
  | cons p ps ih => simp [seqBits, ih, bitsOf_length]

end Comp


namespace Comp

/-! ## Writing bits -/

theorem lor_natCast (a b : Nat) : Int.lor (a : Int) (b : Int) = ((a ||| b : Nat) : Int) := rfl

theorem land_natCast (a b : Nat) : Int.land (a : Int) (b : Int) = ((a &&& b : Nat) : Int) := rfl

theorem shiftRight_natCast (a b : Nat) : ((a : Int) >>> b) = ((a >>> b : Nat) : Int) := rfl

theorem testBit_false_of_lt_pow {v k i : Nat} (h : v < 2 ^ k) (hi : k ≤ i) : v.testBit i = false :=
  Nat.testBit_lt_two_pow (lt_of_lt_of_le h (Nat.pow_le_pow_right (by decide) hi))

theorem toNat_mod_256 (c : Int) (h : 0 ≤ c) : (c % 256).toNat = c.toNat % 256 := by
  obtain ⟨n, rfl⟩ := Int.eq_ofNat_of_zero_le h
  have : ((n : Int) % 256) = ((n % 256 : Nat) : Int) := by push_cast; rfl
  rw [this, Int.toNat_ofNat, Int.toNat_ofNat]

theorem wbits_flush (str : BitStream) (h : WInv str) (h8 : str.nBit = 8) :
    WInv { str with file := putc str.curChar str.file, curChar := 0, nBit := 0 } ∧
    wbits { str with file := putc str.curChar str.file, curChar := 0, nBit := 0 } = wbits str := by
  obtain ⟨_, h0, _⟩ := h
  refine ⟨⟨by simp, by simp, by intro i _; simp⟩, ?_⟩
  simp only [wbits, putc, bytesBits_append, h8, bytesBits, bitsOf, List.append_nil,
    Nat.sub_self, Nat.shiftRight_zero]
  rw [toNat_mod_256 _ h0]
  have := bitsOf_mod 8 str.curChar.toNat
  simp only [bitsOf] at this
  rw [show (2:Nat) ^ 8 = 256 from rfl] at this
  rw [this]

/-- One iteration of the loop of `putBits` on a stream with a free bit. -/
theorem wbits_step (str : BitStream) (val k : Nat) (h : WInv str) (hn : str.nBit < 8) (hk : 0 < k)
    (hv : str.nBit = 0 ∨ val < 2 ^ k) :
    let t := if 8 - str.nBit > k then k else 8 - str.nBit
    let str2 : BitStream :=
      { str with
        curChar := Int.lor str.curChar
          ((((val >>> (k - t)) &&& ((1 <<< k) - 1)) <<< (8 - str.nBit - t) : Nat) : Int)
        nBit := str.nBit + t }
    WInv str2 ∧ wbits str2 = wbits str ++ bitsOf t (val >>> (k - t)) := by
  intro t str2
  obtain ⟨_, h0, hz⟩ := h
  obtain ⟨c, hc⟩ := Int.eq_ofNat_of_zero_le h0
  have ht1 : t ≤ k := by simp only [t]; split <;> omega
  have ht2 : t ≤ 8 - str.nBit := by simp only [t]; split <;> omega
  have ht3 : 0 < t := by simp only [t]; split <;> omega
  have hcz : ∀ i, i < 8 - str.nBit → c.testBit i = false := by
    intro i hi
    have := hz i hi
    rw [hc] at this
    simpa using this
  have e2 : str2.curChar.toNat
      = c ||| (((val >>> (k - t)) &&& ((1 <<< k) - 1)) <<< (8 - str.nBit - t)) := by
    simp only [str2, hc, lor_natCast, Int.toNat_ofNat]
  have e1 : str.curChar.toNat = c := by simp [hc]
  refine ⟨⟨?_, ?_, ?_⟩, ?_⟩
  · show str.nBit + t ≤ 8
    omega
  · show 0 ≤ Int.lor str.curChar _
    rw [hc, lor_natCast]
    exact Int.ofNat_nonneg _
  · intro i hi
    have hi' : i < 8 - str.nBit - t := by
      have : str2.nBit = str.nBit + t := rfl
      omega
    rw [e2, Nat.testBit_or, hcz i (by omega), Nat.testBit_shiftLeft]
    simp
    intro h'
    omega
  · simp only [wbits, str2]
    rw [hc, lor_natCast, Int.toNat_ofNat, Int.toNat_ofNat, bitsOf_add, List.append_assoc]
    congr 2
    · apply bitsOf_congr
      intro j hj
      simp only [Nat.testBit_shiftRight, Nat.testBit_or, Nat.testBit_shiftLeft, Nat.testBit_and,
        Nat.one_shiftLeft, Nat.testBit_two_pow_sub_one]
      have e3 : 8 - (str.nBit + t) + (t + j) = 8 - str.nBit + j := by omega
      rw [e3]
      rcases hv with hv | hv
      · omega
      · have : val.testBit (k - t + (8 - str.nBit + j - (8 - str.nBit - t))) = false := by
          apply testBit_false_of_lt_pow hv
          omega
        rw [this]
        simp
    · apply bitsOf_congr
      intro j hj
      simp only [Nat.testBit_shiftRight, Nat.testBit_or, Nat.testBit_shiftLeft, Nat.testBit_and,
        Nat.one_shiftLeft, Nat.testBit_two_pow_sub_one]
      rw [hcz _ (by omega)]
      have e3 : 8 - (str.nBit + t) + j - (8 - str.nBit - t) = j := by omega
      have e4 : 8 - (str.nBit + t) + j ≥ 8 - str.nBit - t := by omega
      rw [e3]
      simp [e4]
      intro _
      omega

theorem putBitsLoop_zero (fuel val : Nat) (str : BitStream) :
    putBitsLoop fuel val 0 str = str := by
  cases fuel <;> simp [putBitsLoop]

/-- The loop of `putBits` appends the `k` low order bits of `val`, provided the stream
is byte aligned or `val` fits in `k` bits. -/
theorem putBitsLoop_spec (fuel : Nat) : ∀ (val k : Nat) (str : BitStream), k ≤ fuel → WInv str →
    (str.nBit = 0 ∨ str.nBit = 8 ∨ val < 2 ^ k) →
    WInv (putBitsLoop fuel val k str) ∧
    wbits (putBitsLoop fuel val k str) = wbits str ++ bitsOf k val ∧
    (0 < k → 0 < (putBitsLoop fuel val k str).nBit) := by
  induction fuel with
  | zero =>
    intro val k str hk h _
    have : k = 0 := by omega
    subst this
    simp [putBitsLoop, h, bitsOf]
  | succ fuel ih =>
    intro val k str hk h hv
    by_cases hk0 : k = 0
    · subst hk0
      simp [putBitsLoop, h, bitsOf]
    · have hkpos : 0 < k := Nat.pos_of_ne_zero hk0
      -- the stream after the optional flush
      obtain ⟨str1, hs1, hw1, hb1, hn1, hv1⟩ : ∃ str1 : BitStream,
          (if str.nBit = 8 then
            { str with file := putc str.curChar str.file, curChar := 0, nBit := 0 } else str) = str1
          ∧ WInv str1 ∧ wbits str1 = wbits str ∧ str1.nBit < 8 ∧ (str1.nBit = 0 ∨ val < 2 ^ k) := by
        by_cases h8 : str.nBit = 8
        · refine ⟨_, rfl, ?_⟩
          rw [if_pos h8]
          exact ⟨(wbits_flush str h h8).1, (wbits_flush str h h8).2, by simp, Or.inl rfl⟩
        · refine ⟨_, rfl, ?_⟩
          rw [if_neg h8]
          refine ⟨h, rfl, ?_, ?_⟩
          · have := h.1
            omega
          · rcases hv with hv | hv | hv
            · exact Or.inl hv
            · exact absurd hv h8
            · exact Or.inr hv
      have hstep := wbits_step str1 val k hw1 hn1 hkpos hv1
      simp only at hstep
      rw [putBitsLoop, if_pos hkpos]
      simp only [hs1]
      generalize ht : (if 8 - str1.nBit > k then k else 8 - str1.nBit) = t at hstep ⊢
      have ht1 : t ≤ k := by rw [← ht]; split <;> omega
      have ht3 : 0 < t := by rw [← ht]; split <;> omega
      have ht4 : 0 < k - t → str1.nBit + t = 8 := by
        intro hlt
        by_cases hc : 8 - str1.nBit > k
        · rw [if_pos hc] at ht; omega
        · rw [if_neg hc] at ht; omega
      generalize hstr2 : ({ str1 with
          curChar := Int.lor str1.curChar
            ((((val >>> (k - t)) &&& ((1 <<< k) - 1)) <<< (8 - str1.nBit - t) : Nat) : Int)
          nBit := str1.nBit + t } : BitStream) = str2 at hstep ⊢
      have hn2 : str2.nBit = str1.nBit + t := by rw [← hstr2]
      have hsplit : bitsOf k val = bitsOf t (val >>> (k - t)) ++ bitsOf (k - t) val := by
        have := bitsOf_add t (k - t) val
        rwa [Nat.add_sub_cancel' ht1] at this
      by_cases hkt : k - t = 0
      · rw [hkt, putBitsLoop_zero]
        refine ⟨hstep.1, ?_, fun _ => by omega⟩
        rw [hstep.2, hb1, hsplit, hkt]
        simp [bitsOf]
      · have hal : str2.nBit = 0 ∨ str2.nBit = 8 ∨ val < 2 ^ (k - t) :=
          Or.inr (Or.inl (by rw [hn2]; exact ht4 (Nat.pos_of_ne_zero hkt)))
        obtain ⟨r1, r2, r3⟩ := ih val (k - t) str2 (by omega) hstep.1 hal
        refine ⟨r1, ?_, fun _ => r3 (Nat.pos_of_ne_zero hkt)⟩
        rw [r2, hstep.2, hb1, hsplit, List.append_assoc]

theorem putBits_spec (val k : Nat) (str : BitStream) (h : WInv str)
    (hv : str.nBit = 0 ∨ str.nBit = 8 ∨ val < 2 ^ k) :
    WInv (putBits val k str) ∧ wbits (putBits val k str) = wbits str ++ bitsOf k val ∧
    (0 < k → 0 < (putBits val k str).nBit) :=
  putBitsLoop_spec k val k str (le_refl k) h hv

theorem WInv_initBits (file : List Nat) : WInv (initBits file) :=
  ⟨by simp [initBits], by simp [initBits], by intro i _; simp [initBits]⟩

theorem wbits_initBits (file : List Nat) : wbits (initBits file) = bytesBits file := by
  simp [wbits, initBits, bitsOf]

theorem putBitsSeq_spec (ps : List (Nat × Nat)) : ∀ (str : BitStream), WInv str →
    (∀ p ∈ ps, p.1 < 2 ^ p.2) →
    WInv (putBitsSeq ps str) ∧ wbits (putBitsSeq ps str) = wbits str ++ seqBits ps := by
  induction ps with
  | nil => intro str h _; simp [putBitsSeq, seqBits, h]
  | cons p ps ih =>
    intro str h hp
    obtain ⟨a1, a2, _⟩ := putBits_spec p.1 p.2 str h (Or.inr (Or.inr (hp p (List.mem_cons_self _ _))))
    obtain ⟨b1, b2⟩ := ih (putBits p.1 p.2 str) a1 (fun q hq => hp q (List.mem_cons_of_mem _ hq))
    refine ⟨b1, ?_⟩
    show wbits (putBitsSeq ps (putBits p.1 p.2 str)) = _
    rw [b2, a2, seqBits, List.append_assoc]

end Comp


namespace Comp

/-! ## Reading bits -/

theorem getBitsLoop_zero (fuel : Nat) (ret : Int) (str : BitStream) :
    getBitsLoop fuel 0 ret str = (ret, str) := by
  cases fuel <;> simp [getBitsLoop]

theorem take_add_drop {α : Type} (l : List α) (a b : Nat) :
    l.take (a + b) = l.take a ++ (l.drop a).take b := by
  rw [List.take_add]

/-- One iteration of the loop of `getBits` on a stream whose current byte holds a bit. -/
theorem rbits_step (str : BitStream) (k r : Nat) (h : RInv str) (hn : 0 < str.nBit) (hk : 0 < k) :
    let t := if k < str.nBit then k else str.nBit
    Int.lor ((r : Int) * 2 ^ t)
        (Int.land (str.curChar >>> (str.nBit - t)) ((((1 <<< t) - 1 : Nat)) : Int))
      = ((r * 2 ^ t + bitsVal ((rbits str).take t) : Nat) : Int) ∧
    RInv { str with nBit := str.nBit - t } ∧
    rbits { str with nBit := str.nBit - t } = (rbits str).drop t := by
  intro t
  obtain ⟨h8, h0⟩ := h
  obtain ⟨c, hc⟩ := Int.eq_ofNat_of_zero_le h0
  have ht1 : t ≤ str.nBit := by simp only [t]; split <;> omega
  have hsplit : bitsOf str.nBit c = bitsOf t (c >>> (str.nBit - t)) ++ bitsOf (str.nBit - t) c := by
    have := bitsOf_add t (str.nBit - t) c
    rwa [Nat.add_sub_cancel' ht1] at this
  have e1 : str.curChar.toNat = c := by simp [hc]
  have htake : (rbits str).take t = bitsOf t (c >>> (str.nBit - t)) := by
    simp only [rbits, e1, hsplit, List.append_assoc]
    rw [List.take_append_of_le_length (by simp [bitsOf_length])]
    rw [List.take_of_length_le (by simp [bitsOf_length])]
  have hdrop : (rbits str).drop t = bitsOf (str.nBit - t) c ++ bytesBits str.file := by
    simp only [rbits, e1, hsplit, List.append_assoc]
    rw [List.drop_append_of_le_length (by simp [bitsOf_length])]
    rw [List.drop_of_length_le (by simp [bitsOf_length])]
    simp
  refine ⟨?_, ⟨by show str.nBit - t ≤ 8; omega, h0⟩, ?_⟩
  · rw [htake, bitsVal_bitsOf, hc, shiftRight_natCast, land_natCast]
    have e2 : ((r : Int) * 2 ^ t) = ((2 ^ t * r : Nat) : Int) := by push_cast; ring
    rw [e2, lor_natCast, Nat.one_shiftLeft, Nat.and_pow_two_sub_one_eq_mod,
      ← Nat.mul_add_lt_is_or (Nat.mod_lt _ (by positivity))]
    congr 1
    ring
  · rw [hdrop]
    simp [rbits, e1]

/-- The loop of `getBits` delivers the next `k` bits, when the stream has that many. -/
theorem getBitsLoop_spec (fuel : Nat) : ∀ (k r : Nat) (str : BitStream), k ≤ fuel → RInv str →
    k ≤ (rbits str).length →
    ∃ str', getBitsLoop fuel k (r : Int) str
        = (((r * 2 ^ k + bitsVal ((rbits str).take k) : Nat) : Int), str') ∧
      RInv str' ∧ rbits str' = (rbits str).drop k := by
  induction fuel with
  | zero =>
    intro k r str hk h _
    have : k = 0 := by omega
    subst this
    exact ⟨str, by simp [getBitsLoop, bitsVal], h, by simp⟩
  | succ fuel ih =>
    intro k r str hk h hlen
    by_cases hk0 : k = 0
    · subst hk0
      exact ⟨str, by simp [getBitsLoop, bitsVal], h, by simp⟩
    · have hkpos : 0 < k := Nat.pos_of_ne_zero hk0
      obtain ⟨str1, hs1, hr1, hb1, hn1⟩ : ∃ str1 : BitStream,
          refillBits str = some str1 ∧ RInv str1 ∧ rbits str1 = rbits str ∧ 0 < str1.nBit := by
        unfold refillBits
        by_cases hz : str.nBit = 0
        · rw [if_pos hz]
          cases hf : str.file with
          | nil =>
            exfalso
            simp [rbits, hz, hf, bitsOf, bytesBits] at hlen
            omega
          | cons c rest =>
            refine ⟨_, rfl, ⟨by simp, by simp⟩, ?_, by simp⟩
            simp [rbits, hz, hf, bitsOf, bytesBits]
        · rw [if_neg hz]
          exact ⟨str, rfl, h, rfl, Nat.pos_of_ne_zero hz⟩
      rw [getBitsLoop, if_pos hkpos]
      simp only [hs1]
      have hstep := rbits_step str1 k r hr1 hn1 hkpos
      simp only at hstep
      generalize ht : (if k < str1.nBit then k else str1.nBit) = t at hstep ⊢
      have ht1 : t ≤ k := by rw [← ht]; split <;> omega
      have ht3 : 0 < t := by rw [← ht]; split <;> omega
      obtain ⟨s1, s2, s3⟩ := hstep
      rw [s1]
      have hlen2 : k - t ≤ (rbits { str1 with nBit := str1.nBit - t }).length := by
        rw [s3, List.length_drop, hb1]
        omega
      obtain ⟨str', r1, r2, r3⟩ := ih (k - t) (r * 2 ^ t + bitsVal ((rbits str1).take t))
        { str1 with nBit := str1.nBit - t } (by omega) s2 hlen2
      refine ⟨str', ?_, r2, ?_⟩
      · rw [r1, s3, hb1]
        congr 2
        have e : k = t + (k - t) := by omega
        have hl : ((rbits str).take t).length = t := by
          rw [List.length_take]; omega
        have hl2 : (((rbits str).drop t).take (k - t)).length = k - t := by
          rw [List.length_take, List.length_drop]; omega
        conv_rhs => rw [e, take_add_drop, bitsVal_append, hl2]
        rw [add_mul, mul_assoc, ← pow_add, ← e]
        ring
      · rw [r3, s3, hb1, List.drop_drop]
        congr 1
        omega

theorem getBits_spec (k : Nat) (str : BitStream) (h : RInv str) (hlen : k ≤ (rbits str).length) :
    ∃ str', getBits str k = (((bitsVal ((rbits str).take k) : Nat) : Int), str') ∧
      RInv str' ∧ rbits str' = (rbits str).drop k := by
  obtain ⟨str', h1, h2, h3⟩ := getBitsLoop_spec k k 0 str (le_refl k) h hlen
  refine ⟨str', ?_, h2, h3⟩
  rw [getBits]
  simpa using h1

theorem RInv_initBits (file : List Nat) : RInv (initBits file) :=
  ⟨by simp [initBits], by simp [initBits]⟩

theorem rbits_initBits (file : List Nat) : rbits (initBits file) = bytesBits file := by
  simp [rbits, initBits, bitsOf]

/-- Reading back the widths of a list of pairs from a stream that starts with their bits. -/
theorem getBitsSeq_spec (ps : List (Nat × Nat)) : ∀ (str : BitStream) (tail : List Bool),
    RInv str → (∀ p ∈ ps, p.1 < 2 ^ p.2) → rbits str = seqBits ps ++ tail →
    ∃ str', getBitsSeq (ps.map (fun p => p.2)) str = (ps.map (fun p => (p.1 : Int)), str') ∧
      RInv str' ∧ rbits str' = tail := by
  induction ps with
  | nil =>
    intro str tail h _ hb
    exact ⟨str, rfl, h, by simpa [seqBits] using hb⟩
  | cons p ps ih =>
    intro str tail h hp hb
    have hlen : p.2 ≤ (rbits str).length := by
      rw [hb]; simp [seqBits, bitsOf_length]
    obtain ⟨s1, g1, g2, g3⟩ := getBits_spec p.2 str h hlen
    have htk : (rbits str).take p.2 = bitsOf p.2 p.1 := by
      rw [hb, seqBits, List.append_assoc, List.take_append_of_le_length (by simp [bitsOf_length]),
        List.take_of_length_le (by simp [bitsOf_length])]
    have hdr : (rbits str).drop p.2 = seqBits ps ++ tail := by
      rw [hb, seqBits, List.append_assoc, List.drop_append_of_le_length (by simp [bitsOf_length]),
        List.drop_of_length_le (by simp [bitsOf_length])]
      simp
    obtain ⟨s2, k1, k2, k3⟩ := ih s1 tail g2 (fun q hq => hp q (List.mem_cons_of_mem _ hq))
      (by rw [g3, hdr])
    refine ⟨s2, ?_, k2, k3⟩
    simp only [List.map_cons, getBitsSeq, g1, k1]
    rw [htk, bitsVal_bitsOf_of_lt _ _ (hp p (List.mem_cons_self _ _))]

end Comp


namespace Comp

/-! ## Flushing, and the bytes of a written stream -/

theorem bitsOf_eq_replicate (w v : Nat) (h : ∀ i, i < w → v.testBit i = false) :
    bitsOf w v = List.replicate w false := by
  induction w with
  | zero => rfl
  | succ w ih =>
    rw [bitsOf, h w (Nat.lt_succ_self w), ih (fun i hi => h i (Nat.lt_succ_of_lt hi))]
    rfl

/-- The bits of the byte that `closeBits` (or the flush inside `putBits`) writes. -/
theorem bitsOf_flush_byte (str : BitStream) (h : WInv str) :
    bitsOf 8 (str.curChar % 256).toNat
      = bitsOf str.nBit (str.curChar.toNat >>> (8 - str.nBit))
        ++ List.replicate (8 - str.nBit) false := by
  obtain ⟨h8, h0, hz⟩ := h
  rw [toNat_mod_256 _ h0]
  have e := bitsOf_mod 8 str.curChar.toNat
  rw [show (2:Nat) ^ 8 = 256 from rfl] at e
  rw [e]
  have := bitsOf_add str.nBit (8 - str.nBit) str.curChar.toNat
  rw [Nat.add_sub_cancel' h8] at this
  rw [this, bitsOf_eq_replicate _ _ hz]

theorem closeBits_bits (str : BitStream) (h : WInv str) :
    bytesBits (closeBits str).file
      = wbits str ++ List.replicate (if str.nBit = 0 then 0 else 8 - str.nBit) false := by
  unfold closeBits
  by_cases hz : str.nBit = 0
  · simp [hz, wbits, bitsOf]
  · have hpos : str.nBit > 0 := Nat.pos_of_ne_zero hz
    simp only [hpos, ↓reduceIte, hz, putc, bytesBits_append, bytesBits, List.append_nil, wbits]
    rw [bitsOf_flush_byte str h, List.append_assoc]

theorem AllBytes_putc (c : Int) (f : List Nat) (h : AllBytes f) : AllBytes (putc c f) := by
  intro b hb
  simp only [putc, List.mem_append, List.mem_singleton] at hb
  rcases hb with hb | hb
  · exact h b hb
  · subst hb
    have h1 : 0 ≤ c % 256 := Int.emod_nonneg _ (by decide)
    have h2 : c % 256 < 256 := Int.emod_lt_of_pos _ (by decide)
    omega

theorem putBitsLoop_bytes (fuel : Nat) : ∀ (val k : Nat) (str : BitStream), AllBytes str.file →
    AllBytes (putBitsLoop fuel val k str).file := by
  induction fuel with
  | zero => intro val k str h; simpa [putBitsLoop] using h
  | succ fuel ih =>
    intro val k str h
    rw [putBitsLoop]
    split
    · apply ih
      by_cases h8 : str.nBit = 8
      · simp only [h8, ↓reduceIte]
        exact AllBytes_putc _ _ h
      · simp only [h8, ↓reduceIte]
        exact h
    · exact h

theorem putBitsSeq_bytes (ps : List (Nat × Nat)) : ∀ (str : BitStream), AllBytes str.file →
    AllBytes (putBitsSeq ps str).file := by
  induction ps with
  | nil => intro str h; exact h
  | cons p ps ih =>
    intro str h
    exact ih _ (putBitsLoop_bytes _ _ _ _ h)

theorem closeBits_bytes (str : BitStream) (h : AllBytes str.file) : AllBytes (closeBits str).file := by
  unfold closeBits
  split
  · exact AllBytes_putc _ _ h
  · exact h

theorem packBitsAux_nil (fuel : Nat) : packBitsAux fuel [] = [] := by
  cases fuel <;> rfl

theorem packBitsAux_bytes (F : List Nat) : ∀ (fuel : Nat) (rest : List Bool), AllBytes F →
    F.length ≤ fuel →
    packBitsAux fuel (bytesBits F ++ rest) = F ++ packBitsAux (fuel - F.length) rest := by
  induction F with
  | nil => intro fuel rest _ _; simp [bytesBits]
  | cons b F ih =>
    intro fuel rest hF hfuel
    obtain ⟨fuel, rfl⟩ : ∃ f, fuel = f + 1 := ⟨fuel - 1, by simp at hfuel; omega⟩
    have hb : b < 256 := hF b (List.mem_cons_self _ _)
    have hF' : AllBytes F := fun x hx => hF x (List.mem_cons_of_mem _ hx)
    have e : bytesBits (b :: F) ++ rest
        = b.testBit 7 :: (bitsOf 7 b ++ (bytesBits F ++ rest)) := by
      simp [bytesBits, bitsOf]
    rw [e, packBitsAux]
    have e2 : b.testBit 7 :: (bitsOf 7 b ++ (bytesBits F ++ rest))
        = bitsOf 8 b ++ (bytesBits F ++ rest) := by simp [bitsOf]
    rw [e2, List.take_append_of_le_length (by simp [bitsOf_length]),
      List.take_of_length_le (by simp [bitsOf_length]),
      List.drop_append_of_le_length (by simp [bitsOf_length]),
      List.drop_of_length_le (by simp [bitsOf_length]), bitsOf_length]
    simp only [Nat.sub_self, List.replicate_zero, List.append_nil, List.nil_append,
      List.length_cons, List.cons_append]
    rw [bitsVal_bitsOf_of_lt 8 b (by simpa using hb), ih fuel rest hF' (by simpa using hfuel)]
    simp

/-- A byte sequence whose bits are `L` followed by fewer than 8 zero bits is `packBits L`. -/
theorem eq_packBits (F : List Nat) (L : List Bool) (pad : Nat) (hF : AllBytes F) (hpad : pad < 8)
    (h : bytesBits F = L ++ List.replicate pad false) : F = packBits L := by
  rcases List.eq_nil_or_concat F with rfl | ⟨F0, b, rfl⟩
  · have : L = [] := by
      have := congrArg List.length h
      simp [bytesBits] at this
      exact List.eq_nil_of_length_eq_zero (by omega)
    subst this
    rfl
  · rw [List.concat_eq_append] at hF h ⊢
    have hb : b < 256 := hF b (by simp)
    have hF0 : AllBytes F0 := fun x hx => hF x (by simp [hx])
    rw [bytesBits_append] at h
    have hlen := congrArg List.length h
    simp only [List.length_append, bytesBits_length, List.length_replicate, bytesBits, bitsOf_length,
      List.length_nil, List.length_singleton] at hlen
    -- split `L` after the bits of `F0`
    have hL : L = bytesBits F0 ++ L.drop (8 * F0.length) := by
      have h1 := congrArg (List.take (8 * F0.length)) h
      rw [List.take_append_of_le_length (by rw [bytesBits_length]),
        List.take_of_length_le (by rw [bytesBits_length]),
        List.take_append_of_le_length (by omega)] at h1
      rw [h1, List.take_append_drop]
    set r := L.drop (8 * F0.length) with hr
    have hrlen : r.length + pad = 8 := by
      rw [hr, List.length_drop]; omega
    have hlast : bitsOf 8 b = r ++ List.replicate pad false := by
      have h2 := congrArg (List.drop (8 * F0.length)) h
      rw [List.drop_append_of_le_length (by rw [bytesBits_length]),
        List.drop_of_length_le (by rw [bytesBits_length]),
        List.drop_append_of_le_length (by omega)] at h2
      simpa [bytesBits] using h2
    have hrne : r ≠ [] := by
      intro h0
      rw [h0] at hrlen
      simp at hrlen
      omega
    obtain ⟨x, r', hxr⟩ := List.exists_cons_of_ne_nil hrne
    rw [packBits, hL, packBitsAux_bytes F0 _ _ hF0 (by rw [List.length_append, bytesBits_length]; omega)]
    congr 1
    have hfuel : (bytesBits F0 ++ r).length - F0.length = (r.length - 1 + 7 * F0.length) + 1 := by
      rw [List.length_append, bytesBits_length]
      have : 0 < r.length := List.length_pos.mpr hrne
      omega
    rw [hfuel, hxr, packBitsAux, ← hxr]
    have ht : r.take 8 = r := List.take_of_length_le (by omega)
    have hd : r.drop 8 = [] := List.drop_of_length_le (by omega)
    rw [ht, hd, packBitsAux_nil]
    have hp : 8 - r.length = pad := by omega
    rw [hp, ← hlast, bitsVal_bitsOf_of_lt 8 b (by simpa using hb)]

theorem packBits_length (F : List Nat) (L : List Bool) (pad : Nat) (hpad : pad < 8)
    (h : bytesBits F = L ++ List.replicate pad false) : F.length = (L.length + 7) / 8 := by
  have := congrArg List.length h
  simp only [bytesBits_length, List.length_append, List.length_replicate] at this
  omega

/-- What `closeBits` leaves in the file after a sequence of `putBits` on a fresh stream. -/
theorem closeBits_putBitsSeq (ps : List (Nat × Nat)) (h : ∀ p ∈ ps, p.1 < 2 ^ p.2) :
    ∃ pad, pad < 8 ∧ AllBytes (closeBits (putBitsSeq ps (initBits []))).file ∧
      bytesBits (closeBits (putBitsSeq ps (initBits []))).file
        = seqBits ps ++ List.replicate pad false := by
  obtain ⟨h1, h2⟩ := putBitsSeq_spec ps (initBits []) (WInv_initBits []) h
  refine ⟨if (putBitsSeq ps (initBits [])).nBit = 0 then 0 else 8 - (putBitsSeq ps (initBits [])).nBit,
    ?_, closeBits_bytes _ (putBitsSeq_bytes ps _ (by intro b hb; simp [initBits] at hb)), ?_⟩
  · split <;> omega
  · rw [closeBits_bits _ h1, h2, wbits_initBits]
    simp [bytesBits]

end Comp


namespace Comp

/-! ## `putPrio` -/

theorem getD_set_ne {α : Type} (l : List α) (i k : Nat) (a d : α) (h : k ≠ i) :
    (l.set i a).getD k d = l.getD k d := by
  simp [List.getD_eq_getElem?_getD, List.getElem?_set, Ne.symm h]

theorem getD_set_eq {α : Type} (l : List α) (i : Nat) (a d : α) (h : i < l.length) :
    (l.set i a).getD i d = a := by
  simp [List.getD_eq_getElem?_getD, List.getElem?_set, h]

theorem cell_set_ne (t : Nat) (d : List Nat) (p : List Int) (i k : Nat) (a : Nat) (b : Int)
    (h : k ≠ i) : cell ⟨t, d.set i a, p.set i b⟩ k = cell ⟨t, d, p⟩ k := by
  unfold cell
  rw [getD_set_ne _ _ _ _ _ h, getD_set_ne _ _ _ _ _ h]

theorem cell_set_eq (t : Nat) (d : List Nat) (p : List Int) (i : Nat) (a : Nat) (b : Int)
    (h1 : i < d.length) (h2 : i < p.length) : cell ⟨t, d.set i a, p.set i b⟩ i = (a, b) := by
  unfold cell
  rw [getD_set_eq _ _ _ _ h1, getD_set_eq _ _ _ _ h2]

theorem prioAt_set_ne (t : Nat) (d : List Nat) (p : List Int) (i k : Nat) (a : Nat) (b : Int)
    (h : k ≠ i) : prioAt ⟨t, d.set i a, p.set i b⟩ k = prioAt ⟨t, d, p⟩ k := by
  unfold prioAt
  rw [getD_set_ne _ _ _ _ _ h]

theorem prioAt_set_eq (t : Nat) (d : List Nat) (p : List Int) (i : Nat) (a : Nat) (b : Int)
    (h2 : i < p.length) : prioAt ⟨t, d.set i a, p.set i b⟩ i = b := by
  unfold prioAt
  rw [getD_set_eq _ _ _ _ h2]

/-- Moving the item of slot `j` into the free slot `h` frees slot `j`. -/
theorem holeSum_move (t : Nat) (d : List Nat) (p : List Int) (h j : Nat)
    (hh : 1 ≤ h) (hht : h < t) (hj : 1 ≤ j) (hjt : j < t) (hne : j ≠ h)
    (hd : h < d.length) (hp : h < p.length) :
    holeSum ⟨t, d.set h (d.getD j 0), p.set h (p.getD j 0)⟩ j = holeSum ⟨t, d, p⟩ h := by
  unfold holeSum
  have hmem1 : h ∈ (Finset.Ico 1 t).erase j := by simp [Finset.mem_erase, hne.symm, hh, hht]
  have hmem2 : j ∈ (Finset.Ico 1 t).erase h := by simp [Finset.mem_erase, hne, hj, hjt]
  rw [← Finset.add_sum_erase _ _ hmem1, ← Finset.add_sum_erase _ _ hmem2,
    Finset.erase_right_comm, cell_set_eq _ _ _ _ _ _ hd hp]
  congr 1
  apply Finset.sum_congr rfl
  intro k hk
  have : k ≠ h := by
    simp only [Finset.mem_erase] at hk
    exact hk.2.1
  rw [cell_set_ne _ _ _ _ _ _ _ this]

/-- Filling the free slot `h`. -/
theorem contents_fill (t : Nat) (d : List Nat) (p : List Int) (h : Nat) (a : Nat) (b : Int)
    (hh : 1 ≤ h) (hht : h < t) (hd : h < d.length) (hp : h < p.length) :
    contents ⟨t, d.set h a, p.set h b⟩ = {(a, b)} + holeSum ⟨t, d, p⟩ h := by
  unfold contents holeSum
  have hmem : h ∈ Finset.Ico 1 t := by simp [hh, hht]
  rw [← Finset.add_sum_erase _ _ hmem, cell_set_eq _ _ _ _ _ _ hd hp]
  congr 1
  apply Finset.sum_congr rfl
  intro k hk
  have : k ≠ h := by
    simp only [Finset.mem_erase] at hk
    exact hk.1
  rw [cell_set_ne _ _ _ _ _ _ _ this]

theorem holeSum_last (t : Nat) (d : List Nat) (p : List Int) (ht : 1 ≤ t) :
    holeSum ⟨t + 1, d, p⟩ t = contents ⟨t, d, p⟩ := by
  unfold holeSum contents
  have : (Finset.Ico 1 (t + 1)).erase t = Finset.Ico 1 t := by
    ext k
    simp only [Finset.mem_erase, Finset.mem_Ico]
    omega
  rw [this]
  rfl

/-- The loop of `putPrio`. -/
theorem putPrioLoop_spec (p : Int) (fuel : Nat) : ∀ (h : Nat) (q : PriorityQueue),
    h ≤ fuel → 1 ≤ h → h < q.top → q.top ≤ q.data.length → q.data.length = q.priority.length →
    (putPrioLoop fuel h p q).2.top = q.top ∧
    (putPrioLoop fuel h p q).2.data.length = q.data.length ∧
    (putPrioLoop fuel h p q).2.priority.length = q.priority.length ∧
    1 ≤ (putPrioLoop fuel h p q).1 ∧ (putPrioLoop fuel h p q).1 ≤ h ∧
    holeSum (putPrioLoop fuel h p q).2 (putPrioLoop fuel h p q).1 = holeSum q h ∧
    cell (putPrioLoop fuel h p q).2 0 = cell q 0 ∧
    (HoleUp q h p →
      HoleUp (putPrioLoop fuel h p q).2 (putPrioLoop fuel h p q).1 p ∧
      (2 ≤ (putPrioLoop fuel h p q).1 →
        p < prioAt (putPrioLoop fuel h p q).2 ((putPrioLoop fuel h p q).1 / 2))) := by
  induction fuel with
  | zero => intro h q h0 h1; omega
  | succ fuel ih =>
    intro h q hf h1 ht hcap hlen
    rw [putPrioLoop]
    by_cases hgt : h > 1
    · rw [if_pos hgt]
      by_cases hbr : q.priority.getD (h >>> 1) 0 > p
      · rw [if_pos hbr]
        refine ⟨rfl, rfl, rfl, h1, le_refl _, rfl, rfl, fun hu => ⟨hu, fun _ => ?_⟩⟩
        simpa [prioAt, Nat.shiftRight_eq_div_pow] using hbr
      · rw [if_neg hbr]
        have hdiv : h >>> 1 = h / 2 := by simp [Nat.shiftRight_eq_div_pow]
        rw [hdiv] at hbr ⊢
        have hj1 : 1 ≤ h / 2 := by omega
        have hj2 : h / 2 < h := by omega
        obtain ⟨t, d, pr⟩ := q
        simp only at ht hcap hlen hbr ⊢
        have hd : h < d.length := by omega
        have hp : h < pr.length := by omega
        obtain ⟨r1, r2, r3, r4, r5, r6, r7, r8⟩ := ih (h / 2)
          ⟨t, d.set h (d.getD (h / 2) 0), pr.set h (pr.getD (h / 2) 0)⟩
          (by omega) hj1 (by simp only; omega) (by simpa using hcap) (by simpa using hlen)
        refine ⟨r1, by simpa using r2, by simpa using r3, r4, by omega, ?_, ?_, ?_⟩
        · rw [r6]
          exact holeSum_move t d pr h (h / 2) h1 ht hj1 (by omega) (by omega) hd hp
        · rw [r7]
          exact cell_set_ne _ _ _ _ _ _ _ (by omega)
        · intro hu
          apply r8
          obtain ⟨u1, u2⟩ := hu
          simp only at u1 u2
          have hle : pr.getD (h / 2) 0 ≤ p := by omega
          constructor
          · intro k hk2 hkt hkne hkne2
            simp only at hkt
            by_cases hkh : k = h
            · exact absurd (by rw [hkh]) hkne2
            · rw [prioAt_set_ne _ _ _ _ _ _ _ hkh]
              by_cases hk2h : k / 2 = h
              · rw [hk2h, prioAt_set_eq _ _ _ _ _ _ hp]
                exact (u2 k hk2 hkt hk2h).2 (by omega)
              · rw [prioAt_set_ne _ _ _ _ _ _ _ hk2h]
                exact u1 k hk2 hkt hkh hk2h
          · intro k hk2 hkt hk2h
            simp only at hkt
            have hh2ne : h / 2 / 2 ≠ h := by omega
            by_cases hkh : k = h
            · rw [hkh, prioAt_set_eq _ _ _ _ _ _ hp, prioAt_set_ne _ _ _ _ _ _ _ hh2ne]
              refine ⟨hle, fun h2 => ?_⟩
              exact u1 (h / 2) h2 (by omega) (by omega) hh2ne
            · rw [prioAt_set_ne _ _ _ _ _ _ _ hkh, prioAt_set_ne _ _ _ _ _ _ _ hh2ne]
              have hks : prioAt ⟨t, d, pr⟩ k ≤ prioAt ⟨t, d, pr⟩ (h / 2) := by
                have := u1 k hk2 hkt hkh (by omega)
                rwa [hk2h] at this
              refine ⟨le_trans hks hle, fun h2 => le_trans hks ?_⟩
              exact u1 (h / 2) h2 (by omega) (by omega) hh2ne
    · rw [if_neg hgt]
      refine ⟨rfl, rfl, rfl, h1, le_refl _, rfl, rfl, fun hu => ⟨hu, fun h2 => ?_⟩⟩
      simp only at h2
      omega

/-- `putPrio` adds one item and keeps the heap rule. -/
theorem putPrio_spec (dat : Nat) (p : Int) (q : PriorityQueue) (hw : PQWf q)
    (hcap : q.top < q.data.length) :
    (putPrio dat p q).top = q.top + 1 ∧
    (putPrio dat p q).data.length = q.data.length ∧
    (putPrio dat p q).priority.length = q.priority.length ∧
    contents (putPrio dat p q) = {(dat, p)} + contents q ∧
    cell (putPrio dat p q) 0 = cell q 0 ∧
    (HeapOrd q → HeapOrd (putPrio dat p q)) := by
  obtain ⟨t, d, pr⟩ := q
  obtain ⟨w1, w2, w3⟩ := hw
  simp only at w1 w2 w3 hcap
  obtain ⟨r1, r2, r3, r4, r5, r6, r7, r8⟩ := putPrioLoop_spec p t t ⟨t + 1, d, pr⟩
    (le_refl _) w1 (by simp) (by simpa using hcap) w3
  unfold putPrio
  simp only
  generalize putPrioLoop t t p ⟨t + 1, d, pr⟩ = r at r1 r2 r3 r4 r5 r6 r7 r8
  obtain ⟨h, ⟨t', d', pr'⟩⟩ := r
  simp only at r1 r2 r3 r4 r5 r6 r7 r8 ⊢
  subst r1
  have hd : h < d'.length := by omega
  have hp : h < pr'.length := by omega
  refine ⟨rfl, by simpa using r2, by simpa using r3, ?_, ?_, ?_⟩
  · rw [contents_fill _ _ _ _ _ _ r4 (by omega) hd hp, r6, holeSum_last _ _ _ w1]
  · rw [cell_set_ne _ _ _ _ _ _ _ (by omega), r7]
    rfl
  · intro ho
    have hu : HoleUp ⟨t + 1, d, pr⟩ t p := by
      constructor
      · intro k hk2 hkt hkne _
        simp only at hkt
        exact ho k hk2 (by simp only; omega)
      · intro k hk2 hkt hk2h
        simp only at hkt
        omega
    obtain ⟨⟨v1, v2⟩, v3⟩ := r8 hu
    intro k hk2 hkt
    simp only at hkt
    by_cases hkh : k = h
    · have hne : k / 2 ≠ h := by omega
      rw [hkh] at hne hk2 ⊢
      rw [prioAt_set_eq _ _ _ _ _ _ hp, prioAt_set_ne _ _ _ _ _ _ _ hne]
      exact le_of_lt (v3 hk2)
    · rw [prioAt_set_ne _ _ _ _ _ _ _ hkh]
      by_cases hk2h : k / 2 = h
      · rw [hk2h, prioAt_set_eq _ _ _ _ _ _ hp]
        exact (v2 k hk2 hkt hk2h).1
      · rw [prioAt_set_ne _ _ _ _ _ _ _ hk2h]
        exact v1 k hk2 hkt hkh hk2h

end Comp


namespace Comp

/-! ## `getPrio` -/

/-- The loop of `getPrio`; `px` is the priority of the last item, which waits in slot
`q.top` for its new place. -/
theorem getPrioLoop_spec (px : Int) (fuel : Nat) : ∀ (h : Nat) (q : PriorityQueue),
    q.top ≤ fuel + h → 1 ≤ h → q.top < q.data.length → q.data.length = q.priority.length →
    prioAt q q.top = px →
    (getPrioLoop fuel h q).2.top = q.top ∧
    (getPrioLoop fuel h q).2.data.length = q.data.length ∧
    (getPrioLoop fuel h q).2.priority.length = q.priority.length ∧
    h ≤ (getPrioLoop fuel h q).1 ∧
    ((getPrioLoop fuel h q).1 < q.top ∨ (getPrioLoop fuel h q).1 = h) ∧
    holeSum (getPrioLoop fuel h q).2 (getPrioLoop fuel h q).1 = holeSum q h ∧
    cell (getPrioLoop fuel h q).2 0 = cell q 0 ∧
    cell (getPrioLoop fuel h q).2 q.top = cell q q.top ∧
    (HoleDown q h px →
      HoleDown (getPrioLoop fuel h q).2 (getPrioLoop fuel h q).1 px ∧
      (∀ k, 2 ≤ k → k < q.top → k / 2 = (getPrioLoop fuel h q).1 →
        prioAt (getPrioLoop fuel h q).2 k ≤ px)) := by
  induction fuel with
  | zero =>
    intro h q hf h1 hcap hlen hpx
    refine ⟨rfl, rfl, rfl, le_refl _, Or.inr rfl, rfl, rfl, rfl, fun hd => ⟨hd, ?_⟩⟩
    intro k hk2 hkt hkh
    have hkh' : k / 2 = h := hkh
    omega
  | succ fuel ih =>
    intro h q hf h1 hcap hlen hpx
    rw [getPrioLoop]
    have hsh : h <<< 1 = 2 * h := by simp [Nat.shiftLeft_eq, Nat.mul_comm]
    simp only [hsh]
    by_cases hex : 2 * h ≥ q.top
    · rw [if_pos hex]
      refine ⟨rfl, rfl, rfl, le_refl _, Or.inr rfl, rfl, rfl, rfl, fun hd => ⟨hd, ?_⟩⟩
      intro k hk2 hkt hkh
      omega
    · rw [if_neg hex]
      obtain ⟨t, d, pr⟩ := q
      simp only at hf hcap hlen hpx hex ⊢
      generalize hc : (if pr.getD (2 * h) 0 < pr.getD (2 * h + 1) 0 then 2 * h + 1 else 2 * h) = c
      have hc1 : c = 2 * h ∨ c = 2 * h + 1 := by
        rw [← hc]; split
        · exact Or.inr rfl
        · exact Or.inl rfl
      have hcmax : pr.getD (2 * h) 0 ≤ pr.getD c 0 ∧ pr.getD (2 * h + 1) 0 ≤ pr.getD c 0 := by
        rw [← hc]; split <;> constructor <;> omega
      by_cases hbr : pr.getD c 0 ≤ pr.getD t 0
      · rw [if_pos hbr]
        refine ⟨rfl, rfl, rfl, le_refl _, Or.inr rfl, rfl, rfl, rfl, fun hd => ⟨hd, ?_⟩⟩
        intro k hk2 hkt hkh
        simp only [prioAt] at hpx ⊢
        have : k = 2 * h ∨ k = 2 * h + 1 := by omega
        rcases this with rfl | rfl <;> omega
      · rw [if_neg hbr]
        have hct : c < t := by
          rcases hc1 with rfl | rfl
          · omega
          · by_contra hge
            have : 2 * h + 1 = t := by omega
            rw [this] at hbr
            exact hbr (le_refl _)
        have hch : c ≠ h := by omega
        have hdl : h < d.length := by omega
        have hpl : h < pr.length := by omega
        obtain ⟨r1, r2, r3, r4, r5, r6, r7, r8, r9⟩ := ih c
          ⟨t, d.set h (d.getD c 0), pr.set h (pr.getD c 0)⟩
          (show t ≤ fuel + c by omega) (show 1 ≤ c by omega)
          (show t < (d.set h (d.getD c 0)).length by rw [List.length_set]; exact hcap)
          (show (d.set h (d.getD c 0)).length = (pr.set h (pr.getD c 0)).length by
            rw [List.length_set, List.length_set]; exact hlen)
          (by rw [prioAt_set_ne _ _ _ _ _ _ _ (show t ≠ h by omega)]; exact hpx)
        simp only at r1 r2 r3 r4 r5 r6 r7 r8 r9
        refine ⟨r1, by simpa using r2, by simpa using r3, by omega, ?_, ?_, ?_, ?_, ?_⟩
        · rcases r5 with r5 | r5
          · exact Or.inl r5
          · exact Or.inl (by rw [r5]; exact hct)
        · rw [r6]
          exact holeSum_move t d pr h c h1 (by omega) (by omega) hct hch hdl hpl
        · rw [r7]
          exact cell_set_ne _ _ _ _ _ _ _ (by omega)
        · rw [r8]
          exact cell_set_ne _ _ _ _ _ _ _ (by omega)
        · intro hdn
          apply r9
          obtain ⟨u1, u2, u3⟩ := hdn
          simp only at u1 u2 u3
          have hpc : prioAt ⟨t, d, pr⟩ c = pr.getD c 0 := rfl
          refine ⟨?_, ?_, ?_⟩
          · intro k hk2 hkt hkc hk2c
            simp only at hkt
            have hk2ne : k / 2 ≠ k := by omega
            by_cases hkh : k = h
            · subst hkh
              rw [prioAt_set_eq _ _ _ _ _ _ hpl, prioAt_set_ne _ _ _ _ _ _ _ hk2ne, ← hpc]
              exact u3 c (by omega) hct (by omega) hk2
            · rw [prioAt_set_ne _ _ _ _ _ _ _ hkh]
              by_cases hk2h : k / 2 = h
              · rw [hk2h, prioAt_set_eq _ _ _ _ _ _ hpl]
                have : k = 2 * h ∨ k = 2 * h + 1 := by omega
                simp only [prioAt]
                rcases this with rfl | rfl
                · exact hcmax.1
                · exact hcmax.2
              · rw [prioAt_set_ne _ _ _ _ _ _ _ hk2h]
                exact u1 k hk2 hkt hkh hk2h
          · intro _
            have : c / 2 = h := by omega
            rw [this, prioAt_set_eq _ _ _ _ _ _ hpl]
            simp only [prioAt] at hpx
            omega
          · intro k hk2 hkt hk2c _
            simp only at hkt
            have hkh : k ≠ h := by omega
            have : c / 2 = h := by omega
            rw [this, prioAt_set_eq _ _ _ _ _ _ hpl, prioAt_set_ne _ _ _ _ _ _ _ hkh, ← hpc, ← hk2c]
            exact u1 k hk2 hkt hkh (by omega)

/-- In a heap the item of slot 1 has the largest priority. -/
theorem heap_max (q : PriorityQueue) (ho : HeapOrd q) :
    ∀ k, 1 ≤ k → k < q.top → prioAt q k ≤ prioAt q 1 := by
  intro k
  induction k using Nat.strong_induction_on with
  | _ k ih =>
    intro h1 hk
    by_cases hk1 : k = 1
    · rw [hk1]
    · have h2 : 2 ≤ k := by omega
      exact le_trans (ho k h2 hk) (ih (k / 2) (by omega) (by omega) (by omega))

theorem contents_prio_le (q : PriorityQueue) (ho : HeapOrd q) (x : Nat × Int)
    (hx : x ∈ contents q) : x.2 ≤ prioAt q 1 := by
  unfold contents at hx
  rw [Multiset.mem_sum] at hx
  obtain ⟨k, hk, hxk⟩ := hx
  rw [Multiset.mem_singleton] at hxk
  rw [Finset.mem_Ico] at hk
  rw [hxk]
  exact heap_max q ho k hk.1 hk.2

/-- `getPrio` on a non-empty queue removes the item of slot 1, leaves its priority in
slot 0 and keeps the heap rule. -/
theorem getPrio_spec (q : PriorityQueue) (hw : PQWf q) (ht : 1 < q.top) :
    (getPrio q).1 = ((cell q 1).1 : Int) ∧
    (getPrio q).2.top = q.top - 1 ∧
    (getPrio q).2.data.length = q.data.length ∧
    (getPrio q).2.priority.length = q.priority.length ∧
    cell (getPrio q).2 0 = cell q 1 ∧
    contents q = {cell q 1} + contents (getPrio q).2 ∧
    (HeapOrd q → HeapOrd (getPrio q).2) := by
  obtain ⟨t, d, pr⟩ := q
  obtain ⟨w1, w2, w3⟩ := hw
  simp only at w1 w2 w3 ht
  obtain ⟨t, rfl⟩ : ∃ t', t = t' + 1 := ⟨t - 1, by omega⟩
  have hnot : ¬ (t + 1 ≤ 1) := by omega
  unfold getPrio
  simp only [hnot, ↓reduceIte, Nat.add_sub_cancel]
  obtain ⟨r1, r2, r3, r4, r5, r6, r7, r8, r9⟩ := getPrioLoop_spec
    (prioAt ⟨t, d.set 0 (d.getD 1 0), pr.set 0 (pr.getD 1 0)⟩ t) t 1
    ⟨t, d.set 0 (d.getD 1 0), pr.set 0 (pr.getD 1 0)⟩ (by simp only; omega) (le_refl _)
    (by simp only [List.length_set]; omega) (by simpa using w3) rfl
  generalize getPrioLoop t 1 ⟨t, d.set 0 (d.getD 1 0), pr.set 0 (pr.getD 1 0)⟩ = r
    at r1 r2 r3 r4 r5 r6 r7 r8 r9
  obtain ⟨h, ⟨t', d', pr'⟩⟩ := r
  simp only at r1 r2 r3 r4 r5 r6 r7 r8 r9 ⊢
  subst r1
  simp only [List.length_set] at r2 r3
  have hd0 : 0 < d.length := by omega
  have hp0 : 0 < pr.length := by omega
  have hcell0 : cell ⟨t', d.set 0 (d.getD 1 0), pr.set 0 (pr.getD 1 0)⟩ 0 = (d.getD 1 0, pr.getD 1 0) :=
    cell_set_eq _ _ _ _ _ _ hd0 hp0
  have hcellk : ∀ k, k ≠ 0 → cell ⟨t', d.set 0 (d.getD 1 0), pr.set 0 (pr.getD 1 0)⟩ k
      = cell ⟨t' + 1, d, pr⟩ k := by
    intro k hk
    rw [cell_set_ne _ _ _ _ _ _ _ hk]
    rfl
  have hprk : ∀ k, k ≠ 0 → prioAt ⟨t', d.set 0 (d.getD 1 0), pr.set 0 (pr.getD 1 0)⟩ k
      = prioAt ⟨t' + 1, d, pr⟩ k := by
    intro k hk
    rw [prioAt_set_ne _ _ _ _ _ _ _ hk]
    rfl
  refine ⟨rfl, rfl, by simpa using r2, by simpa using r3, ?_, ?_, ?_⟩
  · by_cases hh : h = 0
    · omega
    · rw [cell_set_ne _ _ _ _ _ _ _ (Ne.symm hh), r7, hcell0]
      rfl
  · by_cases ht1 : t' = 1
    · subst ht1
      have e1 : contents ⟨1 + 1, d, pr⟩ = {cell ⟨1 + 1, d, pr⟩ 1} := by
        unfold contents
        simp
      have e2 : ∀ (a : List Nat) (b : List Int), contents ⟨1, a, b⟩ = 0 := by
        intro a b
        unfold contents
        simp
      rw [e1, e2]
      simp
    · have hlt : h < t' := by
        rcases r5 with r5 | r5
        · exact r5
        · omega
      rw [contents_fill _ _ _ _ _ _ r4 hlt (by omega) (by omega), r6]
      have e1 : contents ⟨t' + 1, d, pr⟩
          = {cell ⟨t' + 1, d, pr⟩ t'} + ({cell ⟨t' + 1, d, pr⟩ 1}
            + holeSum ⟨t', d.set 0 (d.getD 1 0), pr.set 0 (pr.getD 1 0)⟩ 1) := by
        unfold contents holeSum
        rw [Finset.sum_Ico_succ_top (by omega), add_comm]
        congr 1
        have hmem : 1 ∈ Finset.Ico 1 t' := by simp; omega
        rw [← Finset.add_sum_erase _ _ hmem]
        congr 1
        apply Finset.sum_congr rfl
        intro k hk
        simp only [Finset.mem_erase, Finset.mem_Ico] at hk
        rw [hcellk k (by omega)]
      rw [e1]
      have e2 : (d'.getD t' 0, pr'.getD t' 0) = cell ⟨t' + 1, d, pr⟩ t' := by
        have := r8
        rw [hcellk t' (by omega)] at this
        exact this
      rw [e2]
      abel
  · intro ho
    have hdn : HoleDown ⟨t', d.set 0 (d.getD 1 0), pr.set 0 (pr.getD 1 0)⟩ 1
        (prioAt ⟨t', d.set 0 (d.getD 1 0), pr.set 0 (pr.getD 1 0)⟩ t') := by
      refine ⟨?_, by omega, by omega⟩
      intro k hk2 hkt _ _
      simp only at hkt
      rw [hprk k (by omega), hprk (k / 2) (by omega)]
      exact ho k hk2 (by simp only; omega)
    obtain ⟨⟨v1, v2, v3⟩, v4⟩ := r9 hdn
    simp only at v1 v2 v3 v4
    have hpxeq : pr'.getD t' 0 = prioAt ⟨t', d.set 0 (d.getD 1 0), pr.set 0 (pr.getD 1 0)⟩ t' := by
      have := congrArg Prod.snd r8
      exact this
    intro k hk2 hkt
    simp only at hkt
    have hpl : h < pr'.length := by
      rcases r5 with r5 | r5 <;> omega
    by_cases hkh : k = h
    · have hne : k / 2 ≠ h := by omega
      rw [hkh] at hne hk2 ⊢
      rw [prioAt_set_eq _ _ _ _ _ _ hpl, prioAt_set_ne _ _ _ _ _ _ _ hne, hpxeq]
      exact v2 hk2
    · rw [prioAt_set_ne _ _ _ _ _ _ _ hkh]
      by_cases hk2h : k / 2 = h
      · rw [hk2h, prioAt_set_eq _ _ _ _ _ _ hpl, hpxeq]
        exact v4 k hk2 hkt hk2h
      · rw [prioAt_set_ne _ _ _ _ _ _ _ hk2h]
        exact v1 k hk2 hkt hkh hk2h

end Comp


namespace Comp

/-! ## The merge loop of `generateLength`: general facts -/

/-- An integer of the 32-bit range is stored as it is. -/
theorem toInt32_eq (x : Int) (h1 : -2 ^ 31 ≤ x) (h2 : x < 2 ^ 31) : toInt32 x = x := by
  unfold toInt32
  omega

theorem mergeLoop_succ (fuel : Nat) (q : PriorityQueue) (parent : List Nat) (i : Nat) :
    mergeLoop (fuel + 1) q parent i
      = if q.top > 2 then
          mergeLoop fuel (mergeStep (q, parent, i)).1 (mergeStep (q, parent, i)).2.1
            (mergeStep (q, parent, i)).2.2
        else (q, parent, i) := rfl

/-- What one iteration of the merge loop does, in terms of the items of the queue. -/
theorem mergeStep_facts (s : MergeState) (hw : PQWf s.1) (ht : 2 < s.1.top)
    (hcap : s.1.top ≤ s.1.data.length) :
    ∃ (c1 c2 : Nat) (p1 p2 : Int) (q2 : PriorityQueue),
      mergeStep s = (putPrio s.2.2 (toInt32 (toInt32 (p1 + p2) - 1)) q2, (s.2.1.set c1 s.2.2).set c2 s.2.2, s.2.2 + 1) ∧
      contents s.1 = {(c1, p1)} + ({(c2, p2)} + contents q2) ∧
      contents (putPrio s.2.2 (toInt32 (toInt32 (p1 + p2) - 1)) q2) = {(s.2.2, toInt32 (toInt32 (p1 + p2) - 1))} + contents q2 ∧
      (putPrio s.2.2 (toInt32 (toInt32 (p1 + p2) - 1)) q2).top = s.1.top - 1 ∧
      (putPrio s.2.2 (toInt32 (toInt32 (p1 + p2) - 1)) q2).data.length = s.1.data.length ∧
      PQWf (putPrio s.2.2 (toInt32 (toInt32 (p1 + p2) - 1)) q2) ∧
      (HeapOrd s.1 → HeapOrd (putPrio s.2.2 (toInt32 (toInt32 (p1 + p2) - 1)) q2) ∧
        (∀ x ∈ contents s.1, x.2 ≤ p1) ∧ (∀ x ∈ contents q2, x.2 ≤ p2) ∧ p2 ≤ p1) := by
  obtain ⟨q, parent, i⟩ := s
  simp only at hw ht hcap ⊢
  obtain ⟨a1, a2, a3, a4, a5, a6, a7⟩ := getPrio_spec q hw (by omega)
  have hw1 : PQWf (getPrio q).2 := ⟨by omega, by omega, by rw [a3, a4]; exact hw.2.2⟩
  obtain ⟨b1, b2, b3, b4, b5, b6, b7⟩ := getPrio_spec (getPrio q).2 hw1 (by omega)
  have hw2 : PQWf (getPrio (getPrio q).2).2 := ⟨by omega, by omega, by rw [b3, b4]; exact hw1.2.2⟩
  obtain ⟨e1, e2, e3, e4, e5, e6⟩ := putPrio_spec i
    (toInt32 (toInt32 ((cell q 1).2 + (cell (getPrio q).2 1).2) - 1))
    (getPrio (getPrio q).2).2 hw2 (by omega)
  refine ⟨(cell q 1).1, (cell (getPrio q).2 1).1, (cell q 1).2, (cell (getPrio q).2 1).2,
    (getPrio (getPrio q).2).2, ?_, ?_, e4, by omega, by omega, ⟨by omega, by omega, by
      rw [e2, e3]; exact hw2.2.2⟩, ?_⟩
  · unfold mergeStep
    simp only
    rw [a1, b1, Int.toNat_ofNat, Int.toNat_ofNat]
    have f1 : (getPrio q).2.priority.getD 0 0 = (cell q 1).2 := by
      have := congrArg Prod.snd a5
      exact this
    have f2 : (getPrio (getPrio q).2).2.priority.getD 0 0 = (cell (getPrio q).2 1).2 := by
      have := congrArg Prod.snd b5
      exact this
    rw [f1, f2]
  · rw [a6, b6]
  · intro ho
    have ho1 := a7 ho
    have ho2 := b7 ho1
    refine ⟨e6 ho2, fun x hx => contents_prio_le q ho x hx, ?_, ?_⟩
    · intro x hx
      apply contents_prio_le _ ho1 x
      rw [b6]
      exact Multiset.mem_add.mpr (Or.inr hx)
    · have : (cell (getPrio q).2 1) ∈ contents q := by
        rw [a6, b6]
        simp
      exact contents_prio_le q ho _ this

/-- Invariant rule for the merge loop. -/
theorem mergeLoop_induct (P : MergeState → Prop)
    (hstep : ∀ s, P s → 2 < s.1.top → P (mergeStep s)) (fuel : Nat) :
    ∀ s : MergeState, P s → P (mergeLoop fuel s.1 s.2.1 s.2.2) := by
  induction fuel with
  | zero => intro s hs; exact hs
  | succ fuel ih =>
    intro s hs
    rw [mergeLoop_succ]
    by_cases ht : s.1.top > 2
    · rw [if_pos ht]
      exact ih (mergeStep s) (hstep s hs ht)
    · rw [if_neg ht]
      exact hs

/-- The merge loop stops with `top ≤ 2` when it has enough fuel. -/
theorem mergeLoop_exit (P : MergeState → Prop)
    (hstep : ∀ s, P s → 2 < s.1.top → P (mergeStep s) ∧ (mergeStep s).1.top < s.1.top)
    (fuel : Nat) : ∀ s : MergeState, P s → s.1.top ≤ fuel + 2 →
      (mergeLoop fuel s.1 s.2.1 s.2.2).1.top ≤ 2 := by
  induction fuel with
  | zero => intro s _ ht; exact ht
  | succ fuel ih =>
    intro s hs hf
    rw [mergeLoop_succ]
    by_cases ht : s.1.top > 2
    · rw [if_pos ht]
      obtain ⟨h1, h2⟩ := hstep s hs ht
      exact ih (mergeStep s) h1 (by omega)
    · rw [if_neg ht]
      simp only
      omega

end Comp


namespace Comp

/-! ## The structural invariant of the merge loop -/

theorem initPrio_spec (n : Nat) :
    PQWf (initPrio n) ∧ (initPrio n).top = 1 ∧ (initPrio n).data.length = n + 2 ∧
    contents (initPrio n) = 0 ∧ HeapOrd (initPrio n) := by
  refine ⟨⟨by simp [initPrio], by simp [initPrio], by simp [initPrio]⟩, rfl, by simp [initPrio],
    by simp [contents, initPrio], ?_⟩
  intro k hk2 hkt
  simp only [initPrio] at hkt
  omega

/-- Filling a fresh queue with the indices below `m`, index `i` with priority `g i`. -/
theorem fill_spec (g : Nat → Int) (N : Nat) : ∀ m, m ≤ N →
    PQWf ((List.range m).foldl (fun prio i => putPrio i (g i) prio) (initPrio N)) ∧
    ((List.range m).foldl (fun prio i => putPrio i (g i) prio) (initPrio N)).top = m + 1 ∧
    ((List.range m).foldl (fun prio i => putPrio i (g i) prio) (initPrio N)).data.length = N + 2 ∧
    contents ((List.range m).foldl (fun prio i => putPrio i (g i) prio) (initPrio N))
      = (Multiset.range m).map (fun i => (i, g i)) ∧
    HeapOrd ((List.range m).foldl (fun prio i => putPrio i (g i) prio) (initPrio N)) := by
  intro m
  induction m with
  | zero =>
    intro _
    obtain ⟨h1, h2, h3, h4, h5⟩ := initPrio_spec N
    exact ⟨h1, h2, h3, by simpa using h4, h5⟩
  | succ m ih =>
    intro hm
    obtain ⟨h1, h2, h3, h4, h5⟩ := ih (by omega)
    rw [List.range_succ, List.foldl_append]
    simp only [List.foldl_cons, List.foldl_nil]
    obtain ⟨e1, e2, e3, e4, _, e6⟩ := putPrio_spec m (g m) _ h1 (by omega)
    refine ⟨⟨by omega, by omega, by rw [e2, e3]; exact h1.2.2⟩, by omega, by omega, ?_, e6 h5⟩
    rw [e4, h4, Multiset.range_succ, Multiset.map_cons]
    rfl

theorem getD_set_set (l : List Nat) (c1 c2 i c : Nat) (h1 : c1 < l.length) (h2 : c2 < l.length) :
    ((l.set c1 i).set c2 i).getD c 0 = if c = c1 ∨ c = c2 then i else l.getD c 0 := by
  by_cases hc2 : c = c2
  · subst hc2
    rw [getD_set_eq _ _ _ _ (by rw [List.length_set]; exact h2)]
    simp
  · rw [getD_set_ne _ _ _ _ _ hc2]
    by_cases hc1 : c = c1
    · subst hc1
      rw [getD_set_eq _ _ _ _ h1]
      simp
    · rw [getD_set_ne _ _ _ _ _ hc1]
      simp [hc1, hc2]

theorem MInv_init (freq : List Int) (nbr : Nat) (hn : 1 ≤ nbr) :
    MInv nbr (lengthFill freq nbr, List.replicate (2 * nbr) 0, nbr) := by
  obtain ⟨h1, h2, h3, h4, _⟩ := fill_spec (fun i => toInt32 (- freq.getD i 0)) (2 * nbr) nbr (by omega)
  have hl : live (lengthFill freq nbr) = Multiset.range nbr := by
    unfold live lengthFill
    rw [h4, Multiset.map_map]
    simp
  unfold MInv
  simp only
  rw [hl]
  refine ⟨h1, h3, by unfold lengthFill; omega, by unfold lengthFill; omega, le_refl _,
    Multiset.nodup_range nbr, fun c hc => by simpa using hc, by simp; omega, by simp, ?_, ?_, ?_⟩
  · intro c hc hnc
    exact absurd (by simpa using hc) hnc
  · intro c _
    simp only [List.getD_eq_getElem?_getD, List.getElem?_replicate]
    split <;> rfl
  · intro k hk1 hk2
    omega

theorem MInv_step (nbr : Nat) (hn : 1 ≤ nbr) (s : MergeState) (h : MInv nbr s) (ht : 2 < s.1.top) :
    MInv nbr (mergeStep s) ∧ (mergeStep s).1.top < s.1.top := by
  obtain ⟨m1, m2, m3, m4, m5, m6, m7, m8, m9, m10, m11, m12⟩ := h
  obtain ⟨c1, c2, p1, p2, q2, f1, f2, f3, f4, f5, f6, _⟩ := mergeStep_facts s m1 ht m1.2.1
  obtain ⟨q, parent, i⟩ := s
  simp only at m1 m2 m3 m4 m5 m6 m7 m8 m9 m10 m11 m12 ht f1 f2 f3 f4 f5 f6
  have hl : live q = c1 ::ₘ c2 ::ₘ live q2 := by
    unfold live
    rw [f2, Multiset.map_add, Multiset.map_add, Multiset.map_singleton, Multiset.map_singleton,
      Multiset.singleton_add, Multiset.singleton_add]
  have hl' : live (putPrio i (toInt32 (toInt32 (p1 + p2) - 1)) q2) = i ::ₘ live q2 := by
    unfold live
    rw [f3, Multiset.map_add, Multiset.map_singleton, Multiset.singleton_add]
  rw [hl] at m6 m7 m8 m10 m11
  rw [Multiset.nodup_cons, Multiset.nodup_cons, Multiset.mem_cons] at m6
  obtain ⟨n1, n2, n3⟩ := m6
  have hc1 : c1 < i := m7 c1 (by simp)
  have hc2 : c2 < i := m7 c2 (by simp)
  have hne : c1 ≠ c2 := fun e => n1 (Or.inl e)
  have hc1n : c1 ∉ live q2 := fun e => n1 (Or.inr e)
  have hi : i ∉ live q2 := fun e => by
    have := m7 i (by simp [e])
    omega
  have hP : ∀ c, ((parent.set c1 i).set c2 i).getD c 0
      = if c = c1 ∨ c = c2 then i else parent.getD c 0 :=
    fun c => getD_set_set parent c1 c2 i c (by omega) (by omega)
  rw [f1]
  refine ⟨?_, by simp only; omega⟩
  unfold MInv
  simp only
  rw [hl']
  refine ⟨f6, by omega, by omega, by omega, by omega, ?_, ?_, by simp, by simpa using m9,
    ?_, ?_, ?_⟩
  · rw [Multiset.nodup_cons]
    exact ⟨hi, n3⟩
  · intro c hc
    rw [Multiset.mem_cons] at hc
    rcases hc with hc | hc
    · omega
    · have := m7 c (by simp [hc])
      omega
  · intro c hc hnc
    rw [Multiset.mem_cons, not_or] at hnc
    rw [hP]
    by_cases hcc : c = c1 ∨ c = c2
    · rw [if_pos hcc]
      rcases hcc with rfl | rfl <;> omega
    · rw [if_neg hcc]
      rw [not_or] at hcc
      have := m10 c (by omega) (by simp [hcc.1, hcc.2, hnc.2])
      omega
  · intro c hc
    rw [hP]
    have hcc : ¬ (c = c1 ∨ c = c2) := by
      rw [Multiset.mem_cons] at hc
      intro hcc
      rcases hcc with e | e
      · rcases hc with (hc | hc) | hc
        · omega
        · exact hc1n (e ▸ hc)
        · omega
      · rcases hc with (hc | hc) | hc
        · omega
        · exact n2 (e ▸ hc)
        · omega
    rw [if_neg hcc]
    apply m11
    rw [Multiset.mem_cons] at hc
    rcases hc with (hc | hc) | hc
    · exact Or.inr (by omega)
    · exact Or.inl (by simp [hc])
    · exact Or.inr (by omega)
  · intro k hk1 hk2
    by_cases hki : k = i
    · subst hki
      have : (Finset.range (2 * nbr)).filter (fun c => ((parent.set c1 k).set c2 k).getD c 0 = k)
          = {c1, c2} := by
        ext c
        simp only [Finset.mem_filter, Finset.mem_range, Finset.mem_insert, Finset.mem_singleton, hP]
        constructor
        · rintro ⟨hc, he⟩
          by_contra hcc
          rw [if_neg hcc] at he
          by_cases hlive : c ∈ c1 ::ₘ c2 ::ₘ live q2 ∨ k ≤ c
          · have := m11 c hlive
            omega
          · rw [not_or] at hlive
            have := m10 c (by omega) hlive.1
            omega
        · intro hcc
          rw [if_pos hcc]
          rcases hcc with rfl | rfl <;> exact ⟨by omega, rfl⟩
      rw [this, Finset.card_pair hne]
    · refine Eq.trans (congrArg Finset.card ?_) (m12 k hk1 (by omega))
      apply Finset.filter_congr
      intro c _
      rw [hP]
      by_cases hcc : c = c1 ∨ c = c2
      · rw [if_pos hcc]
        have : parent.getD c 0 = 0 := by
          apply m11
          rcases hcc with rfl | rfl
          · exact Or.inl (by simp)
          · exact Or.inl (by simp)
        rw [this]
        constructor <;> intro <;> omega
      · rw [if_neg hcc]

end Comp


namespace Comp

/-! ## The tree built by `generateLength` -/

theorem contents_card (q : PriorityQueue) : Multiset.card (contents q) = q.top - 1 := by
  unfold contents
  rw [map_sum]
  simp

/-- The state of `generateLength` at the end of the merge loop. -/
theorem mergeLoop_final (freq : List Int) (nbr : Nat) (hn : 1 ≤ nbr) :
    MInv nbr (mergeLoop (nbr + 1) (lengthFill freq nbr) (List.replicate (2 * nbr) 0) nbr) ∧
    (mergeLoop (nbr + 1) (lengthFill freq nbr) (List.replicate (2 * nbr) 0) nbr).1.top = 2 ∧
    (mergeLoop (nbr + 1) (lengthFill freq nbr) (List.replicate (2 * nbr) 0) nbr).2.2 = 2 * nbr - 1 := by
  have h0 := MInv_init freq nbr hn
  have h1 := mergeLoop_induct (MInv nbr) (fun s hs ht => (MInv_step nbr hn s hs ht).1) (nbr + 1)
    (lengthFill freq nbr, List.replicate (2 * nbr) 0, nbr) h0
  have h2 := mergeLoop_exit (MInv nbr) (fun s hs ht => MInv_step nbr hn s hs ht) (nbr + 1)
    (lengthFill freq nbr, List.replicate (2 * nbr) 0, nbr) h0 (by
      have := h0.2.2.1
      simp only at this ⊢
      omega)
  simp only at h1 h2
  refine ⟨h1, ?_, ?_⟩
  · have := h1.2.2.2.1
    omega
  · have := h1.2.2.1
    have := h1.2.2.2.1
    omega

/-- The parent pointers at the end of the merge loop form a binary tree on the nodes
`0 .. 2*nbr-2` with root `2*nbr-2`. -/
theorem finalParent_spec (freq : List Int) (nbr : Nat) (hn : 1 ≤ nbr) :
    (finalParent freq nbr).length = 2 * nbr ∧
    (∀ c, c < 2 * nbr - 2 → c < (finalParent freq nbr).getD c 0 ∧
      nbr ≤ (finalParent freq nbr).getD c 0 ∧ (finalParent freq nbr).getD c 0 ≤ 2 * nbr - 2) ∧
    (∀ c, 2 * nbr - 2 ≤ c → (finalParent freq nbr).getD c 0 = 0) ∧
    (∀ k, nbr ≤ k → k ≤ 2 * nbr - 2 →
      ((Finset.range (2 * nbr)).filter (fun c => (finalParent freq nbr).getD c 0 = k)).card = 2) := by
  obtain ⟨hm, ht, hi⟩ := mergeLoop_final freq nbr hn
  unfold finalParent
  generalize mergeLoop (nbr + 1) (lengthFill freq nbr) (List.replicate (2 * nbr) 0) nbr = s
    at hm ht hi
  obtain ⟨q, parent, i⟩ := s
  obtain ⟨m1, m2, m3, m4, m5, m6, m7, m8, m9, m10, m11, m12⟩ := hm
  simp only at m1 m2 m3 m4 m5 m6 m7 m8 m9 m10 m11 m12 ht hi ⊢
  subst hi
  have hcard : Multiset.card (live q) = 1 := by
    unfold live
    rw [Multiset.card_map, contents_card, ht]
  obtain ⟨r, hr⟩ := Multiset.card_eq_one.mp hcard
  rw [hr] at m7 m8 m10 m11
  have hroot : r = 2 * nbr - 1 - 1 := by
    have := m8
    rw [Multiset.mem_singleton] at this
    exact this.symm
  refine ⟨m9, ?_, ?_, ?_⟩
  · intro c hc
    have := m10 c (by omega) (by rw [Multiset.mem_singleton]; omega)
    omega
  · intro c hc
    apply m11
    by_cases h : c = r
    · exact Or.inl (by rw [h]; exact Multiset.mem_singleton_self r)
    · exact Or.inr (by omega)
  · intro k hk1 hk2
    exact m12 k hk1 (by omega)

/-- The loop that turns parent pointers into depths. -/
theorem depthLoop_spec : ∀ (n : Nat) (P : List Nat), n ≤ P.length →
    (∀ c, c < n → c < P.getD c 0) →
    (depthLoop n P).length = P.length ∧
    (∀ c, n ≤ c → (depthLoop n P).getD c 0 = P.getD c 0) ∧
    (∀ c, c < n → (depthLoop n P).getD c 0 = (depthLoop n P).getD (P.getD c 0) 0 + 1) := by
  intro n
  induction n with
  | zero =>
    intro P _ _
    exact ⟨rfl, fun c _ => rfl, fun c hc => absurd hc (by omega)⟩
  | succ n ih =>
    intro P hlen hP
    rw [depthLoop]
    have hlt : n < P.length := by omega
    obtain ⟨r1, r2, r3⟩ := ih (P.set n (P.getD (P.getD n 0) 0 + 1))
      (by rw [List.length_set]; omega)
      (fun c hc => by rw [getD_set_ne _ _ _ _ _ (by omega)]; exact hP c (by omega))
    refine ⟨by rw [r1, List.length_set], ?_, ?_⟩
    · intro c hc
      rw [r2 c (by omega), getD_set_ne _ _ _ _ _ (by omega)]
    · intro c hc
      by_cases hcn : c = n
      · subst hcn
        have hpc := hP c (by omega)
        rw [r2 c (le_refl _), getD_set_eq _ _ _ _ hlt, r2 _ (by omega),
          getD_set_ne _ _ _ _ _ (by omega)]
      · have := r3 c (by omega)
        rw [getD_set_ne _ _ _ _ _ hcn] at this
        exact this

/-- The depths computed by `generateLength`: the root has depth 0 and every other node
is one level below its parent. -/
theorem finalDepth_spec (freq : List Int) (nbr : Nat) (hn : 1 ≤ nbr) :
    (finalDepth freq nbr).getD (2 * nbr - 2) 0 = 0 ∧
    (∀ c, c < 2 * nbr - 2 → (finalDepth freq nbr).getD c 0
      = (finalDepth freq nbr).getD ((finalParent freq nbr).getD c 0) 0 + 1) := by
  obtain ⟨p1, p2, p3, _⟩ := finalParent_spec freq nbr hn
  have hset : (finalParent freq nbr).set (2 * nbr - 2) 0 = finalParent freq nbr := by
    apply List.ext_getElem (by simp)
    intro k h1 h2
    rw [List.getElem_set]
    split
    · next h =>
      subst h
      have := p3 (2 * nbr - 2) (le_refl _)
      rw [List.getD_eq_getElem _ _ h2] at this
      exact this.symm
    · rfl
  unfold finalDepth
  rw [hset]
  obtain ⟨r1, r2, r3⟩ := depthLoop_spec (2 * nbr - 2) (finalParent freq nbr) (by omega)
    (fun c hc => (p2 c hc).1)
  exact ⟨by rw [r2 _ (le_refl _)]; exact p3 _ (le_refl _), r3⟩

theorem generateLength_eq (freq : List Int) (nbr : Nat) (hn : 1 ≤ nbr) :
    generateLength freq nbr
      = (List.range nbr).map (fun k => (((finalDepth freq nbr).getD k 0 : Nat) : Int)) := by
  obtain ⟨_, _, hi⟩ := mergeLoop_final freq nbr hn
  unfold generateLength finalDepth finalParent
  simp only [hi]
  have : 2 * nbr - 1 - 1 = 2 * nbr - 2 := by omega
  rw [this]

theorem generateLength_length (freq : List Int) (nbr : Nat) :
    (generateLength freq nbr).length = nbr := by
  unfold generateLength
  simp

theorem generateLength_getD (freq : List Int) (nbr : Nat) (hn : 1 ≤ nbr) (c : Nat) (hc : c < nbr) :
    (generateLength freq nbr).getD c 0 = (((finalDepth freq nbr).getD c 0 : Nat) : Int) := by
  rw [generateLength_eq freq nbr hn, List.getD_eq_getElem?_getD, List.getElem?_map,
    List.getElem?_range hc]
  rfl

/-- The sum over the nodes below `k` whose parent is not below `k`. -/
theorem frontier_sum (freq : List Int) (nbr : Nat) (hn : 2 ≤ nbr) :
    ∀ d k, k + d = 2 * nbr - 2 → nbr ≤ k →
    ∑ c ∈ (Finset.range k).filter (fun c => k ≤ (finalParent freq nbr).getD c 0),
      (1 / 2 : ℚ) ^ ((finalDepth freq nbr).getD c 0) = 1 := by
  obtain ⟨p1, p2, p3, p4⟩ := finalParent_spec freq nbr (by omega)
  obtain ⟨d0, d1⟩ := finalDepth_spec freq nbr (by omega)
  -- the children of a composite node `k` carry together the weight of `k`
  have hchildren : ∀ k, nbr ≤ k → k ≤ 2 * nbr - 2 →
      ∑ c ∈ (Finset.range (2 * nbr)).filter (fun c => (finalParent freq nbr).getD c 0 = k),
        (1 / 2 : ℚ) ^ ((finalDepth freq nbr).getD c 0)
      = (1 / 2 : ℚ) ^ ((finalDepth freq nbr).getD k 0) := by
    intro k hk1 hk2
    have hconst : ∀ c ∈ (Finset.range (2 * nbr)).filter
        (fun c => (finalParent freq nbr).getD c 0 = k),
        (1 / 2 : ℚ) ^ ((finalDepth freq nbr).getD c 0)
          = (1 / 2 : ℚ) ^ ((finalDepth freq nbr).getD k 0 + 1) := by
      intro c hc
      rw [Finset.mem_filter, Finset.mem_range] at hc
      have hlt : c < 2 * nbr - 2 := by
        by_contra hge
        have := p3 c (by omega)
        omega
      rw [d1 c hlt, hc.2]
    rw [Finset.sum_congr rfl hconst, Finset.sum_const, p4 k hk1 hk2]
    rw [pow_succ, nsmul_eq_mul]
    push_cast
    ring
  intro d
  induction d with
  | zero =>
    intro k hk hnk
    have hk' : k = 2 * nbr - 2 := by omega
    have hset : (Finset.range k).filter (fun c => k ≤ (finalParent freq nbr).getD c 0)
        = (Finset.range (2 * nbr)).filter (fun c => (finalParent freq nbr).getD c 0 = k) := by
      ext c
      simp only [Finset.mem_filter, Finset.mem_range]
      constructor
      · rintro ⟨h1, h2⟩
        have := p2 c (by omega)
        exact ⟨by omega, by omega⟩
      · rintro ⟨h1, h2⟩
        have hlt : c < 2 * nbr - 2 := by
          by_contra hge
          have := p3 c (by omega)
          omega
        exact ⟨by omega, by omega⟩
    rw [hset, hchildren k hnk (by omega), hk', d0]
    simp
  | succ d ih =>
    intro k hk hnk
    have hA := ih (k + 1) (by omega) (by omega)
    have hkA : k ∈ (Finset.range (k + 1)).filter
        (fun c => k + 1 ≤ (finalParent freq nbr).getD c 0) := by
      rw [Finset.mem_filter, Finset.mem_range]
      have := p2 k (by omega)
      exact ⟨by omega, by omega⟩
    rw [← Finset.sum_erase_add _ _ hkA] at hA
    rw [← Finset.sum_filter_add_sum_filter_not _ (fun c => (finalParent freq nbr).getD c 0 = k)]
    have e1 : ((Finset.range k).filter (fun c => k ≤ (finalParent freq nbr).getD c 0)).filter
        (fun c => (finalParent freq nbr).getD c 0 = k)
        = (Finset.range (2 * nbr)).filter (fun c => (finalParent freq nbr).getD c 0 = k) := by
      ext c
      simp only [Finset.mem_filter, Finset.mem_range]
      constructor
      · rintro ⟨⟨h1, _⟩, h3⟩
        exact ⟨by omega, h3⟩
      · rintro ⟨h1, h2⟩
        have hlt : c < 2 * nbr - 2 := by
          by_contra hge
          have := p3 c (by omega)
          omega
        have := p2 c hlt
        exact ⟨⟨by omega, by omega⟩, h2⟩
    have e2 : ((Finset.range k).filter (fun c => k ≤ (finalParent freq nbr).getD c 0)).filter
        (fun c => ¬ (finalParent freq nbr).getD c 0 = k)
        = ((Finset.range (k + 1)).filter
            (fun c => k + 1 ≤ (finalParent freq nbr).getD c 0)).erase k := by
      ext c
      simp only [Finset.mem_filter, Finset.mem_range, Finset.mem_erase]
      constructor
      · rintro ⟨⟨h1, h2⟩, h3⟩
        exact ⟨by omega, by omega, by omega⟩
      · rintro ⟨h1, h2, h3⟩
        exact ⟨⟨by omega, by omega⟩, by omega⟩
    rw [e1, e2, hchildren k hnk (by omega), add_comm]
    exact hA

/-- Kraft equality: the depths of the `nbr` leaves of the tree built by
`generateLength` satisfy `∑ 2 ^ (-depth) = 1`. -/
theorem finalDepth_kraft (freq : List Int) (nbr : Nat) (hn : 2 ≤ nbr) :
    ∑ c ∈ Finset.range nbr, (1 / 2 : ℚ) ^ ((finalDepth freq nbr).getD c 0) = 1 := by
  have h := frontier_sum freq nbr hn (nbr - 2) nbr (by omega) (le_refl _)
  obtain ⟨_, p2, _, _⟩ := finalParent_spec freq nbr (by omega)
  rw [Finset.filter_true_of_mem] at h
  · exact h
  · intro c hc
    rw [Finset.mem_range] at hc
    exact (p2 c (by omega)).2.1

/-- Every leaf of the tree built by `generateLength` has depth at least 1. -/
theorem finalDepth_pos (freq : List Int) (nbr : Nat) (hn : 2 ≤ nbr) (c : Nat) (hc : c < nbr) :
    1 ≤ (finalDepth freq nbr).getD c 0 := by
  obtain ⟨_, d1⟩ := finalDepth_spec freq nbr (by omega)
  rw [d1 c (by omega)]
  omega

end Comp


namespace Comp

/-! ## The queue of `generatePrefix` -/

/-- The first loop of `generatePrefix`, run over the indices below `m`. -/
theorem prefixFill_spec (length : List Int) (N nbr : Nat) : ∀ m, m ≤ N →
    PQWf ((List.range m).foldl (fun prio i =>
      if length.getD i 0 > 0 then putPrio i (toInt32 (length.getD i 0 * nbr + i)) prio else prio) (initPrio N)) ∧
    ((List.range m).foldl (fun prio i =>
      if length.getD i 0 > 0 then putPrio i (toInt32 (length.getD i 0 * nbr + i)) prio else prio)
      (initPrio N)).top ≤ m + 1 ∧
    ((List.range m).foldl (fun prio i =>
      if length.getD i 0 > 0 then putPrio i (toInt32 (length.getD i 0 * nbr + i)) prio else prio)
      (initPrio N)).data.length = N + 2 ∧
    contents ((List.range m).foldl (fun prio i =>
      if length.getD i 0 > 0 then putPrio i (toInt32 (length.getD i 0 * nbr + i)) prio else prio) (initPrio N))
      = ((Multiset.range m).filter (fun i => 0 < length.getD i 0)).map
          (fun i => (i, toInt32 (length.getD i 0 * nbr + i))) ∧
    HeapOrd ((List.range m).foldl (fun prio i =>
      if length.getD i 0 > 0 then putPrio i (toInt32 (length.getD i 0 * nbr + i)) prio else prio) (initPrio N)) := by
  intro m
  induction m with
  | zero =>
    intro _
    obtain ⟨h1, h2, h3, h4, h5⟩ := initPrio_spec N
    exact ⟨h1, by simp [h2], h3, by simpa using h4, h5⟩
  | succ m ih =>
    intro hm
    obtain ⟨h1, h2, h3, h4, h5⟩ := ih (by omega)
    rw [List.range_succ, List.foldl_append]
    simp only [List.foldl_cons, List.foldl_nil]
    by_cases hpos : length.getD m 0 > 0
    · rw [if_pos hpos]
      obtain ⟨e1, e2, e3, e4, _, e6⟩ := putPrio_spec m (toInt32 (length.getD m 0 * nbr + m)) _ h1 (by omega)
      refine ⟨⟨by omega, by omega, by rw [e2, e3]; exact h1.2.2⟩, by omega, by omega, ?_, e6 h5⟩
      have hp : 0 < length.getD m 0 := hpos
      rw [e4, h4, Multiset.range_succ, Multiset.filter_cons, if_pos hp, Multiset.map_add,
        Multiset.map_singleton]
    · rw [if_neg hpos]
      refine ⟨h1, by omega, h3, ?_, h5⟩
      have hp : ¬ 0 < length.getD m 0 := hpos
      rw [h4, Multiset.range_succ, Multiset.filter_cons, if_neg hp, zero_add]

/-- The queue of `generatePrefix` after its first loop, when the keys fit in an `int`. -/
theorem prefixFill_facts (length : List Int) (nbr : Nat) (hk : KeysFit length nbr) :
    PQWf (prefixFill length nbr) ∧ (prefixFill length nbr).top ≤ nbr + 1 ∧
    (prefixFill length nbr).data.length = nbr + 2 ∧
    contents (prefixFill length nbr)
      = ((Multiset.range nbr).filter (fun i => 0 < length.getD i 0)).map
          (fun i => (i, length.getD i 0 * nbr + i)) ∧
    HeapOrd (prefixFill length nbr) := by
  obtain ⟨f1, f2, f3, f4, f5⟩ := prefixFill_spec length nbr nbr nbr (le_refl _)
  refine ⟨f1, f2, f3, ?_, f5⟩
  refine Eq.trans f4 (Multiset.map_congr rfl ?_)
  intro i hi
  rw [Multiset.mem_filter, Multiset.mem_range] at hi
  have h1 := hk i hi.1 hi.2
  have h2 : (0 : Int) ≤ length.getD i 0 * nbr + i := by
    have : (0 : Int) ≤ length.getD i 0 * nbr := mul_nonneg (le_of_lt hi.2) (Int.ofNat_nonneg _)
    omega
  rw [toInt32_eq _ (by omega) h1]

theorem live_prefixFill (length : List Int) (nbr : Nat) :
    live (prefixFill length nbr) = (Multiset.range nbr).filter (fun i => 0 < length.getD i 0) := by
  obtain ⟨_, _, _, h4, _⟩ := prefixFill_spec length nbr nbr nbr (le_refl _)
  unfold live prefixFill
  rw [h4, Multiset.map_map]
  simp

/-! ## The loop of `generatePrefix` -/

theorem prefixLoop_succ (fuel : Nat) (length : List Int) (s : PrefixState) :
    prefixLoop (fuel + 1) s.1 length s.2.1 s.2.2.1 s.2.2.2
      = if s.1.top > 1 then
          prefixLoop fuel (prefixStep length s).1 length (prefixStep length s).2.1
            (prefixStep length s).2.2.1 (prefixStep length s).2.2.2
        else s.2.2.2 := rfl

/-- Invariant rule for the loop of `generatePrefix`: with enough fuel the loop ends in a
state with an empty queue that satisfies the invariant. -/
theorem prefixLoop_induct (length : List Int) (P : PrefixState → Prop)
    (hstep : ∀ s, P s → 1 < s.1.top →
      P (prefixStep length s) ∧ (prefixStep length s).1.top < s.1.top)
    (fuel : Nat) : ∀ s : PrefixState, P s → s.1.top ≤ fuel + 1 →
    ∃ s', P s' ∧ s'.1.top ≤ 1 ∧ prefixLoop fuel s.1 length s.2.1 s.2.2.1 s.2.2.2 = s'.2.2.2 := by
  induction fuel with
  | zero =>
    intro s hs ht
    exact ⟨s, hs, ht, rfl⟩
  | succ fuel ih =>
    intro s hs hf
    rw [prefixLoop_succ]
    by_cases ht : s.1.top > 1
    · rw [if_pos ht]
      obtain ⟨h1, h2⟩ := hstep s hs ht
      exact ih (prefixStep length s) h1 (by omega)
    · rw [if_neg ht]
      exact ⟨s, hs, by omega, rfl⟩

theorem codeHi_mono_shift (M l l' c : Nat) (h1 : l' ≤ l) (h2 : l ≤ M) :
    codeHi M l c ≤ codeLo M l' (c >>> (l - l') + 1) := by
  unfold codeHi codeLo
  have e : 2 ^ (M - l') = 2 ^ (l - l') * 2 ^ (M - l) := by
    rw [← pow_add]
    congr 1
    omega
  rw [e, Nat.shiftRight_eq_div_pow, ← mul_assoc]
  apply Nat.mul_le_mul_right
  have := Nat.lt_succ_iff.mp (Nat.lt_succ_of_lt (Nat.lt_mul_div_succ c (Nat.pos_pow_of_pos (l - l') (by decide : 0 < 2))))
  rw [mul_comm]
  have h3 := Nat.lt_mul_div_succ c (Nat.pos_pow_of_pos (l - l') (by decide : 0 < 2))
  omega

theorem codeLo_shift_le (M l l' c : Nat) (h1 : l' ≤ l) (h2 : l ≤ M) :
    codeLo M l' (c >>> (l - l')) ≤ codeLo M l c := by
  unfold codeLo
  have e : 2 ^ (M - l') = 2 ^ (l - l') * 2 ^ (M - l) := by
    rw [← pow_add]
    congr 1
    omega
  rw [e, Nat.shiftRight_eq_div_pow, ← mul_assoc]
  apply Nat.mul_le_mul_right
  exact Nat.div_mul_le_self c _

theorem codeLo_succ (M l c : Nat) : codeLo M l (c + 1) = codeHi M l c := rfl

theorem codeHi_eq (M l c : Nat) : codeHi M l c = codeLo M l c + 2 ^ (M - l) := by
  unfold codeHi codeLo
  ring

end Comp


namespace Comp

/-! ## The invariant of the loop of `generatePrefix` -/

theorem key_le_length (nbr : Nat) (a b : Int) (x u : Nat) (hx : x < nbr)
    (h : a * nbr + x ≤ b * nbr + u) (hu : u < nbr) : a ≤ b := by
  by_contra hlt
  have h1 : b + 1 ≤ a := by omega
  have h2 : (b + 1) * (nbr : Int) ≤ a * nbr :=
    mul_le_mul_of_nonneg_right h1 (Int.ofNat_nonneg nbr)
  have h3 : (u : Int) < nbr := by exact_mod_cast hu
  have h4 : (0 : Int) ≤ x := Int.ofNat_nonneg x
  linarith

theorem assigned_pop (length : List Int) (nbr : Nat) (q q' : PriorityQueue) (u : Nat)
    (hl : live q = u ::ₘ live q') (hnd : (live q).Nodup) (hu : u < nbr)
    (hpos : 0 < length.getD u 0) :
    u ∉ assigned length nbr q ∧
    assigned length nbr q' = insert u (assigned length nbr q) := by
  rw [hl, Multiset.nodup_cons] at hnd
  constructor
  · unfold assigned
    rw [Finset.mem_filter, hl]
    simp
  · ext a
    unfold assigned
    simp only [Finset.mem_filter, Finset.mem_range, Finset.mem_insert, hl, Multiset.mem_cons, not_or]
    constructor
    · rintro ⟨h1, h2, h3⟩
      by_cases hau : a = u
      · exact Or.inl hau
      · exact Or.inr ⟨h1, h2, hau, h3⟩
    · rintro (rfl | ⟨h1, h2, _, h4⟩)
      · exact ⟨hu, hpos, hnd.1⟩
      · exact ⟨h1, h2, h4⟩

/-- One iteration of the loop of `generatePrefix` keeps the invariant. -/
theorem PInv_step (length : List Int) (nbr M : Nat) (hM : ∀ a, a < nbr → lenOf length a ≤ M)
    (s : PrefixState) (h : PInv length nbr M s) (ht : 1 < s.1.top) :
    PInv length nbr M (prefixStep length s) ∧ (prefixStep length s).1.top < s.1.top := by
  obtain ⟨q, l, c, table⟩ := s
  obtain ⟨p1, p2, p3, p4, p5, p6, p6', p7, p8, p9, p10⟩ := h
  simp only at p1 p2 p3 p4 p5 p6 p6' p7 p8 p9 p10 ht
  have p1' := p1
  obtain ⟨a1, a2, a3, a4, _, a6, a7⟩ := getPrio_spec q p1 ht
  have hmem : cell q 1 ∈ contents q := by rw [a6]; simp
  obtain ⟨u1, u2, u3, u4⟩ := p4 _ hmem
  set u := (cell q 1).1 with hu
  have hstep : prefixStep length (q, l, c, table)
      = ((getPrio q).2, length.getD u 0, c >>> (l - length.getD u 0).toNat + 1,
          table.set u (c >>> (l - length.getD u 0).toNat + 1)) := by
    unfold prefixStep
    simp only [a1, Int.toNat_ofNat]
  have hl : live q = u ::ₘ live (getPrio q).2 := by
    unfold live
    rw [a6, Multiset.map_add, Multiset.map_singleton, Multiset.singleton_add]
  obtain ⟨hun, hass⟩ := assigned_pop length nbr q (getPrio q).2 u hl p3 u1 u2
  have hLM : lenOf length u ≤ M := hM u u1
  have hLL : lenOf length u ≤ l.toNat := by unfold lenOf; omega
  have hsh : (l - length.getD u 0).toNat = l.toNat - lenOf length u := by unfold lenOf; omega
  have hk : kraftSum length M (assigned length nbr (getPrio q).2)
      = kraftSum length M (assigned length nbr q) + 2 ^ (M - lenOf length u) := by
    unfold kraftSum
    rw [hass, Finset.sum_insert hun, add_comm]
  have hA := codeHi_mono_shift M l.toNat (lenOf length u) c hLL p6'
  have hB := codeLo_shift_le M l.toNat (lenOf length u) c hLL p6'
  have hC := codeHi_eq M (lenOf length u) (c >>> (l.toNat - lenOf length u) + 1)
  have hD : codeLo M (lenOf length u) (c >>> (l.toNat - lenOf length u) + 1)
      = codeLo M (lenOf length u) (c >>> (l.toNat - lenOf length u)) + 2 ^ (M - lenOf length u) := by
    rw [codeLo_succ, codeHi_eq]
  have hulen : u < table.length := by omega
  have htab : ∀ a, a ∈ assigned length nbr q →
      (table.set u (c >>> (l - length.getD u 0).toNat + 1)).getD a 0 = table.getD a 0 := by
    intro a ha
    apply getD_set_ne
    intro hau
    rw [hau] at ha
    exact hun ha
  have htabu : (table.set u (c >>> (l - length.getD u 0).toNat + 1)).getD u 0
      = c >>> (l.toNat - lenOf length u) + 1 := by
    rw [getD_set_eq _ _ _ _ hulen, hsh]
  have hLu : (length.getD u 0).toNat = lenOf length u := rfl
  have hne : ∀ a, a ∈ assigned length nbr q → a ≠ u := by
    intro a ha hau
    rw [hau] at ha
    exact hun ha
  obtain ⟨w1, w2, w3⟩ := p1
  rw [hstep]
  refine ⟨?_, by simp only; omega⟩
  unfold PInv
  simp only
  rw [hk, hLu, hsh] at *
  refine ⟨⟨by omega, by omega, by rw [a3, a4]; exact w3⟩, a7 p2, ?_, ?_, by simpa using p5,
    u2, hLM, ?_, ?_, ?_, ?_⟩
  · rw [hl, Multiset.nodup_cons] at p3
    exact p3.2
  · intro x hx
    have hx' : x ∈ contents q := by rw [a6]; exact Multiset.mem_add.mpr (Or.inr hx)
    obtain ⟨x1, x2, x3, _⟩ := p4 x hx'
    refine ⟨x1, x2, x3, ?_⟩
    have hle := contents_prio_le q p2 x hx'
    have hk1 : prioAt q 1 = (cell q 1).2 := rfl
    rw [hk1, u3, x3] at hle
    exact key_le_length nbr _ _ _ _ x1 hle u1
  · omega
  · omega
  · intro a ha
    rw [hass, Finset.mem_insert] at ha
    rcases ha with rfl | ha
    · rw [htabu]
      exact ⟨le_refl _, by omega⟩
    · rw [getD_set_ne _ _ _ _ _ (hne a ha)]
      obtain ⟨b1, b2⟩ := p9 a ha
      exact ⟨by omega, by omega⟩
  · intro a ha b hb hab
    rw [hass, Finset.mem_insert] at ha hb
    rcases ha with rfl | ha
    · rcases hb with rfl | hb
      · exact absurd rfl hab
      · rw [htabu, getD_set_ne _ _ _ _ _ (hne b hb)]
        right
        have := (p9 b hb).1
        omega
    · rcases hb with rfl | hb
      · rw [htabu, getD_set_ne _ _ _ _ _ (hne a ha)]
        left
        have := (p9 a ha).1
        omega
      · rw [getD_set_ne _ _ _ _ _ (hne a ha),
          getD_set_ne _ _ _ _ _ (hne b hb)]
        exact p10 a ha b hb hab

end Comp


namespace Comp

/-! ## The codes built by `generatePrefix` -/

theorem contents_eq_zero (q : PriorityQueue) (h : q.top ≤ 1) : contents q = 0 := by
  unfold contents
  rw [Finset.Ico_eq_empty (by omega)]
  rfl

theorem PInv_start (table : List Nat) (length : List Int) (nbr M : Nat)
    (hM : ∀ a, a < nbr → lenOf length a ≤ M) (hex : ∃ a, a < nbr ∧ 0 < length.getD a 0)
    (htab : nbr ≤ table.length) (hfit : KeysFit length nbr) : PInv length nbr M (prefixStart table length nbr) := by
  obtain ⟨f1, f2, f3, f4, f5⟩ := prefixFill_facts length nbr hfit
  have hlive := live_prefixFill length nbr
  have hcard : Multiset.card (contents (prefixFill length nbr)) = (prefixFill length nbr).top - 1 :=
    contents_card _
  have htop : 1 < (prefixFill length nbr).top := by
    obtain ⟨a, ha1, ha2⟩ := hex
    have : (a, length.getD a 0 * nbr + a) ∈ contents (prefixFill length nbr) := by
      rw [f4, Multiset.mem_map]
      exact ⟨a, Multiset.mem_filter.mpr ⟨Multiset.mem_range.mpr ha1, ha2⟩, rfl⟩
    have := Multiset.card_pos_iff_exists_mem.mpr ⟨_, this⟩
    omega
  obtain ⟨a1, a2, a3, a4, _, a6, a7⟩ := getPrio_spec (prefixFill length nbr) f1 htop
  have hmem : cell (prefixFill length nbr) 1 ∈ contents (prefixFill length nbr) := by
    rw [a6]; simp
  have hall : ∀ x ∈ contents (prefixFill length nbr),
      x.1 < nbr ∧ 0 < length.getD x.1 0 ∧ x.2 = length.getD x.1 0 * nbr + x.1 := by
    intro x hx
    rw [f4, Multiset.mem_map] at hx
    obtain ⟨i, hi, rfl⟩ := hx
    rw [Multiset.mem_filter, Multiset.mem_range] at hi
    exact ⟨hi.1, hi.2, rfl⟩
  obtain ⟨u1, u2, u3⟩ := hall _ hmem
  set u := (cell (prefixFill length nbr) 1).1 with hu
  have hstart : prefixStart table length nbr
      = ((getPrio (prefixFill length nbr)).2, length.getD u 0, 0, table.set u 0) := by
    unfold prefixStart
    simp only [a1, Int.toNat_ofNat]
  have hl : live (prefixFill length nbr) = u ::ₘ live (getPrio (prefixFill length nbr)).2 := by
    unfold live
    rw [a6, Multiset.map_add, Multiset.map_singleton, Multiset.singleton_add]
  have hnd : (live (prefixFill length nbr)).Nodup := by
    rw [hlive]
    exact Multiset.Nodup.filter _ (Multiset.nodup_range nbr)
  obtain ⟨hun, hass⟩ := assigned_pop length nbr _ _ u hl hnd u1 u2
  have hempty : assigned length nbr (prefixFill length nbr) = ∅ := by
    unfold assigned
    rw [hlive]
    apply Finset.filter_false_of_mem
    intro a ha
    rw [Finset.mem_range] at ha
    simp only [Multiset.mem_filter, Multiset.mem_range, not_and, not_lt]
    intro h1 h2
    exact absurd (h2 ha) (by omega)
  rw [hempty] at hass
  obtain ⟨w1, w2, w3⟩ := f1
  rw [hstart]
  unfold PInv
  simp only
  rw [hass]
  have hLu : (length.getD u 0).toNat = lenOf length u := rfl
  have hk : kraftSum length M (insert u ∅) = 2 ^ (M - lenOf length u) := by
    unfold kraftSum
    simp
  have hulen : u < table.length := by omega
  rw [hk, hLu]
  refine ⟨⟨by omega, by omega, by rw [a3, a4]; exact w3⟩, a7 f5, ?_, ?_, by simpa using htab, u2,
    hM u u1, ?_, ?_, ?_, ?_⟩
  · rw [hl, Multiset.nodup_cons] at hnd
    exact hnd.2
  · intro x hx
    have hx' : x ∈ contents (prefixFill length nbr) := by
      rw [a6]; exact Multiset.mem_add.mpr (Or.inr hx)
    obtain ⟨x1, x2, x3⟩ := hall x hx'
    refine ⟨x1, x2, x3, ?_⟩
    have hle := contents_prio_le _ f5 x hx'
    have hk1 : prioAt (prefixFill length nbr) 1 = (cell (prefixFill length nbr) 1).2 := rfl
    rw [hk1, u3, x3] at hle
    exact key_le_length nbr _ _ _ _ x1 hle u1
  · unfold codeLo
    simp
  · unfold codeHi
    simp
  · intro a ha
    simp only [Finset.mem_insert, Finset.not_mem_empty, or_false] at ha
    subst ha
    rw [getD_set_eq _ _ _ _ hulen]
    unfold codeLo
    exact ⟨le_refl _, by simp⟩
  · intro a ha b hb hab
    simp only [Finset.mem_insert, Finset.not_mem_empty, or_false] at ha hb
    exact absurd (ha.trans hb.symm) hab

/-- The state in which the loop of `generatePrefix` ends. -/
theorem generatePrefix_final (table : List Nat) (length : List Int) (nbr M : Nat)
    (hM : ∀ a, a < nbr → lenOf length a ≤ M) (hex : ∃ a, a < nbr ∧ 0 < length.getD a 0)
    (htab : nbr ≤ table.length) (hfit : KeysFit length nbr) :
    ∃ s : PrefixState, PInv length nbr M s ∧
      assigned length nbr s.1 = (Finset.range nbr).filter (fun a => 0 < length.getD a 0) ∧
      generatePrefix table length nbr = s.2.2.2 := by
  have h0 := PInv_start table length nbr M hM hex htab hfit
  obtain ⟨s, h1, h2, h3⟩ := prefixLoop_induct length (PInv length nbr M)
    (fun s hs ht => PInv_step length nbr M hM s hs ht) (prefixStart table length nbr).1.top
    (prefixStart table length nbr) h0 (by omega)
  refine ⟨s, h1, ?_, h3⟩
  unfold assigned live
  rw [contents_eq_zero _ h2]
  simp

/-- The codes of two different symbols occupy disjoint intervals, and every code
starts below the Kraft sum of all lengths. -/
theorem generatePrefix_spec (table : List Nat) (length : List Int) (nbr M : Nat)
    (hM : ∀ a, a < nbr → lenOf length a ≤ M) (hex : ∃ a, a < nbr ∧ 0 < length.getD a 0)
    (htab : nbr ≤ table.length) (hfit : KeysFit length nbr) :
    (∀ a, a < nbr → 0 < length.getD a 0 →
      codeLo M (lenOf length a) ((generatePrefix table length nbr).getD a 0)
        < kraftSum length M ((Finset.range nbr).filter (fun a => 0 < length.getD a 0))) ∧
    (∀ a b, a < nbr → b < nbr → 0 < length.getD a 0 → 0 < length.getD b 0 → a ≠ b →
      codeHi M (lenOf length a) ((generatePrefix table length nbr).getD a 0)
          ≤ codeLo M (lenOf length b) ((generatePrefix table length nbr).getD b 0) ∨
      codeHi M (lenOf length b) ((generatePrefix table length nbr).getD b 0)
          ≤ codeLo M (lenOf length a) ((generatePrefix table length nbr).getD a 0)) := by
  obtain ⟨s, hp, ha, he⟩ := generatePrefix_final table length nbr M hM hex htab hfit
  obtain ⟨_, _, _, _, _, _, _, _, _, p9, p10⟩ := hp
  rw [ha] at p9 p10
  rw [he]
  constructor
  · intro a h1 h2
    exact (p9 a (Finset.mem_filter.mpr ⟨Finset.mem_range.mpr h1, h2⟩)).2
  · intro a b h1 h2 h3 h4 h5
    exact p10 a (Finset.mem_filter.mpr ⟨Finset.mem_range.mpr h1, h3⟩) b
      (Finset.mem_filter.mpr ⟨Finset.mem_range.mpr h2, h4⟩) h5

/-- When the Kraft sum of the lengths is at most 1, every code fits in its length. -/
theorem generatePrefix_lt (table : List Nat) (length : List Int) (nbr M : Nat)
    (hM : ∀ a, a < nbr → lenOf length a ≤ M) (htab : nbr ≤ table.length)
    (hfit : KeysFit length nbr)
    (hk : kraftSum length M ((Finset.range nbr).filter (fun a => 0 < length.getD a 0)) ≤ 2 ^ M)
    (a : Nat) (ha : a < nbr) (hpos : 0 < length.getD a 0) :
    (generatePrefix table length nbr).getD a 0 < 2 ^ lenOf length a := by
  have h := (generatePrefix_spec table length nbr M hM ⟨a, ha, hpos⟩ htab hfit).1 a ha hpos
  have h2 : codeLo M (lenOf length a) ((generatePrefix table length nbr).getD a 0) < 2 ^ M :=
    lt_of_lt_of_le h hk
  unfold codeLo at h2
  have e : 2 ^ M = 2 ^ lenOf length a * 2 ^ (M - lenOf length a) := by
    rw [← pow_add]
    congr 1
    have := hM a ha
    omega
  rw [e] at h2
  exact Nat.lt_of_mul_lt_mul_right h2

theorem codeLo_lt_codeHi (M l c : Nat) : codeLo M l c < codeHi M l c := by
  rw [codeHi_eq]
  have : 0 < 2 ^ (M - l) := Nat.pos_pow_of_pos _ (by decide)
  omega

/-- A codeword that is a prefix of another one is obtained from it by a shift. -/
theorem prefix_bitsOf (la lb x y : Nat) (hx : x < 2 ^ la) (hy : y < 2 ^ lb)
    (h : bitsOf la x <+: bitsOf lb y) : la ≤ lb ∧ x = y >>> (lb - la) := by
  have hle : la ≤ lb := by
    have := h.length_le
    rwa [bitsOf_length, bitsOf_length] at this
  refine ⟨hle, ?_⟩
  have hs := bitsOf_add la (lb - la) y
  rw [Nat.add_sub_cancel' hle] at hs
  have h2 : bitsOf la (y >>> (lb - la)) <+: bitsOf lb y := by
    rw [hs]
    exact List.prefix_append _ _
  have h3 : bitsOf la x = bitsOf la (y >>> (lb - la)) := by
    have := List.prefix_of_prefix_length_le h h2 (by rw [bitsOf_length, bitsOf_length])
    exact this.eq_of_length (by rw [bitsOf_length, bitsOf_length])
  have h4 := congrArg bitsVal h3
  rw [bitsVal_bitsOf, bitsVal_bitsOf, Nat.mod_eq_of_lt hx] at h4
  rw [h4]
  apply Nat.mod_eq_of_lt
  rw [Nat.shiftRight_eq_div_pow]
  apply Nat.div_lt_of_lt_mul
  rw [← pow_add, Nat.sub_add_cancel hle]
  exact hy

/-- Two codes with disjoint intervals: neither codeword is a prefix of the other. -/
theorem not_prefix_of_disjoint (M la lb x y : Nat) (hx : x < 2 ^ la) (hy : y < 2 ^ lb) (hb : lb ≤ M)
    (hd : codeHi M la x ≤ codeLo M lb y ∨ codeHi M lb y ≤ codeLo M la x) :
    ¬ bitsOf la x <+: bitsOf lb y := by
  intro h
  obtain ⟨hle, he⟩ := prefix_bitsOf la lb x y hx hy h
  have h1 := codeLo_shift_le M lb la y hle hb
  have h2 := codeHi_mono_shift M lb la y hle hb
  rw [codeLo_succ, ← he] at h2
  rw [← he] at h1
  have h3 := codeLo_lt_codeHi M lb y
  have h4 := codeLo_lt_codeHi M la x
  omega

end Comp


namespace Comp

/-! ## The codes of the lengths computed by `generateLength` -/

theorem generateLength_pos (freq : List Int) (nbr : Nat) (hn : 2 ≤ nbr) (c : Nat) (hc : c < nbr) :
    1 ≤ (generateLength freq nbr).getD c 0 := by
  rw [generateLength_getD freq nbr (by omega) c hc]
  have := finalDepth_pos freq nbr hn c hc
  exact_mod_cast this

theorem lenOf_generateLength (freq : List Int) (nbr : Nat) (hn : 2 ≤ nbr) (c : Nat) (hc : c < nbr) :
    lenOf (generateLength freq nbr) c = (finalDepth freq nbr).getD c 0 := by
  unfold lenOf
  rw [generateLength_getD freq nbr (by omega) c hc]
  simp

theorem symbols_generateLength (freq : List Int) (nbr : Nat) (hn : 2 ≤ nbr) :
    (Finset.range nbr).filter (fun a => 0 < (generateLength freq nbr).getD a 0)
      = Finset.range nbr := by
  apply Finset.filter_true_of_mem
  intro a ha
  have := generateLength_pos freq nbr hn a (Finset.mem_range.mp ha)
  omega

/-- Kraft equality for the lengths computed by `generateLength`, in units of `2 ^ (-M)`. -/
theorem kraftSum_generateLength (freq : List Int) (nbr M : Nat) (hn : 2 ≤ nbr)
    (hM : ∀ a, a < nbr → lenOf (generateLength freq nbr) a ≤ M) :
    kraftSum (generateLength freq nbr) M (Finset.range nbr) = 2 ^ M := by
  have hk := finalDepth_kraft freq nbr hn
  have hq : ((kraftSum (generateLength freq nbr) M (Finset.range nbr) : Nat) : ℚ) = ((2 ^ M : Nat) : ℚ) := by
    unfold kraftSum
    push_cast
    have : ∀ c ∈ Finset.range nbr, (2 : ℚ) ^ (M - lenOf (generateLength freq nbr) c)
        = 2 ^ M * (1 / 2 : ℚ) ^ ((finalDepth freq nbr).getD c 0) := by
      intro c hc
      have hc' := Finset.mem_range.mp hc
      have hle := hM c hc'
      rw [lenOf_generateLength freq nbr hn c hc'] at hle ⊢
      rw [one_div, inv_pow, ← div_eq_mul_inv, eq_div_iff (by positivity), ← pow_add,
        Nat.sub_add_cancel hle]
    rw [Finset.sum_congr rfl this, ← Finset.mul_sum, hk, mul_one]
  exact_mod_cast hq

/-- A bound on all the lengths of a vector. -/
theorem exists_length_bound (length : List Int) (nbr : Nat) :
    ∃ M, ∀ a, a < nbr → lenOf length a ≤ M :=
  ⟨(Finset.range nbr).sup (lenOf length), fun _ ha => Finset.le_sup (Finset.mem_range.mpr ha)⟩

/-- A node of the tree of `generateLength` is not deeper than the number of the nodes
built after it. -/
theorem finalDepth_le (freq : List Int) (nbr : Nat) (hn : 1 ≤ nbr) :
    ∀ k c, c + k = 2 * nbr - 2 → (finalDepth freq nbr).getD c 0 ≤ k := by
  obtain ⟨_, p2, _, _⟩ := finalParent_spec freq nbr hn
  obtain ⟨d0, d1⟩ := finalDepth_spec freq nbr hn
  intro k
  induction k using Nat.strong_induction_on with
  | _ k ih =>
    intro c hc
    by_cases hz : k = 0
    · have : c = 2 * nbr - 2 := by omega
      rw [this, d0]
      exact Nat.zero_le _
    · obtain ⟨q1, _, q3⟩ := p2 c (by omega)
      have := ih (2 * nbr - 2 - (finalParent freq nbr).getD c 0) (by omega)
        ((finalParent freq nbr).getD c 0) (by omega)
      rw [d1 c (by omega)]
      omega

/-- The keys that `generatePrefix` computes for the lengths of `generateLength` fit in an
`int` (for at most `2 ^ 15` symbols). -/
theorem keysFit_generateLength (freq : List Int) (nbr : Nat) (hn : 2 ≤ nbr)
    (hN : nbr ≤ 32768) : KeysFit (generateLength freq nbr) nbr := by
  intro i hi _
  rw [generateLength_getD freq nbr (by omega) i hi]
  have h1 := finalDepth_le freq nbr (by omega) (2 * nbr - 2 - i) i (by omega)
  have h2 : (finalDepth freq nbr).getD i 0 * nbr ≤ 65534 * 32768 :=
    Nat.mul_le_mul (by omega) hN
  have h3 : (((finalDepth freq nbr).getD i 0 * nbr + i : Nat) : Int) < 2 ^ 31 := by
    have : (finalDepth freq nbr).getD i 0 * nbr + i < 2 ^ 31 := by omega
    exact_mod_cast this
  push_cast at h3
  exact h3

theorem symbols_fit : (256 : Nat) ≤ 32768 := by norm_num

/-- Every code built from the lengths of `generateLength` fits in its length. -/
theorem code_lt (freq : List Int) (table : List Nat) (nbr : Nat) (hn : 2 ≤ nbr)
    (hN : nbr ≤ 32768)
    (htab : nbr ≤ table.length) (a : Nat) (ha : a < nbr) :
    (generatePrefix table (generateLength freq nbr) nbr).getD a 0
      < 2 ^ lenOf (generateLength freq nbr) a := by
  obtain ⟨M, hM⟩ := exists_length_bound (generateLength freq nbr) nbr
  apply generatePrefix_lt table _ nbr M hM htab (keysFit_generateLength freq nbr hn hN) _ a ha
  · have := generateLength_pos freq nbr hn a ha
    omega
  · rw [symbols_generateLength freq nbr hn, kraftSum_generateLength freq nbr M hn hM]

/-- No codeword built from the lengths of `generateLength` is a prefix of another one. -/
theorem code_prefix_free (freq : List Int) (table : List Nat) (nbr : Nat) (hn : 2 ≤ nbr)
    (hN : nbr ≤ 32768)
    (htab : nbr ≤ table.length) (a b : Nat) (ha : a < nbr) (hb : b < nbr) (hab : a ≠ b) :
    ¬ codeword (generatePrefix table (generateLength freq nbr) nbr) (generateLength freq nbr) a
      <+: codeword (generatePrefix table (generateLength freq nbr) nbr) (generateLength freq nbr) b := by
  obtain ⟨M, hM⟩ := exists_length_bound (generateLength freq nbr) nbr
  have hpa := generateLength_pos freq nbr hn a ha
  have hpb := generateLength_pos freq nbr hn b hb
  have hd := (generatePrefix_spec table (generateLength freq nbr) nbr M hM ⟨a, ha, by omega⟩ htab
    (keysFit_generateLength freq nbr hn hN)).2
    a b ha hb (by omega) (by omega) hab
  exact not_prefix_of_disjoint M _ _ _ _ (code_lt freq table nbr hn hN htab a ha)
    (code_lt freq table nbr hn hN htab b hb) (hM b hb) hd

end Comp


namespace Comp

/-! ## The weight invariant of the merge loop -/

theorem sum_nonneg_le (nbr : Nat) (g : Nat → Int) (hg : ∀ c, c < nbr → 0 ≤ g c) (c : Nat)
    (hc : c < nbr) : g c ≤ ∑ i ∈ Finset.range nbr, g i :=
  Finset.single_le_sum (fun i hi => hg i (Finset.mem_range.mp hi)) (Finset.mem_range.mpr hc)

theorem HuffInv_init (freq : List Int) (nbr : Nat) (hn : 1 ≤ nbr)
    (hf : ∀ c, c < nbr → 0 ≤ freq.getD c 0)
    (hs : ∑ c ∈ Finset.range nbr, (freq.getD c 0 + 1) ≤ 2 ^ 31) :
    HuffInv freq nbr (lengthFill freq nbr, List.replicate (2 * nbr) 0, nbr) := by
  obtain ⟨_, _, _, h4, h5⟩ := fill_spec (fun i => toInt32 (- freq.getD i 0)) (2 * nbr) nbr
    (by omega)
  have h4' : contents (lengthFill freq nbr)
      = (Multiset.range nbr).map (fun i => (i, toInt32 (- freq.getD i 0))) := h4
  have hw : ∀ c, c < nbr → toInt32 (- freq.getD c 0) = - freq.getD c 0 := by
    intro c hc
    have h1 := hf c hc
    have h2 := sum_nonneg_le nbr (fun c => freq.getD c 0 + 1)
      (fun i hi => by have := hf i hi; show 0 ≤ freq.getD i 0 + 1; omega) c hc
    simp only at h2
    exact toInt32_eq _ (by omega) (by omega)
  refine ⟨MInv_init freq nbr hn, h5, fun c => freq.getD c 0 + 1, fun c _ => rfl, ?_, ?_, ?_, ?_⟩
  · intro x hx
    simp only at hx
    rw [h4', Multiset.mem_map] at hx
    obtain ⟨i, hi, rfl⟩ := hx
    simp only
    rw [hw i (Multiset.mem_range.mp hi)]
    ring
  · intro k hk1 hk2
    simp only at hk2
    omega
  · intro x hx
    simp only at hx
    rw [h4', Multiset.mem_map] at hx
    obtain ⟨i, hi, rfl⟩ := hx
    have := hf i (Multiset.mem_range.mp hi)
    simp only
    omega
  · simp only
    rw [h4', Multiset.map_map]
    exact hs

theorem HuffInv_step (freq : List Int) (nbr : Nat) (hn : 1 ≤ nbr) (s : MergeState)
    (h : HuffInv freq nbr s) (ht : 2 < s.1.top) : HuffInv freq nbr (mergeStep s) := by
  obtain ⟨hm, ho, w, w1, w2, w3, w4, w5⟩ := h
  have hm' := (MInv_step nbr hn s hm ht).1
  obtain ⟨m1, m2, m3, m4, m5, m6, m7, m8, m9, m10, m11, m12⟩ := hm
  obtain ⟨c1, c2, p1, p2, q2, f1, f2, f3, f4, f5, f6, f7⟩ := mergeStep_facts s m1 ht m1.2.1
  obtain ⟨g1, g2, g3, g4⟩ := f7 ho
  obtain ⟨q, parent, i⟩ := s
  simp only at m1 m2 m3 m4 m5 m6 m7 m8 m9 m10 m11 m12 ht f1 f2 f3 f4 f5 f6 g1 g2 g3 g4 w2 w3 w4 w5
  have hl : live q = c1 ::ₘ c2 ::ₘ live q2 := by
    unfold live
    rw [f2, Multiset.map_add, Multiset.map_add, Multiset.map_singleton, Multiset.map_singleton,
      Multiset.singleton_add, Multiset.singleton_add]
  rw [hl] at m6 m7 m8 m10 m11
  rw [Multiset.nodup_cons, Multiset.nodup_cons, Multiset.mem_cons] at m6
  obtain ⟨n1, n2, n3⟩ := m6
  have hc1 : c1 < i := m7 c1 (by simp)
  have hc2 : c2 < i := m7 c2 (by simp)
  have hne : c1 ≠ c2 := fun e => n1 (Or.inl e)
  have hP : ∀ c, ((parent.set c1 i).set c2 i).getD c 0
      = if c = c1 ∨ c = c2 then i else parent.getD c 0 :=
    fun c => getD_set_set parent c1 c2 i c (by omega) (by omega)
  have hz1 : parent.getD c1 0 = 0 := m11 c1 (Or.inl (by simp))
  have hz2 : parent.getD c2 0 = 0 := m11 c2 (Or.inl (by simp))
  have e1 : p1 = 1 - w c1 := w2 (c1, p1) (by rw [f2]; simp)
  have e2 : p2 = 1 - w c2 := w2 (c2, p2) (by rw [f2]; simp)
  have k1 : 1 ≤ w c1 := w4 (c1, p1) (by rw [f2]; simp)
  have k2 : 1 ≤ w c2 := w4 (c2, p2) (by rw [f2]; simp)
  have k3 : 0 ≤ ((contents q2).map (fun x => w x.1)).sum := by
    apply Multiset.sum_nonneg
    intro y hy
    rw [Multiset.mem_map] at hy
    obtain ⟨x, hx, rfl⟩ := hy
    have := w4 x (by rw [f2]; simp [hx])
    omega
  rw [f2, Multiset.map_add, Multiset.map_add, Multiset.map_singleton, Multiset.map_singleton,
    Multiset.sum_add, Multiset.sum_add, Multiset.sum_singleton, Multiset.sum_singleton] at w5
  simp only at w5
  have hwrap : toInt32 (toInt32 (p1 + p2) - 1) = p1 + p2 - 1 := by
    rw [toInt32_eq (p1 + p2) (by omega) (by omega)]
    exact toInt32_eq _ (by omega) (by omega)
  rw [hwrap] at f1 f3 g1
  have hcong : ∀ x ∈ contents q2, Function.update w i (w c1 + w c2) x.1 = w x.1 := by
    intro x hx
    have hxi : x.1 < i := m7 x.1 (by
      rw [Multiset.mem_cons, Multiset.mem_cons]
      exact Or.inr (Or.inr (Multiset.mem_map_of_mem _ hx)))
    rw [Function.update_noteq (by omega)]
  rw [f1] at hm' ⊢
  refine ⟨hm', g1, Function.update w i (w c1 + w c2), ?_, ?_, ?_, ?_, ?_⟩
  · intro c hc
    rw [Function.update_noteq (by omega)]
    exact w1 c hc
  · intro x hx
    simp only at hx
    rw [f3, Multiset.mem_add, Multiset.mem_singleton] at hx
    rcases hx with rfl | hx
    · simp only [Function.update_same]
      rw [e1, e2]
      ring
    · have hxi : x.1 < i := m7 x.1 (by
        rw [Multiset.mem_cons, Multiset.mem_cons]
        exact Or.inr (Or.inr (Multiset.mem_map_of_mem _ hx)))
      rw [Function.update_noteq (by omega)]
      exact w2 x (by rw [f2]; simp [hx])
  · intro k hk1 hk2
    simp only at hk2 ⊢
    by_cases hki : k = i
    · subst hki
      refine ⟨c1, c2, hne, hc1, hc2, by rw [hP]; simp, by rw [hP]; simp, ?_, ?_, ?_⟩
      · rw [Function.update_same, Function.update_noteq (by omega), Function.update_noteq (by omega)]
      · rw [Function.update_noteq (by omega), Function.update_noteq (by omega)]
        omega
      · intro j hj hpj
        rw [Function.update_noteq (by omega), Function.update_noteq (by omega)]
        rw [hP] at hpj
        by_cases hcc : j = c1 ∨ j = c2
        · rw [if_pos hcc] at hpj
          omega
        · rw [if_neg hcc] at hpj
          rw [not_or] at hcc
          by_cases hlive : j ∈ live q2
          · unfold live at hlive
            rw [Multiset.mem_map] at hlive
            obtain ⟨x, hx, rfl⟩ := hlive
            have hx2 := g3 x hx
            have hx3 := w2 x (by rw [f2]; simp [hx])
            omega
          · have := m10 j hj (by simp [hcc.1, hcc.2, hlive])
            omega
    · obtain ⟨d1, d2, a1, a2, a3, a4, a5, a6, a7, a8⟩ := w3 k hk1 (by omega)
      have hd1 : ¬ (d1 = c1 ∨ d1 = c2) := by
        rintro (e | e)
        · rw [e, hz1] at a4; omega
        · rw [e, hz2] at a4; omega
      have hd2 : ¬ (d2 = c1 ∨ d2 = c2) := by
        rintro (e | e)
        · rw [e, hz1] at a5; omega
        · rw [e, hz2] at a5; omega
      refine ⟨d1, d2, a1, a2, a3, by rw [hP, if_neg hd1]; exact a4,
        by rw [hP, if_neg hd2]; exact a5, ?_, ?_, ?_⟩
      · rw [Function.update_noteq (by omega), Function.update_noteq (by omega),
          Function.update_noteq (by omega)]
        exact a6
      · rw [Function.update_noteq (by omega), Function.update_noteq (by omega)]
        exact a7
      · intro j hj hpj
        rw [Function.update_noteq (by omega), Function.update_noteq (by omega)]
        apply a8 j hj
        rw [hP] at hpj
        by_cases hcc : j = c1 ∨ j = c2
        · left
          rcases hcc with e | e
          · rw [e]; exact hz1
          · rw [e]; exact hz2
        · rw [if_neg hcc] at hpj
          exact hpj
  · intro x hx
    simp only at hx
    rw [f3, Multiset.mem_add, Multiset.mem_singleton] at hx
    rcases hx with rfl | hx
    · simp only [Function.update_same]
      omega
    · rw [hcong x hx]
      exact w4 x (by rw [f2]; simp [hx])
  · simp only
    rw [f3, Multiset.map_add, Multiset.map_singleton, Multiset.sum_add, Multiset.sum_singleton,
      Multiset.map_congr rfl hcong]
    simp only [Function.update_same]
    omega

/-- The tree built by `generateLength` is a Huffman tree for the weights `freq[c] + 1`:
every composite node is the sum of its two children, which were the two lightest nodes
without a parent when it was built. -/
theorem huffman_run (freq : List Int) (nbr : Nat) (hn : 1 ≤ nbr)
    (hf : ∀ c, c < nbr → 0 ≤ freq.getD c 0)
    (hs : ∑ c ∈ Finset.range nbr, (freq.getD c 0 + 1) ≤ 2 ^ 31) :
    ∃ w : Nat → Int, (∀ c, c < nbr → w c = freq.getD c 0 + 1) ∧
      ∀ k, nbr ≤ k → k ≤ 2 * nbr - 2 → ∃ c1 c2, c1 ≠ c2 ∧ c1 < k ∧ c2 < k ∧
        (finalParent freq nbr).getD c1 0 = k ∧ (finalParent freq nbr).getD c2 0 = k ∧
        w k = w c1 + w c2 ∧ w c1 ≤ w c2 ∧
        ∀ j, j < k → k < (finalParent freq nbr).getD j 0 → w c2 ≤ w j := by
  have h0 := HuffInv_init freq nbr hn hf hs
  have h1 := mergeLoop_induct (HuffInv freq nbr) (fun s hs ht => HuffInv_step freq nbr hn s hs ht)
    (nbr + 1) (lengthFill freq nbr, List.replicate (2 * nbr) 0, nbr) h0
  obtain ⟨_, _, hi⟩ := mergeLoop_final freq nbr hn
  obtain ⟨_, _, w, w1, _, w3, _, _⟩ := h1
  simp only at w3 hi
  refine ⟨w, w1, ?_⟩
  intro k hk1 hk2
  obtain ⟨c1, c2, a1, a2, a3, a4, a5, a6, a7, a8⟩ := w3 k hk1 (by rw [hi]; omega)
  exact ⟨c1, c2, a1, a2, a3, a4, a5, a6, a7, fun j hj hp => a8 j hj (Or.inr hp)⟩

end Comp


namespace Comp

/-- The tree built by `generateLength` from non-negative counts, of a sum of at most
`2 ^ 31` with the number of the symbols, is a Huffman tree for the weights `freq[c] + 1`. -/
theorem generateLength_huffTree (freq : List Int) (nbr : Nat) (hn : 2 ≤ nbr)
    (hf : ∀ c, c < nbr → 0 ≤ freq.getD c 0)
    (hs : ∑ c ∈ Finset.range nbr, (freq.getD c 0 + 1) ≤ 2 ^ 31) :
    ∃ w : Nat → Int, (∀ c, c < nbr → w c = freq.getD c 0 + 1) ∧
      HuffTree nbr (fun c => (finalParent freq nbr).getD c 0)
        (fun c => (finalDepth freq nbr).getD c 0) w := by
  obtain ⟨w, w1, w2⟩ := huffman_run freq nbr (by omega) hf hs
  obtain ⟨_, p2, _, p4⟩ := finalParent_spec freq nbr (by omega)
  obtain ⟨d0, d1⟩ := finalDepth_spec freq nbr (by omega)
  refine ⟨w, w1, hn, p2, ?_, d0, d1, ?_⟩
  · intro k hk1 hk2
    obtain ⟨c1, c2, a1, a2, a3, a4, a5, a6, a7, a8⟩ := w2 k hk1 hk2
    refine ⟨c1, c2, a1, a2, a3, a4, a5, ?_, a6, a7, a8⟩
    intro c hc hp
    have hsub : ({c1, c2} : Finset Nat)
        ⊆ (Finset.range (2 * nbr)).filter (fun c => (finalParent freq nbr).getD c 0 = k) := by
      intro x hx
      rw [Finset.mem_insert, Finset.mem_singleton] at hx
      rw [Finset.mem_filter, Finset.mem_range]
      rcases hx with rfl | rfl
      · exact ⟨by omega, a4⟩
      · exact ⟨by omega, a5⟩
    have heq := Finset.eq_of_subset_of_card_le hsub (by rw [p4 k hk1 hk2, Finset.card_pair a1])
    have hmem : c ∈ (Finset.range (2 * nbr)).filter
        (fun c => (finalParent freq nbr).getD c 0 = k) :=
      Finset.mem_filter.mpr ⟨Finset.mem_range.mpr (by omega), hp⟩
    rw [← heq, Finset.mem_insert, Finset.mem_singleton] at hmem
    exact hmem
  · intro c hc
    rw [w1 c hc]
    have := hf c hc
    omega

end Comp


namespace Comp

/-! ## Properties of Huffman trees -/

theorem ht_pos {n : Nat} {P d : Nat → Nat} {w : Nat → Int} (h : HuffTree n P d w) :
    ∀ k, k ≤ 2 * n - 2 → 1 ≤ w k := by
  obtain ⟨h1, h2, h3, h4, h5, h6⟩ := h
  intro k
  induction k using Nat.strong_induction_on with
  | _ k ih =>
    intro hk
    by_cases hl : k < n
    · exact h6 k hl
    · obtain ⟨c1, c2, _, a2, a3, _, _, _, a6, _, _⟩ := h3 k (by omega) hk
      have := ih c1 a2 (by omega)
      have := ih c2 a3 (by omega)
      omega

/-- Every node but the root has a sibling. -/
theorem ht_sibling {n : Nat} {P d : Nat → Nat} {w : Nat → Int} (h : HuffTree n P d w)
    (c : Nat) (hc : c < 2 * n - 2) :
    ∃ e, e ≠ c ∧ e < 2 * n - 2 ∧ P e = P c ∧ w (P c) = w c + w e ∧
      ∀ x, x < 2 * n - 2 → P x = P c → x = c ∨ x = e := by
  obtain ⟨h1, h2, h3, h4, h5, h6⟩ := h
  obtain ⟨q1, q2, q3⟩ := h2 c hc
  obtain ⟨c1, c2, a1, a2, a3, a4, a5, a6, a7, _, _⟩ := h3 (P c) q2 q3
  rcases a6 c hc rfl with e | e
  · subst e
    exact ⟨c2, fun e => a1 e.symm, by omega, a5, a7, a6⟩
  · subst e
    refine ⟨c1, a1, by omega, a4, by rw [a7]; ring, ?_⟩
    intro x hx hp
    rcases a6 x hx hp with e | e
    · exact Or.inr e
    · exact Or.inl e

theorem ht_child_lt {n : Nat} {P d : Nat → Nat} {w : Nat → Int} (h : HuffTree n P d w)
    (c : Nat) (hc : c < 2 * n - 2) : w c < w (P c) := by
  obtain ⟨e, _, e2, _, e4, _⟩ := ht_sibling h c hc
  have := ht_pos h e (by omega)
  omega

theorem ht_le_root {n : Nat} {P d : Nat → Nat} {w : Nat → Int} (h : HuffTree n P d w) :
    ∀ m x, x + m = 2 * n - 2 → w x ≤ w (2 * n - 2) := by
  intro m
  induction m using Nat.strong_induction_on with
  | _ m ih =>
    intro x hx
    by_cases hr : x = 2 * n - 2
    · rw [hr]
    · have hlt : x < 2 * n - 2 := by omega
      have hp := h.2.1 x hlt
      have h1 := ht_child_lt h x hlt
      have h2 := ih (2 * n - 2 - P x) (by omega) (P x) (by omega)
      omega

/-- A node that gets its parent strictly earlier than another node is not heavier. -/
theorem ht_pop_mono {n : Nat} {P d : Nat → Nat} {w : Nat → Int} (h : HuffTree n P d w)
    (c : Nat) (hc : c < 2 * n - 2) :
    ∀ x, x ≤ 2 * n - 2 → (x = 2 * n - 2 ∨ P c < P x) → w c ≤ w x := by
  have hpos := ht_pos h
  obtain ⟨h1, h2, h3, h4, h5, h6⟩ := h
  obtain ⟨q1, q2, q3⟩ := h2 c hc
  obtain ⟨c1, c2, a1, a2, a3, a4, a5, a6, a7, a8, a9⟩ := h3 (P c) q2 q3
  have hcc : w c ≤ w c2 := by
    rcases a6 c hc rfl with e | e
    · rw [e]; exact a8
    · rw [e]
  intro x
  induction x using Nat.strong_induction_on with
  | _ x ih =>
    intro hx hor
    rcases Nat.lt_trichotomy x (P c) with hlt | heq | hgt
    · have hxr : x < 2 * n - 2 := by omega
      have hpx : P c < P x := by
        rcases hor with e | e
        · omega
        · exact e
      have := a9 x hlt hpx
      omega
    · rw [heq, a7]
      have := hpos c1 (by omega)
      omega
    · obtain ⟨e1, e2, _, b2, b3, b4, b5, _, b7, _, _⟩ := h3 x (by omega) hx
      have := ih e1 b2 (by omega) (Or.inr (by rw [b4]; exact hgt))
      have := hpos e2 (by omega)
      omega

theorem ht_depth_zero {n : Nat} {P d : Nat → Nat} {w : Nat → Int} (h : HuffTree n P d w)
    (x : Nat) (hx : x ≤ 2 * n - 2) (hd : d x = 0) : x = 2 * n - 2 := by
  by_contra hne
  have := h.2.2.2.2.1 x (by omega)
  omega

/-- The level property: a node is at least as heavy as every node that lies deeper. -/
theorem ht_level {n : Nat} {P d : Nat → Nat} {w : Nat → Int} (h : HuffTree n P d w) :
    ∀ m x y, d x = m → x ≤ 2 * n - 2 → y ≤ 2 * n - 2 → d x < d y → w y ≤ w x := by
  intro m
  induction m with
  | zero =>
    intro x y hm hx hy _
    rw [ht_depth_zero h x hx hm]
    exact ht_le_root h (2 * n - 2 - y) y (by omega)
  | succ m ih =>
    intro x y hm hx hy hlt
    have hd0 := h.2.2.2.1
    have hd1 := h.2.2.2.2.1
    have hxr : x < 2 * n - 2 := by
      by_contra hge
      have : x = 2 * n - 2 := by omega
      rw [this] at hm
      omega
    have hyr : y < 2 * n - 2 := by
      by_contra hge
      have : y = 2 * n - 2 := by omega
      rw [this] at hlt
      omega
    have hpx := h.2.1 x hxr
    have hpy := h.2.1 y hyr
    have dx := hd1 x hxr
    have dy := hd1 y hyr
    have hI := ih (P x) (P y) (by omega) hpx.2.2 hpy.2.2 (by omega)
    rcases Nat.lt_trichotomy (P y) (P x) with h1 | h1 | h1
    · exact ht_pop_mono h y hyr x hx (Or.inr h1)
    · rw [h1] at dy
      omega
    · obtain ⟨x', _, x2, x3, x4, _⟩ := ht_sibling h x hxr
      obtain ⟨y', _, y2, y3, y4, _⟩ := ht_sibling h y hyr
      have k1 := ht_pop_mono h x' x2 y' (by omega) (Or.inr (by rw [x3, y3]; exact h1))
      omega

end Comp


namespace Comp

/-! ## Depth and weight in a Huffman tree -/

/-- The ancestors of a node: `h` steps towards the root from a node of depth `≥ h`. -/
theorem ht_ancestor {n : Nat} {P d : Nat → Nat} {w : Nat → Int} (h : HuffTree n P d w)
    (y : Nat) (hy : y ≤ 2 * n - 2) :
    ∀ k, k ≤ d y → P^[k] y ≤ 2 * n - 2 ∧ d (P^[k] y) + k = d y := by
  intro k
  induction k with
  | zero => intro _; exact ⟨hy, rfl⟩
  | succ k ih =>
    intro hk
    obtain ⟨i1, i2⟩ := ih (by omega)
    have hlt : P^[k] y < 2 * n - 2 := by
      by_contra hge
      have e : P^[k] y = 2 * n - 2 := by omega
      rw [e, h.2.2.2.1] at i2
      omega
    rw [Function.iterate_succ_apply']
    have := h.2.1 _ hlt
    have := h.2.2.2.2.1 _ hlt
    exact ⟨by omega, by omega⟩

/-- A node with a descendant `k` levels below it weighs at least `fib (k + 2)`. -/
theorem ht_fib {n : Nat} {P d : Nat → Nat} {w : Nat → Int} (h : HuffTree n P d w)
    (y : Nat) (hy : y ≤ 2 * n - 2) :
    ∀ k, (k ≤ d y → (Nat.fib (k + 2) : Int) ≤ w (P^[k] y)) ∧
      (k + 1 ≤ d y → (Nat.fib (k + 3) : Int) ≤ w (P^[k + 1] y)) := by
  have hstep : ∀ k, k + 1 ≤ d y → ∃ e, e < 2 * n - 2 ∧ d e + k = d y ∧
      w (P^[k + 1] y) = w (P^[k] y) + w e ∧ d e = d (P^[k] y) := by
    intro k hk
    obtain ⟨i1, i2⟩ := ht_ancestor h y hy k (by omega)
    have hlt : P^[k] y < 2 * n - 2 := by
      by_contra hge
      have e : P^[k] y = 2 * n - 2 := by omega
      rw [e, h.2.2.2.1] at i2
      omega
    obtain ⟨e, _, e2, e3, e4, _⟩ := ht_sibling h _ hlt
    have d1 := h.2.2.2.2.1 _ hlt
    have d2 := h.2.2.2.2.1 _ e2
    rw [e3] at d2
    refine ⟨e, e2, by omega, ?_, by omega⟩
    rw [Function.iterate_succ_apply']
    exact e4
  intro k
  induction k with
  | zero =>
    refine ⟨fun _ => ?_, fun h1 => ?_⟩
    · simpa using ht_pos h y hy
    · obtain ⟨e, e1, _, e3, _⟩ := hstep 0 h1
      rw [e3]
      have := ht_pos h y hy
      have := ht_pos h e (by omega)
      simp only [Function.iterate_zero, id_eq]
      have : (Nat.fib (0 + 3) : Int) = 2 := rfl
      omega
  | succ k ih =>
    refine ⟨ih.2, fun h1 => ?_⟩
    obtain ⟨e, e1, e2, e3, e4⟩ := hstep (k + 1) h1
    obtain ⟨i1, i2⟩ := ht_ancestor h y hy k (by omega)
    have hl := ht_level h (d e) e (P^[k] y) rfl (by omega) i1 (by omega)
    have f1 := ih.1 (by omega)
    have f2 := ih.2 (by omega)
    rw [e3]
    have : Nat.fib (k + 1 + 3) = Nat.fib (k + 2) + Nat.fib (k + 3) := Nat.fib_add_two
    rw [this]
    push_cast
    omega

/-- The depth of a node is bounded by the weight of the root. -/
theorem ht_depth_fib {n : Nat} {P d : Nat → Nat} {w : Nat → Int} (h : HuffTree n P d w)
    (y : Nat) (hy : y ≤ 2 * n - 2) : (Nat.fib (d y + 2) : Int) ≤ w (2 * n - 2) := by
  obtain ⟨i1, i2⟩ := ht_ancestor h y hy (d y) (le_refl _)
  have h0 : d (P^[d y] y) = 0 := by omega
  have := (ht_fib h y hy (d y)).1 (le_refl _)
  rwa [ht_depth_zero h _ i1 h0] at this

end Comp


namespace Comp

/-! ## The total weight of a Huffman tree -/

theorem ht_children {n : Nat} {P d : Nat → Nat} {w : Nat → Int} (h : HuffTree n P d w)
    (k : Nat) (hk1 : n ≤ k) (hk2 : k ≤ 2 * n - 2) :
    ∑ c ∈ (Finset.range (2 * n - 2)).filter (fun c => P c = k), w c = w k := by
  obtain ⟨c1, c2, a1, a2, a3, a4, a5, a6, a7, _, _⟩ := h.2.2.1 k hk1 hk2
  have hset : (Finset.range (2 * n - 2)).filter (fun c => P c = k) = {c1, c2} := by
    ext c
    simp only [Finset.mem_filter, Finset.mem_range, Finset.mem_insert, Finset.mem_singleton]
    constructor
    · rintro ⟨h1, h2⟩
      exact a6 c h1 h2
    · rintro (e | e)
      · rw [e]; exact ⟨by omega, a4⟩
      · rw [e]; exact ⟨by omega, a5⟩
  rw [hset, Finset.sum_pair a1, a7]

/-- The nodes without a parent below `k` carry together the weight of all leaves. -/
theorem ht_frontier {n : Nat} {P d : Nat → Nat} {w : Nat → Int} (h : HuffTree n P d w) :
    ∀ k, n ≤ k → k ≤ 2 * n - 2 →
    ∑ c ∈ (Finset.range k).filter (fun c => k ≤ P c), w c = ∑ c ∈ Finset.range n, w c := by
  have hn := h.1
  have hP := h.2.1
  intro k hk
  induction k, hk using Nat.le_induction with
  | base =>
    intro _
    rw [Finset.filter_true_of_mem]
    intro c hc
    rw [Finset.mem_range] at hc
    exact (hP c (by omega)).2.1
  | succ k hnk ih =>
    intro hk
    have hI := ih (by omega)
    rw [← Finset.sum_filter_add_sum_filter_not _ (fun c => P c = k)] at hI
    have e1 : ((Finset.range k).filter (fun c => k ≤ P c)).filter (fun c => P c = k)
        = (Finset.range (2 * n - 2)).filter (fun c => P c = k) := by
      ext c
      simp only [Finset.mem_filter, Finset.mem_range]
      constructor
      · rintro ⟨⟨h1, _⟩, h3⟩
        exact ⟨by omega, h3⟩
      · rintro ⟨h1, h2⟩
        have := hP c h1
        exact ⟨⟨by omega, by omega⟩, h2⟩
    have e2 : ((Finset.range k).filter (fun c => k ≤ P c)).filter (fun c => ¬ P c = k)
        = ((Finset.range (k + 1)).filter (fun c => k + 1 ≤ P c)).erase k := by
      ext c
      simp only [Finset.mem_filter, Finset.mem_range, Finset.mem_erase]
      constructor
      · rintro ⟨⟨h1, h2⟩, h3⟩
        exact ⟨by omega, by omega, by omega⟩
      · rintro ⟨h1, h2, h3⟩
        exact ⟨⟨by omega, by omega⟩, by omega⟩
    have hkA : k ∈ (Finset.range (k + 1)).filter (fun c => k + 1 ≤ P c) := by
      rw [Finset.mem_filter, Finset.mem_range]
      have := hP k (by omega)
      exact ⟨by omega, by omega⟩
    rw [e1, e2, ht_children h k hnk (by omega), add_comm, Finset.sum_erase_add _ _ hkA] at hI
    exact hI

/-- The root weighs as much as all the leaves together. -/
theorem ht_total {n : Nat} {P d : Nat → Nat} {w : Nat → Int} (h : HuffTree n P d w) :
    w (2 * n - 2) = ∑ c ∈ Finset.range n, w c := by
  have hn := h.1
  have hP := h.2.1
  rw [← ht_frontier h (2 * n - 2) (by omega) (le_refl _),
    ← ht_children h (2 * n - 2) (by omega) (le_refl _)]
  apply Finset.sum_congr _ (fun _ _ => rfl)
  ext c
  simp only [Finset.mem_filter, Finset.mem_range]
  constructor
  · rintro ⟨h1, h2⟩
    have := hP c h1
    exact ⟨h1, by omega⟩
  · rintro ⟨h1, h2⟩
    have := hP c h1
    exact ⟨h1, by omega⟩

/-- A node that weighs more than half of the tree hangs directly below the root. -/
theorem ht_heavy {n : Nat} {P d : Nat → Nat} {w : Nat → Int} (h : HuffTree n P d w)
    (b : Nat) (hb : b < 2 * n - 2) (hw : w (2 * n - 2) < 2 * w b) : d b = 1 := by
  have hP := h.2.1 b hb
  by_cases hk : P b = 2 * n - 2
  · rw [h.2.2.2.2.1 b hb, hk, h.2.2.2.1]
  · exfalso
    have hk' : P b < 2 * n - 2 := by omega
    obtain ⟨e, _, e2, e3, e4, _⟩ := ht_sibling h (P b) hk'
    have hP2 := h.2.1 (P b) hk'
    have h1 := ht_pop_mono h b hb e (by omega) (Or.inr (by rw [e3]; exact hP2.1))
    have h2 := ht_child_lt h b hb
    have h3 := ht_le_root h (2 * n - 2 - P (P b)) (P (P b)) (by omega)
    omega

/-- A node directly below the root weighs at least a third of the tree, unless its
sibling is a leaf. -/
theorem ht_light {n : Nat} {P d : Nat → Nat} {w : Nat → Int} (h : HuffTree n P d w)
    (b : Nat) (hb : b < 2 * n - 2) (hd : d b = 1) :
    w (2 * n - 2) ≤ 3 * w b ∨ ∃ e, e < n ∧ w (2 * n - 2) = w b + w e := by
  have hP := h.2.1 b hb
  have hdb := h.2.2.2.2.1 b hb
  have hk : P b = 2 * n - 2 := ht_depth_zero h _ hP.2.2 (by omega)
  obtain ⟨e, _, e2, e3, e4, _⟩ := ht_sibling h b hb
  rw [hk] at e3 e4
  by_cases hl : e < n
  · exact Or.inr ⟨e, hl, e4⟩
  · left
    obtain ⟨c1, c2, _, a2, a3, a4, a5, _, a7, _, _⟩ := h.2.2.1 e (by omega) (by omega)
    have d1 := h.2.2.2.2.1 c1 (by omega)
    have d2 := h.2.2.2.2.1 c2 (by omega)
    have de := h.2.2.2.2.1 e e2
    rw [e3, h.2.2.2.1] at de
    rw [a4] at d1
    rw [a5] at d2
    have l1 := ht_level h 1 b c1 hd (by omega) (by omega) (by omega)
    have l2 := ht_level h 1 b c2 hd (by omega) (by omega) (by omega)
    omega

end Comp


namespace Comp

/-! ## The frequency count of `writeHBuffer` -/

theorem countFreq_succ (buffer : List Nat) (n : Nat) :
    countFreq buffer (n + 1) = (countFreq buffer n).set (buffer.getD n 0)
      ((countFreq buffer n).getD (buffer.getD n 0) 0 + 1) := by
  unfold countFreq
  rw [List.range_succ, List.foldl_append]
  rfl

theorem countFreq_length (buffer : List Nat) (n : Nat) : (countFreq buffer n).length = 256 := by
  induction n with
  | zero =>
    unfold countFreq
    rw [List.range_zero, List.foldl_nil, List.length_replicate]
  | succ n ih => rw [countFreq_succ, List.length_set, ih]

theorem getD_set_int (l : List Int) (j c : Nat) (v : Int) (hj : j < l.length) :
    (l.set j v).getD c 0 = if c = j then v else l.getD c 0 := by
  rw [List.getD_eq_getElem?_getD, List.getD_eq_getElem?_getD, List.getElem?_set]
  by_cases h : j = c
  · subst h
    simp [hj]
  · rw [if_neg h, if_neg (fun e => h e.symm)]

theorem countFreq_nonneg (buffer : List Nat) (n c : Nat) : 0 ≤ (countFreq buffer n).getD c 0 := by
  induction n generalizing c with
  | zero =>
    simp only [countFreq, List.range_zero, List.foldl_nil, List.getD_eq_getElem?_getD,
      List.getElem?_replicate]
    split <;> simp
  | succ n ih =>
    rw [countFreq_succ]
    by_cases hj : buffer.getD n 0 < (countFreq buffer n).length
    · rw [getD_set_int _ _ _ _ hj]
      split
      · have := ih (buffer.getD n 0)
        omega
      · exact ih c
    · rw [List.set_eq_of_length_le (by omega)]
      exact ih c

theorem countFreq_sum (buffer : List Nat) (n : Nat) (hb : ∀ i, i < n → buffer.getD i 0 < 256) :
    ∑ c ∈ Finset.range 256, (countFreq buffer n).getD c 0 = n := by
  induction n with
  | zero =>
    apply Finset.sum_eq_zero
    intro c _
    simp only [countFreq, List.range_zero, List.foldl_nil, List.getD_eq_getElem?_getD,
      List.getElem?_replicate]
    split <;> simp
  | succ n ih =>
    have hI := ih (fun i hi => hb i (by omega))
    have hj := hb n (by omega)
    rw [countFreq_succ]
    have hmem : buffer.getD n 0 ∈ Finset.range 256 := Finset.mem_range.mpr hj
    rw [← Finset.add_sum_erase _ _ hmem] at hI ⊢
    rw [getD_set_int _ _ _ _ (by rw [countFreq_length]; exact hj), if_pos rfl]
    have : ∑ c ∈ (Finset.range 256).erase (buffer.getD n 0),
        ((countFreq buffer n).set (buffer.getD n 0)
          ((countFreq buffer n).getD (buffer.getD n 0) 0 + 1)).getD c 0
        = ∑ c ∈ (Finset.range 256).erase (buffer.getD n 0), (countFreq buffer n).getD c 0 := by
      apply Finset.sum_congr rfl
      intro c hc
      rw [getD_set_int _ _ _ _ (by rw [countFreq_length]; exact hj),
        if_neg (Finset.ne_of_mem_erase hc)]
    rw [this]
    push_cast
    omega

/-- The frequency vector of a buffer of `n` bytes that are all equal to `b`. -/
theorem countFreq_uniform (buffer : List Nat) (b : Nat) (hb : b < 256) :
    ∀ n, (∀ i, i < n → buffer.getD i 0 = b) →
    ∀ c, (countFreq buffer n).getD c 0 = if c = b then (n : Int) else 0 := by
  intro n
  induction n with
  | zero =>
    intro _ c
    simp only [countFreq, List.range_zero, List.foldl_nil, List.getD_eq_getElem?_getD,
      List.getElem?_replicate]
    split <;> split <;> simp
  | succ n ih =>
    intro hu c
    have hI := ih (fun i hi => hu i (by omega))
    rw [countFreq_succ, hu n (by omega),
      getD_set_int _ _ _ _ (by rw [countFreq_length]; exact hb)]
    by_cases hc : c = b
    · rw [if_pos hc, if_pos hc, hI b, if_pos rfl]
      push_cast
      rfl
    · rw [if_neg hc, if_neg hc, hI c, if_neg hc]

theorem getD_replicate_lt (n b i : Nat) (hi : i < n) : (List.replicate n b).getD i 0 = b := by
  rw [List.getD_eq_getElem?_getD, List.getElem?_replicate, if_pos hi]
  rfl

end Comp


namespace Comp

/-! ## Code lengths of a buffer -/

/-- The depth of a leaf is bounded through the Fibonacci numbers by the total weight. -/
theorem finalDepth_fib (freq : List Int) (nbr : Nat) (hn : 2 ≤ nbr)
    (hf : ∀ c, c < nbr → 0 ≤ freq.getD c 0)
    (hs : ∑ c ∈ Finset.range nbr, (freq.getD c 0 + 1) ≤ 2 ^ 31) (c : Nat) (hc : c < nbr) :
    (Nat.fib ((finalDepth freq nbr).getD c 0 + 2) : Int)
      ≤ ∑ c ∈ Finset.range nbr, (freq.getD c 0 + 1) := by
  obtain ⟨w, w1, ht⟩ := generateLength_huffTree freq nbr hn hf hs
  have h1 := ht_depth_fib ht c (by omega)
  rw [ht_total ht, Finset.sum_congr rfl (fun c hc => w1 c (Finset.mem_range.mp hc))] at h1
  exact h1

theorem buffer_weight (buffer : List Nat) (n : Nat) (hb : ∀ i, i < n → buffer.getD i 0 < 256) :
    ∑ c ∈ Finset.range 256, ((countFreq buffer n).getD c 0 + 1) = (n : Int) + 256 := by
  rw [Finset.sum_add_distrib, countFreq_sum buffer n hb]
  simp

/-- The weights of the symbols of a buffer of `n` bytes have a sum of at most `2 ^ 31`
when `n + 256 ≤ 2 ^ 31`. -/
theorem buffer_fits (buffer : List Nat) (n : Nat) (hb : ∀ i, i < n → buffer.getD i 0 < 256)
    (hN : n + 256 ≤ 2 ^ 31) :
    ∑ c ∈ Finset.range 256, ((countFreq buffer n).getD c 0 + 1) ≤ 2 ^ 31 := by
  rw [buffer_weight buffer n hb]
  exact_mod_cast hN

/-- The code lengths of a buffer of `n` bytes are at most `k` when `n + 256 < fib (k + 3)`. -/
theorem length_le_of_fib (buffer : List Nat) (n k : Nat)
    (hb : ∀ i, i < n → buffer.getD i 0 < 256) (hk : n + 256 < Nat.fib (k + 3))
    (hN : n + 256 ≤ 2 ^ 31) (c : Nat) (hc : c < 256) :
    (generateLength (countFreq buffer n) 256).getD c 0 ≤ k := by
  rw [generateLength_getD _ 256 (by decide) c hc]
  have h1 := finalDepth_fib (countFreq buffer n) 256 (by decide)
    (fun c _ => countFreq_nonneg buffer n c) (buffer_fits buffer n hb hN) c hc
  rw [buffer_weight buffer n hb] at h1
  by_contra hgt
  have hgt' : k + 1 ≤ (finalDepth (countFreq buffer n) 256).getD c 0 := by
    have : ¬ (finalDepth (countFreq buffer n) 256).getD c 0 ≤ k := fun h => hgt (by exact_mod_cast h)
    omega
  have h2 : Nat.fib (k + 3) ≤ Nat.fib ((finalDepth (countFreq buffer n) 256).getD c 0 + 2) :=
    Nat.fib_mono (by omega)
  have h3 : (Nat.fib ((finalDepth (countFreq buffer n) 256).getD c 0 + 2) : Int) < Nat.fib (k + 3) := by
    have : ((n + 256 : Nat) : Int) < (Nat.fib (k + 3) : Int) := by exact_mod_cast hk
    push_cast at this
    omega
  have h4 : Nat.fib ((finalDepth (countFreq buffer n) 256).getD c 0 + 2) < Nat.fib (k + 3) := by
    exact_mod_cast h3
  omega

theorem fib_18 : Nat.fib 18 = 2584 := by
  simp [Nat.fib_add_two]

/-- The code lengths of a buffer of at most 2327 bytes are at most 15. -/
theorem length_le_15_of_small (buffer : List Nat) (n : Nat)
    (hb : ∀ i, i < n → buffer.getD i 0 < 256) (hn : n ≤ 2327) (c : Nat) (hc : c < 256) :
    (generateLength (countFreq buffer n) 256).getD c 0 ≤ 15 := by
  have := length_le_of_fib buffer n 15 hb (by rw [fib_18]; omega) (by omega) c hc
  exact_mod_cast this

/-- In a buffer of at least 255 bytes that are all equal to `b`, the code of `b` has
length 1. -/
theorem length_uniform_heavy (buffer : List Nat) (b n : Nat) (hb : b < 256)
    (hu : ∀ i, i < n → buffer.getD i 0 = b) (hn : 255 ≤ n) (hN : n + 256 ≤ 2 ^ 31) :
    (generateLength (countFreq buffer n) 256).getD b 0 = 1 := by
  rw [generateLength_getD _ 256 (by decide) b hb]
  obtain ⟨w, w1, ht⟩ := generateLength_huffTree (countFreq buffer n) 256 (by decide)
    (fun c _ => countFreq_nonneg buffer n c)
    (buffer_fits buffer n (fun i hi => by rw [hu i hi]; exact hb) (by omega))
  have htot := ht_total ht
  rw [Finset.sum_congr rfl (fun c hc => w1 c (Finset.mem_range.mp hc)),
    buffer_weight buffer n (fun i hi => by rw [hu i hi]; exact hb)] at htot
  have hwb := w1 b hb
  rw [countFreq_uniform buffer b hb n hu b, if_pos rfl] at hwb
  have := ht_heavy ht b (by omega) (by rw [htot, hwb]; omega)
  simp only at this
  rw [this]
  rfl

/-- In a buffer of at most 126 bytes that are all equal to `b`, the code of `b` does not
have length 1. -/
theorem length_uniform_light (buffer : List Nat) (b n : Nat) (hb : b < 256)
    (hu : ∀ i, i < n → buffer.getD i 0 = b) (hn : n ≤ 126) :
    (generateLength (countFreq buffer n) 256).getD b 0 ≠ 1 := by
  rw [generateLength_getD _ 256 (by decide) b hb]
  intro hd
  have hd' : (finalDepth (countFreq buffer n) 256).getD b 0 = 1 := by exact_mod_cast hd
  obtain ⟨w, w1, ht⟩ := generateLength_huffTree (countFreq buffer n) 256 (by decide)
    (fun c _ => countFreq_nonneg buffer n c)
    (buffer_fits buffer n (fun i hi => by rw [hu i hi]; exact hb) (by omega))
  have htot := ht_total ht
  rw [Finset.sum_congr rfl (fun c hc => w1 c (Finset.mem_range.mp hc)),
    buffer_weight buffer n (fun i hi => by rw [hu i hi]; exact hb)] at htot
  have hwb := w1 b hb
  rw [countFreq_uniform buffer b hb n hu b, if_pos rfl] at hwb
  rcases ht_light ht b (by omega) hd' with h1 | ⟨e, he, h1⟩
  · rw [htot, hwb] at h1
    omega
  · have hwe := w1 e he
    rw [countFreq_uniform buffer b hb n hu e] at hwe
    rw [htot, hwb, hwe] at h1
    split at h1 <;> omega

end Comp


namespace Comp

/-! ## Writing behind bytes that are already in the file -/

theorem putc_append (c : Int) (f g : List Nat) : putc c (f ++ g) = f ++ putc c g := by
  unfold putc
  rw [List.append_assoc]

theorem putBitsLoop_append (f : List Nat) (fuel : Nat) : ∀ (val k : Nat) (g : List Nat) (c : Int)
    (nb : Nat), putBitsLoop fuel val k { file := f ++ g, curChar := c, nBit := nb }
      = { file := f ++ (putBitsLoop fuel val k { file := g, curChar := c, nBit := nb }).file,
          curChar := (putBitsLoop fuel val k { file := g, curChar := c, nBit := nb }).curChar,
          nBit := (putBitsLoop fuel val k { file := g, curChar := c, nBit := nb }).nBit } := by
  induction fuel with
  | zero => intro val k g c nb; rfl
  | succ fuel ih =>
    intro val k g c nb
    rw [putBitsLoop, putBitsLoop]
    by_cases hk : k > 0
    · rw [if_pos hk, if_pos hk]
      by_cases h8 : nb = 8
      · simp only [h8, if_true, putc_append]
        exact ih _ _ _ _ _
      · simp only [h8, if_false]
        exact ih _ _ _ _ _
    · rw [if_neg hk, if_neg hk]

theorem putBitsSeq_append (f : List Nat) (ps : List (Nat × Nat)) : ∀ (g : List Nat) (c : Int)
    (nb : Nat), putBitsSeq ps { file := f ++ g, curChar := c, nBit := nb }
      = { file := f ++ (putBitsSeq ps { file := g, curChar := c, nBit := nb }).file,
          curChar := (putBitsSeq ps { file := g, curChar := c, nBit := nb }).curChar,
          nBit := (putBitsSeq ps { file := g, curChar := c, nBit := nb }).nBit } := by
  induction ps with
  | nil => intro g c nb; rfl
  | cons p ps ih =>
    intro g c nb
    unfold putBitsSeq
    rw [List.foldl_cons, List.foldl_cons]
    unfold putBits
    rw [putBitsLoop_append]
    exact ih _ _ _

theorem closeBits_append (f g : List Nat) (c : Int) (nb : Nat) :
    (closeBits { file := f ++ g, curChar := c, nBit := nb }).file
      = f ++ (closeBits { file := g, curChar := c, nBit := nb }).file := by
  unfold closeBits
  by_cases h : nb > 0
  · simp only [h, if_true, putc_append]
  · simp only [h, if_false]

/-- A sequence of `putBits` and a `closeBits` on a stream opened on a file that already
holds bytes appends what it would write to an empty file. -/
theorem closeBits_putBitsSeq_file (f : List Nat) (ps : List (Nat × Nat)) :
    (closeBits (putBitsSeq ps (initBits f))).file
      = f ++ (closeBits (putBitsSeq ps (initBits []))).file := by
  have h := putBitsSeq_append f ps [] 0 0
  rw [List.append_nil] at h
  unfold initBits
  rw [h]
  exact closeBits_append _ _ _ _

/-! ## Cutting bits into bytes -/

theorem packBitsAux_fuel : ∀ (fuel : Nat) (l : List Bool), l.length ≤ fuel →
    packBitsAux fuel l = packBitsAux l.length l := by
  intro fuel
  induction fuel using Nat.strong_induction_on with
  | _ fuel ih =>
    intro l hl
    cases l with
    | nil => rw [packBitsAux_nil, packBitsAux_nil]
    | cons b l =>
      obtain ⟨f, rfl⟩ : ∃ f, fuel = f + 1 := ⟨fuel - 1, by simp at hl; omega⟩
      rw [List.length_cons, packBitsAux, packBitsAux]
      have hd : ((b :: l).drop 8).length ≤ l.length := by
        rw [List.length_drop, List.length_cons]
        omega
      have hf : l.length ≤ f := by simpa using hl
      rw [ih f (by omega) _ (by omega), ih l.length (by omega) _ hd]

theorem packBits_bytes (H : List Nat) (R : List Bool) (hH : AllBytes H) :
    packBits (bytesBits H ++ R) = H ++ packBits R := by
  unfold packBits
  rw [packBitsAux_bytes H _ R hH (by rw [List.length_append, bytesBits_length]; omega),
    packBitsAux_fuel _ R (by rw [List.length_append, bytesBits_length]; omega)]

theorem bitsOf_two_bytes (n : Nat) : bytesBits [n / 256, n % 256] = bitsOf 16 n := by
  have h := bitsOf_add 8 8 n
  have e : n >>> 8 = n / 256 := by rw [Nat.shiftRight_eq_div_pow]
  rw [e] at h
  simp only [bytesBits, List.append_nil]
  rw [show (8 + 8 = 16) from rfl] at h
  rw [h]
  congr 1
  exact bitsOf_mod 8 n

theorem bitsOf_two_nibbles (a b : Nat) (hb : b < 16) :
    bitsOf 8 (16 * a + b) = bitsOf 4 a ++ bitsOf 4 b := by
  have h := bitsOf_add 4 4 (16 * a + b)
  have e : (16 * a + b) >>> 4 = a := by
    rw [Nat.shiftRight_eq_div_pow]
    omega
  rw [e] at h
  rw [show (4 + 4 = 8) from rfl] at h
  rw [h]
  congr 1
  rw [← bitsOf_mod 4 (16 * a + b)]
  congr 1
  show (16 * a + b) % 16 = b
  omega

/-- The 4-bit fields of the header, two to a byte. -/
theorem header_bytes (g : Nat → Nat) : ∀ m, (∀ i, i < 2 * m → g i < 16) →
    seqBits ((List.range (2 * m)).map (fun i => (g i, 4)))
      = bytesBits ((List.range m).map (fun k => 16 * g (2 * k) + g (2 * k + 1))) := by
  intro m
  induction m with
  | zero => intro _; rfl
  | succ m ih =>
    intro hg
    have e : 2 * (m + 1) = 2 * m + 1 + 1 := by ring
    rw [e, List.range_succ, List.range_succ, List.range_succ, List.map_append, List.map_append,
      List.map_append, List.append_assoc, seqBits_append, ih (fun i hi => hg i (by omega)),
      bytesBits_append]
    congr 1
    simp only [List.map_cons, List.map_nil, List.singleton_append, seqBits, bytesBits,
      List.append_nil]
    rw [bitsOf_two_nibbles _ _ (hg _ (by omega))]

theorem packBitsAux_length : ∀ (fuel : Nat) (l : List Bool), l.length ≤ fuel →
    (packBitsAux fuel l).length = (l.length + 7) / 8 := by
  intro fuel
  induction fuel using Nat.strong_induction_on with
  | _ fuel ih =>
    intro l hl
    cases l with
    | nil => rw [packBitsAux_nil]; rfl
    | cons b l =>
      obtain ⟨f, rfl⟩ : ∃ f, fuel = f + 1 := ⟨fuel - 1, by simp at hl; omega⟩
      rw [packBitsAux, List.length_cons, ih f (by omega) _ (by
        rw [List.length_drop, List.length_cons]
        simp at hl
        omega), List.length_drop, List.length_cons]
      omega

theorem packBits_len (l : List Bool) : (packBits l).length = (l.length + 7) / 8 :=
  packBitsAux_length _ l (le_refl _)

theorem range_map_getD {α : Type} (B : List Nat) (f : Nat → α) :
    (List.range B.length).map (fun i => f (B.getD i 0)) = B.map f := by
  apply List.ext_getElem
  · simp
  · intro i h1 h2
    simp only [List.getElem_map, List.getElem_range]
    rw [List.getD_eq_getElem _ _ (by simpa using h1)]

end Comp


namespace Comp

/-! ## The bytes written by `writeHBuffer` -/

/-- The calls of `putBits` made by `writeHBuffer`, in order. -/
theorem writeHBuffer_eq (file buffer : List Nat) (n : Nat) :
    writeHBuffer file buffer n
      = (closeBits (putBitsSeq
          ((n, 16) ::
            ((List.range 256).map
                (fun i => (lenOf (generateLength (countFreq buffer n) 256) i, 4))
              ++ (List.range n).map (fun i =>
                ((generatePrefix (List.replicate 256 0)
                    (generateLength (countFreq buffer n) 256) 256).getD (buffer.getD i 0) 0,
                  lenOf (generateLength (countFreq buffer n) 256) (buffer.getD i 0)))))
          (initBits file))).file := by
  unfold writeHBuffer putBitsSeq
  simp only [List.foldl_cons, List.foldl_append, List.foldl_map]
  rfl

/-- The layout of a block, for a buffer whose code lengths fit in 4 bits. -/
theorem writeHBuffer_layout (file B : List Nat) (hB : ∀ b ∈ B, b < 256)
    (hN : B.length < 65536)
    (hlen : ∀ c, c < 256 → (generateLength (countFreq B B.length) 256).getD c 0 ≤ 15) :
    writeHBuffer file B B.length
      = file ++ ([B.length / 256, B.length % 256]
          ++ headerBytes (generateLength (countFreq B B.length) 256)
          ++ packBits (seqBits (payloadSeq
              (generatePrefix (List.replicate 256 0)
                (generateLength (countFreq B B.length) 256) 256)
              (generateLength (countFreq B B.length) 256) B))) := by
  rw [writeHBuffer_eq, closeBits_putBitsSeq_file]
  congr 1
  have h2 : 2 ≤ 256 := by norm_num
  have hcl : ∀ b, b < 256 →
      (generatePrefix (List.replicate 256 0) (generateLength (countFreq B B.length) 256) 256).getD b 0
        < 2 ^ lenOf (generateLength (countFreq B B.length) 256) b :=
    fun b hb => code_lt (countFreq B B.length) (List.replicate 256 0) 256 h2 symbols_fit
      (le_of_eq (List.length_replicate 256 0).symm) b hb
  set L := generateLength (countFreq B B.length) 256 with hL
  set code := generatePrefix (List.replicate 256 0) L 256 with hcode
  have hpay : (List.range B.length).map (fun i => (code.getD (B.getD i 0) 0, lenOf L (B.getD i 0)))
      = payloadSeq code L B := range_map_getD B (fun b => (code.getD b 0, lenOf L b))
  rw [hpay]
  have hl16 : ∀ i, i < 256 → lenOf L i < 16 := by
    intro i hi
    have := hlen i hi
    unfold lenOf
    omega
  -- every value fits its width
  have hfit : ∀ p ∈ (B.length, 16) ::
      ((List.range 256).map (fun i => (lenOf L i, 4)) ++ payloadSeq code L B), p.1 < 2 ^ p.2 := by
    intro p hp
    rw [List.mem_cons, List.mem_append, List.mem_map] at hp
    rcases hp with rfl | ⟨i, hi, rfl⟩ | hp
    · show B.length < 2 ^ 16
      have : (2 : Nat) ^ 16 = 65536 := by norm_num
      omega
    · show lenOf L i < 2 ^ 4
      have := hl16 i (List.mem_range.mp hi)
      have : (2 : Nat) ^ 4 = 16 := by norm_num
      omega
    · unfold payloadSeq at hp
      rw [List.mem_map] at hp
      obtain ⟨b, hb, rfl⟩ := hp
      have hc := hcl b (hB b hb)
      simp only
      exact hc
  obtain ⟨pad, hpad, hbytes, hb⟩ := closeBits_putBitsSeq _ hfit
  rw [eq_packBits _ _ pad hbytes hpad hb]
  have hhdr : seqBits ((List.range 256).map (fun i => (lenOf L i, 4)))
      = bytesBits (headerBytes L) :=
    header_bytes (lenOf L) 128 (fun i hi => hl16 i (by omega))
  have e : seqBits ((B.length, 16) ::
      ((List.range 256).map (fun i => (lenOf L i, 4)) ++ payloadSeq code L B))
      = bytesBits ([B.length / 256, B.length % 256] ++ headerBytes L)
        ++ seqBits (payloadSeq code L B) := by
    rw [seqBits, seqBits_append, bytesBits_append, bitsOf_two_bytes, List.append_assoc, hhdr]
  rw [e, packBits_bytes]
  intro x hx
  rw [List.mem_append] at hx
  rcases hx with hx | hx
  · simp only [List.mem_cons, List.mem_singleton, List.not_mem_nil, or_false] at hx
    rcases hx with rfl | rfl <;> omega
  · unfold headerBytes at hx
    rw [List.mem_map] at hx
    obtain ⟨k, hk, rfl⟩ := hx
    rw [List.mem_range] at hk
    have := hl16 (2 * k) (by omega)
    have := hl16 (2 * k + 1) (by omega)
    omega

theorem headerBytes_length (length : List Int) : (headerBytes length).length = 128 := by
  unfold headerBytes
  rw [List.length_map, List.length_range]

end Comp


namespace Comp

/-! ## The order in which `generatePrefix` hands out the codes -/

theorem PLast_start (table : List Nat) (length : List Int) (nbr : Nat)
    (hex : ∃ a, a < nbr ∧ 0 < length.getD a 0)
    (htab : nbr ≤ table.length) (hfit : KeysFit length nbr) :
    PLast length nbr (prefixStart table length nbr) := by
  obtain ⟨f1, f2, f3, f4, f5⟩ := prefixFill_facts length nbr hfit
  have hlive := live_prefixFill length nbr
  have hcard : Multiset.card (contents (prefixFill length nbr)) = (prefixFill length nbr).top - 1 :=
    contents_card _
  have htop : 1 < (prefixFill length nbr).top := by
    obtain ⟨a, ha1, ha2⟩ := hex
    have : (a, length.getD a 0 * nbr + a) ∈ contents (prefixFill length nbr) := by
      rw [f4, Multiset.mem_map]
      exact ⟨a, Multiset.mem_filter.mpr ⟨Multiset.mem_range.mpr ha1, ha2⟩, rfl⟩
    have := Multiset.card_pos_iff_exists_mem.mpr ⟨_, this⟩
    omega
  obtain ⟨a1, a2, a3, a4, _, a6, a7⟩ := getPrio_spec (prefixFill length nbr) f1 htop
  have hmem : cell (prefixFill length nbr) 1 ∈ contents (prefixFill length nbr) := by
    rw [a6]; simp
  have hall : ∀ x ∈ contents (prefixFill length nbr),
      x.1 < nbr ∧ 0 < length.getD x.1 0 ∧ x.2 = length.getD x.1 0 * nbr + x.1 := by
    intro x hx
    rw [f4, Multiset.mem_map] at hx
    obtain ⟨i, hi, rfl⟩ := hx
    rw [Multiset.mem_filter, Multiset.mem_range] at hi
    exact ⟨hi.1, hi.2, rfl⟩
  obtain ⟨u1, u2, u3⟩ := hall _ hmem
  set u := (cell (prefixFill length nbr) 1).1 with hu
  have hstart : prefixStart table length nbr
      = ((getPrio (prefixFill length nbr)).2, length.getD u 0, 0, table.set u 0) := by
    unfold prefixStart
    simp only [a1, Int.toNat_ofNat]
  have hl : live (prefixFill length nbr) = u ::ₘ live (getPrio (prefixFill length nbr)).2 := by
    unfold live
    rw [a6, Multiset.map_add, Multiset.map_singleton, Multiset.singleton_add]
  have hnd : (live (prefixFill length nbr)).Nodup := by
    rw [hlive]
    exact Multiset.Nodup.filter _ (Multiset.nodup_range nbr)
  obtain ⟨hun, hass⟩ := assigned_pop length nbr _ _ u hl hnd u1 u2
  have hempty : assigned length nbr (prefixFill length nbr) = ∅ := by
    unfold assigned
    rw [hlive]
    apply Finset.filter_false_of_mem
    intro a ha
    rw [Finset.mem_range] at ha
    simp only [Multiset.mem_filter, Multiset.mem_range, not_and, not_lt]
    intro h1 h2
    exact absurd (h2 ha) (by omega)
  rw [hempty] at hass
  rw [hstart]
  unfold PLast
  simp only
  rw [hass]
  have hulen : u < table.length := by omega
  refine ⟨?_, u, by simp, rfl, getD_set_eq _ _ _ _ hulen⟩
  intro a ha
  simp only [Finset.mem_insert, Finset.not_mem_empty, or_false] at ha
  rw [ha]

theorem PLast_step (length : List Int) (nbr M : Nat)
    (s : PrefixState) (h : PInv length nbr M s) (h2 : PLast length nbr s) (ht : 1 < s.1.top) :
    PLast length nbr (prefixStep length s) := by
  obtain ⟨q, l, c, table⟩ := s
  obtain ⟨p1, p2, p3, p4, p5, p6, p6', p7, p8, p9, p10⟩ := h
  simp only at p1 p2 p3 p4 p5 p6 p6' p7 p8 p9 p10 ht
  have p1' := p1
  obtain ⟨a1, a2, a3, a4, _, a6, a7⟩ := getPrio_spec q p1 ht
  have hmem : cell q 1 ∈ contents q := by rw [a6]; simp
  obtain ⟨u1, u2, u3, u4⟩ := p4 _ hmem
  set u := (cell q 1).1 with hu
  have hstep : prefixStep length (q, l, c, table)
      = ((getPrio q).2, length.getD u 0, c >>> (l - length.getD u 0).toNat + 1,
          table.set u (c >>> (l - length.getD u 0).toNat + 1)) := by
    unfold prefixStep
    simp only [a1, Int.toNat_ofNat]
  have hl : live q = u ::ₘ live (getPrio q).2 := by
    unfold live
    rw [a6, Multiset.map_add, Multiset.map_singleton, Multiset.singleton_add]
  obtain ⟨hun, hass⟩ := assigned_pop length nbr q (getPrio q).2 u hl p3 u1 u2
  have hulen : u < table.length := by omega
  obtain ⟨e1, e2⟩ := h2
  simp only at e1 e2
  rw [hstep]
  unfold PLast
  simp only
  rw [hass]
  refine ⟨?_, u, by simp, rfl, getD_set_eq _ _ _ _ hulen⟩
  intro a ha
  rw [Finset.mem_insert] at ha
  rcases ha with ha | ha
  · rw [ha]
  · have := e1 a ha
    omega

/-- The state in which the loop of `generatePrefix` ends, with the order invariant. -/
theorem generatePrefix_final_last (table : List Nat) (length : List Int) (nbr M : Nat)
    (hM : ∀ a, a < nbr → lenOf length a ≤ M) (hex : ∃ a, a < nbr ∧ 0 < length.getD a 0)
    (htab : nbr ≤ table.length) (hfit : KeysFit length nbr) :
    ∃ s : PrefixState, PInv length nbr M s ∧ PLast length nbr s ∧
      assigned length nbr s.1 = (Finset.range nbr).filter (fun a => 0 < length.getD a 0) ∧
      generatePrefix table length nbr = s.2.2.2 := by
  have h0 := PInv_start table length nbr M hM hex htab hfit
  have h0' := PLast_start table length nbr hex htab hfit
  obtain ⟨s, h1, h2, h3⟩ := prefixLoop_induct length
    (fun s => PInv length nbr M s ∧ PLast length nbr s)
    (fun s hs ht => ⟨⟨(PInv_step length nbr M hM s hs.1 ht).1,
      PLast_step length nbr M s hs.1 hs.2 ht⟩, (PInv_step length nbr M hM s hs.1 ht).2⟩)
    (prefixStart table length nbr).1.top (prefixStart table length nbr) ⟨h0, h0'⟩ (by omega)
  refine ⟨s, h1.1, h1.2, ?_, h3⟩
  unfold assigned live
  rw [contents_eq_zero _ h2]
  simp

/-- When the Kraft sum of the lengths is 1, the code handed out last belongs to a
symbol of minimal length and consists of one bits only. -/
theorem generatePrefix_last (table : List Nat) (length : List Int) (nbr M : Nat)
    (hM : ∀ a, a < nbr → lenOf length a ≤ M) (hex : ∃ a, a < nbr ∧ 0 < length.getD a 0)
    (htab : nbr ≤ table.length) (hfit : KeysFit length nbr)
    (hk : kraftSum length M ((Finset.range nbr).filter (fun a => 0 < length.getD a 0)) = 2 ^ M) :
    ∃ a, a < nbr ∧ 0 < length.getD a 0 ∧
      (∀ b, b < nbr → 0 < length.getD b 0 → length.getD a 0 ≤ length.getD b 0) ∧
      (generatePrefix table length nbr).getD a 0 + 1 = 2 ^ lenOf length a := by
  obtain ⟨s, hp, ⟨e1, a, ha, e2, e3⟩, hass, he⟩ :=
    generatePrefix_final_last table length nbr M hM hex htab hfit
  obtain ⟨_, _, _, _, _, p6, p6', p7, p8, _, _⟩ := hp
  rw [hass] at e1 ha p7 p8
  rw [hk] at p7 p8
  rw [Finset.mem_filter, Finset.mem_range] at ha
  refine ⟨a, ha.1, ha.2, ?_, ?_⟩
  · intro b hb1 hb2
    rw [e2]
    exact e1 b (Finset.mem_filter.mpr ⟨Finset.mem_range.mpr hb1, hb2⟩)
  · rw [he, e3]
    have hl : lenOf length a = s.2.1.toNat := by unfold lenOf; rw [e2]
    rw [hl]
    unfold codeLo at p7
    unfold codeHi at p8
    have e : 2 ^ M = 2 ^ s.2.1.toNat * 2 ^ (M - s.2.1.toNat) := by
      rw [← pow_add]
      congr 1
      omega
    rw [e] at p7 p8
    have hpos : 0 < 2 ^ (M - s.2.1.toNat) := Nat.pos_pow_of_pos _ (by decide)
    have h1 := Nat.lt_of_mul_lt_mul_right p7
    have h2 := Nat.le_of_mul_le_mul_right p8 hpos
    omega

end Comp


namespace Comp

/-! ## Blocks of one repeated byte -/

/-- Two different nodes directly below the root are the two children of the root. -/
theorem ht_beside {n : Nat} {P d : Nat → Nat} {w : Nat → Int} (h : HuffTree n P d w)
    (b x : Nat) (hb : b < 2 * n - 2) (hx : x < 2 * n - 2) (hne : x ≠ b)
    (hdb : d b = 1) (hdx : d x = 1) : w (2 * n - 2) = w b + w x := by
  have pb := h.2.1 b hb
  have px := h.2.1 x hx
  have db := h.2.2.2.2.1 b hb
  have dx := h.2.2.2.2.1 x hx
  have rb : P b = 2 * n - 2 := ht_depth_zero h _ pb.2.2 (by omega)
  have rx : P x = 2 * n - 2 := ht_depth_zero h _ px.2.2 (by omega)
  obtain ⟨e, _, _, _, e4, e5⟩ := ht_sibling h b hb
  rcases e5 x hx (by rw [rx, rb]) with e | e
  · exact absurd e hne
  · rw [rb, ← e] at e4
    exact e4

/-- Beside a leaf `b` that hangs directly below the root, the depth of a node is bounded
by the weight of the rest of the tree. -/
theorem ht_depth_beside {n : Nat} {P d : Nat → Nat} {w : Nat → Int} (h : HuffTree n P d w)
    (b y : Nat) (hb : b < n) (hy : y ≤ 2 * n - 2) (hne : y ≠ b) (hdb : d b = 1)
    (hdy : 1 ≤ d y) : (Nat.fib (d y + 1) : Int) ≤ w (2 * n - 2) - w b := by
  have hn := h.1
  obtain ⟨i1, i2⟩ := ht_ancestor h y hy (d y - 1) (by omega)
  have hf := (ht_fib h y hy (d y - 1)).1 (by omega)
  have e : d y - 1 + 2 = d y + 1 := by omega
  rw [e] at hf
  have hx1 : d (P^[d y - 1] y) = 1 := by omega
  have hxr : P^[d y - 1] y < 2 * n - 2 := by
    by_contra hge
    have e : P^[d y - 1] y = 2 * n - 2 := by omega
    rw [e, h.2.2.2.1] at hx1
    omega
  have hxb : P^[d y - 1] y ≠ b := by
    by_cases hk : d y - 1 = 0
    · rw [hk]
      exact hne
    · obtain ⟨k, hk'⟩ : ∃ k, d y - 1 = k + 1 := ⟨d y - 2, by omega⟩
      rw [hk', Function.iterate_succ_apply']
      obtain ⟨j1, j2⟩ := ht_ancestor h y hy k (by omega)
      have hlt : P^[k] y < 2 * n - 2 := by
        by_contra hge
        have e : P^[k] y = 2 * n - 2 := by omega
        rw [e, h.2.2.2.1] at j2
        omega
      have := h.2.1 _ hlt
      omega
  have := ht_beside h b _ (by omega) hxr hxb hdb hx1
  omega

theorem fib_14 : Nat.fib 14 = 377 := by
  simp [Nat.fib_add_two]

/-- The code lengths of a buffer of `n ≥ 255` bytes that are all equal to `b`: length 1
for `b`, a length from 2 to 12 for every other symbol. -/
theorem length_uniform (buffer : List Nat) (b n : Nat) (hb : b < 256)
    (hu : ∀ i, i < n → buffer.getD i 0 = b) (hn : 255 ≤ n) (hN : n + 256 ≤ 2 ^ 31)
    (c : Nat) (hc : c < 256) (hcb : c ≠ b) :
    2 ≤ (generateLength (countFreq buffer n) 256).getD c 0 ∧
    (generateLength (countFreq buffer n) 256).getD c 0 ≤ 12 := by
  have hb1 := length_uniform_heavy buffer b n hb hu hn hN
  rw [generateLength_getD _ 256 (by decide) b hb] at hb1
  have hdb : (finalDepth (countFreq buffer n) 256).getD b 0 = 1 := by exact_mod_cast hb1
  rw [generateLength_getD _ 256 (by decide) c hc]
  obtain ⟨w, w1, ht⟩ := generateLength_huffTree (countFreq buffer n) 256 (by decide)
    (fun c _ => countFreq_nonneg buffer n c)
    (buffer_fits buffer n (fun i hi => by rw [hu i hi]; exact hb) hN)
  have htot := ht_total ht
  rw [Finset.sum_congr rfl (fun c hc => w1 c (Finset.mem_range.mp hc)),
    buffer_weight buffer n (fun i hi => by rw [hu i hi]; exact hb)] at htot
  have hwb := w1 b hb
  rw [countFreq_uniform buffer b hb n hu b, if_pos rfl] at hwb
  have hwc := w1 c hc
  rw [countFreq_uniform buffer b hb n hu c, if_neg hcb] at hwc
  have hpos := finalDepth_pos (countFreq buffer n) 256 (by decide) c hc
  have h1 := ht_depth_beside ht b c hb (by omega) hcb hdb hpos
  rw [htot, hwb] at h1
  constructor
  · by_contra hlt
    have hd1 : (finalDepth (countFreq buffer n) 256).getD c 0 = 1 := by
      have : ¬ (2 : Int) ≤ ((finalDepth (countFreq buffer n) 256).getD c 0 : Nat) := hlt
      omega
    have := ht_beside ht b c (by omega) (by omega) hcb hdb hd1
    rw [htot, hwb, hwc] at this
    omega
  · by_contra hgt
    have hd13 : 13 ≤ (finalDepth (countFreq buffer n) 256).getD c 0 := by
      have : ¬ (((finalDepth (countFreq buffer n) 256).getD c 0 : Nat) : Int) ≤ 12 := hgt
      omega
    have hm : Nat.fib 14 ≤ Nat.fib ((finalDepth (countFreq buffer n) 256).getD c 0 + 1) :=
      Nat.fib_mono (by omega)
    rw [fib_14] at hm
    have : (377 : Int) ≤ (Nat.fib ((finalDepth (countFreq buffer n) 256).getD c 0 + 1) : Int) := by
      exact_mod_cast hm
    omega

end Comp


namespace Comp

/-- In a buffer of `n ≥ 255` bytes that are all equal to `b`, the code of `b` is the
single bit 1. -/
theorem code_uniform (table buffer : List Nat) (b n : Nat) (hb : b < 256)
    (hu : ∀ i, i < n → buffer.getD i 0 = b) (hn : 255 ≤ n) (hN : n + 256 ≤ 2 ^ 31)
    (htab : 256 ≤ table.length) :
    (generatePrefix table (generateLength (countFreq buffer n) 256) 256).getD b 0 = 1 := by
  have h2 : 2 ≤ 256 := by norm_num
  obtain ⟨M, hM⟩ := exists_length_bound (generateLength (countFreq buffer n) 256) 256
  have hb1 := length_uniform_heavy buffer b n hb hu hn hN
  obtain ⟨a, a1, a2, a3, a4⟩ := generatePrefix_last table
    (generateLength (countFreq buffer n) 256) 256 M hM ⟨b, hb, by rw [hb1]; decide⟩ htab
    (keysFit_generateLength _ 256 h2 (by norm_num))
    (by rw [symbols_generateLength _ 256 h2, kraftSum_generateLength _ 256 M h2 hM])
  have hle := a3 b hb (by rw [hb1]; decide)
  rw [hb1] at hle
  have hab : a = b := by
    by_contra hne
    have := (length_uniform buffer b n hb hu hn hN a a1 hne).1
    omega
  rw [hab] at a4
  have hl : lenOf (generateLength (countFreq buffer n) 256) b = 1 := by
    unfold lenOf
    rw [hb1]
    rfl
  rw [hl] at a4
  omega

theorem seqBits_replicate_one (n : Nat) :
    seqBits (List.replicate n (1, 1)) = List.replicate n true := by
  induction n with
  | zero => rfl
  | succ n ih =>
    rw [List.replicate_succ, seqBits, ih, List.replicate_succ]
    rfl

theorem bytesBits_replicate_255 (m : Nat) :
    bytesBits (List.replicate m 255) = List.replicate (8 * m) true := by
  induction m with
  | zero => rfl
  | succ m ih =>
    rw [List.replicate_succ, bytesBits, ih]
    have e : 8 * (m + 1) = 8 + 8 * m := by ring
    rw [e, List.replicate_add]
    rfl

theorem packBits_replicate_true (m : Nat) :
    packBits (List.replicate (8 * m) true) = List.replicate m 255 := by
  have h := packBits_bytes (List.replicate m 255) [] (by
    intro x hx
    rw [List.eq_of_mem_replicate hx]
    norm_num)
  rw [List.append_nil, bytesBits_replicate_255] at h
  rw [h]
  exact List.append_nil _

/-- The block written for a buffer of `8 m` bytes, `255 ≤ 8 m ≤ 65535`, that are all
equal to `b`: the payload consists of `m` bytes `0xFF`. -/
theorem writeHBuffer_uniform (file : List Nat) (b m : Nat) (hb : b < 256)
    (hm : 255 ≤ 8 * m) (hm2 : 8 * m < 65536) :
    writeHBuffer file (List.replicate (8 * m) b) (8 * m)
      = file ++ ([8 * m / 256, 8 * m % 256]
          ++ headerBytes (generateLength (countFreq (List.replicate (8 * m) b) (8 * m)) 256)
          ++ List.replicate m 255) := by
  have hu : ∀ i, i < 8 * m → (List.replicate (8 * m) b).getD i 0 = b := by
    intro i hi
    rw [List.getD_eq_getElem?_getD, List.getElem?_replicate, if_pos hi]
    rfl
  have hlen : ∀ c, c < 256 →
      (generateLength (countFreq (List.replicate (8 * m) b) (8 * m)) 256).getD c 0 ≤ 15 := by
    intro c hc
    by_cases hcb : c = b
    · rw [hcb, length_uniform_heavy _ b (8 * m) hb hu hm (by omega)]
      decide
    · have := (length_uniform _ b (8 * m) hb hu hm (by omega) c hc hcb).2
      omega
  have h := writeHBuffer_layout file (List.replicate (8 * m) b)
    (fun x hx => by rw [List.eq_of_mem_replicate hx]; exact hb)
    (by rw [List.length_replicate]; exact hm2)
    (by rw [List.length_replicate]; exact hlen)
  rw [List.length_replicate] at h
  rw [h]
  have hcode := code_uniform (List.replicate 256 0) (List.replicate (8 * m) b) b (8 * m) hb hu hm
    (by omega)
    (le_of_eq (List.length_replicate 256 0).symm)
  have hl : lenOf (generateLength (countFreq (List.replicate (8 * m) b) (8 * m)) 256) b = 1 := by
    unfold lenOf
    rw [length_uniform_heavy _ b (8 * m) hb hu hm (by omega)]
    rfl
  unfold payloadSeq
  rw [List.map_replicate, hcode, hl, seqBits_replicate_one, packBits_replicate_true]

end Comp


namespace Comp

/-! ## Sequences of queue operations -/

/-- What `getPrio` returns on a non-empty heap: an item of maximal priority, whose
priority is left in slot 0. -/
theorem getPrio_max (q : PriorityQueue) (hw : PQWf q) (ho : HeapOrd q) (ht : 1 < q.top) :
    ∃ x ∈ contents q, (getPrio q).1 = (x.1 : Int) ∧ (getPrio q).2.priority.getD 0 0 = x.2 ∧
      ∀ y ∈ contents q, y.2 ≤ x.2 := by
  obtain ⟨a1, _, _, _, a5, a6, _⟩ := getPrio_spec q hw ht
  refine ⟨cell q 1, by rw [a6]; simp, a1, ?_, fun y hy => contents_prio_le q ho y hy⟩
  have := congrArg Prod.snd a5
  exact this

theorem putPrioSeq_spec (items : List (Nat × Int)) : ∀ (q : PriorityQueue), PQWf q → HeapOrd q →
    q.top + items.length < q.data.length →
    PQWf (putPrioSeq items q) ∧ HeapOrd (putPrioSeq items q) ∧
    (putPrioSeq items q).top = q.top + items.length ∧
    contents (putPrioSeq items q) = (items : Multiset (Nat × Int)) + contents q := by
  induction items with
  | nil =>
    intro q hw ho _
    exact ⟨hw, ho, rfl, by simp [putPrioSeq]⟩
  | cons x items ih =>
    intro q hw ho hcap
    rw [List.length_cons] at hcap
    obtain ⟨r1, r2, r3, r4, _, r6⟩ := putPrio_spec x.1 x.2 q hw (by omega)
    have hw' : PQWf (putPrio x.1 x.2 q) := by
      obtain ⟨w1, w2, w3⟩ := hw
      exact ⟨by omega, by omega, by omega⟩
    obtain ⟨i1, i2, i3, i4⟩ := ih (putPrio x.1 x.2 q) hw' (r6 ho) (by omega)
    have e : putPrioSeq (x :: items) q = putPrioSeq items (putPrio x.1 x.2 q) := rfl
    rw [e]
    refine ⟨i1, i2, by rw [i3, r1, List.length_cons]; omega, ?_⟩
    rw [i4, r4, ← Multiset.cons_coe, ← Multiset.singleton_add]
    abel

theorem runOps_spec (ops : List QOp) : ∀ (q q' : PriorityQueue), PQWf q → HeapOrd q →
    q.top < q.data.length → runOps ops q = some q' →
    PQWf q' ∧ HeapOrd q' ∧ q'.top < q'.data.length := by
  induction ops with
  | nil =>
    intro q q' hw ho hc h
    simp only [runOps, Option.some.injEq] at h
    rw [← h]
    exact ⟨hw, ho, hc⟩
  | cons op ops ih =>
    intro q q' hw ho hc h
    cases op with
    | put d p =>
      simp only [runOps] at h
      split at h
      · next hcap =>
        obtain ⟨r1, r2, r3, _, _, r6⟩ := putPrio_spec d p q hw hc
        obtain ⟨w1, w2, w3⟩ := hw
        exact ih _ q' ⟨by omega, by omega, by omega⟩ (r6 ho) (by omega) h
      · exact absurd h (by simp)
    | get =>
      simp only [runOps] at h
      split at h
      · next ht =>
        obtain ⟨_, a2, a3, a4, _, _, a7⟩ := getPrio_spec q hw ht
        obtain ⟨w1, w2, w3⟩ := hw
        exact ih _ q' ⟨by omega, by omega, by omega⟩ (a7 ho) (by omega) h
      · exact absurd h (by simp)

end Comp


namespace Comp

/-! ## The bit counter of a stream -/

theorem putBitsLoop_nBit (fuel : Nat) : ∀ (val k : Nat) (str : BitStream), str.nBit ≤ 8 →
    (putBitsLoop fuel val k str).nBit ≤ 8 := by
  induction fuel with
  | zero => intro val k str h; exact h
  | succ fuel ih =>
    intro val k str h
    rw [putBitsLoop]
    by_cases hk : k > 0
    · rw [if_pos hk]
      apply ih
      by_cases h8 : str.nBit = 8
      · simp only [h8, if_true]
        split <;> omega
      · simp only [h8, if_false]
        split <;> omega
    · rw [if_neg hk]
      exact h

theorem putBitsSeq_nBit (ps : List (Nat × Nat)) : ∀ (str : BitStream), str.nBit ≤ 8 →
    (putBitsSeq ps str).nBit ≤ 8 := by
  induction ps with
  | nil => intro str h; exact h
  | cons p ps ih =>
    intro str h
    exact ih _ (putBitsLoop_nBit _ _ _ _ h)

theorem getBitsLoop_nBit (fuel : Nat) : ∀ (k : Nat) (r : Int) (str : BitStream), str.nBit < 8 →
    (getBitsLoop fuel k r str).2.nBit < 8 := by
  induction fuel with
  | zero => intro k r str h; exact h
  | succ fuel ih =>
    intro k r str h
    rw [getBitsLoop]
    by_cases hk : k > 0
    · rw [if_pos hk]
      unfold refillBits
      by_cases h0 : str.nBit = 0
      · rw [if_pos h0]
        cases hf : str.file with
        | nil => exact h
        | cons c rest =>
          apply ih
          simp only
          split <;> omega
      · rw [if_neg h0]
        apply ih
        simp only
        split <;> omega
    · rw [if_neg hk]
      exact h

theorem getBitsSeq_nBit (ws : List Nat) : ∀ (str : BitStream), str.nBit < 8 →
    (getBitsSeq ws str).2.nBit < 8 := by
  induction ws with
  | nil => intro str h; exact h
  | cons w ws ih =>
    intro str h
    exact ih _ (getBitsLoop_nBit _ _ _ _ h)

end Comp


namespace Comp

/-! ## The order of extraction of `generatePrefix` -/

/-- What the loop of `generatePrefix` extracts from a heap whose items carry the key
`length[i]*nbr+i`: all items, by strictly decreasing key. -/
theorem extractLoop_spec (length : List Int) (nbr : Nat) (fuel : Nat) :
    ∀ q : PriorityQueue, PQWf q → HeapOrd q → (live q).Nodup →
    (∀ x ∈ contents q, x.1 < nbr ∧ x.2 = length.getD x.1 0 * nbr + x.1) → q.top ≤ fuel + 1 →
    (∀ a, a ∈ extractLoop fuel q ↔ a ∈ live q) ∧
    (extractLoop fuel q).Pairwise
      (fun a b => length.getD b 0 * nbr + b < length.getD a 0 * nbr + a) := by
  induction fuel with
  | zero =>
    intro q hw ho hn hk ht
    have h0 : contents q = 0 := contents_eq_zero q ht
    refine ⟨fun a => ?_, List.Pairwise.nil⟩
    unfold live
    rw [h0]
    simp [extractLoop]
  | succ fuel ih =>
    intro q hw ho hn hk ht
    rw [extractLoop]
    by_cases h1 : q.top > 1
    · rw [if_pos h1]
      obtain ⟨a1, a2, a3, a4, _, a6, a7⟩ := getPrio_spec q hw h1
      have hl : live q = (cell q 1).1 ::ₘ live (getPrio q).2 := by
        unfold live
        rw [a6, Multiset.map_add, Multiset.map_singleton, Multiset.singleton_add]
      have hw' : PQWf (getPrio q).2 := by
        obtain ⟨w1, w2, w3⟩ := hw
        exact ⟨by omega, by omega, by omega⟩
      have hn' := hn
      rw [hl, Multiset.nodup_cons] at hn'
      have hk' : ∀ x ∈ contents (getPrio q).2,
          x.1 < nbr ∧ x.2 = length.getD x.1 0 * nbr + x.1 :=
        fun x hx => hk x (by rw [a6]; exact Multiset.mem_add.mpr (Or.inr hx))
      obtain ⟨i1, i2⟩ := ih (getPrio q).2 hw' (a7 ho) hn'.2 hk' (by omega)
      have hu : (getPrio q).1.toNat = (cell q 1).1 := by rw [a1, Int.toNat_ofNat]
      rw [hu]
      have hmem : cell q 1 ∈ contents q := by rw [a6]; simp
      obtain ⟨u1, u2⟩ := hk _ hmem
      refine ⟨fun a => ?_, List.Pairwise.cons ?_ i2⟩
      · rw [List.mem_cons, hl, Multiset.mem_cons, i1]
      · intro b hb
        rw [i1] at hb
        have hbl := hb
        unfold live at hb
        rw [Multiset.mem_map] at hb
        obtain ⟨x, hx, rfl⟩ := hb
        have hx' : x ∈ contents q := by rw [a6]; exact Multiset.mem_add.mpr (Or.inr hx)
        obtain ⟨x1, x2⟩ := hk x hx'
        have hle := contents_prio_le q ho x hx'
        have hk1 : prioAt q 1 = (cell q 1).2 := rfl
        rw [hk1, u2, x2] at hle
        have hne : x.1 ≠ (cell q 1).1 := fun e => hn'.1 (e ▸ hbl)
        rcases lt_or_eq_of_le hle with h | h
        · exact h
        · exfalso
          have h3 := key_le_length nbr _ _ _ _ x1 hle u1
          have h4 := key_le_length nbr _ _ _ _ u1 (le_of_eq h.symm) x1
          have h5 : length.getD x.1 0 = length.getD (cell q 1).1 0 := le_antisymm h3 h4
          rw [h5] at h
          have : (x.1 : Int) = ((cell q 1).1 : Int) := by linarith
          exact hne (by exact_mod_cast this)
    · have h0 : contents q = 0 := contents_eq_zero q (by omega)
      rw [if_neg h1]
      refine ⟨fun a => ?_, List.Pairwise.nil⟩
      unfold live
      rw [h0]
      simp

/-- The order of extraction of `generatePrefix`: all symbols with a positive length, by
strictly decreasing key `length[i]*nbr+i`. -/
theorem extractOrder_spec (length : List Int) (nbr : Nat)
    (hex : ∃ a, a < nbr ∧ 0 < length.getD a 0) (hfit : KeysFit length nbr) :
    (∀ a, a ∈ extractOrder length nbr ↔ (a < nbr ∧ 0 < length.getD a 0)) ∧
    (extractOrder length nbr).Pairwise
      (fun a b => length.getD b 0 * nbr + b < length.getD a 0 * nbr + a) := by
  obtain ⟨f1, f2, f3, f4, f5⟩ := prefixFill_facts length nbr hfit
  have hlive := live_prefixFill length nbr
  have hcard : Multiset.card (contents (prefixFill length nbr)) = (prefixFill length nbr).top - 1 :=
    contents_card _
  have htop : 1 < (prefixFill length nbr).top := by
    obtain ⟨a, ha1, ha2⟩ := hex
    have : (a, length.getD a 0 * nbr + a) ∈ contents (prefixFill length nbr) := by
      rw [f4, Multiset.mem_map]
      exact ⟨a, Multiset.mem_filter.mpr ⟨Multiset.mem_range.mpr ha1, ha2⟩, rfl⟩
    have := Multiset.card_pos_iff_exists_mem.mpr ⟨_, this⟩
    omega
  have hall : ∀ x ∈ contents (prefixFill length nbr),
      x.1 < nbr ∧ x.2 = length.getD x.1 0 * nbr + x.1 := by
    intro x hx
    rw [f4, Multiset.mem_map] at hx
    obtain ⟨i, hi, rfl⟩ := hx
    rw [Multiset.mem_filter, Multiset.mem_range] at hi
    exact ⟨hi.1, rfl⟩
  have hnd : (live (prefixFill length nbr)).Nodup := by
    rw [hlive]
    exact Multiset.Nodup.filter _ (Multiset.nodup_range nbr)
  have h := extractLoop_spec length nbr ((prefixFill length nbr).top - 1 + 1 - 1 + 1)
    (prefixFill length nbr) f1 f5 hnd hall (by omega)
  have e : (prefixFill length nbr).top - 1 + 1 - 1 + 1 = (getPrio (prefixFill length nbr)).2.top + 1 := by
    have := (getPrio_spec (prefixFill length nbr) f1 htop).2.1
    omega
  rw [e, extractLoop, if_pos htop] at h
  obtain ⟨h1, h2⟩ := h
  refine ⟨fun a => ?_, h2⟩
  unfold extractOrder
  rw [h1, hlive, Multiset.mem_filter, Multiset.mem_range]

end Comp


namespace Comp

theorem prefixLoop_eq_assign (length : List Int) (fuel : Nat) :
    ∀ (q : PriorityQueue) (l : Int) (c : Nat) (table : List Nat),
    prefixLoop fuel q length l c table = assignLoop length (extractLoop fuel q) l c table := by
  induction fuel with
  | zero => intro q l c table; rfl
  | succ fuel ih =>
    intro q l c table
    rw [prefixLoop, extractLoop]
    by_cases h : q.top > 1
    · rw [if_pos h, if_pos h, assignLoop]
      exact ih _ _ _ _
    · rw [if_neg h, if_neg h]
      rfl

/-- The table made by `generatePrefix`: code 0 for the first symbol extracted, then the
assignments of the loop along the order of extraction. -/
theorem generatePrefix_eq_assign (table : List Nat) (length : List Int) (nbr : Nat) :
    generatePrefix table length nbr
      = assignLoop length (extractOrder length nbr).tail
          (length.getD ((extractOrder length nbr).headD 0) 0) 0
          (table.set ((extractOrder length nbr).headD 0) 0) := by
  unfold generatePrefix extractOrder
  simp only [List.tail_cons, List.headD_cons]
  exact prefixLoop_eq_assign _ _ _ _ _ _

theorem assignLoop_getD (length : List Int) (i : Nat) : ∀ (rest : List Nat) (l : Int) (c : Nat)
    (table : List Nat), i ∉ rest → (assignLoop length rest l c table).getD i 0 = table.getD i 0 := by
  intro rest
  induction rest with
  | nil => intro l c table _; rfl
  | cons j rest ih =>
    intro l c table hi
    rw [List.mem_cons, not_or] at hi
    rw [assignLoop, ih _ _ _ hi.2, getD_set_ne _ _ _ _ _ hi.1]

/-- The first symbol extracted by `generatePrefix` receives the code 0. -/
theorem generatePrefix_first (table : List Nat) (length : List Int) (nbr : Nat)
    (hex : ∃ a, a < nbr ∧ 0 < length.getD a 0) (htab : nbr ≤ table.length)
    (hfit : KeysFit length nbr) :
    (generatePrefix table length nbr).getD ((extractOrder length nbr).headD 0) 0 = 0 := by
  obtain ⟨h1, h2⟩ := extractOrder_spec length nbr hex hfit
  rw [generatePrefix_eq_assign]
  have hcons : extractOrder length nbr
      = (extractOrder length nbr).headD 0 :: (extractOrder length nbr).tail := rfl
  have hmem : (extractOrder length nbr).headD 0 ∈ extractOrder length nbr := by
    conv_rhs => rw [hcons]
    exact List.mem_cons_self _ _
  have hlt := ((h1 _).mp hmem).1
  rw [hcons, List.pairwise_cons] at h2
  have hnot : (extractOrder length nbr).headD 0 ∉ (extractOrder length nbr).tail := by
    intro hin
    have := h2.1 _ hin
    omega
  rw [assignLoop_getD _ _ _ _ _ _ hnot, getD_set_eq _ _ _ _ (by omega)]

end Comp


namespace Comp

/-! ## Links of the decoding tree -/

theorem getD_set_node (l : List HDecodeNode) (j c : Nat) (v : HDecodeNode) (hj : j < l.length) :
    (l.set j v).getD c ⟨0, 0⟩ = if c = j then v else l.getD c ⟨0, 0⟩ := by
  rw [List.getD_eq_getElem?_getD, List.getD_eq_getElem?_getD, List.getElem?_set]
  by_cases h : j = c
  · subst h
    simp [hj]
  · rw [if_neg h, if_neg (fun e => h e.symm)]

theorem slot_set_fresh (decode : List HDecodeNode) (top m : Nat) (b : Bool)
    (ht : top < decode.length) :
    slot (decode.set top ⟨-1, -1⟩) m b = if m = top then -1 else slot decode m b := by
  unfold slot
  rw [getD_set_node _ _ _ _ ht]
  by_cases h : m = top
  · simp [h]
  · simp [h]

theorem slot_setLink (decode : List HDecodeNode) (m m' : Nat) (b b' : Bool) (v : Int)
    (hm : m < decode.length) :
    slot (setLink decode m b v) m' b' = if m' = m ∧ b' = b then v else slot decode m' b' := by
  unfold slot setLink
  rw [getD_set_node _ _ _ _ hm]
  by_cases h : m' = m
  · subst h
    cases b <;> cases b' <;> simp
  · simp [h]

theorem setLink_length (decode : List HDecodeNode) (m : Nat) (b : Bool) (v : Int) :
    (setLink decode m b v).length = decode.length := by
  unfold setLink
  rw [List.length_set]

theorem and_one_ne_zero (x : Nat) : (x &&& 1 ≠ 0) ↔ x.testBit 0 = true := by
  rw [Nat.and_one_is_mod, Nat.testBit_zero]
  constructor
  · intro h
    have : x % 2 = 1 := by omega
    simp [this]
  · intro h
    simp at h
    omega

/-- The inner loop of `buildDecodeTable` follows the bits `j, ..., 1` of the code. -/
theorem insertBits_eq (code : Nat) : ∀ (j : Nat) (decode : List HDecodeNode) (top cur : Nat),
    insertBits j code decode top cur = insertPath (bitsOf j (code >>> 1)) decode top cur := by
  intro j
  induction j with
  | zero => intro decode top cur; rfl
  | succ j ih =>
    intro decode top cur
    have hbit : ((code >>> (j + 1)) &&& 1 ≠ 0) ↔ (code >>> 1).testBit j = true := by
      rw [and_one_ne_zero, Nat.testBit_shiftRight, Nat.testBit_shiftRight]
      have e1 : j + 1 + 0 = j + 1 := rfl
      have e2 : 1 + j = j + 1 := by omega
      rw [e1, e2]
    rw [insertBits, bitsOf, insertPath]
    by_cases hb : (code >>> 1).testBit j = true
    · rw [if_pos (hbit.mpr hb), hb]
      by_cases hs : (decode.getD cur ⟨0, 0⟩).n1 < 0
      · rw [if_pos hs, if_pos (by unfold slot; simpa using hs)]
        exact ih _ _ _
      · rw [if_neg hs, if_neg (by unfold slot; simpa using hs)]
        exact ih _ _ _
    · have hb' : (code >>> 1).testBit j = false := by simpa using hb
      rw [if_neg (fun h => hb (hbit.mp h)), hb']
      by_cases hs : (decode.getD cur ⟨0, 0⟩).n0 < 0
      · rw [if_pos hs, if_pos (by unfold slot; simpa using hs)]
        exact ih _ _ _
      · rw [if_neg hs, if_neg (by unfold slot; simpa using hs)]
        exact ih _ _ _

/-- The body of the loop of `buildDecodeTable` hangs the leaf of the symbol below the
node that the bits before the last bit of its code lead to. -/
theorem buildDecodeStep_eq (code : List Nat) (length : List Int) (nbr : Nat)
    (st : List HDecodeNode × Nat) (i : Nat) :
    buildDecodeStep code length nbr st i
      = (setLink (insertPath (bitsOf (lenOf length i - 1) (code.getD i 0 >>> 1)) st.1 st.2 0).1
          (insertPath (bitsOf (lenOf length i - 1) (code.getD i 0 >>> 1)) st.1 st.2 0).2.2
          ((code.getD i 0).testBit 0) ((nbr : Int) + i),
        (insertPath (bitsOf (lenOf length i - 1) (code.getD i 0 >>> 1)) st.1 st.2 0).2.1) := by
  have e : (length.getD i 0 - 1).toNat = lenOf length i - 1 := by
    unfold lenOf
    omega
  unfold buildDecodeStep
  simp only
  rw [e, insertBits_eq]
  by_cases hb : (code.getD i 0).testBit 0 = true
  · rw [if_pos ((and_one_ne_zero _).mpr hb), hb]
    rfl
  · have hb' : (code.getD i 0).testBit 0 = false := by simpa using hb
    rw [if_neg (fun h => hb ((and_one_ne_zero _).mp h)), hb']
    rfl

/-- A codeword is made of the bits before its last bit and of its last bit. -/
theorem bitsOf_last (l v : Nat) (hl : 1 ≤ l) :
    bitsOf l v = bitsOf (l - 1) (v >>> 1) ++ [v.testBit 0] := by
  have h := bitsOf_add (l - 1) 1 v
  have e : l - 1 + 1 = l := by omega
  rw [e] at h
  rw [h]
  rfl

end Comp


namespace Comp

/-! ## Insertion of a codeword into the decoding tree -/

theorem mem_properPrefixes (cw : Nat → List Bool) (n : Nat) (p : List Bool) :
    p ∈ properPrefixes cw n ↔ ∃ s, s < n ∧ p <+: cw s ∧ p.length < (cw s).length := by
  unfold properPrefixes
  simp only [Finset.mem_biUnion, Finset.mem_range, Finset.mem_image]
  constructor
  · rintro ⟨s, hs, l, hl, rfl⟩
    exact ⟨s, hs, List.take_prefix _ _, by rw [List.length_take]; omega⟩
  · rintro ⟨s, hs, hp, hl⟩
    exact ⟨s, hs, p.length, hl, (List.prefix_iff_eq_take.mp hp).symm⟩

/-- A proper prefix that is not the path of a node leaves room for one more node. -/
theorem room_of_fresh (cw : Nat → List Bool) (nbr top : Nat) (path : Nat → List Bool)
    (p : List Bool) (h1 : ∀ m, m < top → path m ∈ properPrefixes cw nbr)
    (h2 : ∀ m m', m < top → m' < top → path m = path m' → m = m')
    (hp : p ∈ properPrefixes cw nbr) (hf : ∀ m, m < top → path m ≠ p) :
    top + 1 ≤ (properPrefixes cw nbr).card := by
  have hc : ((Finset.range top).image path).card = top := by
    rw [Finset.card_image_of_injOn, Finset.card_range]
    intro a ha b hb hab
    exact h2 a b (Finset.mem_range.mp (Finset.mem_coe.mp ha))
      (Finset.mem_range.mp (Finset.mem_coe.mp hb)) hab
  have hn : p ∉ (Finset.range top).image path := by
    intro hin
    rw [Finset.mem_image] at hin
    obtain ⟨m, hm, e⟩ := hin
    exact hf m (Finset.mem_range.mp hm) e
  have hsub : insert p ((Finset.range top).image path) ⊆ properPrefixes cw nbr := by
    intro x hx
    rw [Finset.mem_insert, Finset.mem_image] at hx
    rcases hx with rfl | ⟨m, hm, rfl⟩
    · exact hp
    · exact h1 m (Finset.mem_range.mp hm)
  have := Finset.card_le_card hsub
  rw [Finset.card_insert_of_not_mem hn, hc] at this
  exact this

/-- The inner loop of `buildDecodeTable` on the bits `q2` that follow the path `q1` of
the node `cur`, for the codeword `q1 ++ q2 ++ [last]` of the symbol `k`. -/
theorem insertPath_spec (cw : Nat → List Bool) (nbr k : Nat) (hk : k < nbr)
    (hpf : ∀ s t, s < nbr → t < nbr → s ≠ t → ¬ cw s <+: cw t) (last : Bool) :
    ∀ (q2 q1 : List Bool) (decode : List HDecodeNode) (top cur : Nat) (path : Nat → List Bool),
    TInv cw nbr k decode top path → (properPrefixes cw nbr).card < decode.length →
    cur < top → path cur = q1 → cw k = q1 ++ q2 ++ [last] →
    ∃ path', TInv cw nbr k (insertPath q2 decode top cur).1 (insertPath q2 decode top cur).2.1 path' ∧
      (insertPath q2 decode top cur).2.2 < (insertPath q2 decode top cur).2.1 ∧
      path' (insertPath q2 decode top cur).2.2 = q1 ++ q2 ∧
      (insertPath q2 decode top cur).1.length = decode.length := by
  intro q2
  induction q2 with
  | nil =>
    intro q1 decode top cur path hT _ hcur hpath _
    exact ⟨path, hT, hcur, by rw [List.append_nil]; exact hpath, rfl⟩
  | cons b q2 ih =>
    intro q1 decode top cur path hT hcap hcur hpath hcw
    obtain ⟨t1, t2, t3, t4, t5, t6, t7, t8⟩ := hT
    have hcw' : cw k = (q1 ++ [b]) ++ q2 ++ [last] := by
      rw [hcw]
      simp
    rw [insertPath]
    rcases t4 cur hcur b with hs | ⟨m', m1, m2, m3, m4⟩ | ⟨s, s1, s2, s3⟩
    · -- the link is not set: a node is created
      rw [if_pos (by rw [hs]; decide)]
      have hp : q1 ++ [b] ∈ properPrefixes cw nbr := by
        rw [mem_properPrefixes]
        refine ⟨k, hk, ?_, ?_⟩
        · rw [hcw']
          rw [List.append_assoc]
          exact List.prefix_append _ _
        · rw [hcw']
          simp
      have hfresh : ∀ m, m < top → path m ≠ q1 ++ [b] := by
        intro m hm he
        have hm0 : 1 ≤ m := by
          by_contra h0
          have : m = 0 := by omega
          rw [this, t3] at he
          exact absurd he (by simp)
        obtain ⟨m0, b0, p1, p2, p3⟩ := t5 m hm0 hm
        rw [he, ← hpath] at p3
        have hq := List.append_inj' p3 rfl
        have hb : b = b0 := by simpa using hq.2
        have hm0c : cur = m0 := t8 cur m0 hcur p1 hq.1
        rw [← hm0c, ← hb, hs] at p2
        omega
      have hroom := room_of_fresh cw nbr top path (q1 ++ [b]) t6 t8 hp hfresh
      have htl : top < decode.length := by omega
      have hl1 : (decode.set top (⟨-1, -1⟩ : HDecodeNode)).length = decode.length :=
        List.length_set _ _ _
      have hslot : ∀ m b', slot (setLink (decode.set top ⟨-1, -1⟩) cur b top) m b'
          = if m = cur ∧ b' = b then (top : Int)
            else if m = top then -1 else slot decode m b' := by
        intro m b'
        rw [slot_setLink _ _ _ _ _ _ (by rw [hl1]; omega), slot_set_fresh _ _ _ _ htl]
      have hnew : (slot (setLink (decode.set top ⟨-1, -1⟩) cur b top) cur b).toNat = top := by
        rw [hslot, if_pos ⟨rfl, rfl⟩, Int.toNat_ofNat]
      rw [hnew]
      have hlen2 : (setLink (decode.set top ⟨-1, -1⟩) cur b top).length = decode.length := by
        rw [setLink_length, hl1]
      have hT' : TInv cw nbr k (setLink (decode.set top ⟨-1, -1⟩) cur b top) (top + 1)
          (Function.update path top (q1 ++ [b])) := by
        have hup : ∀ m, m < top → Function.update path top (q1 ++ [b]) m = path m :=
          fun m hm => Function.update_noteq (by omega) _ _
        refine ⟨by omega, by rw [hlen2]; omega, by rw [hup 0 (by omega)]; exact t3,
          ?_, ?_, ?_, ?_, ?_⟩
        · intro m hm b'
          rw [hslot]
          by_cases hcb : m = cur ∧ b' = b
          · rw [if_pos hcb]
            right; left
            refine ⟨top, t1, by omega, rfl, ?_⟩
            rw [Function.update_same, hcb.1, hup cur hcur, hpath, hcb.2]
          · rw [if_neg hcb]
            by_cases hmt : m = top
            · rw [if_pos hmt]
              left; rfl
            · rw [if_neg hmt]
              have hm' : m < top := by omega
              rcases t4 m hm' b' with h | ⟨x, x1, x2, x3, x4⟩ | ⟨s, s1, s2, s3⟩
              · left; exact h
              · right; left
                exact ⟨x, x1, by omega, x3, by rw [hup x x2, hup m hm']; exact x4⟩
              · right; right
                exact ⟨s, s1, s2, by rw [hup m hm']; exact s3⟩
        · intro m hm1 hm
          by_cases hmt : m = top
          · refine ⟨cur, b, by omega, ?_, ?_⟩
            · rw [hslot, if_pos ⟨rfl, rfl⟩, hmt]
            · rw [hmt, Function.update_same, hup cur hcur, hpath]
          · have hm' : m < top := by omega
            obtain ⟨m0, b0, p1, p2, p3⟩ := t5 m hm1 hm'
            refine ⟨m0, b0, by omega, ?_, by rw [hup m hm', hup m0 p1]; exact p3⟩
            rw [hslot]
            have hcb : ¬ (m0 = cur ∧ b0 = b) := by
              rintro ⟨e1, e2⟩
              rw [e1, e2, hs] at p2
              omega
            rw [if_neg hcb, if_neg (by omega)]
            exact p2
        · intro m hm
          by_cases hmt : m = top
          · rw [hmt, Function.update_same]
            exact hp
          · rw [hup m (by omega)]
            exact t6 m (by omega)
        · intro s hs'
          obtain ⟨m0, b0, p1, p2, p3⟩ := t7 s hs'
          refine ⟨m0, b0, by omega, ?_, by rw [hup m0 p1]; exact p3⟩
          rw [hslot]
          have hcb : ¬ (m0 = cur ∧ b0 = b) := by
            rintro ⟨e1, e2⟩
            rw [e1, e2, hs] at p2
            omega
          rw [if_neg hcb, if_neg (by omega)]
          exact p2
        · intro m m' hm hm' he
          by_cases hmt : m = top
          · by_cases hmt' : m' = top
            · omega
            · rw [hmt, Function.update_same, hup m' (by omega)] at he
              exact absurd he.symm (hfresh m' (by omega))
          · by_cases hmt' : m' = top
            · rw [hmt', Function.update_same, hup m (by omega)] at he
              exact absurd he (hfresh m (by omega))
            · rw [hup m (by omega), hup m' (by omega)] at he
              exact t8 m m' (by omega) (by omega) he
      obtain ⟨path', r1, r2, r3, r4⟩ := ih (q1 ++ [b]) _ (top + 1) top _ hT'
        (by rw [hlen2]; exact hcap) (by omega) (by rw [Function.update_same]) hcw'
      refine ⟨path', r1, r2, ?_, by rw [r4, hlen2]⟩
      rw [r3]
      simp
    · -- the link leads to a node
      rw [if_neg (by rw [m3]; omega), m3, Int.toNat_ofNat]
      obtain ⟨path', r1, r2, r3, r4⟩ := ih (q1 ++ [b]) decode top m' path
        ⟨t1, t2, t3, t4, t5, t6, t7, t8⟩ hcap m2 (by rw [m4, hpath]) hcw'
      refine ⟨path', r1, r2, ?_, r4⟩
      rw [r3]
      simp
    · -- the link is a leaf: excluded, no codeword is a prefix of another one
      exfalso
      refine hpf s k (by omega) hk (by omega) ?_
      rw [s3, hpath, hcw', List.append_assoc]
      exact List.prefix_append _ _

end Comp


namespace Comp

/-! ## The loop of `buildDecodeTable` -/

/-- Hanging the leaf of the symbol `k` below the node of the bits before the last bit of
its codeword. -/
theorem setLeaf_spec (cw : Nat → List Bool) (nbr k : Nat) (hk : k < nbr)
    (hpf : ∀ s t, s < nbr → t < nbr → s ≠ t → ¬ cw s <+: cw t) (last : Bool)
    (q : List Bool) (decode : List HDecodeNode) (top cur : Nat) (path : Nat → List Bool)
    (hT : TInv cw nbr k decode top path) (hcur : cur < top) (hpath : path cur = q)
    (hcw : cw k = q ++ [last]) :
    TInv cw nbr (k + 1) (setLink decode cur last ((nbr : Int) + k)) top path := by
  obtain ⟨t1, t2, t3, t4, t5, t6, t7, t8⟩ := hT
  have hs : slot decode cur last = -1 := by
    rcases t4 cur hcur last with hs | ⟨m', m1, m2, m3, m4⟩ | ⟨s, s1, s2, s3⟩
    · exact hs
    · exfalso
      have hm := t6 m' m2
      rw [mem_properPrefixes] at hm
      obtain ⟨t, ht, hp, hl⟩ := hm
      rw [m4, hpath, ← hcw] at hp hl
      refine hpf k t hk ht ?_ hp
      intro e
      rw [e] at hl
      omega
    · exfalso
      refine hpf s k (by omega) hk (by omega) ?_
      rw [s3, hpath, hcw]
  have hslot : ∀ m b', slot (setLink decode cur last ((nbr : Int) + k)) m b'
      = if m = cur ∧ b' = last then (nbr : Int) + k else slot decode m b' :=
    fun m b' => slot_setLink _ _ _ _ _ _ (by omega)
  refine ⟨t1, by rw [setLink_length]; exact t2, t3, ?_, ?_, t6, ?_, t8⟩
  · intro m hm b'
    rw [hslot]
    by_cases hcb : m = cur ∧ b' = last
    · rw [if_pos hcb]
      right; right
      exact ⟨k, by omega, rfl, by rw [hcb.1, hcb.2, hpath]; exact hcw⟩
    · rw [if_neg hcb]
      rcases t4 m hm b' with h | h | ⟨s, s1, s2, s3⟩
      · left; exact h
      · right; left; exact h
      · right; right; exact ⟨s, by omega, s2, s3⟩
  · intro m hm1 hm
    obtain ⟨m0, b0, p1, p2, p3⟩ := t5 m hm1 hm
    refine ⟨m0, b0, p1, ?_, p3⟩
    rw [hslot]
    have hcb : ¬ (m0 = cur ∧ b0 = last) := by
      rintro ⟨e1, e2⟩
      rw [e1, e2, hs] at p2
      omega
    rw [if_neg hcb]
    exact p2
  · intro s hs'
    by_cases hsk : s = k
    · refine ⟨cur, last, hcur, ?_, by rw [hsk, hpath]; exact hcw⟩
      rw [hslot, if_pos ⟨rfl, rfl⟩, hsk]
    · obtain ⟨m0, b0, p1, p2, p3⟩ := t7 s (by omega)
      refine ⟨m0, b0, p1, ?_, p3⟩
      rw [hslot]
      have hcb : ¬ (m0 = cur ∧ b0 = last) := by
        rintro ⟨e1, e2⟩
        rw [e1, e2, hs] at p2
        omega
      rw [if_neg hcb]
      exact p2

/-- One iteration of the loop of `buildDecodeTable`. -/
theorem buildDecodeStep_spec (code : List Nat) (length : List Int) (nbr k : Nat) (hk : k < nbr)
    (hlen : 1 ≤ lenOf length k)
    (hpf : ∀ s t, s < nbr → t < nbr → s ≠ t →
      ¬ codeword code length s <+: codeword code length t)
    (st : List HDecodeNode × Nat) (path : Nat → List Bool)
    (hT : TInv (codeword code length) nbr k st.1 st.2 path)
    (hcap : (properPrefixes (codeword code length) nbr).card < st.1.length) :
    ∃ path', TInv (codeword code length) nbr (k + 1) (buildDecodeStep code length nbr st k).1
        (buildDecodeStep code length nbr st k).2 path' ∧
      (buildDecodeStep code length nbr st k).1.length = st.1.length := by
  have hcw : codeword code length k
      = [] ++ bitsOf (lenOf length k - 1) (code.getD k 0 >>> 1) ++ [(code.getD k 0).testBit 0] := by
    unfold codeword
    rw [bitsOf_last _ _ hlen]
    rfl
  obtain ⟨path', r1, r2, r3, r4⟩ := insertPath_spec (codeword code length) nbr k hk hpf
    ((code.getD k 0).testBit 0) (bitsOf (lenOf length k - 1) (code.getD k 0 >>> 1)) []
    st.1 st.2 0 path hT hcap (by have := hT.1; omega) hT.2.2.1 hcw
  rw [buildDecodeStep_eq]
  refine ⟨path', ?_, by rw [setLink_length, r4]⟩
  exact setLeaf_spec (codeword code length) nbr k hk hpf _ _ _ _ _ path' r1 r2 r3
    (by rw [hcw])

/-- The state of `buildDecodeTable` after `k` iterations of its loop. -/
theorem buildDecodePrefix_spec (decode : List HDecodeNode) (code : List Nat) (length : List Int)
    (nbr : Nat) (hn : 1 ≤ nbr) (hlen : ∀ s, s < nbr → 1 ≤ lenOf length s)
    (hpf : ∀ s t, s < nbr → t < nbr → s ≠ t →
      ¬ codeword code length s <+: codeword code length t)
    (hcap : (properPrefixes (codeword code length) nbr).card < decode.length) :
    ∀ k, k ≤ nbr → ∃ path,
      TInv (codeword code length) nbr k
        ((List.range k).foldl (buildDecodeStep code length nbr) (decode.set 0 ⟨-1, -1⟩, 1)).1
        ((List.range k).foldl (buildDecodeStep code length nbr) (decode.set 0 ⟨-1, -1⟩, 1)).2 path ∧
      ((List.range k).foldl (buildDecodeStep code length nbr) (decode.set 0 ⟨-1, -1⟩, 1)).1.length
        = decode.length := by
  intro k
  induction k with
  | zero =>
    intro _
    have hl : 0 < decode.length := by omega
    refine ⟨fun _ => [], ?_, List.length_set _ _ _⟩
    simp only [List.range_zero, List.foldl_nil]
    refine ⟨le_refl _, by rw [List.length_set]; omega, rfl, ?_, ?_, ?_, ?_, ?_⟩
    · intro m hm b
      left
      have : m = 0 := by omega
      rw [this, slot_set_fresh _ _ _ _ hl, if_pos rfl]
    · intro m h1 h2
      omega
    · intro m _
      rw [mem_properPrefixes]
      exact ⟨0, by omega, List.nil_prefix, by
        have := hlen 0 (by omega)
        unfold codeword
        rw [bitsOf_length]
        simpa using this⟩
    · intro s hs
      omega
    · intro m m' hm hm' _
      omega
  | succ k ih =>
    intro hk
    obtain ⟨path, i1, i2⟩ := ih (by omega)
    rw [List.range_succ, List.foldl_append]
    simp only [List.foldl_cons, List.foldl_nil]
    obtain ⟨path', r1, r2⟩ := buildDecodeStep_spec code length nbr k (by omega)
      (hlen k (by omega)) hpf _ path i1 (by rw [i2]; exact hcap)
    exact ⟨path', r1, by rw [r2, i2]⟩

/-- The state of `buildDecodeTable` after its loop. -/
theorem buildDecodeLoop_spec (decode : List HDecodeNode) (code : List Nat) (length : List Int)
    (nbr : Nat) (hn : 1 ≤ nbr) (hlen : ∀ s, s < nbr → 1 ≤ lenOf length s)
    (hpf : ∀ s t, s < nbr → t < nbr → s ≠ t →
      ¬ codeword code length s <+: codeword code length t)
    (hcap : (properPrefixes (codeword code length) nbr).card < decode.length) :
    ∃ path, TInv (codeword code length) nbr nbr (buildDecodeLoop decode code length nbr).1
        (buildDecodeLoop decode code length nbr).2 path ∧
      (buildDecodeLoop decode code length nbr).1.length = decode.length :=
  buildDecodePrefix_spec decode code length nbr hn hlen hpf hcap nbr (le_refl _)

/-- The nodes stand for different proper prefixes, so there are not more nodes than
proper prefixes. -/
theorem tinv_top_le (cw : Nat → List Bool) (nbr k : Nat) (decode : List HDecodeNode)
    (top : Nat) (path : Nat → List Bool) (hT : TInv cw nbr k decode top path) :
    top ≤ (properPrefixes cw nbr).card := by
  obtain ⟨t1, t2, t3, t4, t5, t6, t7, t8⟩ := hT
  have hc : ((Finset.range top).image path).card = top := by
    rw [Finset.card_image_of_injOn, Finset.card_range]
    intro a ha b hb hab
    exact t8 a b (Finset.mem_range.mp (Finset.mem_coe.mp ha))
      (Finset.mem_range.mp (Finset.mem_coe.mp hb)) hab
  rw [← hc]
  apply Finset.card_le_card
  intro x hx
  rw [Finset.mem_image] at hx
  obtain ⟨m, hm, rfl⟩ := hx
  exact t6 m (Finset.mem_range.mp hm)

end Comp


namespace Comp

/-! ## Counting the nodes of a complete prefix code -/

theorem prefix_snoc (p q : List Bool) (b : Bool) (h : p <+: q ++ [b]) :
    p <+: q ∨ p = q ++ [b] := by
  rcases List.prefix_concat_iff.mp h with h1 | h1
  · right
    exact h1
  · left
    exact h1

/-- A complete prefix code with `nbr` codewords has `nbr - 1` proper prefixes. -/
theorem card_properPrefixes (cw : Nat → List Bool) (nbr : Nat) (hn : 1 ≤ nbr)
    (hne : ∀ s, s < nbr → cw s ≠ [])
    (hpf : ∀ s t, s < nbr → t < nbr → s ≠ t → ¬ cw s <+: cw t)
    (hcomp : ∀ p ∈ properPrefixes cw nbr, ∀ b, ∃ t, t < nbr ∧ p ++ [b] <+: cw t) :
    (properPrefixes cw nbr).card + 1 = nbr := by
  set I := properPrefixes cw nbr with hI
  have hnil : [] ∈ I := by
    rw [hI, mem_properPrefixes]
    exact ⟨0, by omega, List.nil_prefix, List.length_pos.mpr (hne 0 (by omega))⟩
  -- the codewords
  have hCcard : ((Finset.range nbr).image cw).card = nbr := by
    rw [Finset.card_image_of_injOn, Finset.card_range]
    intro a ha b hb hab
    have ha' := Finset.mem_range.mp (Finset.mem_coe.mp ha)
    have hb' := Finset.mem_range.mp (Finset.mem_coe.mp hb)
    by_contra hne'
    exact hpf a b ha' hb' hne' (by rw [hab])
  have hdisj : Disjoint (I.erase []) ((Finset.range nbr).image cw) := by
    rw [Finset.disjoint_left]
    intro x hx hxc
    rw [Finset.mem_erase, hI, mem_properPrefixes] at hx
    obtain ⟨_, t, ht, hp, hl⟩ := hx
    rw [Finset.mem_image] at hxc
    obtain ⟨s, hs, rfl⟩ := hxc
    rw [Finset.mem_range] at hs
    refine hpf s t hs ht ?_ hp
    intro e
    rw [e] at hl
    omega
  -- the nodes other than the root are the proper prefixes with one more bit
  have himg : (I ×ˢ (Finset.univ : Finset Bool)).image (fun pb => pb.1 ++ [pb.2])
      = I.erase [] ∪ (Finset.range nbr).image cw := by
    ext x
    simp only [Finset.mem_image, Finset.mem_product, Finset.mem_univ, and_true, Finset.mem_union,
      Finset.mem_erase, Finset.mem_range, Prod.exists]
    constructor
    · rintro ⟨p, b, hp, rfl⟩
      obtain ⟨t, ht, hpre⟩ := hcomp p hp b
      by_cases hl : (p ++ [b]).length < (cw t).length
      · left
        refine ⟨by simp, ?_⟩
        rw [hI, mem_properPrefixes]
        exact ⟨t, ht, hpre, hl⟩
      · right
        refine ⟨t, ht, ?_⟩
        exact (hpre.eq_of_length (le_antisymm hpre.length_le (by omega))).symm
    · rintro (⟨hx0, hx⟩ | ⟨s, hs, rfl⟩)
      · rw [hI, mem_properPrefixes] at hx
        obtain ⟨t, ht, hp, hl⟩ := hx
        refine ⟨x.dropLast, x.getLast hx0, ?_, List.dropLast_append_getLast hx0⟩
        rw [hI, mem_properPrefixes]
        refine ⟨t, ht, (List.dropLast_prefix x).trans hp, ?_⟩
        rw [List.length_dropLast]
        omega
      · have h0 := hne s hs
        refine ⟨(cw s).dropLast, (cw s).getLast h0, ?_, List.dropLast_append_getLast h0⟩
        rw [hI, mem_properPrefixes]
        refine ⟨s, hs, List.dropLast_prefix _, ?_⟩
        rw [List.length_dropLast]
        have := List.length_pos.mpr h0
        omega
  have hcard := congrArg Finset.card himg
  rw [Finset.card_image_of_injective _ (by
      intro a b hab
      have h := List.append_inj' hab rfl
      exact Prod.ext h.1 (by simpa using h.2)),
    Finset.card_product, Finset.card_union_of_disjoint hdisj, Finset.card_erase_of_mem hnil,
    hCcard] at hcard
  have hpos : 0 < I.card := Finset.card_pos.mpr ⟨[], hnil⟩
  simp only [Finset.card_univ, Fintype.card_bool] at hcard
  omega

end Comp


namespace Comp

/-! ## Completeness of a prefix code with Kraft sum 1 -/

theorem take_bitsOf (M l x : Nat) (hl : l ≤ M) :
    (bitsOf M x).take l = bitsOf l (x >>> (M - l)) := by
  have h := bitsOf_add l (M - l) x
  rw [Nat.add_sub_cancel' hl] at h
  rw [h, List.take_append_of_le_length (by rw [bitsOf_length]),
    List.take_of_length_le (by rw [bitsOf_length])]

theorem take_prefix_take (z : List Bool) (a b : Nat) (h : a ≤ b) : z.take a <+: z.take b := by
  have : z.take a = (z.take b).take a := by
    rw [List.take_take, Nat.min_eq_left h]
  rw [this]
  exact List.take_prefix _ _

/-- Disjoint intervals of codes whose Kraft sum is 1 cover everything. -/
theorem intervals_cover (code len : Nat → Nat) (nbr M : Nat)
    (hM : ∀ s, s < nbr → len s ≤ M) (hlt : ∀ s, s < nbr → code s < 2 ^ len s)
    (hdisj : ∀ a b, a < nbr → b < nbr → a ≠ b →
      codeHi M (len a) (code a) ≤ codeLo M (len b) (code b) ∨
      codeHi M (len b) (code b) ≤ codeLo M (len a) (code a))
    (hk : ∑ s ∈ Finset.range nbr, 2 ^ (M - len s) = 2 ^ M) :
    ∀ x, x < 2 ^ M → ∃ s, s < nbr ∧ codeLo M (len s) (code s) ≤ x ∧
      x < codeHi M (len s) (code s) := by
  have hcard : ((Finset.range nbr).biUnion
      (fun s => Finset.Ico (codeLo M (len s) (code s)) (codeHi M (len s) (code s)))).card
      = 2 ^ M := by
    rw [Finset.card_biUnion]
    · rw [← hk]
      apply Finset.sum_congr rfl
      intro s _
      rw [Nat.card_Ico, codeHi_eq]
      exact Nat.add_sub_cancel_left _ _
    · intro a ha b hb hab
      rw [Finset.mem_range] at ha hb
      rw [Finset.disjoint_left]
      intro x hxa hxb
      rw [Finset.mem_Ico] at hxa hxb
      rcases hdisj a b ha hb hab with h | h <;> omega
  have hsub : (Finset.range nbr).biUnion
      (fun s => Finset.Ico (codeLo M (len s) (code s)) (codeHi M (len s) (code s)))
      ⊆ Finset.range (2 ^ M) := by
    intro x hx
    rw [Finset.mem_biUnion] at hx
    obtain ⟨s, hs, hx⟩ := hx
    rw [Finset.mem_range] at hs
    rw [Finset.mem_Ico] at hx
    rw [Finset.mem_range]
    have e : 2 ^ M = 2 ^ len s * 2 ^ (M - len s) := by
      rw [← pow_add]
      congr 1
      have := hM s hs
      omega
    have h1 : codeHi M (len s) (code s) ≤ 2 ^ M := by
      unfold codeHi
      rw [e]
      exact Nat.mul_le_mul_right _ (hlt s hs)
    omega
  have heq := Finset.eq_of_subset_of_card_le hsub (by rw [hcard, Finset.card_range])
  intro x hx
  have hmem : x ∈ Finset.range (2 ^ M) := Finset.mem_range.mpr hx
  rw [← heq, Finset.mem_biUnion] at hmem
  obtain ⟨s, hs, hx'⟩ := hmem
  rw [Finset.mem_Ico] at hx'
  exact ⟨s, Finset.mem_range.mp hs, hx'.1, hx'.2⟩

/-- A prefix code whose intervals are disjoint and whose Kraft sum is 1 is complete:
a proper prefix of a codeword, extended by one bit, is a prefix of a codeword. -/
theorem code_complete (table : List Nat) (length : List Int) (nbr M : Nat)
    (hM : ∀ s, s < nbr → lenOf length s ≤ M)
    (hlt : ∀ s, s < nbr → table.getD s 0 < 2 ^ lenOf length s)
    (hdisj : ∀ a b, a < nbr → b < nbr → a ≠ b →
      codeHi M (lenOf length a) (table.getD a 0) ≤ codeLo M (lenOf length b) (table.getD b 0) ∨
      codeHi M (lenOf length b) (table.getD b 0) ≤ codeLo M (lenOf length a) (table.getD a 0))
    (hk : kraftSum length M (Finset.range nbr) = 2 ^ M)
    (hpf : ∀ s t, s < nbr → t < nbr → s ≠ t →
      ¬ codeword table length s <+: codeword table length t) :
    ∀ p ∈ properPrefixes (codeword table length) nbr, ∀ b,
      ∃ t, t < nbr ∧ p ++ [b] <+: codeword table length t := by
  intro p hp b
  rw [mem_properPrefixes] at hp
  obtain ⟨t', ht', hpre, hlen⟩ := hp
  have hcwl : ∀ s, (codeword table length s).length = lenOf length s :=
    fun s => bitsOf_length _ _
  rw [hcwl] at hlen
  have hqM : (p ++ [b]).length ≤ M := by
    have := hM t' ht'
    rw [List.length_append, List.length_singleton]
    omega
  have hx : bitsVal (p ++ [b]) * 2 ^ (M - (p ++ [b]).length) < 2 ^ M := by
    have e : 2 ^ M = 2 ^ (p ++ [b]).length * 2 ^ (M - (p ++ [b]).length) := by
      rw [← pow_add]
      congr 1
      omega
    rw [e]
    exact Nat.mul_lt_mul_of_pos_right (bitsVal_lt _) (Nat.pos_pow_of_pos _ (by decide))
  obtain ⟨s, hs, hlo, hhi⟩ := intervals_cover (fun s => table.getD s 0) (lenOf length) nbr M hM hlt
    hdisj hk _ hx
  set x := bitsVal (p ++ [b]) * 2 ^ (M - (p ++ [b]).length) with hxdef
  -- the codeword of `s` and `p ++ [b]` are both the first bits of `x`
  have hcs : codeword table length s = (bitsOf M x).take (lenOf length s) := by
    rw [take_bitsOf M _ x (hM s hs)]
    unfold codeword
    congr 1
    rw [Nat.shiftRight_eq_div_pow]
    unfold codeLo at hlo
    unfold codeHi at hhi
    symm
    apply Nat.div_eq_of_lt_le
    · rw [mul_comm] at hlo
      rw [mul_comm]
      exact hlo
    · rw [mul_comm] at hhi
      rw [mul_comm]
      exact hhi
  have hq : p ++ [b] = (bitsOf M x).take (p ++ [b]).length := by
    rw [take_bitsOf M _ x hqM, Nat.shiftRight_eq_div_pow, hxdef,
      Nat.mul_div_cancel _ (Nat.pos_pow_of_pos _ (by decide)), bitsOf_bitsVal]
  by_cases hcase : lenOf length s ≤ (p ++ [b]).length
  · have hpre2 : codeword table length s <+: p ++ [b] := by
      have h := take_prefix_take (bitsOf M x) (lenOf length s) (p ++ [b]).length hcase
      rw [← hcs, ← hq] at h
      exact h
    rcases prefix_snoc _ _ _ hpre2 with h | h
    · exfalso
      refine hpf s t' hs ht' ?_ (h.trans hpre)
      intro e
      have := h.length_le
      rw [hcwl, e] at this
      omega
    · exact ⟨s, hs, by rw [h]⟩
  · refine ⟨s, hs, ?_⟩
    have h := take_prefix_take (bitsOf M x) (p ++ [b]).length (lenOf length s) (by omega)
    rw [← hcs, ← hq] at h
    exact h

end Comp


namespace Comp

/-! ## The finished decoding tree -/

theorem link_natCast (decode : List HDecodeNode) (m : Nat) (b : Bool) :
    link decode (m : Int) b = slot decode m b := by
  unfold link slot
  rw [Int.toNat_ofNat]

theorem walk_append (decode : List HDecodeNode) (p q : List Bool) : ∀ (i : Int),
    walk decode (p ++ q) i = walk decode q (walk decode p i) := by
  induction p with
  | nil => intro i; rfl
  | cons b p ih => intro i; exact ih _

theorem walkInside_append (decode : List HDecodeNode) (bound : Int) (p q : List Bool) :
    ∀ (i : Int), walkInside decode bound (p ++ q) i
      ↔ walkInside decode bound p i ∧ walkInside decode bound q (walk decode p i) := by
  induction p with
  | nil => intro i; simp [walkInside, walk]
  | cons b p ih =>
    intro i
    have e : walkInside decode bound (b :: p ++ q) i
        ↔ 0 ≤ i ∧ i < bound ∧ walkInside decode bound (p ++ q) (link decode i b) := Iff.rfl
    have e2 : walkInside decode bound (b :: p) i
        ↔ 0 ≤ i ∧ i < bound ∧ walkInside decode bound p (link decode i b) := Iff.rfl
    have e3 : walk decode (b :: p) i = walk decode p (link decode i b) := rfl
    rw [e, e2, e3, ih]
    tauto

/-- Every prefix of the path of a node is the path of a node. -/
theorem tinv_prefix_node (cw : Nat → List Bool) (nbr k : Nat) (decode : List HDecodeNode)
    (top : Nat) (path : Nat → List Bool) (hT : TInv cw nbr k decode top path) :
    ∀ n m, (path m).length = n → m < top → ∀ p, p <+: path m → ∃ m', m' < top ∧ path m' = p := by
  obtain ⟨t1, t2, t3, t4, t5, t6, t7, t8⟩ := hT
  intro n
  induction n with
  | zero =>
    intro m hl hm p hp
    have h0 : path m = [] := List.eq_nil_of_length_eq_zero hl
    rw [h0] at hp
    exact ⟨m, hm, by rw [h0, List.prefix_nil.mp hp]⟩
  | succ n ih =>
    intro m hl hm p hp
    have hm1 : 1 ≤ m := by
      by_contra h0
      have : m = 0 := by omega
      rw [this, t3] at hl
      simp at hl
    obtain ⟨m0, b, p1, _, p3⟩ := t5 m hm1 hm
    rw [p3] at hp hl
    rcases prefix_snoc _ _ _ hp with h | h
    · exact ih m0 (by simpa using hl) p1 p h
    · exact ⟨m, hm, by rw [p3, h]⟩

/-- The links lead from the root to every node along its path, through nodes only. -/
theorem tinv_walk (cw : Nat → List Bool) (nbr k : Nat) (decode : List HDecodeNode)
    (top : Nat) (path : Nat → List Bool) (hT : TInv cw nbr k decode top path) :
    ∀ n m, (path m).length = n → m < top →
      walk decode (path m) 0 = (m : Int) ∧ walkInside decode top (path m) 0 := by
  obtain ⟨t1, t2, t3, t4, t5, t6, t7, t8⟩ := hT
  intro n
  induction n with
  | zero =>
    intro m hl hm
    have h0 : path m = [] := List.eq_nil_of_length_eq_zero hl
    have hm0 : m = 0 := t8 m 0 hm (by omega) (by rw [h0, t3])
    rw [h0, hm0]
    exact ⟨rfl, trivial⟩
  | succ n ih =>
    intro m hl hm
    have hm1 : 1 ≤ m := by
      by_contra h0
      have : m = 0 := by omega
      rw [this, t3] at hl
      simp at hl
    obtain ⟨m0, b, p1, p2, p3⟩ := t5 m hm1 hm
    rw [p3] at hl ⊢
    obtain ⟨i1, i2⟩ := ih m0 (by simpa using hl) p1
    rw [walk_append, walkInside_append, i1]
    refine ⟨by rw [walk, walk, link_natCast]; exact p2, i2, ?_⟩
    rw [walkInside]
    exact ⟨by omega, by exact_mod_cast p1, trivial⟩

/-- The finished tree leads along the codeword of every symbol to its leaf, through
nodes only. -/
theorem tinv_leaf (cw : Nat → List Bool) (nbr : Nat) (decode : List HDecodeNode)
    (top : Nat) (path : Nat → List Bool) (hT : TInv cw nbr nbr decode top path)
    (s : Nat) (hs : s < nbr) :
    walk decode (cw s) 0 = (nbr : Int) + s ∧ walkInside decode top (cw s) 0 := by
  obtain ⟨m0, b, p1, p2, p3⟩ := hT.2.2.2.2.2.2.1 s hs
  obtain ⟨i1, i2⟩ := tinv_walk cw nbr nbr decode top path hT _ m0 rfl p1
  rw [p3, walk_append, walkInside_append, i1]
  refine ⟨by rw [walk, walk, link_natCast]; exact p2, i2, ?_⟩
  rw [walkInside]
  exact ⟨by omega, by exact_mod_cast p1, trivial⟩

/-- The finished tree has one node for every proper prefix of a codeword. -/
theorem tinv_top (cw : Nat → List Bool) (nbr : Nat) (decode : List HDecodeNode)
    (top : Nat) (path : Nat → List Bool) (hT : TInv cw nbr nbr decode top path) :
    top = (properPrefixes cw nbr).card := by
  have hpre := tinv_prefix_node cw nbr nbr decode top path hT
  obtain ⟨t1, t2, t3, t4, t5, t6, t7, t8⟩ := hT
  have himg : (Finset.range top).image path = properPrefixes cw nbr := by
    ext p
    rw [Finset.mem_image]
    constructor
    · rintro ⟨m, hm, rfl⟩
      exact t6 m (Finset.mem_range.mp hm)
    · intro hp
      rw [mem_properPrefixes] at hp
      obtain ⟨s, hs, hp1, hp2⟩ := hp
      obtain ⟨m0, b, p1, _, p3⟩ := t7 s hs
      rw [p3] at hp1 hp2
      rcases prefix_snoc _ _ _ hp1 with h | h
      · obtain ⟨m', q1, q2⟩ := hpre _ m0 rfl p1 p h
        exact ⟨m', Finset.mem_range.mpr q1, q2⟩
      · rw [h] at hp2
        omega
  rw [← himg, Finset.card_image_of_injOn, Finset.card_range]
  intro a ha b hb hab
  exact t8 a b (Finset.mem_range.mp (Finset.mem_coe.mp ha))
    (Finset.mem_range.mp (Finset.mem_coe.mp hb)) hab

end Comp


namespace Comp

/-! ## The decoding tree of the code of `generateLength` and `generatePrefix` -/

/-- The code built from the lengths of `generateLength` is complete. -/
theorem huffman_code_complete (freq : List Int) (table : List Nat) (nbr : Nat) (hn : 2 ≤ nbr)
    (hN : nbr ≤ 32768) (htab : nbr ≤ table.length) :
    ∀ p ∈ properPrefixes (codeword (generatePrefix table (generateLength freq nbr) nbr)
        (generateLength freq nbr)) nbr, ∀ b,
      ∃ t, t < nbr ∧ p ++ [b] <+: codeword (generatePrefix table (generateLength freq nbr) nbr)
        (generateLength freq nbr) t := by
  obtain ⟨M, hM⟩ := exists_length_bound (generateLength freq nbr) nbr
  have hpos : ∀ a, a < nbr → 0 < (generateLength freq nbr).getD a 0 := by
    intro a ha
    have := generateLength_pos freq nbr hn a ha
    omega
  have hsp := (generatePrefix_spec table (generateLength freq nbr) nbr M hM
    ⟨0, by omega, hpos 0 (by omega)⟩ htab (keysFit_generateLength freq nbr hn hN)).2
  exact code_complete _ _ nbr M hM (fun s hs => code_lt freq table nbr hn hN htab s hs)
    (fun a b ha hb hab => hsp a b ha hb (hpos a ha) (hpos b hb) hab)
    (kraftSum_generateLength freq nbr M hn hM)
    (fun s t hs ht hst => code_prefix_free freq table nbr hn hN htab s t hs ht hst)

/-- The tree that `buildDecodeTable` makes for the code built from the lengths of
`generateLength`: it has `nbr - 1` nodes and leads along the codeword of every symbol to
the leaf of the symbol, through nodes only. -/
theorem decodeTree_spec (freq : List Int) (table : List Nat) (decode : List HDecodeNode)
    (nbr : Nat) (hn : 2 ≤ nbr) (hN : nbr ≤ 32768) (htab : nbr ≤ table.length)
    (hdec : nbr ≤ decode.length) :
    (∀ k, k ≤ nbr →
      ((List.range k).foldl (buildDecodeStep (generatePrefix table (generateLength freq nbr) nbr)
        (generateLength freq nbr) nbr) (decode.set 0 ⟨-1, -1⟩, 1)).2 + 1 ≤ nbr) ∧
    (buildDecodeLoop decode (generatePrefix table (generateLength freq nbr) nbr)
      (generateLength freq nbr) nbr).2 + 1 = nbr ∧
    (buildDecodeTable decode (generatePrefix table (generateLength freq nbr) nbr)
      (generateLength freq nbr) nbr).length = decode.length ∧
    ∀ s, s < nbr →
      walk (buildDecodeTable decode (generatePrefix table (generateLength freq nbr) nbr)
          (generateLength freq nbr) nbr)
        (codeword (generatePrefix table (generateLength freq nbr) nbr) (generateLength freq nbr) s) 0
        = (nbr : Int) + s ∧
      walkInside (buildDecodeTable decode (generatePrefix table (generateLength freq nbr) nbr)
          (generateLength freq nbr) nbr) ((nbr : Int) - 1)
        (codeword (generatePrefix table (generateLength freq nbr) nbr)
          (generateLength freq nbr) s) 0 := by
  have hlen : ∀ s, s < nbr → 1 ≤ lenOf (generateLength freq nbr) s := by
    intro s hs
    have := generateLength_pos freq nbr hn s hs
    unfold lenOf
    omega
  have hpf : ∀ s t, s < nbr → t < nbr → s ≠ t →
      ¬ codeword (generatePrefix table (generateLength freq nbr) nbr) (generateLength freq nbr) s
        <+: codeword (generatePrefix table (generateLength freq nbr) nbr)
          (generateLength freq nbr) t :=
    fun s t hs ht hst => code_prefix_free freq table nbr hn hN htab s t hs ht hst
  have hcard := card_properPrefixes _ nbr (by omega)
    (fun s hs => by
      intro h0
      have := congrArg List.length h0
      unfold codeword at this
      rw [bitsOf_length] at this
      have := hlen s hs
      simp at *
      omega)
    hpf (huffman_code_complete freq table nbr hn hN htab)
  obtain ⟨path, hT, hl⟩ := buildDecodeLoop_spec decode _ (generateLength freq nbr) nbr (by omega)
    hlen hpf (by omega)
  have htop := tinv_top _ nbr _ _ path hT
  refine ⟨fun k hk => ?_, by omega, hl, fun s hs => ?_⟩
  · obtain ⟨path', hT', _⟩ := buildDecodePrefix_spec decode _ (generateLength freq nbr) nbr
      (by omega) hlen hpf (by omega) k hk
    have := tinv_top_le _ nbr k _ _ path' hT'
    omega
  obtain ⟨w1, w2⟩ := tinv_leaf _ nbr _ _ path hT s hs
  refine ⟨w1, ?_⟩
  have e : (((buildDecodeLoop decode (generatePrefix table (generateLength freq nbr) nbr)
      (generateLength freq nbr) nbr).2 : Nat) : Int) = (nbr : Int) - 1 := by
    omega
  rw [← e]
  exact w2

theorem walkInside_mono (decode : List HDecodeNode) (bound bound' : Int) (h : bound ≤ bound') :
    ∀ (p : List Bool) (i : Int), walkInside decode bound p i → walkInside decode bound' p i := by
  intro p
  induction p with
  | nil => intro i _; trivial
  | cons b p ih =>
    intro i hw
    obtain ⟨h1, h2, h3⟩ := hw
    exact ⟨h1, by omega, ih _ h3⟩

end Comp


namespace Comp

/-! ## Reading a codeword through the decoding tree -/

/-- Reading one bit. -/
theorem getBits_one (bs : BitStream) (b : Bool) (rest : List Bool) (h : RInv bs)
    (hb : rbits bs = b :: rest) :
    (getBits bs 1).1 = (if b then 1 else 0) ∧ RInv (getBits bs 1).2 ∧
      rbits (getBits bs 1).2 = rest := by
  obtain ⟨str', h1, h2, h3⟩ := getBits_spec 1 bs h (by rw [hb]; simp)
  rw [h1]
  refine ⟨?_, h2, by rw [h3, hb]; rfl⟩
  rw [hb]
  cases b <;> rfl

/-- The loop of `getHufInput` on a stream that starts with bits which lead to a leaf. -/
theorem decodeLoop_walk (decode : List HDecodeNode) (rest : List Bool) :
    ∀ (bits : List Bool) (i : Int) (bs : BitStream) (fuel : Nat), RInv bs →
    rbits bs = bits ++ rest → walkInside decode 256 bits i → 256 ≤ walk decode bits i →
    bits.length < fuel →
    (decodeLoop fuel decode i bs).1 = walk decode bits i ∧
      RInv (decodeLoop fuel decode i bs).2 ∧ rbits (decodeLoop fuel decode i bs).2 = rest := by
  intro bits
  induction bits with
  | nil =>
    intro i bs fuel h hb _ hw hf
    obtain ⟨f, rfl⟩ : ∃ f, fuel = f + 1 := ⟨fuel - 1, by simp at hf; omega⟩
    have hw' : 256 ≤ i := hw
    rw [decodeLoop, if_neg (by omega)]
    exact ⟨rfl, h, hb⟩
  | cons b bits ih =>
    intro i bs fuel h hb hin hw hf
    obtain ⟨f, rfl⟩ : ∃ f, fuel = f + 1 := ⟨fuel - 1, by simp at hf; omega⟩
    obtain ⟨i0, i1, i2⟩ := hin
    obtain ⟨g1, g2, g3⟩ := getBits_one bs b (bits ++ rest) h hb
    have hw' : 256 ≤ walk decode bits (link decode i b) := hw
    rw [decodeLoop, if_pos i1]
    have hf' : bits.length < f := by simpa using hf
    cases b with
    | true =>
      rw [if_pos (by rw [g1]; decide)]
      exact ih _ _ f g2 g3 i2 hw' hf'
    | false =>
      rw [if_neg (by rw [g1]; decide)]
      exact ih _ _ f g2 g3 i2 hw' hf'

/-- Reading one bit at the end of the file yields `-1`. -/
theorem getBits_eof (bs : BitStream) (h0 : bs.nBit = 0) (hf : bs.file = []) :
    getBits bs 1 = (-1, { bs with curChar := -1 }) := by
  unfold getBits
  rw [getBitsLoop, if_pos (by decide)]
  unfold refillBits
  rw [if_pos h0, hf]

/-- The loop of `getHufInput` at the end of the file: every `-1` of `getBits` is taken
for a bit 1. -/
theorem decodeLoop_eof (decode : List HDecodeNode) :
    ∀ (t : Nat) (i : Int) (bs : BitStream) (fuel : Nat), bs.nBit = 0 → bs.file = [] →
    walkInside decode 256 (List.replicate t true) i →
    256 ≤ walk decode (List.replicate t true) i → t < fuel →
    (decodeLoop fuel decode i bs).1 = walk decode (List.replicate t true) i := by
  intro t
  induction t with
  | zero =>
    intro i bs fuel _ _ _ hw hf
    obtain ⟨f, rfl⟩ : ∃ f, fuel = f + 1 := ⟨fuel - 1, by omega⟩
    have hw' : 256 ≤ i := hw
    rw [decodeLoop, if_neg (by omega)]
    rfl
  | succ t ih =>
    intro i bs fuel h0 hfile hin hw hf
    obtain ⟨f, rfl⟩ : ∃ f, fuel = f + 1 := ⟨fuel - 1, by omega⟩
    rw [List.replicate_succ] at hin hw
    obtain ⟨_, i1, i2⟩ := hin
    have hne : ((-1 : Int), ({ bs with curChar := -1 } : BitStream)).1 ≠ 0 := by
      show (-1 : Int) ≠ 0
      decide
    rw [decodeLoop, if_pos i1, getBits_eof bs h0 hfile, if_pos hne]
    exact ih _ _ f h0 hfile i2 hw (by omega)

end Comp


namespace Comp

/-! ## What a reader leaves in the file -/

theorem getBitsLoop_suffix (fuel : Nat) : ∀ (k : Nat) (r : Int) (str : BitStream),
    (getBitsLoop fuel k r str).2.file <:+ str.file := by
  induction fuel with
  | zero => intro k r str; exact List.suffix_refl _
  | succ fuel ih =>
    intro k r str
    rw [getBitsLoop]
    by_cases hk : k > 0
    · rw [if_pos hk]
      unfold refillBits
      by_cases h0 : str.nBit = 0
      · rw [if_pos h0]
        cases hf : str.file with
        | nil => simp [hf]
        | cons c rest =>
          simp only
          exact (ih _ _ _).trans (List.suffix_cons c rest)
      · rw [if_neg h0]
        exact ih _ _ _
    · rw [if_neg hk]

theorem getBitsSeq_suffix (ws : List Nat) : ∀ (str : BitStream),
    (getBitsSeq ws str).2.file <:+ str.file := by
  induction ws with
  | nil => intro str; exact List.suffix_refl _
  | cons w ws ih =>
    intro str
    exact (ih _).trans (getBitsLoop_suffix _ _ _ _)

theorem decodeLoop_suffix (decode : List HDecodeNode) (fuel : Nat) : ∀ (i : Int) (bs : BitStream),
    (decodeLoop fuel decode i bs).2.file <:+ bs.file := by
  induction fuel with
  | zero => intro i bs; exact List.suffix_refl _
  | succ fuel ih =>
    intro i bs
    rw [decodeLoop]
    by_cases hi : i < 256
    · rw [if_pos hi]
      split <;> exact (ih _ _).trans (getBitsLoop_suffix _ _ _ _)
    · rw [if_neg hi]

theorem decodeLoop_nBit (decode : List HDecodeNode) (fuel : Nat) : ∀ (i : Int) (bs : BitStream),
    bs.nBit < 8 → (decodeLoop fuel decode i bs).2.nBit < 8 := by
  induction fuel with
  | zero => intro i bs h; exact h
  | succ fuel ih =>
    intro i bs h
    rw [decodeLoop]
    by_cases hi : i < 256
    · rw [if_pos hi]
      split <;> exact ih _ _ (getBitsLoop_nBit _ _ _ _ h)
    · rw [if_neg hi]
      exact h

/-- A reader that has fewer than 8 bits pending and whose pending bits, with those of
its file, are fewer than 8 bits followed by the bits of `tail`, has `tail` as its file
when both files are ends of the same file. -/
theorem file_eq_of_rbits (bs : BitStream) (file0 tail : List Nat) (pad : List Bool)
    (hn : bs.nBit < 8) (hp : pad.length < 8) (h1 : bs.file <:+ file0) (h2 : tail <:+ file0)
    (hr : rbits bs = pad ++ bytesBits tail) : bs.file = tail := by
  have hl := congrArg List.length hr
  unfold rbits at hl
  rw [List.length_append, List.length_append, bitsOf_length, bytesBits_length,
    bytesBits_length] at hl
  have hlen : bs.file.length = tail.length := by omega
  exact (List.suffix_of_suffix_length_le h1 h2 (le_of_eq hlen)).eq_of_length hlen

/-! ## `getHufInput` inside a block -/

/-- A call of `getHufInput` inside a block, on a stream that starts with a codeword of
the tree. -/
theorem getHufInput_symbol (str : HInStream) (bits rest : List Bool) (s : Nat)
    (hn : 0 < str.nbr) (h : RInv str.bs) (hb : rbits str.bs = bits ++ rest)
    (hin : walkInside str.decode 256 bits 0) (hw : walk str.decode bits 0 = 256 + (s : Int))
    (hl : bits.length < 256) :
    (getHufInput str).1 = (s : Int) ∧ (getHufInput str).2.nbr = str.nbr - 1 ∧
    (getHufInput str).2.decode = str.decode ∧ RInv (getHufInput str).2.bs ∧
    rbits (getHufInput str).2.bs = rest ∧
    (getHufInput str).2.bs.file <:+ str.bs.file ∧
    (str.bs.nBit < 8 → (getHufInput str).2.bs.nBit < 8) := by
  obtain ⟨d1, d2, d3⟩ := decodeLoop_walk str.decode rest bits 0 str.bs 256 h hb hin
    (by rw [hw]; omega) hl
  have e : getHufInput str
      = ((decodeLoop 256 str.decode 0 str.bs).1 - 256,
          { str with bs := (decodeLoop 256 str.decode 0 str.bs).2, nbr := str.nbr - 1 }) := by
    unfold getHufInput
    rw [if_neg (by omega)]
    simp only [if_neg (show ¬ str.nbr = 0 by omega)]
    rw [if_neg (by omega)]
  rw [e]
  refine ⟨by simp only; rw [d1, hw]; omega, rfl, rfl, d2, d3, decodeLoop_suffix _ _ _ _,
    fun h8 => decodeLoop_nBit _ _ _ _ h8⟩

/-- A sequence of calls of `getHufInput` inside a block, on a stream that starts with the
codewords of the symbols `syms`. -/
theorem getHufInputSeq_symbols (cw : Nat → List Bool) (decode : List HDecodeNode)
    (hcw : ∀ s, s < 256 → walkInside decode 256 (cw s) 0 ∧ walk decode (cw s) 0 = 256 + (s : Int) ∧
      (cw s).length < 256) :
    ∀ (syms : List Nat) (str : HInStream) (rest : List Bool), (∀ s ∈ syms, s < 256) →
    str.decode = decode → (syms.length : Int) ≤ str.nbr → RInv str.bs →
    rbits str.bs = (syms.map cw).flatten ++ rest →
    (getHufInputSeq syms.length str).1 = syms.map (fun (s : Nat) => (s : Int)) ∧
    (getHufInputSeq syms.length str).2.nbr = str.nbr - syms.length ∧
    (getHufInputSeq syms.length str).2.decode = decode ∧
    RInv (getHufInputSeq syms.length str).2.bs ∧
    rbits (getHufInputSeq syms.length str).2.bs = rest ∧
    (getHufInputSeq syms.length str).2.bs.file <:+ str.bs.file ∧
    (str.bs.nBit < 8 → (getHufInputSeq syms.length str).2.bs.nBit < 8) := by
  intro syms
  induction syms with
  | nil =>
    intro str rest _ hd _ h hb
    refine ⟨rfl, by simp [getHufInputSeq], hd, h, by simpa using hb, List.suffix_refl _, fun h => h⟩
  | cons s syms ih =>
    intro str rest hs hd hn h hb
    have hs0 := hs s (List.mem_cons_self _ _)
    obtain ⟨c1, c2, c3⟩ := hcw s hs0
    rw [List.length_cons] at hn ⊢
    push_cast at hn
    rw [List.map_cons, List.flatten_cons, List.append_assoc] at hb
    obtain ⟨g1, g2, g3, g4, g5, g6, g7⟩ := getHufInput_symbol str (cw s) _ s (by omega) h hb
      (by rw [hd]; exact c1) (by rw [hd]; exact c2) c3
    obtain ⟨i1, i2, i3, i4, i5, i6, i7⟩ := ih (getHufInput str).2 rest
      (fun x hx => hs x (List.mem_cons_of_mem _ hx)) (by rw [g3, hd]) (by rw [g2]; omega) g4 g5
    rw [getHufInputSeq]
    refine ⟨by rw [i1, g1]; rfl, by rw [i2, g2]; push_cast; omega, i3, i4, i5, i6.trans g6,
      fun h8 => i7 (g7 h8)⟩

end Comp


namespace Comp

/-! ## `getHufInput` at the start of a block -/

theorem header_widths (L : List Int) :
    ((List.range 256).map (fun i => (lenOf L i, 4))).map (fun p => p.2) = List.replicate 256 4 := by
  rw [List.map_map]
  apply List.ext_getElem
  · rw [List.length_map, List.length_range, List.length_replicate]
  · intro i h1 h2
    simp only [List.getElem_map, List.getElem_replicate, Function.comp]

theorem header_values (L : List Int) (hL : L.length = 256) (h0 : ∀ c, c < 256 → 0 ≤ L.getD c 0) :
    ((List.range 256).map (fun i => (lenOf L i, 4))).map (fun p => (p.1 : Int)) = L := by
  rw [List.map_map]
  apply List.ext_getElem
  · rw [List.length_map, List.length_range, hL]
  · intro i h1 h2
    have hi : i < 256 := by rw [hL] at h2; exact h2
    have := h0 i hi
    simp only [List.getElem_map, List.getElem_range, Function.comp]
    unfold lenOf
    rw [List.getD_eq_getElem _ _ h2] at this ⊢
    omega

theorem header_read (bs : BitStream) (L : List Int) (N : Nat) (rest : List Bool)
    (hc : 0 ≤ bs.curChar) (hN : N < 2 ^ 16)
    (hL : L.length = 256) (hr : ∀ c, c < 256 → 0 ≤ L.getD c 0 ∧ L.getD c 0 ≤ 15)
    (hf : bytesBits bs.file
      = seqBits ((N, 16) :: (List.range 256).map (fun i => (lenOf L i, 4))) ++ rest) :
    ∃ s1 s2, getBits { bs with nBit := 0 } 16 = ((N : Int), s1) ∧
      getBitsSeq (List.replicate 256 4) s1 = (L, s2) ∧
      RInv s2 ∧ rbits s2 = rest ∧ s2.file <:+ bs.file ∧ s2.nBit < 8 := by
  have hR0 : RInv { bs with nBit := 0 } := ⟨Nat.zero_le 8, hc⟩
  have hb0 : rbits { bs with nBit := 0 }
      = bitsOf 16 N ++ (seqBits ((List.range 256).map (fun i => (lenOf L i, 4))) ++ rest) := by
    unfold rbits
    show bitsOf 0 bs.curChar.toNat ++ bytesBits bs.file = _
    rw [hf, seqBits, List.append_assoc]
    rfl
  obtain ⟨s1, g1, g2, g3⟩ := getBits_spec 16 _ hR0
    (by rw [hb0, List.length_append, bitsOf_length]; omega)
  have hv : bitsVal ((rbits { bs with nBit := 0 }).take 16) = N := by
    rw [hb0, List.take_left' (bitsOf_length 16 N), bitsVal_bitsOf_of_lt 16 N hN]
  rw [hv] at g1
  rw [hb0, List.drop_left' (bitsOf_length 16 N)] at g3
  obtain ⟨s2, k1, k2, k3⟩ := getBitsSeq_spec ((List.range 256).map (fun i => (lenOf L i, 4))) s1 rest
    g2 (by
      intro p hp
      rw [List.mem_map] at hp
      obtain ⟨i, hi, rfl⟩ := hp
      have := hr i (List.mem_range.mp hi)
      show lenOf L i < 2 ^ 4
      unfold lenOf
      omega) g3
  rw [header_widths, header_values L hL (fun c hc => (hr c hc).1)] at k1
  have hs1 : s1 = (getBits { bs with nBit := 0 } 16).2 := by rw [g1]
  have hs1n : s1.nBit < 8 := by
    rw [hs1]
    exact getBitsLoop_nBit _ _ _ _ (Nat.zero_lt_succ 7)
  have hs1f : s1.file <:+ bs.file := by
    rw [hs1]
    exact getBitsLoop_suffix _ _ _ _
  have hs2 : s2 = (getBitsSeq (List.replicate 256 4) s1).2 := by rw [k1]
  refine ⟨s1, s2, g1, k1, k2, k3, ?_, ?_⟩
  · rw [hs2]
    exact (getBitsSeq_suffix _ _).trans hs1f
  · rw [hs2]
    exact getBitsSeq_nBit _ _ hs1n

theorem getHufInput_inside (str : HInStream) (hn : 0 < str.nbr) :
    getHufInput str
      = ((decodeLoop 256 str.decode 0 str.bs).1 - 256,
          { str with bs := (decodeLoop 256 str.decode 0 str.bs).2, nbr := str.nbr - 1 }) := by
  unfold getHufInput
  rw [if_neg (by omega)]
  simp only [if_neg (show ¬ str.nbr = 0 by omega)]
  rw [if_neg (by omega)]

theorem getHufInput_zero (str : HInStream) (hnbr : str.nbr = 0)
    (hpos : 0 < (getBits { str.bs with nBit := 0 } 16).1) :
    getHufInput str
      = getHufInput (readHeader { str with bs := (getBits { str.bs with nBit := 0 } 16).2,
                                           nbr := (getBits { str.bs with nBit := 0 } 16).1 }) := by
  rw [getHufInput_inside (readHeader _) (by unfold readHeader; exact hpos)]
  unfold getHufInput
  rw [if_neg (by omega)]
  simp only [if_pos hnbr]
  rw [if_neg (fun h => absurd hpos (not_lt.mpr h.2))]

theorem readHeader_eq (st : HInStream) (L : List Int) (s2 : BitStream)
    (k1 : getBitsSeq (List.replicate 256 4) st.bs = (L, s2)) :
    readHeader st
      = HInStream.mk s2
          (buildDecodeTable st.decode (generatePrefix (List.replicate 256 0) L 256) L 256) st.nbr := by
  unfold readHeader
  rw [k1]

theorem getHufInput_start (str : HInStream) (L : List Int) (N : Nat) (s1 s2 : BitStream)
    (hnbr : str.nbr = 0) (hN0 : 0 < N)
    (g1 : getBits { str.bs with nBit := 0 } 16 = ((N : Int), s1))
    (k1 : getBitsSeq (List.replicate 256 4) s1 = (L, s2)) :
    getHufInput str
      = getHufInput (HInStream.mk s2
          (buildDecodeTable str.decode (generatePrefix (List.replicate 256 0) L 256) L 256)
          (N : Int)) := by
  rw [getHufInput_zero str hnbr (by rw [g1]; show (0 : Int) < (N : Int); omega), g1]
  rw [readHeader_eq _ L s2 k1]

/-- The call of `getHufInput` that opens a block reads the size and the 256 lengths, builds
the codes and the tree, and goes on as a call inside the block. -/
theorem getHufInput_header (str : HInStream) (L : List Int) (N : Nat) (rest : List Bool)
    (hnbr : str.nbr = 0) (hc : 0 ≤ str.bs.curChar) (hN0 : 0 < N) (hN : N < 2 ^ 16)
    (hL : L.length = 256) (hr : ∀ c, c < 256 → 0 ≤ L.getD c 0 ∧ L.getD c 0 ≤ 15)
    (hf : bytesBits str.bs.file
      = seqBits ((N, 16) :: (List.range 256).map (fun i => (lenOf L i, 4))) ++ rest) :
    ∃ bsH, getHufInput str
        = getHufInput (HInStream.mk bsH
            (buildDecodeTable str.decode (generatePrefix (List.replicate 256 0) L 256) L 256)
            (N : Int)) ∧
      RInv bsH ∧ rbits bsH = rest ∧ bsH.file <:+ str.bs.file ∧ bsH.nBit < 8 := by
  obtain ⟨s1, s2, g1, k1, k2, k3, k4, k5⟩ := header_read str.bs L N rest hc hN hL hr hf
  exact ⟨s2, getHufInput_start str L N s1 s2 hnbr hN0 g1 k1, k2, k3, k4, k5⟩

end Comp


namespace Comp

/-! ## Reading back one block -/

theorem seqBits_map_codeword (code : List Nat) (L : List Int) (B : List Nat) :
    seqBits (B.map (fun b => (code.getD b 0, lenOf L b))) = (B.map (codeword code L)).flatten := by
  induction B with
  | nil => rfl
  | cons b B ih =>
    rw [List.map_cons, List.map_cons, seqBits, List.flatten_cons, ih]
    rfl

theorem getHufInputSeq_congr (n : Nat) (s t : HInStream) (h : getHufInput s = getHufInput t) :
    getHufInputSeq (n + 1) s = getHufInputSeq (n + 1) t := by
  rw [getHufInputSeq, getHufInputSeq, h]

/-- Reading back a block written by `writeHBuffer`: a reader that is between blocks and
whose file starts with the block of the buffer `B` delivers the bytes of `B` in `B.length`
calls of `getHufInput`, and is then between blocks at the first byte after the block. -/
theorem block_decode (str : HInStream) (B tail : List Nat)
    (hB : ∀ b ∈ B, b < 256) (hN0 : 0 < B.length) (hN : B.length < 65536)
    (hlen : ∀ c, c < 256 → (generateLength (countFreq B B.length) 256).getD c 0 ≤ 15)
    (hnbr : str.nbr = 0) (hc : 0 ≤ str.bs.curChar) (hdec : 256 ≤ str.decode.length)
    (hf : str.bs.file = writeHBuffer [] B B.length ++ tail) :
    (getHufInputSeq B.length str).1 = B.map (fun (b : Nat) => (b : Int)) ∧
    (getHufInputSeq B.length str).2.nbr = 0 ∧
    (getHufInputSeq B.length str).2.bs.file = tail ∧
    0 ≤ (getHufInputSeq B.length str).2.bs.curChar ∧
    256 ≤ (getHufInputSeq B.length str).2.decode.length := by
  have h2 : 2 ≤ 256 := by norm_num
  have htab : 256 ≤ (List.replicate 256 (0 : Nat)).length := by rw [List.length_replicate]
  have hL15 : ∀ c, c < 256 → lenOf (generateLength (countFreq B B.length) 256) c ≤ 15 := by
    intro c hc
    have := hlen c hc
    unfold lenOf
    omega
  have hfit : ∀ p ∈ ((B.length, 16) ::
            ((List.range 256).map
                (fun i => (lenOf (generateLength (countFreq B B.length) 256) i, 4))
              ++ (List.range B.length).map (fun i =>
                ((generatePrefix (List.replicate 256 0)
                    (generateLength (countFreq B B.length) 256) 256).getD (B.getD i 0) 0,
                  lenOf (generateLength (countFreq B B.length) 256) (B.getD i 0))))),
      p.1 < 2 ^ p.2 := by
    intro p hp
    rw [List.mem_cons, List.mem_append, List.mem_map, List.mem_map] at hp
    rcases hp with rfl | ⟨i, hi, rfl⟩ | ⟨i, hi, rfl⟩
    · show B.length < 2 ^ 16
      norm_num
      exact hN
    · have := hL15 i (List.mem_range.mp hi)
      show lenOf (generateLength (countFreq B B.length) 256) i < 2 ^ 4
      omega
    · have hi2 : i < B.length := List.mem_range.mp hi
      have hb : B.getD i 0 < 256 := by
        rw [List.getD_eq_getElem _ _ hi2]
        exact hB _ (List.getElem_mem _)
      have hcl := code_lt (countFreq B B.length) (List.replicate 256 0) 256 h2 symbols_fit htab _ hb
      simp only
      exact hcl
  obtain ⟨pad, hpad, _, hbits⟩ := closeBits_putBitsSeq _ hfit
  have hfb : bytesBits str.bs.file
      = seqBits ((B.length, 16) :: (List.range 256).map
            (fun i => (lenOf (generateLength (countFreq B B.length) 256) i, 4)))
        ++ ((B.map (codeword (generatePrefix (List.replicate 256 0)
              (generateLength (countFreq B B.length) 256) 256)
              (generateLength (countFreq B B.length) 256))).flatten
            ++ (List.replicate pad false ++ bytesBits tail)) := by
    rw [hf, bytesBits_append, writeHBuffer_eq, hbits, seqBits, seqBits_append,
      range_map_getD B (fun b => ((generatePrefix (List.replicate 256 0)
        (generateLength (countFreq B B.length) 256) 256).getD b 0,
        lenOf (generateLength (countFreq B B.length) 256) b)),
      seqBits_map_codeword, seqBits]
    simp only [List.append_assoc]
  obtain ⟨bsH, e1, r1, r2, r3, r4⟩ := getHufInput_header str
    (generateLength (countFreq B B.length) 256) B.length _ hnbr hc hN0 (by norm_num; exact hN)
    (generateLength_length _ _)
    (fun c hc => ⟨by have := generateLength_pos (countFreq B B.length) 256 h2 c hc; omega,
      hlen c hc⟩) hfb
  obtain ⟨_, _, t3, t4⟩ := decodeTree_spec (countFreq B B.length) (List.replicate 256 0)
    str.decode 256 h2 symbols_fit htab hdec
  have e2 : getHufInputSeq B.length str
      = getHufInputSeq B.length (HInStream.mk bsH
            (buildDecodeTable str.decode (generatePrefix (List.replicate 256 0)
              (generateLength (countFreq B B.length) 256) 256)
              (generateLength (countFreq B B.length) 256) 256)
            (B.length : Int)) := by
    obtain ⟨n, hn⟩ : ∃ n, B.length = n + 1 := ⟨B.length - 1, by omega⟩
    rw [hn] at e1 ⊢
    exact getHufInputSeq_congr n _ _ e1
  obtain ⟨i1, i2, i3, i4, i5, i6, i7⟩ := getHufInputSeq_symbols
    (codeword (generatePrefix (List.replicate 256 0)
      (generateLength (countFreq B B.length) 256) 256)
      (generateLength (countFreq B B.length) 256))
    (buildDecodeTable str.decode (generatePrefix (List.replicate 256 0)
      (generateLength (countFreq B B.length) 256) 256)
      (generateLength (countFreq B B.length) 256) 256)
    (fun s hs => ⟨walkInside_mono _ _ _ (by norm_num) _ _ (t4 s hs).2, (t4 s hs).1, by
      unfold codeword
      rw [bitsOf_length]
      have := hL15 s hs
      omega⟩)
    B (HInStream.mk bsH
      (buildDecodeTable str.decode (generatePrefix (List.replicate 256 0)
        (generateLength (countFreq B B.length) 256) 256)
        (generateLength (countFreq B B.length) 256) 256)
      (B.length : Int)) (List.replicate pad false ++ bytesBits tail)
    hB rfl (le_refl _) r1 r2
  rw [e2]
  refine ⟨i1, by rw [i2]; show (B.length : Int) - B.length = 0; omega, ?_, i4.2, ?_⟩
  · exact file_eq_of_rbits _ str.bs.file tail (List.replicate pad false) (i7 r4)
      (by rw [List.length_replicate]; exact hpad) (i6.trans r3)
      (by rw [hf]; exact List.suffix_append _ _) i5
  · rw [i3, t3]
    exact hdec

end Comp


namespace Comp

/-! ## The end of the file inside a block -/

/-- The code of `generateLength` and `generatePrefix` is complete: a proper prefix of a
codeword, continued with any bit, is a prefix of a codeword. -/
theorem huffman_code_complete_ex (freq : List Int) (table : List Nat) (nbr : Nat) (hn : 2 ≤ nbr)
    (hN : nbr ≤ 32768) (htab : nbr ≤ table.length) (p : List Bool)
    (hp : ∃ s, s < nbr ∧ p <+: codeword (generatePrefix table (generateLength freq nbr) nbr)
        (generateLength freq nbr) s ∧
      p.length < (codeword (generatePrefix table (generateLength freq nbr) nbr)
        (generateLength freq nbr) s).length) (b : Bool) :
    ∃ t, t < nbr ∧ p ++ [b] <+: codeword (generatePrefix table (generateLength freq nbr) nbr)
        (generateLength freq nbr) t :=
  huffman_code_complete freq table nbr hn hN htab p ((mem_properPrefixes _ _ _).mpr hp) b

/-- In a complete code every proper prefix of a codeword, continued with bits 1 only,
becomes a codeword. -/
theorem ones_complete (cw : Nat → List Bool) (n M : Nat) (hM : ∀ s, s < n → (cw s).length ≤ M)
    (hcomp : ∀ p, (∃ s, s < n ∧ p <+: cw s ∧ p.length < (cw s).length) →
      ∀ b, ∃ t, t < n ∧ p ++ [b] <+: cw t) :
    ∀ (k : Nat) (p : List Bool), (∃ s, s < n ∧ p <+: cw s ∧ p.length < (cw s).length) →
    M ≤ p.length + k →
    ∃ s t, s < n ∧ 1 ≤ t ∧ cw s = p ++ List.replicate t true := by
  intro k
  induction k with
  | zero =>
    intro p hp hk
    obtain ⟨s, hs, _, hl⟩ := hp
    have := hM s hs
    omega
  | succ k ih =>
    intro p hp hk
    obtain ⟨t, ht, hpre⟩ := hcomp p hp true
    by_cases hl : (p ++ [true]).length < (cw t).length
    · obtain ⟨s, t2, hs, _, hc⟩ := ih (p ++ [true]) ⟨t, ht, hpre, hl⟩
        (by rw [List.length_append, List.length_singleton]; omega)
      refine ⟨s, t2 + 1, hs, by omega, ?_⟩
      rw [hc, List.append_assoc, List.replicate_succ]
      rfl
    · refine ⟨t, 1, ht, le_refl 1, ?_⟩
      have hle := hpre.length_le
      exact (hpre.eq_of_length (by omega)).symm

theorem rbits_nil (bs : BitStream) (h : rbits bs = []) : bs.nBit = 0 ∧ bs.file = [] := by
  have hl := congrArg List.length h
  unfold rbits at hl
  rw [List.length_append, bitsOf_length, bytesBits_length, List.length_nil] at hl
  exact ⟨by omega, List.length_eq_zero.mp (by omega)⟩

theorem rbits_of_eof (bs : BitStream) (h0 : bs.nBit = 0) (hf : bs.file = []) : rbits bs = [] := by
  unfold rbits
  rw [h0, hf]
  rfl

/-- At the end of the file the loop of `getHufInput` leaves the stream at the end of the
file. -/
theorem decodeLoop_eof_state (decode : List HDecodeNode) :
    ∀ (fuel : Nat) (i : Int) (bs : BitStream), bs.nBit = 0 → bs.file = [] →
    (decodeLoop fuel decode i bs).2.nBit = 0 ∧ (decodeLoop fuel decode i bs).2.file = [] := by
  intro fuel
  induction fuel with
  | zero => intro i bs h0 hf; exact ⟨h0, hf⟩
  | succ f ih =>
    intro i bs h0 hf
    rw [decodeLoop]
    by_cases hi : i < 256
    · have hne : ((-1 : Int), ({ bs with curChar := -1 } : BitStream)).1 ≠ 0 := by
        show (-1 : Int) ≠ 0
        decide
      rw [if_pos hi, getBits_eof bs h0 hf, if_pos hne]
      exact ih _ _ h0 hf
    · rw [if_neg hi]
      exact ⟨h0, hf⟩

/-- The loop of `getHufInput` on a stream that ends inside a codeword: the bits that are
left are followed, then every `-1` of `getBits` is taken for a bit 1. -/
theorem decodeLoop_walk_eof (decode : List HDecodeNode) (t : Nat) :
    ∀ (p : List Bool) (i : Int) (bs : BitStream) (fuel : Nat), (p = [] ∨ RInv bs) →
    rbits bs = p → walkInside decode 256 (p ++ List.replicate t true) i →
    256 ≤ walk decode (p ++ List.replicate t true) i → p.length + t < fuel →
    (decodeLoop fuel decode i bs).1 = walk decode (p ++ List.replicate t true) i ∧
      (decodeLoop fuel decode i bs).2.nBit = 0 ∧ (decodeLoop fuel decode i bs).2.file = [] := by
  intro p
  induction p with
  | nil =>
    intro i bs fuel _ hb hin hw hf
    obtain ⟨h0, hfile⟩ := rbits_nil bs hb
    rw [List.nil_append] at hin hw ⊢
    exact ⟨decodeLoop_eof decode t i bs fuel h0 hfile hin hw (by simpa using hf),
      decodeLoop_eof_state decode fuel i bs h0 hfile⟩
  | cons b p ih =>
    intro i bs fuel hR hb hin hw hf
    have h : RInv bs := by
      rcases hR with h | h
      · exact absurd h (List.cons_ne_nil _ _)
      · exact h
    obtain ⟨f, rfl⟩ : ∃ f, fuel = f + 1 := ⟨fuel - 1, by simp at hf; omega⟩
    rw [List.cons_append] at hin hw ⊢
    obtain ⟨i0, i1, i2⟩ := hin
    obtain ⟨g1, g2, g3⟩ := getBits_one bs b p h hb
    have hw' : 256 ≤ walk decode (p ++ List.replicate t true) (link decode i b) := hw
    have hf' : p.length + t < f := by
      rw [List.length_cons] at hf
      omega
    rw [decodeLoop, if_pos i1]
    cases b with
    | true =>
      rw [if_pos (by rw [g1]; decide)]
      exact ih _ _ f (Or.inr g2) g3 i2 hw' hf'
    | false =>
      rw [if_neg (by rw [g1]; decide)]
      exact ih _ _ f (Or.inr g2) g3 i2 hw' hf'

/-- The empty bit string is a proper prefix of a codeword of a code of `generateLength`. -/
theorem nil_proper (freq : List Int) (table : List Nat) :
    ∃ s, s < 256 ∧ ([] : List Bool) <+: codeword (generatePrefix table (generateLength freq 256) 256)
        (generateLength freq 256) s ∧
      ([] : List Bool).length < (codeword (generatePrefix table (generateLength freq 256) 256)
        (generateLength freq 256) s).length := by
  refine ⟨0, by norm_num, List.nil_prefix, ?_⟩
  unfold codeword
  rw [bitsOf_length, List.length_nil]
  have := generateLength_pos freq 256 (by norm_num) 0 (by norm_num)
  unfold lenOf
  omega

/-- A call of `getHufInput` inside a block whose stream ends inside a codeword, or between
two codewords: the bits missing are taken for bits 1, and the byte of the codeword so
completed is returned. -/
theorem getHufInput_truncated (freq : List Int) (decode0 : List HDecodeNode) (str : HInStream)
    (p : List Bool) (hdec : 256 ≤ decode0.length)
    (hlen : ∀ c, c < 256 → (generateLength freq 256).getD c 0 ≤ 15)
    (hd : str.decode = buildDecodeTable decode0
      (generatePrefix (List.replicate 256 0) (generateLength freq 256) 256)
      (generateLength freq 256) 256)
    (hn : 0 < str.nbr) (hR : p = [] ∨ RInv str.bs) (hb : rbits str.bs = p)
    (hp : ∃ s, s < 256 ∧
      p <+: codeword (generatePrefix (List.replicate 256 0) (generateLength freq 256) 256)
        (generateLength freq 256) s ∧
      p.length < (codeword (generatePrefix (List.replicate 256 0) (generateLength freq 256) 256)
        (generateLength freq 256) s).length) :
    ∃ s t, s < 256 ∧ 1 ≤ t ∧
      codeword (generatePrefix (List.replicate 256 0) (generateLength freq 256) 256)
        (generateLength freq 256) s = p ++ List.replicate t true ∧
      (getHufInput str).1 = (s : Int) ∧
      (getHufInput str).2.nbr = str.nbr - 1 ∧
      (getHufInput str).2.decode = str.decode ∧
      rbits (getHufInput str).2.bs = [] := by
  have h2 : 2 ≤ 256 := by norm_num
  have htab : 256 ≤ (List.replicate 256 (0 : Nat)).length := by rw [List.length_replicate]
  have hM : ∀ s, s < 256 →
      (codeword (generatePrefix (List.replicate 256 0) (generateLength freq 256) 256)
        (generateLength freq 256) s).length ≤ 15 := by
    intro s hs
    unfold codeword
    rw [bitsOf_length]
    have := hlen s hs
    unfold lenOf
    omega
  obtain ⟨s, t, hs, ht, hc⟩ := ones_complete
    (codeword (generatePrefix (List.replicate 256 0) (generateLength freq 256) 256)
      (generateLength freq 256)) 256 15 hM
    (huffman_code_complete_ex freq (List.replicate 256 0) 256 h2 symbols_fit htab) 15 p hp
    (Nat.le_add_left 15 p.length)
  obtain ⟨_, _, _, t4⟩ := decodeTree_spec freq (List.replicate 256 0) decode0 256 h2 symbols_fit htab hdec
  obtain ⟨w1, w2⟩ := t4 s hs
  rw [hc, ← hd] at w1 w2
  have hl : p.length + t < 256 := by
    have h1 := hM s hs
    rw [hc, List.length_append, List.length_replicate] at h1
    omega
  obtain ⟨d1, d2, d3⟩ := decodeLoop_walk_eof str.decode t p 0 str.bs 256 hR hb
    (walkInside_mono _ _ _ (by norm_num) _ _ w2) (by rw [w1]; push_cast; omega) hl
  refine ⟨s, t, hs, ht, hc, ?_, ?_, ?_, ?_⟩
  · rw [getHufInput_inside str hn]
    show (decodeLoop 256 str.decode 0 str.bs).1 - 256 = (s : Int)
    rw [d1, w1]
    push_cast
    omega
  · rw [getHufInput_inside str hn]
  · rw [getHufInput_inside str hn]
  · rw [getHufInput_inside str hn]
    exact rbits_of_eof _ d2 d3

end Comp


namespace Comp

/-! ## The end of the file between two blocks -/

/-- Reading bits at the end of the file yields `-1`. -/
theorem getBits_eof_pos (bs : BitStream) (k : Nat) (hk : 0 < k) (h0 : bs.nBit = 0)
    (hf : bs.file = []) : getBits bs k = (-1, { bs with curChar := -1 }) := by
  obtain ⟨j, rfl⟩ : ∃ j, k = j + 1 := ⟨k - 1, by omega⟩
  unfold getBits
  rw [getBitsLoop, if_pos hk]
  unfold refillBits
  rw [if_pos h0, hf]

/-- The call of `getHufInput` that finds the end of the file where a block should start
returns `EOF` and closes the stream. -/
theorem getHufInput_eof_start (str : HInStream) (hn : str.nbr = 0) (hf : str.bs.file = []) :
    (getHufInput str).1 = -1 ∧ (getHufInput str).2.nbr = -1 := by
  have g := getBits_eof_pos { str.bs with nBit := 0 } 16 (by norm_num) rfl hf
  unfold getHufInput
  rw [if_neg (by omega)]
  simp only [if_pos hn]
  rw [g]
  have hle : ((-1 : Int), ({ ({ str.bs with nBit := 0 } : BitStream) with curChar := -1 }
      : BitStream)).1 ≤ 0 := by
    show (-1 : Int) ≤ 0
    decide
  rw [if_pos ⟨hn, hle⟩]
  exact ⟨rfl, rfl⟩

/-- A closed stream returns `EOF` and stays closed. -/
theorem getHufInput_closed (str : HInStream) (hn : str.nbr = -1) :
    getHufInput str = (-1, str) := by
  unfold getHufInput
  rw [if_pos hn]

/-! ## The bits of a size field and a header -/

theorem header_bits (L : List Int) (N : Nat) (hN : N < 65536)
    (hL : ∀ c, c < 256 → lenOf L c ≤ 15) :
    bytesBits ([N / 256, N % 256] ++ headerBytes L)
      = seqBits ((N, 16) :: (List.range 256).map (fun i => (lenOf L i, 4))) := by
  have _ := hN
  have e : 2 * 128 = 256 := rfl
  have h := header_bytes (lenOf L) 128 (fun i hi => by
    have := hL i (by omega)
    omega)
  rw [e] at h
  rw [bytesBits_append, bitsOf_two_bytes, seqBits, h]
  rfl

end Comp


namespace Comp

/-! ## Two facts on finite sets of numbers -/

/-- The `j` largest elements of a finite set of numbers (all of them if there are fewer). -/
theorem top_subset (Q : Finset Nat) : ∀ j : Nat, ∃ B, B ⊆ Q ∧ B.card = min j Q.card ∧
    ∀ q ∈ Q, q ∉ B → ∀ q' ∈ B, q < q' := by
  intro j
  induction j with
  | zero => exact ⟨∅, Finset.empty_subset _, by simp, fun _ _ _ q' hq' => by simp at hq'⟩
  | succ j ih =>
    obtain ⟨B, hB, hc, hu⟩ := ih
    by_cases hj : Q.card ≤ j
    · exact ⟨B, hB, by rw [hc, min_eq_right hj, min_eq_right (by omega)], hu⟩
    · have hlt : j < Q.card := by omega
      rw [min_eq_left (le_of_lt hlt)] at hc
      have hne : (Q \ B).Nonempty := by
        rw [← Finset.card_pos, Finset.card_sdiff hB]
        omega
      have hmem := Finset.max'_mem (Q \ B) hne
      rw [Finset.mem_sdiff] at hmem
      refine ⟨insert ((Q \ B).max' hne) B, ?_, ?_, ?_⟩
      · intro x hx
        rw [Finset.mem_insert] at hx
        rcases hx with rfl | hx
        · exact hmem.1
        · exact hB hx
      · rw [Finset.card_insert_of_not_mem hmem.2, hc, min_eq_left (by omega)]
      · intro q hq hqn q' hq'
        rw [Finset.mem_insert, not_or] at hqn
        rw [Finset.mem_insert] at hq'
        rcases hq' with rfl | hq'
        · have hle := Finset.le_max' (Q \ B) q (Finset.mem_sdiff.mpr ⟨hq, hqn.2⟩)
          exact lt_of_le_of_ne hle hqn.1
        · exact hu q hq hqn.2 q' hq'

/-- A set whose elements outside of `A` weigh at least as much as the elements of `A`
outside of it, and that has at least as many elements as `A`, weighs at least as much. -/
theorem sum_le_of_dominated (A C : Finset Nat) (w : Nat → Int) (hcard : A.card ≤ C.card)
    (hdom : ∀ x ∈ A, x ∉ C → ∀ y ∈ C, y ∉ A → w x ≤ w y) (hpos : ∀ y ∈ C, 0 ≤ w y) :
    ∑ x ∈ A, w x ≤ ∑ y ∈ C, w y := by
  have hA := Finset.sum_inter_add_sum_diff A C w
  have hC := Finset.sum_inter_add_sum_diff C A w
  rw [Finset.inter_comm C A] at hC
  have hcA := Finset.card_sdiff_add_card_inter A C
  have hcC := Finset.card_sdiff_add_card_inter C A
  rw [Finset.inter_comm C A] at hcC
  have hle : (A \ C).card ≤ (C \ A).card := by omega
  have key : ∑ x ∈ A \ C, w x ≤ ∑ y ∈ C \ A, w y := by
    by_cases hne : (C \ A).Nonempty
    · obtain ⟨y0, hy0, hmin⟩ := Finset.exists_min_image (C \ A) w hne
      have hy0' := Finset.mem_sdiff.mp hy0
      have h1 : ∑ x ∈ A \ C, w x ≤ (A \ C).card • w y0 := by
        apply Finset.sum_le_card_nsmul
        intro x hx
        have hx' := Finset.mem_sdiff.mp hx
        exact hdom x hx'.1 hx'.2 y0 hy0'.1 hy0'.2
      have h2 : (C \ A).card • w y0 ≤ ∑ y ∈ C \ A, w y := by
        apply Finset.card_nsmul_le_sum
        intro y hy
        exact hmin y hy
      have h3 : (A \ C).card • w y0 ≤ (C \ A).card • w y0 :=
        nsmul_le_nsmul_left (hpos y0 hy0'.1) hle
      exact le_trans h1 (le_trans h3 h2)
    · rw [Finset.not_nonempty_iff_eq_empty] at hne
      rw [hne, Finset.card_empty, Nat.le_zero, Finset.card_eq_zero] at hle
      rw [hle, hne]
  omega

end Comp


namespace Comp

/-! ## The heaviest nodes of a level -/

theorem mem_level (n : Nat) (d : Nat → Nat) (e c : Nat) (hn : 2 ≤ n) :
    c ∈ level n d e ↔ c ≤ 2 * n - 2 ∧ d c = e := by
  unfold level
  rw [Finset.mem_filter, Finset.mem_range]
  constructor
  · rintro ⟨h1, h2⟩
    exact ⟨by omega, h2⟩
  · rintro ⟨h1, h2⟩
    exact ⟨by omega, h2⟩

/-- A node of positive depth is not the root, and its parent lies one level higher. -/
theorem level_parent {n : Nat} {P d : Nat → Nat} {w : Nat → Int} (h : HuffTree n P d w)
    (e c : Nat) (hc : c ∈ level n d (e + 1)) :
    c < 2 * n - 2 ∧ n ≤ P c ∧ P c ∈ level n d e := by
  have hn := h.1
  rw [mem_level n d _ c hn] at hc
  have hne : c ≠ 2 * n - 2 := by
    intro h0
    have := h.2.2.2.1
    rw [h0] at hc
    omega
  have hlt : c < 2 * n - 2 := by omega
  have hP := h.2.1 c hlt
  have hd := h.2.2.2.2.1 c hlt
  refine ⟨hlt, hP.2.1, ?_⟩
  rw [mem_level n d _ _ hn]
  exact ⟨hP.2.2, by omega⟩

/-- A composite node has exactly two children. -/
theorem children_card {n : Nat} {P d : Nat → Nat} {w : Nat → Int} (h : HuffTree n P d w)
    (k : Nat) (hk1 : n ≤ k) (hk2 : k ≤ 2 * n - 2) :
    ((Finset.range (2 * n - 2)).filter (fun c => P c = k)).card = 2 := by
  obtain ⟨c1, c2, a1, a2, a3, a4, a5, a6, _, _, _⟩ := h.2.2.1 k hk1 hk2
  have hset : (Finset.range (2 * n - 2)).filter (fun c => P c = k) = {c1, c2} := by
    ext c
    simp only [Finset.mem_filter, Finset.mem_range, Finset.mem_insert, Finset.mem_singleton]
    constructor
    · rintro ⟨h1, h2⟩
      exact a6 c h1 h2
    · rintro (rfl | rfl)
      · exact ⟨by omega, a4⟩
      · exact ⟨by omega, a5⟩
  rw [hset, Finset.card_pair a1]

/-- The children of a node of level `e` are the nodes of level `e + 1` below it. -/
theorem level_children {n : Nat} {P d : Nat → Nat} {w : Nat → Int} (h : HuffTree n P d w)
    (e q : Nat) (hq : q ∈ level n d e) :
    (level n d (e + 1)).filter (fun c => P c = q)
      = (Finset.range (2 * n - 2)).filter (fun c => P c = q) := by
  have hn := h.1
  rw [mem_level n d _ _ hn] at hq
  ext c
  rw [Finset.mem_filter, Finset.mem_filter, Finset.mem_range]
  constructor
  · rintro ⟨h1, h2⟩
    exact ⟨(level_parent h e c h1).1, h2⟩
  · rintro ⟨h1, h2⟩
    refine ⟨?_, h2⟩
    rw [mem_level n d _ _ hn]
    have hd := h.2.2.2.2.1 c h1
    rw [h2] at hd
    exact ⟨by omega, by omega⟩

/-- One level up: nodes of level `e + 1`, at most `2 j` of them, weigh together at most
as much as some `j` nodes of level `e`. -/
theorem dom_step {n : Nat} {P d : Nat → Nat} {w : Nat → Int} (h : HuffTree n P d w)
    (e : Nat) (A : Finset Nat) (hA : A ⊆ level n d (e + 1)) (j : Nat) (hj : A.card ≤ 2 * j) :
    ∃ B, B ⊆ level n d e ∧ B.card ≤ j ∧ ∑ a ∈ A, w a ≤ ∑ b ∈ B, w b := by
  have hn := h.1
  obtain ⟨B, hBQ, hBc, hBu⟩ := top_subset ((level n d (e + 1)).image P) j
  have hBl : B ⊆ level n d e := by
    intro q hq
    obtain ⟨c, hc, rfl⟩ := Finset.mem_image.mp (hBQ hq)
    exact (level_parent h e c hc).2.2
  have hcomp : ∀ q ∈ B, n ≤ q ∧ q ≤ 2 * n - 2 := by
    intro q hq
    obtain ⟨c, hc, rfl⟩ := Finset.mem_image.mp (hBQ hq)
    have h1 := level_parent h e c hc
    exact ⟨h1.2.1, ((mem_level n d _ _ hn).mp h1.2.2).1⟩
  have hmaps : ∀ x ∈ (level n d (e + 1)).filter (fun c => P c ∈ B), P x ∈ B :=
    fun x hx => (Finset.mem_filter.mp hx).2
  have hfib : ∀ q ∈ B, ((level n d (e + 1)).filter (fun c => P c ∈ B)).filter (fun c => P c = q)
      = (Finset.range (2 * n - 2)).filter (fun c => P c = q) := by
    intro q hq
    rw [← level_children h e q (hBl hq), Finset.filter_filter]
    apply Finset.filter_congr
    intro c _
    constructor
    · rintro ⟨_, h2⟩
      exact h2
    · intro h2
      exact ⟨by rw [h2]; exact hq, h2⟩
  have hsum : ∑ c ∈ (level n d (e + 1)).filter (fun c => P c ∈ B), w c = ∑ q ∈ B, w q := by
    rw [← Finset.sum_fiberwise_of_maps_to hmaps w]
    apply Finset.sum_congr rfl
    intro q hq
    rw [hfib q hq]
    exact ht_children h q (hcomp q hq).1 (hcomp q hq).2
  have hcard : ((level n d (e + 1)).filter (fun c => P c ∈ B)).card = 2 * B.card := by
    rw [Finset.card_eq_sum_card_fiberwise hmaps]
    rw [Finset.sum_congr rfl (fun q hq => by
      rw [hfib q hq, children_card h q (hcomp q hq).1 (hcomp q hq).2])]
    rw [Finset.sum_const, smul_eq_mul, mul_comm]
  have hAC : A.card ≤ ((level n d (e + 1)).filter (fun c => P c ∈ B)).card := by
    by_cases hjq : j ≤ ((level n d (e + 1)).image P).card
    · rw [hcard, hBc, min_eq_left hjq]
      exact hj
    · have hBQ' : B = (level n d (e + 1)).image P := by
        apply Finset.eq_of_subset_of_card_le hBQ
        rw [hBc, min_eq_right (by omega)]
      apply Finset.card_le_card
      intro a ha
      rw [Finset.mem_filter]
      exact ⟨hA ha, by rw [hBQ']; exact Finset.mem_image_of_mem P (hA ha)⟩
  refine ⟨B, hBl, by rw [hBc]; exact min_le_left _ _, ?_⟩
  rw [← hsum]
  apply sum_le_of_dominated A _ w hAC
  · intro x hx hxC y hy _
    have hxl := hA hx
    have hyl := (Finset.mem_filter.mp hy).1
    have hPx : P x ∉ B := fun hb => hxC (Finset.mem_filter.mpr ⟨hxl, hb⟩)
    have hlt := hBu (P x) (Finset.mem_image_of_mem P hxl) hPx (P y) (Finset.mem_filter.mp hy).2
    exact ht_pop_mono h x (level_parent h e x hxl).1 y
      ((mem_level n d _ _ hn).mp hyl).1 (Or.inr hlt)
  · intro y hy
    have hyl := (Finset.mem_filter.mp hy).1
    have := ht_pos h y ((mem_level n d _ _ hn).mp hyl).1
    omega

/-- The heaviest node of a level weighs at least as much as any `2 ^ k` nodes that lie
`k` levels deeper. -/
theorem dom {n : Nat} {P d : Nat → Nat} {w : Nat → Int} (h : HuffTree n P d w) :
    ∀ (k e : Nat) (A : Finset Nat), A ⊆ level n d (e + k) → A.Nonempty → A.card ≤ 2 ^ k →
    ∃ u, u ∈ level n d e ∧ ∑ a ∈ A, w a ≤ w u := by
  have hn := h.1
  intro k
  induction k with
  | zero =>
    intro e A hA hne hc
    obtain ⟨a, ha⟩ := hne
    have h1 : A.card = 1 := by
      have := Finset.card_pos.mpr ⟨a, ha⟩
      rw [pow_zero] at hc
      omega
    obtain ⟨b, rfl⟩ := Finset.card_eq_one.mp h1
    exact ⟨b, hA (Finset.mem_singleton_self b), by rw [Finset.sum_singleton]⟩
  | succ k ih =>
    intro e A hA hne hc
    obtain ⟨B, hB, hBc, hBs⟩ := dom_step h (e + k) A hA (2 ^ k) (by rw [pow_succ] at hc; omega)
    have hApos : 0 < ∑ a ∈ A, w a := by
      apply Finset.sum_pos _ hne
      intro a ha
      have := ht_pos h a ((mem_level n d _ _ hn).mp (hA ha)).1
      omega
    have hBne : B.Nonempty := by
      rw [Finset.nonempty_iff_ne_empty]
      intro h0
      rw [h0, Finset.sum_empty] at hBs
      omega
    obtain ⟨u, hu, hus⟩ := ih e B hB hBne hBc
    exact ⟨u, hu, le_trans hBs hus⟩

end Comp


namespace Comp

/-! ## Wide levels are heavy -/

/-- The parent of a node weighs at least as much as the node and a node one level deeper
together. -/
theorem ht_parent_ge {n : Nat} {P d : Nat → Nat} {w : Nat → Int} (h : HuffTree n P d w)
    (u u' : Nat) (hu : u < 2 * n - 2) (hu' : u' ≤ 2 * n - 2) (hd : d u' = d u + 1) :
    w u + w u' ≤ w (P u) := by
  obtain ⟨s, _, s2, s3, s4, _⟩ := ht_sibling h u hu
  have hds : d s = d u := by
    rw [h.2.2.2.2.1 s s2, h.2.2.2.2.1 u hu, s3]
  have := ht_level h (d s) s u' rfl (by omega) hu' (by omega)
  omega

/-- From two nodes of consecutive levels to the root, the weights grow at least like the
Fibonacci numbers. -/
theorem ht_amplify {n : Nat} {P d : Nat → Nat} {w : Nat → Int} (h : HuffTree n P d w) :
    ∀ (e u u' : Nat), u ∈ level n d e → u' ∈ level n d (e + 1) →
    (Nat.fib (e + 1) : Int) * w u + (Nat.fib e : Int) * w u' ≤ w (2 * n - 2) := by
  have hn := h.1
  intro e
  induction e with
  | zero =>
    intro u u' hu _
    rw [mem_level n d _ _ hn] at hu
    rw [ht_depth_zero h u hu.1 hu.2]
    simp
  | succ e ih =>
    intro u u' hu hu'
    obtain ⟨p1, _, p3⟩ := level_parent h e u hu
    have hul := (mem_level n d _ _ hn).mp hu
    have hul' := (mem_level n d _ _ hn).mp hu'
    have h1 := ih (P u) u p3 hu
    have h2 := ht_parent_ge h u u' p1 hul'.1 (by omega)
    have h3 : (Nat.fib (e + 1 + 1) : Int) = Nat.fib e + Nat.fib (e + 1) := by
      rw [Nat.fib_add_two]
      push_cast
      ring
    have h4 : (0 : Int) ≤ Nat.fib (e + 1) := Int.natCast_nonneg _
    have h5 := mul_le_mul_of_nonneg_left h2 h4
    rw [h3]
    linarith

/-- A node weighs at least the Fibonacci number of the number of levels below it. -/
theorem level_min {n : Nat} {P d : Nat → Nat} {w : Nat → Int} (h : HuffTree n P d w)
    (x y : Nat) (hx : x ≤ 2 * n - 2) (hy : y ≤ 2 * n - 2) (hd : d y ≤ d x) :
    (Nat.fib (d x - d y + 1) : Int) ≤ w y := by
  by_cases he : d y = d x
  · rw [he, Nat.sub_self]
    have := ht_pos h y hy
    simpa using this
  · have hlt : d y < d x := by omega
    have h1 := (ht_fib h x hx (d x - d y - 1)).1 (by omega)
    obtain ⟨a1, a2⟩ := ht_ancestor h x hx (d x - d y - 1) (by omega)
    have h2 := ht_level h (d y) y (P^[d x - d y - 1] x) rfl hy a1 (by omega)
    have e : d x - d y - 1 + 2 = d x - d y + 1 := by omega
    rw [e] at h1
    exact le_trans h1 h2

/-- A level with at least `m` nodes, `2 ^ k ≤ m ≤ 2 ^ (k + 1)`, forces the weight of
the root: the heaviest node `k + 1` levels higher weighs `m` of them, the heaviest node
`k` levels higher weighs `2 ^ k` of them. -/
theorem wide_level {n : Nat} {P d : Nat → Nat} {w : Nat → Int} (h : HuffTree n P d w)
    (x : Nat) (hx : x ≤ 2 * n - 2) (l e k m : Nat) (hl : l = e + (k + 1))
    (hm1 : 2 ^ k ≤ m) (hm2 : m ≤ 2 ^ (k + 1)) (hc : m ≤ (level n d l).card) (hD : l ≤ d x) :
    ((Nat.fib (d x - l + 1) * (m * Nat.fib (e + 1) + 2 ^ k * Nat.fib e) : Nat) : Int)
      ≤ w (2 * n - 2) := by
  have hn := h.1
  subst hl
  obtain ⟨A, hA, hAc⟩ := Finset.exists_subset_card_eq hc
  obtain ⟨A', hA', hAc'⟩ := Finset.exists_subset_card_eq (show 2 ^ k ≤ A.card by rw [hAc]; exact hm1)
  have hmu : ∀ a ∈ A, (Nat.fib (d x - (e + (k + 1)) + 1) : Int) ≤ w a := by
    intro a ha
    have hal := (mem_level n d _ _ hn).mp (hA ha)
    have := level_min h x a hx hal.1 (by omega)
    rw [hal.2] at this
    exact this
  have hpos : 0 < 2 ^ k := Nat.two_pow_pos k
  obtain ⟨u, hu, hus⟩ := dom h (k + 1) e A hA
    (Finset.card_pos.mp (by omega)) (by rw [hAc]; exact hm2)
  have hA'l : A' ⊆ level n d (e + 1 + k) := by
    have e1 : e + 1 + k = e + (k + 1) := by omega
    rw [e1]
    exact hA'.trans hA
  obtain ⟨u', hu', hus'⟩ := dom h k (e + 1) A' hA'l
    (Finset.card_pos.mp (by omega)) (le_of_eq hAc')
  have h1 : A.card • (Nat.fib (d x - (e + (k + 1)) + 1) : Int) ≤ ∑ a ∈ A, w a :=
    Finset.card_nsmul_le_sum A w _ hmu
  have h2 : A'.card • (Nat.fib (d x - (e + (k + 1)) + 1) : Int) ≤ ∑ a ∈ A', w a :=
    Finset.card_nsmul_le_sum A' w _ (fun a ha => hmu a (hA' ha))
  rw [hAc, nsmul_eq_mul] at h1
  rw [hAc', nsmul_eq_mul] at h2
  have h3 := ht_amplify h e u u' hu hu'
  have f1 : (0 : Int) ≤ Nat.fib (e + 1) := Int.natCast_nonneg _
  have f2 : (0 : Int) ≤ Nat.fib e := Int.natCast_nonneg _
  have g1 := mul_le_mul_of_nonneg_left (le_trans h1 hus) f1
  have g2 := mul_le_mul_of_nonneg_left (le_trans h2 hus') f2
  push_cast at g1 g2 ⊢
  linarith

/-- A level has at most `2 ^ e` nodes. -/
theorem level_card_le {n : Nat} {P d : Nat → Nat} {w : Nat → Int} (h : HuffTree n P d w) :
    ∀ e, (level n d e).card ≤ 2 ^ e := by
  have hn := h.1
  intro e
  induction e with
  | zero =>
    have hsub : level n d 0 ⊆ {2 * n - 2} := by
      intro c hc
      rw [mem_level n d _ _ hn] at hc
      rw [Finset.mem_singleton]
      exact ht_depth_zero h c hc.1 hc.2
    have := Finset.card_le_card hsub
    simpa using this
  | succ e ih =>
    have h1 : (level n d (e + 1)).card ≤ 2 * ((level n d (e + 1)).image P).card :=
      Finset.card_le_mul_card_image (level n d (e + 1)) 2 (fun q hq => by
        obtain ⟨c, hc, rfl⟩ := Finset.mem_image.mp hq
        obtain ⟨_, p2, p3⟩ := level_parent h e c hc
        rw [level_children h e (P c) p3,
          children_card h (P c) p2 ((mem_level n d _ _ hn).mp p3).1])
    have h2 : ((level n d (e + 1)).image P).card ≤ (level n d e).card := by
      apply Finset.card_le_card
      intro q hq
      obtain ⟨c, hc, rfl⟩ := Finset.mem_image.mp hq
      exact (level_parent h e c hc).2.2
    rw [pow_succ]
    have h3 := Nat.mul_le_mul_left 2 h2
    omega

/-- The levels `1 .. D` hold all the nodes but the root. -/
theorem level_count {n : Nat} {P d : Nat → Nat} {w : Nat → Int} (h : HuffTree n P d w)
    (D : Nat) (hD : ∀ y, y ≤ 2 * n - 2 → d y ≤ D) :
    ∑ e ∈ Finset.range D, (level n d (e + 1)).card = 2 * n - 2 := by
  have hn := h.1
  have hmaps : ∀ c ∈ Finset.range (2 * n - 2), d c - 1 ∈ Finset.range D := by
    intro c hc
    rw [Finset.mem_range] at hc ⊢
    have h1 := h.2.2.2.2.1 c hc
    have h2 := hD c (by omega)
    omega
  have hcard := Finset.card_eq_sum_card_fiberwise hmaps
  rw [Finset.card_range] at hcard
  rw [hcard]
  apply Finset.sum_congr rfl
  intro e _
  congr 1
  ext c
  rw [mem_level n d _ _ hn, Finset.mem_filter, Finset.mem_range]
  constructor
  · rintro ⟨h1, h2⟩
    have hne : c ≠ 2 * n - 2 := by
      intro h0
      have := h.2.2.2.1
      rw [h0] at h2
      omega
    exact ⟨by omega, by omega⟩
  · rintro ⟨h1, h2⟩
    have := h.2.2.2.2.1 c h1
    exact ⟨by omega, by omega⟩

end Comp


namespace Comp

/-! ## The depth of the tree of a block -/

theorem fib_20 : Nat.fib 20 = 6765 := by
  norm_num

/-- A Huffman tree on 256 leaves whose weights add up to at most 4352 has no node deeper
than 15.  For the depths 16 and 17 every level would be too narrow for the 510 nodes
below the root; a greater depth is excluded by the Fibonacci bound alone. -/
theorem huff_depth_le_15 {P d : Nat → Nat} {w : Nat → Int} (h : HuffTree 256 P d w)
    (hW : w (2 * 256 - 2) ≤ 4352) : ∀ c, c ≤ 2 * 256 - 2 → d c ≤ 15 := by
  by_contra hcon
  push_neg at hcon
  obtain ⟨c, hc, hdc⟩ := hcon
  obtain ⟨x, hxm, hmax⟩ := Finset.exists_max_image (Finset.range (2 * 256 - 1)) d
    ⟨0, Finset.mem_range.mpr (by norm_num)⟩
  have hx : x ≤ 2 * 256 - 2 := by
    have := Finset.mem_range.mp hxm
    omega
  have hall : ∀ y, y ≤ 2 * 256 - 2 → d y ≤ d x :=
    fun y hy => hmax y (Finset.mem_range.mpr (by omega))
  have hge : 16 ≤ d x := le_trans hdc (hall c hc)
  have hfib := ht_depth_fib h x hx
  have hle : d x ≤ 17 := by
    by_contra hgt
    have h1 : Nat.fib 20 ≤ Nat.fib (d x + 2) := Nat.fib_mono (by omega)
    rw [fib_20] at h1
    have h2 : ((6765 : Nat) : Int) ≤ (Nat.fib (d x + 2) : Int) := by exact_mod_cast h1
    omega
  have hcount := level_count h (d x) hall
  have hcases : d x = 16 ∨ d x = 17 := by omega
  rcases hcases with hD | hD
  · rw [hD] at hcount
    have b1 : (level 256 d 1).card ≤ 2 := level_card_le h 1
    have b2 : (level 256 d 2).card ≤ 4 := level_card_le h 2
    have b3 : (level 256 d 3).card ≤ 8 := level_card_le h 3
    have b4 : (level 256 d 4).card ≤ 16 := level_card_le h 4
    have b5 : (level 256 d 5).card ≤ 30 := by
      by_contra hc
      have hw := wide_level h x hx 5 0 4 31 rfl (by norm_num) (by norm_num) (by omega)
        (by omega)
      rw [hD] at hw
      have hv : Nat.fib (16 - 5 + 1) * (31 * Nat.fib (0 + 1) + 2 ^ 4 * Nat.fib 0) = 4464 := by
        norm_num
      rw [hv] at hw
      omega
    have b6 : (level 256 d 6).card ≤ 48 := by
      by_contra hc
      have hw := wide_level h x hx 6 0 5 49 rfl (by norm_num) (by norm_num) (by omega)
        (by omega)
      rw [hD] at hw
      have hv : Nat.fib (16 - 6 + 1) * (49 * Nat.fib (0 + 1) + 2 ^ 5 * Nat.fib 0) = 4361 := by
        norm_num
      rw [hv] at hw
      omega
    have b7 : (level 256 d 7).card ≤ 31 := by
      by_contra hc
      have hw := wide_level h x hx 7 2 4 32 rfl (by norm_num) (by norm_num) (by omega)
        (by omega)
      rw [hD] at hw
      have hv : Nat.fib (16 - 7 + 1) * (32 * Nat.fib (2 + 1) + 2 ^ 4 * Nat.fib 2) = 4400 := by
        norm_num
      rw [hv] at hw
      omega
    have b8 : (level 256 d 8).card ≤ 48 := by
      by_contra hc
      have hw := wide_level h x hx 8 2 5 49 rfl (by norm_num) (by norm_num) (by omega)
        (by omega)
      rw [hD] at hw
      have hv : Nat.fib (16 - 8 + 1) * (49 * Nat.fib (2 + 1) + 2 ^ 5 * Nat.fib 2) = 4420 := by
        norm_num
      rw [hv] at hw
      omega
    have b9 : (level 256 d 9).card ≤ 31 := by
      by_contra hc
      have hw := wide_level h x hx 9 4 4 32 rfl (by norm_num) (by norm_num) (by omega)
        (by omega)
      rw [hD] at hw
      have hv : Nat.fib (16 - 9 + 1) * (32 * Nat.fib (4 + 1) + 2 ^ 4 * Nat.fib 4) = 4368 := by
        norm_num
      rw [hv] at hw
      omega
    have b10 : (level 256 d 10).card ≤ 31 := by
      by_contra hc
      have hw := wide_level h x hx 10 5 4 32 rfl (by norm_num) (by norm_num) (by omega)
        (by omega)
      rw [hD] at hw
      have hv : Nat.fib (16 - 10 + 1) * (32 * Nat.fib (5 + 1) + 2 ^ 4 * Nat.fib 5) = 4368 := by
        norm_num
      rw [hv] at hw
      omega
    have b11 : (level 256 d 11).card ≤ 48 := by
      by_contra hc
      have hw := wide_level h x hx 11 5 5 49 rfl (by norm_num) (by norm_num) (by omega)
        (by omega)
      rw [hD] at hw
      have hv : Nat.fib (16 - 11 + 1) * (49 * Nat.fib (5 + 1) + 2 ^ 5 * Nat.fib 5) = 4416 := by
        norm_num
      rw [hv] at hw
      omega
    have b12 : (level 256 d 12).card ≤ 31 := by
      by_contra hc
      have hw := wide_level h x hx 12 7 4 32 rfl (by norm_num) (by norm_num) (by omega)
        (by omega)
      rw [hD] at hw
      have hv : Nat.fib (16 - 12 + 1) * (32 * Nat.fib (7 + 1) + 2 ^ 4 * Nat.fib 7) = 4400 := by
        norm_num
      rw [hv] at hw
      omega
    have b13 : (level 256 d 13).card ≤ 49 := by
      by_contra hc
      have hw := wide_level h x hx 13 7 5 50 rfl (by norm_num) (by norm_num) (by omega)
        (by omega)
      rw [hD] at hw
      have hv : Nat.fib (16 - 13 + 1) * (50 * Nat.fib (7 + 1) + 2 ^ 5 * Nat.fib 7) = 4398 := by
        norm_num
      rw [hv] at hw
      omega
    have b14 : (level 256 d 14).card ≤ 29 := by
      by_contra hc
      have hw := wide_level h x hx 14 9 4 30 rfl (by norm_num) (by norm_num) (by omega)
        (by omega)
      rw [hD] at hw
      have hv : Nat.fib (16 - 14 + 1) * (30 * Nat.fib (9 + 1) + 2 ^ 4 * Nat.fib 9) = 4388 := by
        norm_num
      rw [hv] at hw
      omega
    have b15 : (level 256 d 15).card ≤ 59 := by
      by_contra hc
      have hw := wide_level h x hx 15 9 5 60 rfl (by norm_num) (by norm_num) (by omega)
        (by omega)
      rw [hD] at hw
      have hv : Nat.fib (16 - 15 + 1) * (60 * Nat.fib (9 + 1) + 2 ^ 5 * Nat.fib 9) = 4388 := by
        norm_num
      rw [hv] at hw
      omega
    have b16 : (level 256 d 16).card ≤ 13 := by
      by_contra hc
      have hw := wide_level h x hx 16 12 3 14 rfl (by norm_num) (by norm_num) (by omega)
        (by omega)
      rw [hD] at hw
      have hv : Nat.fib (16 - 16 + 1) * (14 * Nat.fib (12 + 1) + 2 ^ 3 * Nat.fib 12) = 4414 := by
        norm_num
      rw [hv] at hw
      omega
    simp only [Finset.sum_range_succ, Finset.sum_range_zero] at hcount
    norm_num at hcount
    omega
  · rw [hD] at hcount
    have b1 : (level 256 d 1).card ≤ 2 := level_card_le h 1
    have b2 : (level 256 d 2).card ≤ 4 := level_card_le h 2
    have b3 : (level 256 d 3).card ≤ 8 := level_card_le h 3
    have b4 : (level 256 d 4).card ≤ 15 := by
      by_contra hc
      have hw := wide_level h x hx 4 0 3 16 rfl (by norm_num) (by norm_num) (by omega)
        (by omega)
      rw [hD] at hw
      have hv : Nat.fib (17 - 4 + 1) * (16 * Nat.fib (0 + 1) + 2 ^ 3 * Nat.fib 0) = 6032 := by
        norm_num
      rw [hv] at hw
      omega
    have b5 : (level 256 d 5).card ≤ 15 := by
      by_contra hc
      have hw := wide_level h x hx 5 1 3 16 rfl (by norm_num) (by norm_num) (by omega)
        (by omega)
      rw [hD] at hw
      have hv : Nat.fib (17 - 5 + 1) * (16 * Nat.fib (1 + 1) + 2 ^ 3 * Nat.fib 1) = 5592 := by
        norm_num
      rw [hv] at hw
      omega
    have b6 : (level 256 d 6).card ≤ 15 := by
      by_contra hc
      have hw := wide_level h x hx 6 2 3 16 rfl (by norm_num) (by norm_num) (by omega)
        (by omega)
      rw [hD] at hw
      have hv : Nat.fib (17 - 6 + 1) * (16 * Nat.fib (2 + 1) + 2 ^ 3 * Nat.fib 2) = 5760 := by
        norm_num
      rw [hv] at hw
      omega
    have b7 : (level 256 d 7).card ≤ 15 := by
      by_contra hc
      have hw := wide_level h x hx 7 3 3 16 rfl (by norm_num) (by norm_num) (by omega)
        (by omega)
      rw [hD] at hw
      have hv : Nat.fib (17 - 7 + 1) * (16 * Nat.fib (3 + 1) + 2 ^ 3 * Nat.fib 3) = 5696 := by
        norm_num
      rw [hv] at hw
      omega
    have b8 : (level 256 d 8).card ≤ 15 := by
      by_contra hc
      have hw := wide_level h x hx 8 4 3 16 rfl (by norm_num) (by norm_num) (by omega)
        (by omega)
      rw [hD] at hw
      have hv : Nat.fib (17 - 8 + 1) * (16 * Nat.fib (4 + 1) + 2 ^ 3 * Nat.fib 4) = 5720 := by
        norm_num
      rw [hv] at hw
      omega
    have b9 : (level 256 d 9).card ≤ 15 := by
      by_contra hc
      have hw := wide_level h x hx 9 5 3 16 rfl (by norm_num) (by norm_num) (by omega)
        (by omega)
      rw [hD] at hw
      have hv : Nat.fib (17 - 9 + 1) * (16 * Nat.fib (5 + 1) + 2 ^ 3 * Nat.fib 5) = 5712 := by
        norm_num
      rw [hv] at hw
      omega
    have b10 : (level 256 d 10).card ≤ 15 := by
      by_contra hc
      have hw := wide_level h x hx 10 6 3 16 rfl (by norm_num) (by norm_num) (by omega)
        (by omega)
      rw [hD] at hw
      have hv : Nat.fib (17 - 10 + 1) * (16 * Nat.fib (6 + 1) + 2 ^ 3 * Nat.fib 6) = 5712 := by
        norm_num
      rw [hv] at hw
      omega
    have b11 : (level 256 d 11).card ≤ 15 := by
      by_contra hc
      have hw := wide_level h x hx 11 7 3 16 rfl (by norm_num) (by norm_num) (by omega)
        (by omega)
      rw [hD] at hw
      have hv : Nat.fib (17 - 11 + 1) * (16 * Nat.fib (7 + 1) + 2 ^ 3 * Nat.fib 7) = 5720 := by
        norm_num
      rw [hv] at hw
      omega
    have b12 : (level 256 d 12).card ≤ 15 := by
      by_contra hc
      have hw := wide_level h x hx 12 8 3 16 rfl (by norm_num) (by norm_num) (by omega)
        (by omega)
      rw [hD] at hw
      have hv : Nat.fib (17 - 12 + 1) * (16 * Nat.fib (8 + 1) + 2 ^ 3 * Nat.fib 8) = 5696 := by
        norm_num
      rw [hv] at hw
      omega
    have b13 : (level 256 d 13).card ≤ 15 := by
      by_contra hc
      have hw := wide_level h x hx 13 9 3 16 rfl (by norm_num) (by norm_num) (by omega)
        (by omega)
      rw [hD] at hw
      have hv : Nat.fib (17 - 13 + 1) * (16 * Nat.fib (9 + 1) + 2 ^ 3 * Nat.fib 9) = 5760 := by
        norm_num
      rw [hv] at hw
      omega
    have b14 : (level 256 d 14).card ≤ 15 := by
      by_contra hc
      have hw := wide_level h x hx 14 10 3 16 rfl (by norm_num) (by norm_num) (by omega)
        (by omega)
      rw [hD] at hw
      have hv : Nat.fib (17 - 14 + 1) * (16 * Nat.fib (10 + 1) + 2 ^ 3 * Nat.fib 10) = 5592 := by
        norm_num
      rw [hv] at hw
      omega
    have b15 : (level 256 d 15).card ≤ 15 := by
      by_contra hc
      have hw := wide_level h x hx 15 11 3 16 rfl (by norm_num) (by norm_num) (by omega)
        (by omega)
      rw [hD] at hw
      have hv : Nat.fib (17 - 15 + 1) * (16 * Nat.fib (11 + 1) + 2 ^ 3 * Nat.fib 11) = 6032 := by
        norm_num
      rw [hv] at hw
      omega
    have b16 : (level 256 d 16).card ≤ 15 := by
      by_contra hc
      have hw := wide_level h x hx 16 12 3 16 rfl (by norm_num) (by norm_num) (by omega)
        (by omega)
      rw [hD] at hw
      have hv : Nat.fib (17 - 16 + 1) * (16 * Nat.fib (12 + 1) + 2 ^ 3 * Nat.fib 12) = 4880 := by
        norm_num
      rw [hv] at hw
      omega
    have b17 : (level 256 d 17).card ≤ 15 := by
      by_contra hc
      have hw := wide_level h x hx 17 13 3 16 rfl (by norm_num) (by norm_num) (by omega)
        (by omega)
      rw [hD] at hw
      have hv : Nat.fib (17 - 17 + 1) * (16 * Nat.fib (13 + 1) + 2 ^ 3 * Nat.fib 13) = 7896 := by
        norm_num
      rw [hv] at hw
      omega
    simp only [Finset.sum_range_succ, Finset.sum_range_zero] at hcount
    norm_num at hcount
    omega

end Comp


namespace Comp

/-! ## The code lengths of a block of at most 4096 bytes -/

/-- The code lengths of a buffer of at most 4096 bytes are at most 15. -/
theorem length_le_15 (buffer : List Nat) (n : Nat)
    (hb : ∀ i, i < n → buffer.getD i 0 < 256) (hn : n ≤ 4096) (c : Nat) (hc : c < 256) :
    (generateLength (countFreq buffer n) 256).getD c 0 ≤ 15 := by
  rw [generateLength_getD _ 256 (by decide) c hc]
  obtain ⟨w, w1, ht⟩ := generateLength_huffTree (countFreq buffer n) 256 (by decide)
    (fun c _ => countFreq_nonneg buffer n c) (buffer_fits buffer n hb (by omega))
  have htot := ht_total ht
  rw [Finset.sum_congr rfl (fun c hc => w1 c (Finset.mem_range.mp hc)),
    buffer_weight buffer n hb] at htot
  have hW : w (2 * 256 - 2) ≤ 4352 := by
    rw [htot]
    omega
  have hd := huff_depth_le_15 ht hW c (by omega)
  have hd' : (finalDepth (countFreq buffer n) 256).getD c 0 ≤ 15 := hd
  exact_mod_cast hd'

end Comp


namespace Comp

/-! ## The end of the blocks -/

/-- The call of `getHufInput` that finds the two zero bytes where a block should start
returns `EOF`, closes the stream and leaves the file behind the two bytes. -/
theorem getHufInput_terminator (str : HInStream) (tail : List Nat) (hn : str.nbr = 0)
    (hc : 0 ≤ str.bs.curChar) (hf : str.bs.file = 0 :: 0 :: tail) :
    (getHufInput str).1 = -1 ∧ (getHufInput str).2.nbr = -1 ∧
    (getHufInput str).2.decode = str.decode ∧ (getHufInput str).2.bs.file = tail := by
  have hR0 : RInv { str.bs with nBit := 0 } := ⟨Nat.zero_le 8, hc⟩
  have hb0 : rbits { str.bs with nBit := 0 } = bitsOf 16 0 ++ bytesBits tail := by
    unfold rbits
    show bitsOf 0 str.bs.curChar.toNat ++ bytesBits str.bs.file = _
    rw [hf]
    have e : (0 : Nat) :: 0 :: tail = [0 / 256, 0 % 256] ++ tail := rfl
    rw [e, bytesBits_append, bitsOf_two_bytes]
    rfl
  obtain ⟨s1, g1, g2, g3⟩ := getBits_spec 16 _ hR0
    (by rw [hb0, List.length_append, bitsOf_length]; omega)
  have hv : bitsVal ((rbits { str.bs with nBit := 0 }).take 16) = 0 := by
    rw [hb0, List.take_left' (bitsOf_length 16 0), bitsVal_bitsOf_of_lt 16 0 (by norm_num)]
  rw [hv] at g1
  rw [hb0, List.drop_left' (bitsOf_length 16 0)] at g3
  have hs1 : s1 = (getBits { str.bs with nBit := 0 } 16).2 := by rw [g1]
  have hs1n : s1.nBit < 8 := by
    rw [hs1]
    exact getBitsLoop_nBit _ _ _ _ (Nat.zero_lt_succ 7)
  have hs1f : s1.file <:+ str.bs.file := by
    rw [hs1]
    exact getBitsLoop_suffix _ _ _ _
  have hfile : s1.file = tail := by
    apply file_eq_of_rbits s1 str.bs.file tail [] hs1n (by simp) hs1f
    · rw [hf]
      exact (List.suffix_cons 0 tail).trans (List.suffix_cons 0 _)
    · rw [g3]
      rfl
  have hle : (((0 : Nat) : Int), s1).1 ≤ 0 := le_refl _
  unfold getHufInput
  rw [if_neg (by omega)]
  simp only [if_pos hn]
  rw [g1, if_pos ⟨hn, hle⟩]
  exact ⟨rfl, rfl, rfl, hfile⟩

/-- Reading back a block of at most 4096 bytes: `block_decode` with the bound of the
code lengths. -/
theorem block_round_trip (str : HInStream) (B tail : List Nat)
    (hB : ∀ b ∈ B, b < 256) (hN0 : 0 < B.length) (hN : B.length ≤ 4096)
    (hnbr : str.nbr = 0) (hc : 0 ≤ str.bs.curChar) (hdec : 256 ≤ str.decode.length)
    (hf : str.bs.file = writeHBuffer [] B B.length ++ tail) :
    (getHufInputSeq B.length str).1 = B.map (fun (b : Nat) => (b : Int)) ∧
    (getHufInputSeq B.length str).2.nbr = 0 ∧
    (getHufInputSeq B.length str).2.bs.file = tail ∧
    0 ≤ (getHufInputSeq B.length str).2.bs.curChar ∧
    256 ≤ (getHufInputSeq B.length str).2.decode.length :=
  block_decode str B tail hB hN0 (by omega)
    (length_le_15 B B.length (fun i hi => by
      rw [List.getD_eq_getElem _ _ hi]
      exact hB _ (List.getElem_mem _)) hN) hnbr hc hdec hf

end Comp


namespace Comp

/-! ## `writeHBuffer` and the bytes of its buffer -/

/-- The bytes that `writeHBuffer` writes do not depend on the file. -/
theorem writeHBuffer_append (file buffer : List Nat) (n : Nat) :
    writeHBuffer file buffer n = file ++ writeHBuffer [] buffer n := by
  rw [writeHBuffer_eq, writeHBuffer_eq, closeBits_putBitsSeq_file]

theorem countFreq_congr (b1 b2 : List Nat) : ∀ n, (∀ i, i < n → b1.getD i 0 = b2.getD i 0) →
    countFreq b1 n = countFreq b2 n := by
  intro n
  induction n with
  | zero =>
    intro _
    unfold countFreq
    rw [List.range_zero, List.foldl_nil, List.foldl_nil]
  | succ n ih =>
    intro h
    rw [countFreq_succ, countFreq_succ, ih (fun i hi => h i (by omega)), h n (by omega)]

/-- The block written by `writeHBuffer` depends on the first `n` bytes of the buffer
only. -/
theorem writeHBuffer_congr (file b1 b2 : List Nat) (n : Nat)
    (h : ∀ i, i < n → b1.getD i 0 = b2.getD i 0) :
    writeHBuffer file b1 n = writeHBuffer file b2 n := by
  have e : (List.range n).map (fun i =>
        ((generatePrefix (List.replicate 256 0)
            (generateLength (countFreq b2 n) 256) 256).getD (b1.getD i 0) 0,
          lenOf (generateLength (countFreq b2 n) 256) (b1.getD i 0)))
      = (List.range n).map (fun i =>
        ((generatePrefix (List.replicate 256 0)
            (generateLength (countFreq b2 n) 256) 256).getD (b2.getD i 0) 0,
          lenOf (generateLength (countFreq b2 n) 256) (b2.getD i 0))) :=
    List.map_congr_left (fun i hi => by rw [h i (List.mem_range.mp hi)])
  rw [writeHBuffer_eq, writeHBuffer_eq, countFreq_congr b1 b2 n h, e]

theorem writeHBuffer_take (file buffer : List Nat) (n : Nat) :
    writeHBuffer file buffer n = file ++ writeHBuffer [] (buffer.take n) n := by
  rw [writeHBuffer_append, writeHBuffer_congr [] buffer (buffer.take n) n (fun i hi => by
    rw [List.getD_eq_getElem?_getD, List.getD_eq_getElem?_getD, List.getElem?_take_of_lt hi])]

/-- Blocks may be added at the end. -/
theorem blocks_snoc (B : List Nat) (hB : ∀ b ∈ B, b < 256) (h1 : 1 ≤ B.length)
    (h2 : B.length ≤ 4096) : ∀ (E data : List Nat), Blocks E data →
    Blocks (E ++ writeHBuffer [] B B.length) (data ++ B) := by
  intro E data hE
  induction hE with
  | nil =>
    have := Blocks.cons B [] [] hB h1 h2 Blocks.nil
    simpa using this
  | cons B' E' data' hB' h1' h2' _ ih =>
    have := Blocks.cons B' _ _ hB' h1' h2' ih
    rw [List.append_assoc, List.append_assoc]
    exact this

end Comp


namespace Comp

/-! ## The output stream -/

theorem take_set_succ (l : List Nat) (i a : Nat) (h : i < l.length) :
    (l.set i a).take (i + 1) = l.take i ++ [a] := by
  rw [List.take_succ, List.getElem?_set_self h, List.set_take,
    List.set_eq_of_length_le (by rw [List.length_take]; omega)]
  rfl

theorem oinv_init (f0 : List Nat) : OInv f0 [] (initHufOutput f0 4096) := by
  refine ⟨rfl, ?_, Nat.zero_le _, ?_, [], [], Blocks.nil, ?_, ?_, fun _ => rfl⟩
  · show (List.replicate 4096 0).length = 4096
    rw [List.length_replicate]
  · intro b hb
    have : (initHufOutput f0 4096).curIndex = 0 := rfl
    rw [this, List.take_zero] at hb
    exact absurd hb (List.not_mem_nil b)
  · show f0 = f0 ++ []
    rw [List.append_nil]
  · rfl

/-- One call of `writeHufOutput`. -/
theorem oinv_step (f0 done : List Nat) (s : HOutStream) (c : Nat) (h : OInv f0 done s) :
    OInv f0 (done ++ [c % 256]) (writeHufOutput c s) := by
  obtain ⟨h1, h2, h3, h4, E, flushed, h5, h6, h7, h8⟩ := h
  have hc : c % 256 < 256 := Nat.mod_lt _ (by norm_num)
  unfold writeHufOutput
  by_cases hfull : s.curIndex ≥ s.bufSize
  · have hci : s.curIndex = 4096 := by omega
    simp only [if_pos hfull]
    have htk : s.buffer.take s.curIndex = s.buffer := by
      rw [hci]
      exact List.take_of_length_le (by omega)
    rw [htk] at h4 h7
    refine ⟨h1, ?_, ?_, ?_, E ++ writeHBuffer [] s.buffer s.buffer.length, flushed ++ s.buffer,
      blocks_snoc s.buffer h4 (by omega) (by omega) E flushed h5, ?_, ?_, ?_⟩
    · show (s.buffer.set 0 (c % 256)).length = 4096
      rw [List.length_set, h2]
    · show 0 + 1 ≤ 4096
      norm_num
    · show ∀ b ∈ (s.buffer.set 0 (c % 256)).take (0 + 1), b < 256
      rw [take_set_succ s.buffer 0 _ (by omega), List.take_zero, List.nil_append]
      intro b hb
      rw [List.mem_singleton] at hb
      rw [hb]
      exact hc
    · show writeHBuffer s.file s.buffer s.curIndex = f0 ++ (E ++ writeHBuffer [] s.buffer s.buffer.length)
      rw [writeHBuffer_take, htk, h6, hci, h2, List.append_assoc]
    · show done ++ [c % 256] = flushed ++ s.buffer ++ (s.buffer.set 0 (c % 256)).take (0 + 1)
      rw [take_set_succ s.buffer 0 _ (by omega), List.take_zero, List.nil_append, h7]
    · intro h0
      have : (0 : Nat) + 1 = 0 := h0
      omega
  · have hlt : s.curIndex < 4096 := by omega
    simp only [if_neg hfull]
    refine ⟨h1, ?_, ?_, ?_, E, flushed, h5, h6, ?_, ?_⟩
    · show (s.buffer.set s.curIndex (c % 256)).length = 4096
      rw [List.length_set, h2]
    · show s.curIndex + 1 ≤ 4096
      omega
    · show ∀ b ∈ (s.buffer.set s.curIndex (c % 256)).take (s.curIndex + 1), b < 256
      rw [take_set_succ s.buffer _ _ (by omega)]
      intro b hb
      rw [List.mem_append, List.mem_singleton] at hb
      rcases hb with hb | hb
      · exact h4 b hb
      · rw [hb]
        exact hc
    · show done ++ [c % 256]
        = flushed ++ (s.buffer.set s.curIndex (c % 256)).take (s.curIndex + 1)
      rw [take_set_succ s.buffer _ _ (by omega), h7, List.append_assoc]
    · intro h0
      have : s.curIndex + 1 = 0 := h0
      omega

/-- The calls of `writeHufOutput` for the bytes of a file. -/
theorem oinv_fold (f0 : List Nat) : ∀ (content done : List Nat) (s : HOutStream),
    OInv f0 done s →
    OInv f0 (done ++ content.map (fun c => c % 256))
      (content.foldl (fun (s : HOutStream) (c : Nat) => writeHufOutput c s) s) := by
  intro content
  induction content with
  | nil =>
    intro done s h
    rw [List.map_nil, List.append_nil]
    exact h
  | cons c content ih =>
    intro done s h
    have := ih (done ++ [c % 256]) (writeHufOutput c s) (oinv_step f0 done s c h)
    rw [List.append_assoc] at this
    exact this

/-- The call of `closeHufOutput`: the last block, if there is one, and two zero bytes. -/
theorem oinv_close (f0 done : List Nat) (s : HOutStream) (h : OInv f0 done s) :
    ∃ E, Blocks E done ∧ closeHufOutput s = f0 ++ (E ++ [0, 0]) := by
  obtain ⟨h1, h2, h3, h4, E, flushed, h5, h6, h7, h8⟩ := h
  have hz : ∀ f : List Nat, putc 0 (putc 0 f) = f ++ [0, 0] := by
    intro f
    unfold putc
    rw [List.append_assoc]
    rfl
  unfold closeHufOutput
  by_cases h0 : s.curIndex > 0
  · simp only [if_pos h0]
    have hl : (s.buffer.take s.curIndex).length = s.curIndex := by
      rw [List.length_take]
      omega
    refine ⟨E ++ writeHBuffer [] (s.buffer.take s.curIndex) (s.buffer.take s.curIndex).length,
      ?_, ?_⟩
    · rw [h7]
      exact blocks_snoc _ h4 (by omega) (by omega) E flushed h5
    · rw [hz, writeHBuffer_take, h6, hl, List.append_assoc, List.append_assoc, List.append_assoc]
  · simp only [if_neg h0]
    have hci : s.curIndex = 0 := by omega
    have hd := h8 hci
    rw [hci, List.take_zero, List.append_nil] at h7
    refine ⟨E, ?_, ?_⟩
    · rw [h7]
      exact h5
    · rw [hz, h6, List.append_assoc]

theorem foldl_putc (name : List Nat) (hn : ∀ c ∈ name, c < 256) : ∀ f : List Nat,
    name.foldl (fun (f : List Nat) (c : Nat) => putc (c : Int) f) f = f ++ name := by
  induction name with
  | nil => intro f; rw [List.foldl_nil, List.append_nil]
  | cons c name ih =>
    intro f
    rw [List.foldl_cons, ih (fun x hx => hn x (List.mem_cons_of_mem _ hx))]
    have hc := hn c (List.mem_cons_self _ _)
    have e : ((c : Int) % 256).toNat = c := by omega
    unfold putc
    rw [e, List.append_assoc]
    rfl

/-- The bytes that the compress branch writes for a file. -/
theorem compressFile_spec (f0 name content : List Nat) (hn : ∀ c ∈ name, c < 256)
    (hl : name.length ≤ 255) (hc : ∀ b ∈ content, b < 256) :
    ∃ E, Blocks E content ∧
      compressFile f0 name content = f0 ++ name.length :: (name ++ (E ++ [0, 0])) := by
  have hmap : content.map (fun c => c % 256) = content := by
    rw [List.map_congr_left (fun c h => Nat.mod_eq_of_lt (hc c h)), List.map_id']
  have hf := oinv_fold (f0 ++ name.length :: name) content []
    (initHufOutput (f0 ++ name.length :: name) 4096) (oinv_init _)
  rw [List.nil_append, hmap] at hf
  obtain ⟨E, hE, hcl⟩ := oinv_close _ _ _ hf
  refine ⟨E, hE, ?_⟩
  unfold compressFile
  have e1 : putc (name.length : Int) f0 = f0 ++ [name.length] := by
    unfold putc
    have e : ((name.length : Int) % 256).toNat = name.length := by omega
    rw [e]
  have e2 : f0 ++ [name.length] ++ name = f0 ++ name.length :: name := by
    rw [List.append_assoc]
    rfl
  rw [foldl_putc name hn, e1, e2, hcl, List.append_assoc]
  rfl

end Comp


namespace Comp

/-! ## Reading the blocks of a file -/

/-- Calls of `getHufInput` that deliver bytes are so many rounds of the reading loop. -/
theorem extractBytes_seq : ∀ (bytes : List Nat) (str : HInStream) (out : List Nat) (fuel : Nat),
    (getHufInputSeq bytes.length str).1 = bytes.map (fun (b : Nat) => (b : Int)) →
    (∀ b ∈ bytes, b < 256) →
    extractBytes (bytes.length + fuel) str out
      = extractBytes fuel (getHufInputSeq bytes.length str).2 (out ++ bytes) := by
  intro bytes
  induction bytes with
  | nil =>
    intro str out fuel _ _
    rw [List.length_nil, Nat.zero_add, List.append_nil]
    rfl
  | cons b bytes ih =>
    intro str out fuel hs hb
    rw [List.length_cons] at hs ⊢
    rw [getHufInputSeq, List.map_cons] at hs
    have hs1 : (getHufInput str).1 = (b : Int) := (List.cons.inj hs).1
    have hs2 := (List.cons.inj hs).2
    have hb0 := hb b (List.mem_cons_self _ _)
    have e : bytes.length + 1 + fuel = (bytes.length + fuel) + 1 := by omega
    rw [e, extractBytes, if_neg (by rw [hs1]; omega), hs1,
      ih (getHufInput str).2 (putc (b : Int) out) fuel hs2
        (fun x hx => hb x (List.mem_cons_of_mem _ hx))]
    have ep : putc (b : Int) out = out ++ [b] := by
      unfold putc
      have e2 : ((b : Int) % 256).toNat = b := by omega
      rw [e2]
    rw [ep, List.append_assoc, getHufInputSeq]
    rfl

/-- The reading loop of the extract branch on the blocks of a file and the two zero
bytes behind them: it delivers the bytes of the file and stops behind the zero bytes. -/
theorem extract_blocks (E data : List Nat) (hE : Blocks E data) :
    ∀ (str : HInStream) (tail out : List Nat) (fuel : Nat), str.nbr = 0 → 0 ≤ str.bs.curChar →
    256 ≤ str.decode.length → str.bs.file = E ++ 0 :: 0 :: tail → data.length < fuel →
    ∃ str', extractBytes fuel str out = some (out ++ data, str') ∧ str'.bs.file = tail ∧
      256 ≤ str'.decode.length := by
  induction hE with
  | nil =>
    intro str tail out fuel hn hc hd hf hfuel
    obtain ⟨f, rfl⟩ : ∃ f, fuel = f + 1 := ⟨fuel - 1, by rw [List.length_nil] at hfuel; omega⟩
    rw [List.nil_append] at hf
    obtain ⟨t1, _, t3, t4⟩ := getHufInput_terminator str tail hn hc hf
    refine ⟨(getHufInput str).2, ?_, t4, by rw [t3]; exact hd⟩
    rw [extractBytes, if_pos t1, List.append_nil]
  | cons B E data hB h1 h2 _ ih =>
    intro str tail out fuel hn hc hd hf hfuel
    rw [List.append_assoc] at hf
    obtain ⟨r1, r2, r3, r4, r5⟩ := block_round_trip str B (E ++ 0 :: 0 :: tail) hB h1 h2 hn hc hd hf
    rw [List.length_append] at hfuel
    obtain ⟨f, rfl⟩ : ∃ f, fuel = B.length + f := ⟨fuel - B.length, by omega⟩
    obtain ⟨str', e1, e2, e3⟩ := ih (getHufInputSeq B.length str).2 tail (out ++ B) f r2 r4 r5 r3
      (by omega)
    refine ⟨str', ?_, e2, e3⟩
    rw [extractBytes_seq B str out f r1 hB, e1, List.append_assoc]

end Comp


namespace Comp

/-! ## Huffman's algorithm on a sorted list of weights -/

theorem absInsert_coe (a : Int) : ∀ L : List Int,
    ((absInsert a L : List Int) : Multiset Int) = a ::ₘ (L : Multiset Int) := by
  intro L
  induction L with
  | nil => rfl
  | cons b l ih =>
    unfold absInsert
    split
    · rfl
    · rw [← Multiset.cons_coe, ih, ← Multiset.cons_coe, Multiset.cons_swap]

theorem absInsert_eq (a : Int) : ∀ L : List Int,
    absInsert a L = List.orderedInsert (fun x y => x ≤ y) a L := by
  intro L
  induction L with
  | nil => rfl
  | cons b l ih =>
    unfold absInsert
    rw [List.orderedInsert, ih]

theorem absStep_sorted (L : List Int) (h : L.Sorted (fun x y => x ≤ y)) :
    (absStep L).Sorted (fun x y => x ≤ y) := by
  match L, h with
  | [], h => exact h
  | [_], h => exact h
  | x :: y :: rest, h =>
    show (absInsert (x + y) rest).Sorted (fun x y => x ≤ y)
    rw [absInsert_eq]
    exact List.Sorted.orderedInsert _ _ (List.Sorted.of_cons (List.Sorted.of_cons h))

theorem absRun_sorted : ∀ (t : Nat) (L : List Int), L.Sorted (fun x y => x ≤ y) →
    (absRun t L).Sorted (fun x y => x ≤ y) := by
  intro t
  induction t with
  | zero => intro L h; exact h
  | succ t ih => intro L h; exact ih _ (absStep_sorted L h)

theorem absRun_succ : ∀ (t : Nat) (L : List Int), absRun (t + 1) L = absStep (absRun t L) := by
  intro t
  induction t with
  | zero => intro L; rfl
  | succ t ih =>
    intro L
    show absRun (t + 1) (absStep L) = absStep (absRun t (absStep L))
    exact ih (absStep L)

/-- What the check `absCheck` establishes. -/
theorem absCheck_spec : ∀ (k : Nat) (L : List Int), absCheck k L = true →
    ∀ t, t < k → ∃ x y rest, absRun t L = x :: y :: rest ∧ 1 ≤ x ∧ y ≤ 127 := by
  intro k
  induction k with
  | zero => intro L _ t ht; omega
  | succ k ih =>
    intro L h t ht
    match L, h with
    | [], h => exact absurd h (by simp [absCheck])
    | [_], h => exact absurd h (by simp [absCheck])
    | x :: y :: rest, h =>
      simp only [absCheck, Bool.and_eq_true, decide_eq_true_eq] at h
      cases t with
      | zero => exact ⟨x, y, rest, rfl, h.1.1, h.1.2⟩
      | succ t => exact ih _ h.2 t (by omega)

theorem unitWeights_sorted : unitWeights.Sorted (fun x y => x ≤ y) := by
  unfold unitWeights
  rw [List.Sorted, List.pairwise_replicate]
  right
  exact le_refl _

set_option maxRecDepth 1000000 in
set_option maxHeartbeats 4000000 in
theorem unitWeights_check : absCheck 253 unitWeights = true := by decide

set_option maxRecDepth 1000000 in
set_option maxHeartbeats 4000000 in
theorem unitWeights_252 : absRun 252 unitWeights = [64, 64, 127] := by decide

set_option maxRecDepth 1000000 in
set_option maxHeartbeats 4000000 in
theorem unitWeights_253 : absRun 253 unitWeights = [127, 128] := by decide

/-- The item of the largest priority in a multiset of items whose weights `1 - priority`
form a sorted list has the first weight of the list, and the other items have the other
weights. -/
theorem pop_min (R : Multiset (Nat × Int)) (x : Int) (L : List Int)
    (hs : (x :: L).Sorted (fun x y => x ≤ y))
    (hR : R.map (fun e => 1 - e.2) = ((x :: L : List Int) : Multiset Int))
    (c : Nat) (p : Int) (hc : (c, p) ∈ R) (hmax : ∀ e ∈ R, e.2 ≤ p) :
    1 - p = x ∧ ∃ R1, R = (c, p) ::ₘ R1 ∧ R1.map (fun e => 1 - e.2) = (L : Multiset Int) := by
  obtain ⟨R1, rfl⟩ := Multiset.exists_cons_of_mem hc
  rw [Multiset.map_cons] at hR
  have h1 : 1 - p ∈ ((x :: L : List Int) : Multiset Int) := by
    rw [← hR]
    exact Multiset.mem_cons_self _ _
  rw [Multiset.mem_coe, List.mem_cons] at h1
  have h2 : x ≤ 1 - p := by
    rcases h1 with e | e
    · omega
    · exact List.rel_of_sorted_cons hs _ e
  have h3 : x ∈ ((1 - p) ::ₘ R1.map (fun e => 1 - e.2)) := by
    show x ∈ ((1 - (c, p).2) ::ₘ R1.map (fun e => 1 - e.2))
    rw [hR]
    exact Multiset.mem_coe.mpr (List.mem_cons_self _ _)
  have h4 : 1 - p ≤ x := by
    rw [Multiset.mem_cons, Multiset.mem_map] at h3
    rcases h3 with e | ⟨e, he, hx⟩
    · omega
    · have := hmax e (Multiset.mem_cons_of_mem he)
      omega
  have h5 : 1 - p = x := by omega
  refine ⟨h5, R1, rfl, ?_⟩
  have h6 : (1 - (c, p).2) ::ₘ R1.map (fun e => 1 - e.2) = x ::ₘ (L : Multiset Int) := by
    rw [hR]
    rfl
  have h7 : (1 - (c, p).2 : Int) = x := h5
  rw [h7] at h6
  exact (Multiset.cons_inj_right x).mp h6

end Comp


namespace Comp

/-! ## Queues of two and of three items -/

theorem contents_top3 (q : PriorityQueue) (h : q.top = 3) :
    contents q = {cell q 1} + {cell q 2} := by
  unfold contents
  rw [h, Finset.sum_Ico_succ_top (by norm_num), Finset.sum_Ico_succ_top (by norm_num),
    Finset.Ico_self, Finset.sum_empty, zero_add]

theorem contents_top4 (q : PriorityQueue) (h : q.top = 4) :
    contents q = {cell q 1} + ({cell q 2} + {cell q 3}) := by
  unfold contents
  rw [h, Finset.sum_Ico_succ_top (by norm_num), Finset.sum_Ico_succ_top (by norm_num),
    Finset.sum_Ico_succ_top (by norm_num), Finset.Ico_self, Finset.sum_empty, zero_add,
    add_assoc]

/-- An item put into a queue of two items with a priority below the one of slot 1 goes
to slot 3; slot 2 keeps its item. -/
theorem putPrio_top3 (dat : Nat) (p : Int) (q : PriorityQueue) (ht : q.top = 3)
    (hp : p < prioAt q 1) : cell (putPrio dat p q) 2 = cell q 2 := by
  obtain ⟨t, d, pr⟩ := q
  simp only at ht
  subst ht
  have hp' : pr.getD 1 0 > p := hp
  have hloop : putPrioLoop 3 3 p ⟨3 + 1, d, pr⟩ = (3, ⟨3 + 1, d, pr⟩) := by
    rw [putPrioLoop]
    rw [if_pos (by decide)]
    have e : (3 >>> 1 : Nat) = 1 := rfl
    simp only [e]
    rw [if_pos hp']
  unfold putPrio
  simp only
  rw [hloop]
  unfold cell
  simp only
  rw [getD_set_ne _ _ _ _ _ (by decide), getD_set_ne _ _ _ _ _ (by decide)]

/-- Taking the first item from a queue of three items whose slot 2 does not have a larger
priority than slot 3 moves the item of slot 3 to slot 1; slot 2 keeps its item. -/
theorem getPrio_top4 (q : PriorityQueue) (ht : q.top = 4) (hp : prioAt q 2 ≤ prioAt q 3) :
    cell (getPrio q).2 2 = cell q 2 := by
  obtain ⟨t, d, pr⟩ := q
  simp only at ht
  subst ht
  have hp' : pr.getD 2 0 ≤ pr.getD 3 0 := hp
  have e2 : (pr.set 0 (pr.getD 1 0)).getD 2 0 = pr.getD 2 0 := getD_set_ne _ _ _ _ _ (by decide)
  have e3 : (pr.set 0 (pr.getD 1 0)).getD 3 0 = pr.getD 3 0 := getD_set_ne _ _ _ _ _ (by decide)
  have hloop : getPrioLoop 3 1 ⟨3, d.set 0 (d.getD 1 0), pr.set 0 (pr.getD 1 0)⟩
      = (1, ⟨3, d.set 0 (d.getD 1 0), pr.set 0 (pr.getD 1 0)⟩) := by
    rw [getPrioLoop]
    have e : (1 <<< 1 : Nat) = 2 := rfl
    simp only [e]
    rw [if_neg (by decide)]
    by_cases hlt : pr.getD 2 0 < pr.getD 3 0
    · rw [e2, e3, if_pos hlt, e3, if_pos (le_refl _)]
    · rw [e2, e3, if_neg hlt, e2, if_pos hp']
  unfold getPrio
  simp only
  rw [if_neg (by decide)]
  have e4 : (4 - 1 : Nat) = 3 := rfl
  simp only [e4]
  rw [hloop]
  unfold cell
  simp only
  rw [getD_set_ne _ _ _ _ _ (by decide), getD_set_ne _ _ _ _ _ (by decide),
    getD_set_ne _ _ _ _ _ (by decide), getD_set_ne _ _ _ _ _ (by decide)]

end Comp


namespace Comp

/-! ## The merge loop on the frequency vector of a buffer of equal bytes -/

/-- One iteration of the merge loop, in terms of the two items that it takes from the
queue. -/
theorem merge_pops (s : MergeState) (hw : PQWf s.1) (ht : 2 < s.1.top)
    (hcap : s.1.top ≤ s.1.data.length) (ho : HeapOrd s.1) :
    mergeStep s = (putPrio s.2.2
        (toInt32 (toInt32 ((cell s.1 1).2 + (cell (getPrio s.1).2 1).2) - 1))
        (getPrio (getPrio s.1).2).2,
      (s.2.1.set (cell s.1 1).1 s.2.2).set (cell (getPrio s.1).2 1).1 s.2.2, s.2.2 + 1) ∧
    contents s.1 = cell s.1 1 ::ₘ contents (getPrio s.1).2 ∧
    contents (getPrio s.1).2
      = cell (getPrio s.1).2 1 ::ₘ contents (getPrio (getPrio s.1).2).2 ∧
    (∀ e ∈ contents s.1, e.2 ≤ (cell s.1 1).2) ∧
    (∀ e ∈ contents (getPrio s.1).2, e.2 ≤ (cell (getPrio s.1).2 1).2) ∧
    (getPrio s.1).2.top = s.1.top - 1 ∧
    (getPrio (getPrio s.1).2).2.top = s.1.top - 2 ∧
    HeapOrd (getPrio (getPrio s.1).2).2 ∧
    (∀ P, contents (putPrio s.2.2 P (getPrio (getPrio s.1).2).2)
      = (s.2.2, P) ::ₘ contents (getPrio (getPrio s.1).2).2) := by
  obtain ⟨q, parent, i⟩ := s
  simp only at hw ht hcap ho ⊢
  obtain ⟨a1, a2, a3, a4, a5, a6, a7⟩ := getPrio_spec q hw (by omega)
  have hw1 : PQWf (getPrio q).2 := ⟨by omega, by omega, by rw [a3, a4]; exact hw.2.2⟩
  obtain ⟨b1, b2, b3, b4, b5, b6, b7⟩ := getPrio_spec (getPrio q).2 hw1 (by omega)
  have hw2 : PQWf (getPrio (getPrio q).2).2 := ⟨by omega, by omega, by rw [b3, b4]; exact hw1.2.2⟩
  refine ⟨?_, by rw [← Multiset.singleton_add]; exact a6,
    by rw [← Multiset.singleton_add]; exact b6,
    fun x hx => contents_prio_le q ho x hx,
    fun x hx => contents_prio_le _ (a7 ho) x hx, a2, by omega, b7 (a7 ho), ?_⟩
  · unfold mergeStep
    simp only
    rw [a1, b1, Int.toNat_ofNat, Int.toNat_ofNat]
    have f1 : (getPrio q).2.priority.getD 0 0 = (cell q 1).2 := by
      have := congrArg Prod.snd a5
      exact this
    have f2 : (getPrio (getPrio q).2).2.priority.getD 0 0 = (cell (getPrio q).2 1).2 := by
      have := congrArg Prod.snd b5
      exact this
    rw [f1, f2]
  · intro P
    obtain ⟨_, _, _, e4, _, _⟩ := putPrio_spec i P (getPrio (getPrio q).2).2 hw2 (by omega)
    rw [e4, Multiset.singleton_add]

/-- The items of a queue filled with the indices below `nbr`, index `b` apart. -/
theorem fill_others (nbr : Nat) (g : Nat → Int) (b : Nat) (hb : b < nbr)
    (hg : ∀ i, i < nbr → i ≠ b → g i = 0) :
    (Multiset.range nbr).map (fun i => (i, g i))
      = (b, g b) ::ₘ ((Multiset.range nbr).erase b).map (fun i => (i, g i)) ∧
    (((Multiset.range nbr).erase b).map (fun i => (i, g i))).map (fun e => 1 - e.2)
      = Multiset.replicate (nbr - 1) (1 : Int) := by
  constructor
  · rw [← Multiset.map_cons (fun i => (i, g i)), Multiset.cons_erase (Multiset.mem_range.mpr hb)]
  · rw [Multiset.map_map]
    have hc : ∀ i ∈ (Multiset.range nbr).erase b,
        ((fun e : Nat × Int => 1 - e.2) ∘ fun i => (i, g i)) i = (fun _ => (1 : Int)) i := by
      intro i hi
      have hne : i ≠ b := fun e => by
        rw [e] at hi
        exact (Multiset.Nodup.mem_erase_iff (Multiset.nodup_range nbr)).mp hi |>.1 rfl
      have hlt : i < nbr := Multiset.mem_range.mp (Multiset.mem_of_mem_erase hi)
      show 1 - g i = 1
      rw [hg i hlt hne]
      rfl
    rw [Multiset.map_congr rfl hc, Multiset.map_const', Multiset.card_erase_of_mem
      (Multiset.mem_range.mpr hb), Multiset.card_range]
    rfl

theorem absRun_zero (L : List Int) : absRun 0 L = L := rfl

theorem UInv_start (b n : Nat) (q : PriorityQueue) (parent : List Nat)
    (R : Multiset (Nat × Int)) (h1 : contents q = (b, -(n : Int)) ::ₘ R)
    (h2 : R.map (fun e => 1 - e.2) = ((unitWeights : List Int) : Multiset Int)) :
    UInv b n (q, parent, 256) := by
  left
  refine ⟨by norm_num, ⟨R, h1, ?_⟩, fun h => absurd h (by norm_num)⟩
  have e : (q, parent, 256).2.2 - 256 = 0 := Nat.sub_self 256
  rw [e, absRun_zero]
  exact h2

/-- The invariant holds at the start of the merge loop. -/
theorem UInv_init (buffer : List Nat) (b n : Nat) (hb : b < 256)
    (hu : ∀ i, i < n → buffer.getD i 0 = b) (hN : n + 256 ≤ 2 ^ 31) :
    UInv b n (lengthFill (countFreq buffer n) 256, List.replicate (2 * 256) 0, 256) := by
  obtain ⟨_, _, _, h4, _⟩ := fill_spec (fun i => toInt32 (- (countFreq buffer n).getD i 0))
    (2 * 256) 256 (by omega)
  have h4' : contents (lengthFill (countFreq buffer n) 256)
      = (Multiset.range 256).map
          (fun i => (i, toInt32 (- (countFreq buffer n).getD i 0))) := h4
  have hgb : toInt32 (- (countFreq buffer n).getD b 0) = -(n : Int) := by
    rw [countFreq_uniform buffer b hb n hu b, if_pos rfl]
    exact toInt32_eq _ (by omega) (by omega)
  obtain ⟨f1, f2⟩ := fill_others 256 (fun i => toInt32 (- (countFreq buffer n).getD i 0)) b hb
    (fun i _ hne => by
      show toInt32 (- (countFreq buffer n).getD i 0) = 0
      rw [countFreq_uniform buffer b hb n hu i, if_neg hne]
      rfl)
  rw [hgb] at f1
  refine UInv_start b n _ _ _ (h4'.trans f1) (f2.trans ?_)
  rw [unitWeights, Multiset.coe_replicate]

end Comp


namespace Comp

/-! ## The steps of the merge loop on the frequency vector of a buffer of equal bytes -/

theorem pair_eq {α : Type} (u v w a : α)
    (h : ({u} : Multiset α) + {v} = w ::ₘ {a}) : (u = w ∧ v = a) ∨ (v = w ∧ u = a) := by
  have hw : w ∈ ({u} : Multiset α) + {v} := by
    rw [h]
    exact Multiset.mem_cons_self _ _
  rw [Multiset.mem_add, Multiset.mem_singleton, Multiset.mem_singleton] at hw
  rcases hw with e | e
  · left
    refine ⟨e.symm, ?_⟩
    rw [Multiset.singleton_add, ← e] at h
    exact Multiset.singleton_inj.mp ((Multiset.cons_inj_right w).mp h)
  · right
    refine ⟨e.symm, ?_⟩
    rw [add_comm, Multiset.singleton_add, ← e] at h
    exact Multiset.singleton_inj.mp ((Multiset.cons_inj_right w).mp h)

/-- While the items other than `b` weigh at most 127, the merge loop takes the two
lightest of them from the queue and leaves `b` there. -/
theorem UInv_pops (b n : Nat) (hn : 127 ≤ n) (s : MergeState) (hm : MInv 256 s)
    (ho : HeapOrd s.1) (ht : 2 < s.1.top) (hi : s.2.2 ≤ 508)
    (R : Multiset (Nat × Int)) (hR1 : contents s.1 = (b, -(n : Int)) ::ₘ R)
    (hR2 : R.map (fun e => 1 - e.2)
      = ((absRun (s.2.2 - 256) unitWeights : List Int) : Multiset Int)) :
    ∃ (x y : Int) (rest : List Int) (R2 : Multiset (Nat × Int)),
      absRun (s.2.2 - 256) unitWeights = x :: y :: rest ∧ 1 ≤ x ∧ x ≤ y ∧ y ≤ 127 ∧
      (cell s.1 1).2 = 1 - x ∧ (cell (getPrio s.1).2 1).2 = 1 - y ∧
      contents (getPrio (getPrio s.1).2).2 = (b, -(n : Int)) ::ₘ R2 ∧
      R2.map (fun e => 1 - e.2) = ((rest : List Int) : Multiset Int) := by
  obtain ⟨m1, _, _, _, _, _, _, _, _, _, _, _⟩ := hm
  obtain ⟨x, y, rest, hL, hx1, hy⟩ := absCheck_spec 253 unitWeights unitWeights_check
    (s.2.2 - 256) (by omega)
  have hs := absRun_sorted (s.2.2 - 256) unitWeights unitWeights_sorted
  rw [hL] at hs hR2
  have hxy : x ≤ y := List.rel_of_sorted_cons hs y (List.mem_cons_self _ _)
  obtain ⟨_, q1c, q2c, mx1, mx2, _, _, _, _⟩ := merge_pops s m1 ht m1.2.1 ho
  -- the first item taken
  have hc1 : cell s.1 1 ∈ contents s.1 := by
    rw [q1c]
    exact Multiset.mem_cons_self _ _
  have hex : x ∈ R.map (fun e => 1 - e.2) := by
    rw [hR2]
    exact Multiset.mem_coe.mpr (List.mem_cons_self _ _)
  rw [Multiset.mem_map] at hex
  obtain ⟨e, he, hex⟩ := hex
  have hp1 := mx1 e (by rw [hR1]; exact Multiset.mem_cons_of_mem he)
  have hc1R : cell s.1 1 ∈ R := by
    rw [hR1, Multiset.mem_cons] at hc1
    rcases hc1 with h | h
    · have := congrArg Prod.snd h
      simp only at this
      omega
    · exact h
  obtain ⟨hq1, R1, hRR1, hR1m⟩ := pop_min R x (y :: rest) hs hR2 (cell s.1 1).1 (cell s.1 1).2
    hc1R (fun e he => mx1 e (by rw [hR1]; exact Multiset.mem_cons_of_mem he))
  have hcq1 : contents (getPrio s.1).2 = (b, -(n : Int)) ::ₘ R1 := by
    have h := q1c
    rw [hR1, hRR1, Multiset.cons_swap] at h
    exact ((Multiset.cons_inj_right _).mp h).symm
  -- the second item taken
  have hs' : (y :: rest).Sorted (fun x y => x ≤ y) := List.Sorted.of_cons hs
  have hc2 : cell (getPrio s.1).2 1 ∈ contents (getPrio s.1).2 := by
    rw [q2c]
    exact Multiset.mem_cons_self _ _
  have hey : y ∈ R1.map (fun e => 1 - e.2) := by
    rw [hR1m]
    exact Multiset.mem_coe.mpr (List.mem_cons_self _ _)
  rw [Multiset.mem_map] at hey
  obtain ⟨e', he', hey⟩ := hey
  have hp2 := mx2 e' (by rw [hcq1]; exact Multiset.mem_cons_of_mem he')
  have hc2R : cell (getPrio s.1).2 1 ∈ R1 := by
    rw [hcq1, Multiset.mem_cons] at hc2
    rcases hc2 with h | h
    · have := congrArg Prod.snd h
      simp only at this
      omega
    · exact h
  obtain ⟨hq2, R2, hRR2, hR2m⟩ := pop_min R1 y rest hs' hR1m (cell (getPrio s.1).2 1).1
    (cell (getPrio s.1).2 1).2 hc2R
    (fun e he => mx2 e (by rw [hcq1]; exact Multiset.mem_cons_of_mem he))
  have hcq2 : contents (getPrio (getPrio s.1).2).2 = (b, -(n : Int)) ::ₘ R2 := by
    have h := q2c
    rw [hcq1, hRR2, Multiset.cons_swap] at h
    exact ((Multiset.cons_inj_right _).mp h).symm
  exact ⟨x, y, rest, R2, hL, hx1, hxy, hy, by omega, by omega, hcq2, hR2m⟩

end Comp


namespace Comp

/-! ## The invariant of the merge loop on the frequency vector of a buffer of equal bytes -/

/-- The steps that combine two of the items other than `b`, up to node 508. -/
theorem UInv_step1 (b n : Nat) (hn : 127 ≤ n) (s : MergeState) (hm : MInv 256 s)
    (ho : HeapOrd s.1) (ht : 2 < s.1.top) (hi : s.2.2 ≤ 508)
    (R : Multiset (Nat × Int)) (hR1 : contents s.1 = (b, -(n : Int)) ::ₘ R)
    (hR2 : R.map (fun e => 1 - e.2)
      = ((absRun (s.2.2 - 256) unitWeights : List Int) : Multiset Int)) :
    UInv b n (mergeStep s) := by
  obtain ⟨x, y, rest, R2, hL, hx1, hxy, hy, hp1, hp2, hc2, hR2m⟩ :=
    UInv_pops b n hn s hm ho ht hi R hR1 hR2
  obtain ⟨m1, _, m3, _, m5, _, _, _, _, _, _, _⟩ := hm
  obtain ⟨e0, _, _, _, _, _, t2, ho2, pc⟩ := merge_pops s m1 ht m1.2.1 ho
  have hP : toInt32 (toInt32 ((cell s.1 1).2 + (cell (getPrio s.1).2 1).2) - 1)
      = 1 - (x + y) := by
    have h1 : toInt32 (1 - x + (1 - y)) = 1 - x + (1 - y) := toInt32_eq _ (by omega) (by omega)
    rw [hp1, hp2, h1, toInt32_eq _ (by omega) (by omega)]
    ring
  rw [hP] at e0
  have hrun : absRun (s.2.2 + 1 - 256) unitWeights = absInsert (x + y) rest := by
    have e : s.2.2 + 1 - 256 = (s.2.2 - 256) + 1 := by omega
    rw [e, absRun_succ, hL]
    rfl
  rw [e0]
  left
  refine ⟨by simp only; omega, ⟨(s.2.2, 1 - (x + y)) ::ₘ R2, ?_, ?_⟩, ?_⟩
  · simp only
    rw [pc, hc2, Multiset.cons_swap]
  · simp only
    rw [hrun, absInsert_coe, Multiset.map_cons, hR2m]
    simp only
    rw [sub_sub_cancel]
  · simp only
    intro h9
    have h8 : s.2.2 - 256 = 252 := by omega
    rw [h8, unitWeights_252] at hL
    have hx64 : x = 64 := by
      have := List.head_eq_of_cons_eq hL
      omega
    have hy64 : y = 64 := by
      have := List.head_eq_of_cons_eq (List.tail_eq_of_cons_eq hL)
      omega
    have hrest : rest = [127] := (List.tail_eq_of_cons_eq (List.tail_eq_of_cons_eq hL)).symm
    rw [hrest] at hR2m
    have hcard : Multiset.card R2 = 1 := by
      have := congrArg Multiset.card hR2m
      rw [Multiset.card_map] at this
      exact this
    obtain ⟨a, ha⟩ := Multiset.card_eq_one.mp hcard
    rw [ha, Multiset.map_singleton] at hR2m
    have ha2 : 1 - a.2 = 127 := Multiset.singleton_inj.mp hR2m
    have htop : (getPrio (getPrio s.1).2).2.top = 3 := by omega
    have hc3 := contents_top3 _ htop
    rw [hc2, ha] at hc3
    have h21 : prioAt (getPrio (getPrio s.1).2).2 2 ≤ prioAt (getPrio (getPrio s.1).2).2 1 :=
      ho2 2 (le_refl 2) (by omega)
    rcases pair_eq _ _ _ _ hc3.symm with ⟨u1, u2⟩ | ⟨u1, u2⟩
    · have v1 : prioAt (getPrio (getPrio s.1).2).2 1 = -(n : Int) := congrArg Prod.snd u1
      have v2 : prioAt (getPrio (getPrio s.1).2).2 2 = a.2 := congrArg Prod.snd u2
      omega
    · have v1 : prioAt (getPrio (getPrio s.1).2).2 1 = a.2 := congrArg Prod.snd u2
      rw [putPrio_top3 _ _ _ htop (by omega)]
      exact u1

/-- The step that builds node 509 from the two items other than `b`. -/
theorem UInv_step2 (b n : Nat) (hn : 127 ≤ n) (s : MergeState) (hm : MInv 256 s)
    (ho : HeapOrd s.1) (ht : 2 < s.1.top) (hi : s.2.2 = 509)
    (R : Multiset (Nat × Int)) (hR1 : contents s.1 = (b, -(n : Int)) ::ₘ R)
    (hR2 : R.map (fun e => 1 - e.2)
      = ((absRun (s.2.2 - 256) unitWeights : List Int) : Multiset Int))
    (hl : cell s.1 2 = (b, -(n : Int))) :
    UInv b n (mergeStep s) := by
  obtain ⟨m1, _, m3, _, m5, _, _, _, _, _, _, _⟩ := hm
  obtain ⟨e0, _, q2c, _, _, t1, _, _, pc⟩ := merge_pops s m1 ht m1.2.1 ho
  have h3 : s.2.2 - 256 = 253 := by omega
  rw [h3, unitWeights_253] at hR2
  have htop : s.1.top = 4 := by omega
  have hp2 : prioAt s.1 2 = -(n : Int) := congrArg Prod.snd hl
  have hp3 : prioAt s.1 2 ≤ prioAt s.1 3 := by
    have hmem : cell s.1 3 ∈ contents s.1 := by
      rw [contents_top4 _ htop]
      simp
    rw [hR1, Multiset.mem_cons] at hmem
    rcases hmem with h | h
    · have : prioAt s.1 3 = -(n : Int) := congrArg Prod.snd h
      omega
    · have hw : 1 - (cell s.1 3).2 ∈ R.map (fun e => 1 - e.2) :=
        Multiset.mem_map_of_mem (fun e : Nat × Int => 1 - e.2) h
      rw [hR2, Multiset.mem_coe] at hw
      have hv : prioAt s.1 3 = (cell s.1 3).2 := rfl
      simp only [List.mem_cons, List.mem_singleton, List.not_mem_nil, or_false] at hw
      omega
  have hkeep := getPrio_top4 s.1 htop hp3
  have hc3 := contents_top3 (getPrio s.1).2 (by omega)
  rw [hkeep, hl, q2c, Multiset.singleton_add] at hc3
  have hq2 : contents (getPrio (getPrio s.1).2).2 = {(b, -(n : Int))} :=
    (Multiset.cons_inj_right _).mp hc3
  rw [e0]
  right
  left
  refine ⟨by simp only; omega, ?_⟩
  simp only
  rw [pc, hq2]
  simp

/-- The last step: node 510 becomes the parent of `b`. -/
theorem UInv_step3 (b n : Nat) (s : MergeState) (hm : MInv 256 s)
    (ho : HeapOrd s.1) (ht : 2 < s.1.top) (hi : s.2.2 = 510)
    (hb : (b, -(n : Int)) ∈ contents s.1) :
    UInv b n (mergeStep s) := by
  obtain ⟨m1, _, m3, _, m5, _, m7, _, m9, _, _, _⟩ := hm
  obtain ⟨e0, q1c, q2c, _, _, _, t2, _, _⟩ := merge_pops s m1 ht m1.2.1 ho
  have hz : contents (getPrio (getPrio s.1).2).2 = 0 := contents_eq_zero _ (by omega)
  rw [hz] at q2c
  have hlive : ∀ e ∈ contents s.1, e.1 < 512 := by
    intro e he
    have := m7 e.1 (Multiset.mem_map_of_mem Prod.fst he)
    omega
  have h1 : (cell s.1 1).1 < s.2.1.length := by
    have := hlive (cell s.1 1) (by rw [q1c]; exact Multiset.mem_cons_self _ _)
    omega
  have h2 : (cell (getPrio s.1).2 1).1 < s.2.1.length := by
    have := hlive (cell (getPrio s.1).2 1) (by
      rw [q1c, q2c]
      exact Multiset.mem_cons_of_mem (Multiset.mem_cons_self _ _))
    omega
  have hbb : b = (cell s.1 1).1 ∨ b = (cell (getPrio s.1).2 1).1 := by
    rw [q1c, q2c, Multiset.mem_cons, Multiset.mem_cons] at hb
    rcases hb with h | h | h
    · left
      exact congrArg Prod.fst h
    · right
      exact congrArg Prod.fst h
    · exact absurd h (Multiset.not_mem_zero _)
  rw [e0]
  right
  right
  refine ⟨by simp only; omega, ?_⟩
  simp only
  rw [getD_set_set _ _ _ _ _ h1 h2, if_pos hbb]
  exact hi

/-- The invariant is kept by every iteration of the merge loop. -/
theorem UInv_step (b n : Nat) (hn : 127 ≤ n) (s : MergeState) (hm : MInv 256 s)
    (ho : HeapOrd s.1) (ht : 2 < s.1.top) (hu : UInv b n s) : UInv b n (mergeStep s) := by
  rcases hu with ⟨h1, ⟨R, hR1, hR2⟩, h3⟩ | ⟨h1, h2⟩ | ⟨h1, _⟩
  · by_cases h9 : s.2.2 = 509
    · exact UInv_step2 b n hn s hm ho ht h9 R hR1 hR2 (h3 h9)
    · exact UInv_step1 b n hn s hm ho ht (by omega) R hR1 hR2
  · exact UInv_step3 b n s hm ho ht h1 h2
  · have := hm.2.2.1
    omega

theorem lengthFill_heapOrd (freq : List Int) (nbr : Nat) : HeapOrd (lengthFill freq nbr) :=
  (fill_spec (fun i => toInt32 (- freq.getD i 0)) (2 * nbr) nbr (by omega)).2.2.2.2

theorem UPack_mk (b n : Nat) (q : PriorityQueue) (parent : List Nat) (i : Nat)
    (h1 : MInv 256 (q, parent, i)) (h2 : HeapOrd q) (h3 : UInv b n (q, parent, i)) :
    MInv 256 (q, parent, i) ∧ HeapOrd (q, parent, i).1 ∧ UInv b n (q, parent, i) :=
  ⟨h1, h2, h3⟩

theorem UPack_step (b n : Nat) (hn : 127 ≤ n) (s : MergeState)
    (hs : MInv 256 s ∧ HeapOrd s.1 ∧ UInv b n s) (ht : 2 < s.1.top) :
    MInv 256 (mergeStep s) ∧ HeapOrd (mergeStep s).1 ∧ UInv b n (mergeStep s) := by
  obtain ⟨hm, ho, hu⟩ := hs
  refine ⟨(MInv_step 256 (by norm_num) s hm ht).1, ?_, UInv_step b n hn s hm ho ht hu⟩
  obtain ⟨c1, c2, p1, p2, q2, f1, _, _, _, _, _, f7⟩ := mergeStep_facts s hm.1 ht hm.1.2.1
  rw [f1]
  exact (f7 ho).1

/-- In a buffer of `n ≥ 127` bytes that are all equal to `b`, the code of `b` has
length 1. -/
theorem length_uniform_127 (buffer : List Nat) (b n : Nat) (hb : b < 256)
    (hu : ∀ i, i < n → buffer.getD i 0 = b) (hn : 127 ≤ n) (hN : n + 256 ≤ 2 ^ 31) :
    (generateLength (countFreq buffer n) 256).getD b 0 = 1 := by
  have h0 : MInv 256 (lengthFill (countFreq buffer n) 256, List.replicate (2 * 256) 0, 256) ∧
      HeapOrd (lengthFill (countFreq buffer n) 256, List.replicate (2 * 256) 0, 256).1 ∧
      UInv b n (lengthFill (countFreq buffer n) 256, List.replicate (2 * 256) 0, 256) :=
    UPack_mk b n _ _ _ (MInv_init (countFreq buffer n) 256 (by norm_num))
      (lengthFill_heapOrd (countFreq buffer n) 256) (UInv_init buffer b n hb hu hN)
  have h1 := mergeLoop_induct (fun s => MInv 256 s ∧ HeapOrd s.1 ∧ UInv b n s)
    (fun s hs ht => UPack_step b n hn s hs ht)
    (256 + 1) (lengthFill (countFreq buffer n) 256, List.replicate (2 * 256) 0, 256) h0
  obtain ⟨_, _, hi⟩ := mergeLoop_final (countFreq buffer n) 256 (by norm_num)
  obtain ⟨_, _, hU⟩ := h1
  simp only at hU
  have hp : (finalParent (countFreq buffer n) 256).getD b 0 = 510 := by
    unfold finalParent
    rcases hU with ⟨k1, _⟩ | ⟨k1, _⟩ | ⟨_, k2⟩
    · rw [hi] at k1
      omega
    · rw [hi] at k1
      omega
    · exact k2
  obtain ⟨d0, d1⟩ := finalDepth_spec (countFreq buffer n) 256 (by norm_num)
  rw [generateLength_getD _ 256 (by norm_num) b hb, d1 b (by omega), hp]
  have e : 2 * 256 - 2 = 510 := rfl
  rw [e] at d0
  rw [d0]
  rfl

end Comp


namespace Comp

/-! ## Claims on the bit stream layer -/

/-- C3. Bit I/O round trip: for every sequence of pairs `(v, w)` with `1 ≤ w ≤ 16` and
`v < 2 ^ w`, calling `putBits (v, w)` in order on a freshly initialised stream, then
`closeBits`, and then calling `getBits (w)` in the same order on a freshly initialised
stream over the bytes written, returns every `v`. -/
theorem C3_bit_io_round_trip (ps : List (Nat × Nat))
    (h : ∀ p ∈ ps, 1 ≤ p.2 ∧ p.2 ≤ 16 ∧ p.1 < 2 ^ p.2) :
    (getBitsSeq (ps.map (fun p => p.2))
        (initBits (closeBits (putBitsSeq ps (initBits []))).file)).1
      = ps.map (fun p => (p.1 : Int)) := by
  obtain ⟨pad, _, _, hb⟩ := closeBits_putBitsSeq ps (fun p hp => (h p hp).2.2)
  obtain ⟨str', hg, _, _⟩ := getBitsSeq_spec ps (initBits (closeBits (putBitsSeq ps (initBits []))).file)
    (List.replicate pad false) (RInv_initBits _) (fun p hp => (h p hp).2.2)
    (by rw [rbits_initBits, hb])
  rw [hg]

/-- Witness of C3: a 3-bit value, a 16-bit value that straddles three bytes and a
13-bit value are read back. -/
theorem C3_bit_io_round_trip_witness :
    (getBitsSeq [3, 16, 13]
        (initBits (closeBits (putBitsSeq [(5, 3), (43981, 16), (4660, 13)] (initBits []))).file)).1
      = [5, 43981, 4660] :=
  C3_bit_io_round_trip [(5, 3), (43981, 16), (4660, 13)] (by decide)

/-- C7. Bit packing is MSB-first with zero padding: for every sequence of pairs `(v, w)`
with `1 ≤ w ≤ 16` and `v < 2 ^ w`, `putBits` in order on a fresh stream followed by
`closeBits` emits exactly `ceil ((sum of the w) / 8)` bytes, namely the concatenation of
the `w`-bit big-endian representations of the `v`, cut into bytes most significant bit
first, the unused low bits of the last byte being zero. -/
theorem C7_bit_packing_msb_first (ps : List (Nat × Nat))
    (h : ∀ p ∈ ps, 1 ≤ p.2 ∧ p.2 ≤ 16 ∧ p.1 < 2 ^ p.2) :
    (closeBits (putBitsSeq ps (initBits []))).file = packBits (seqBits ps) ∧
    (closeBits (putBitsSeq ps (initBits []))).file.length
      = ((ps.map (fun p => p.2)).sum + 7) / 8 := by
  obtain ⟨pad, hpad, hbytes, hb⟩ := closeBits_putBitsSeq ps (fun p hp => (h p hp).2.2)
  refine ⟨eq_packBits _ _ pad hbytes hpad hb, ?_⟩
  rw [packBits_length _ _ pad hpad hb, seqBits_length]

/-- Witness of C7: `(1,1)`, `(1,2)`, `(2,2)` then `closeBits` emits the single byte `0xB0`. -/
theorem C7_bit_packing_msb_first_witness :
    (closeBits (putBitsSeq [(1, 1), (1, 2), (2, 2)] (initBits []))).file = [0xB0] ∧
    (closeBits (putBitsSeq [(1, 1), (1, 2), (2, 2)] (initBits []))).file.length = 1 := by
  have h := C7_bit_packing_msb_first [(1, 1), (1, 2), (2, 2)] (by decide)
  refine ⟨?_, ?_⟩
  · rw [h.1]; decide
  · rw [h.2]; decide

end Comp


namespace Comp

/-! ## Claims on code lengths and prefix codes -/

/-- C4. Prefix property: for every frequency vector `freq[0..256)`, with
`length = generateLength (freq)` and `table = generatePrefix (length)`, for every two
distinct symbols `s` and `t` with `length[s] > 0` and `length[t] > 0`, the
`length[s]`-bit codeword `table[s]` is not a prefix of the `length[t]`-bit codeword
`table[t]`.  The array `table` is not initialised by the caller, so the statement is
made for every initial content of it.  It holds for every vector `freq`, also where the
sums of priorities in `generateLength` leave the range of an `int` and wrap around. -/
theorem C4_prefix_property (freq : List Int) (table : List Nat) (s t : Nat)
    (htab : table.length = 256) (hs : s < 256) (ht : t < 256) (hst : s ≠ t)
    (hls : 0 < (generateLength freq 256).getD s 0)
    (hlt : 0 < (generateLength freq 256).getD t 0) :
    ¬ codeword (generatePrefix table (generateLength freq 256) 256) (generateLength freq 256) s
      <+: codeword (generatePrefix table (generateLength freq 256) 256) (generateLength freq 256) t :=
  have _ := hls
  have _ := hlt
  code_prefix_free freq table 256 (by decide) symbols_fit (by omega) s t hs ht hst

/-- Witness of C4: the codewords of symbols 0 and 1 for the all-zero frequency vector. -/
theorem C4_prefix_property_witness :
    ¬ codeword (generatePrefix (List.replicate 256 0)
          (generateLength (List.replicate 256 0) 256) 256)
          (generateLength (List.replicate 256 0) 256) 0
      <+: codeword (generatePrefix (List.replicate 256 0)
          (generateLength (List.replicate 256 0) 256) 256)
          (generateLength (List.replicate 256 0) 256) 1 :=
  C4_prefix_property (List.replicate 256 0) (List.replicate 256 0) 0 1
    (List.length_replicate 256 0) (by decide) (by decide) (by decide)
    (generateLength_pos _ 256 (by decide) 0 (by decide))
    (generateLength_pos _ 256 (by decide) 1 (by decide))

/-- C8, counterexample. For the all-zero frequency vector, symbol 0 has frequency 0 and
`generateLength` does not give it length 0. -/
theorem C8_zero_frequency_counterexample :
    (List.replicate 256 (0 : Int)).getD 0 0 = 0 ∧
    (generateLength (List.replicate 256 0) 256).getD 0 0 ≠ 0 := by
  refine ⟨by decide, ?_⟩
  have := generateLength_pos (List.replicate 256 0) 256 (by decide) 0 (by decide)
  omega

/-- C8, amended. A zero-frequency symbol takes part in the tree like every other symbol:
for every frequency vector `freq[0..256)` and every symbol `s` with `freq[s] = 0`,
`generateLength (freq)` sets `length[s] ≥ 1`, also where the sums of priorities in
`generateLength` leave the range of an `int` and wrap around. -/
theorem C8_zero_frequency_amended (freq : List Int) (s : Nat)
    (hs : s < 256) (hz : freq.getD s 0 = 0) :
    1 ≤ (generateLength freq 256).getD s 0 :=
  have _ := hz
  generateLength_pos freq 256 (by decide) s hs

/-- Witness of the amended C8: symbol 7 of the all-zero frequency vector. -/
theorem C8_zero_frequency_amended_witness :
    1 ≤ (generateLength (List.replicate 256 0) 256).getD 7 0 :=
  C8_zero_frequency_amended (List.replicate 256 0) 7 (by decide) (by decide)

end Comp


namespace Comp

/-! ## Claim on the code-length limit -/

/-- C5. Code-length limit: for every buffer of at most 4096 bytes, every entry of the
length vector that `generateLength` computes from the byte frequencies of the buffer (256
symbols) is at most 15 (and at least 1), so that each length fits the 4-bit field of the
header that `writeHBuffer` writes: it is below `2 ^ 4`. -/
theorem C5_code_length_limit (buffer : List Nat) (n : Nat)
    (hb : ∀ i, i < n → buffer.getD i 0 < 256) (hn : n ≤ 4096) (c : Nat) (hc : c < 256) :
    1 ≤ (generateLength (countFreq buffer n) 256).getD c 0 ∧
    (generateLength (countFreq buffer n) 256).getD c 0 ≤ 15 ∧
    lenOf (generateLength (countFreq buffer n) 256) c < 2 ^ 4 := by
  have h1 := generateLength_pos (countFreq buffer n) 256 (by norm_num) c hc
  have h2 := length_le_15 buffer n hb hn c hc
  refine ⟨h1, h2, ?_⟩
  unfold lenOf
  omega

/-- Witness of C5: the symbol `0x41` in the buffer of the single byte `0x41`. -/
theorem C5_code_length_limit_witness :
    1 ≤ (generateLength (countFreq [0x41] 1) 256).getD 0x41 0 ∧
    (generateLength (countFreq [0x41] 1) 256).getD 0x41 0 ≤ 15 ∧
    lenOf (generateLength (countFreq [0x41] 1) 256) 0x41 < 2 ^ 4 :=
  C5_code_length_limit [0x41] 1
    (fun i hi => by
      obtain rfl : i = 0 := by omega
      decide)
    (by norm_num) 0x41 (by norm_num)

end Comp


namespace Comp

/-! ## Claims on the layout of a block -/

/-- C6. Block layout: for every buffer `B` of `N` bytes (`1 ≤ N ≤ 4096`) whose computed
lengths are all `≤ 15`, the bytes that `writeHBuffer` appends to the file are: `N` as two
bytes big-endian; then 128 header bytes where byte `k` has `length[2k]` in its high nibble
and `length[2k+1]` in its low nibble; then the concatenation of the codes `code[B[i]]`
(each `length[B[i]]` bits, most significant bit first) packed most significant bit first
into bytes with the last byte zero-filled; so the block is exactly
`130 + ceil ((sum over i of length[B[i]]) / 8)` bytes long. -/
theorem C6_block_layout (file B : List Nat) (hB : ∀ b ∈ B, b < 256)
    (hN : 1 ≤ B.length ∧ B.length ≤ 4096)
    (hlen : ∀ c, c < 256 → (generateLength (countFreq B B.length) 256).getD c 0 ≤ 15) :
    writeHBuffer file B B.length
      = file ++ ([B.length / 256, B.length % 256]
          ++ headerBytes (generateLength (countFreq B B.length) 256)
          ++ packBits (seqBits (payloadSeq
              (generatePrefix (List.replicate 256 0)
                (generateLength (countFreq B B.length) 256) 256)
              (generateLength (countFreq B B.length) 256) B))) ∧
    (writeHBuffer file B B.length).length
      = file.length + (130 + ((B.map (lenOf (generateLength (countFreq B B.length) 256))).sum + 7) / 8) := by
  have h := writeHBuffer_layout file B hB (by omega) hlen
  refine ⟨h, ?_⟩
  rw [h, List.length_append, List.length_append, List.length_append, headerBytes_length,
    packBits_len, seqBits_length]
  unfold payloadSeq
  rw [List.map_map]
  rfl

/-- Witness of C6: the block of the one-byte buffer `[0x41]`. -/
theorem C6_block_layout_witness :
    writeHBuffer [] [0x41] [0x41].length
      = [] ++ ([[0x41].length / 256, [0x41].length % 256]
          ++ headerBytes (generateLength (countFreq [0x41] [0x41].length) 256)
          ++ packBits (seqBits (payloadSeq
              (generatePrefix (List.replicate 256 0)
                (generateLength (countFreq [0x41] [0x41].length) 256) 256)
              (generateLength (countFreq [0x41] [0x41].length) 256) [0x41]))) ∧
    (writeHBuffer [] [0x41] [0x41].length).length
      = ([] : List Nat).length + (130 + (([0x41].map
          (lenOf (generateLength (countFreq [0x41] [0x41].length) 256))).sum + 7) / 8) :=
  C6_block_layout [] [0x41] (by decide) (by decide)
    (fun c hc => length_le_15_of_small [0x41] [0x41].length (by
      intro i hi
      have hi1 : i < 1 := hi
      have : i = 0 := by omega
      subst this
      decide) (by decide) c hc)

end Comp


namespace Comp

/-! ## Claims on single-symbol blocks -/

/-- C9, counterexample. The one-byte buffer `[0x41]` is a non-empty buffer of at most
4096 bytes whose bytes are all `0x41`, and `generateLength` on its frequency vector does
not give `length[0x41] = 1`. -/
theorem C9_single_symbol_counterexample :
    (1 ≤ [0x41].length ∧ [0x41].length ≤ 4096 ∧ ∀ x ∈ [0x41], x = 0x41) ∧
    (generateLength (countFreq [0x41] 1) 256).getD 0x41 0 ≠ 1 :=
  ⟨⟨by decide, by decide, by simp⟩,
    length_uniform_light [0x41] 0x41 1 (by decide)
      (fun i hi => getD_replicate_lt 1 0x41 i hi) (by decide)⟩

/-- C9, amended. Single-symbol block: for every non-empty buffer of `n ≤ 4096` bytes that
are all equal to the same value `b`, `generateLength` on the frequency vector of the
buffer gives `length[b] = 1` when `n ≥ 127`, and `length[b] ≥ 2` when `n ≤ 126`. -/
theorem C9_single_symbol_amended (b n : Nat) (hb : b < 256) (hn : 1 ≤ n ∧ n ≤ 4096) :
    (127 ≤ n → (generateLength (countFreq (List.replicate n b) n) 256).getD b 0 = 1) ∧
    (n ≤ 126 → 2 ≤ (generateLength (countFreq (List.replicate n b) n) 256).getD b 0) := by
  constructor
  · intro h
    exact length_uniform_127 (List.replicate n b) b n hb
      (fun i hi => getD_replicate_lt n b i hi) h (by omega)
  · intro h
    have h1 := generateLength_pos (countFreq (List.replicate n b) n) 256 (by norm_num) b hb
    have h2 := length_uniform_light (List.replicate n b) b n hb
      (fun i hi => getD_replicate_lt n b i hi) h
    omega

/-- Witness of the amended C9: 127 bytes `0x41`. -/
theorem C9_single_symbol_amended_witness :
    (127 ≤ 127 →
      (generateLength (countFreq (List.replicate 127 0x41) 127) 256).getD 0x41 0 = 1) ∧
    (127 ≤ 126 →
      2 ≤ (generateLength (countFreq (List.replicate 127 0x41) 127) 256).getD 0x41 0) :=
  C9_single_symbol_amended 0x41 127 (by decide) (by decide)

end Comp


namespace Comp

/-! ## Claims on the uniform block -/

theorem uniform_4096 :
    writeHBuffer [] (List.replicate 4096 0x41) 4096
      = [0x10, 0x00]
          ++ headerBytes (generateLength (countFreq (List.replicate 4096 0x41) 4096) 256)
          ++ List.replicate 512 0xFF := by
  have h := writeHBuffer_uniform [] 0x41 512 (by norm_num) (by norm_num) (by norm_num)
  have e : 8 * 512 = 4096 := rfl
  rw [e] at h
  rw [h]
  rfl

theorem codeword_4096 :
    codeword (generatePrefix (List.replicate 256 0)
        (generateLength (countFreq (List.replicate 4096 0x41) 4096) 256) 256)
      (generateLength (countFreq (List.replicate 4096 0x41) 4096) 256) 0x41 = [true] := by
  have hu : ∀ i, i < 4096 → (List.replicate 4096 0x41).getD i 0 = 0x41 :=
    fun i hi => getD_replicate_lt 4096 0x41 i hi
  have hB : (0x41 : Nat) < 256 := by norm_num
  have hn : 255 ≤ 4096 := by norm_num
  unfold codeword lenOf
  have hN : 4096 + 256 ≤ 2 ^ 31 := by norm_num
  rw [code_uniform (List.replicate 256 0) (List.replicate 4096 0x41) 0x41 4096 hB hu hn hN
      (le_of_eq (List.length_replicate 256 0).symm),
    length_uniform_heavy (List.replicate 4096 0x41) 0x41 4096 hB hu hn hN]
  rfl

/-- C10, counterexample. For the buffer of 4096 bytes `0x41`, the payload that
`writeHBuffer` emits behind the 130 bytes of size prefix and header is not 512 bytes
`0x00`, and the code assigned to `0x41` is not the single bit 0. -/
theorem C10_uniform_block_counterexample :
    (writeHBuffer [] (List.replicate 4096 0x41) 4096).drop 130 ≠ List.replicate 512 0x00 ∧
    codeword (generatePrefix (List.replicate 256 0)
        (generateLength (countFreq (List.replicate 4096 0x41) 4096) 256) 256)
      (generateLength (countFreq (List.replicate 4096 0x41) 4096) 256) 0x41 ≠ [false] := by
  constructor
  · rw [uniform_4096, List.drop_append_of_le_length (by
      rw [List.length_append, headerBytes_length]
      decide)]
    rw [List.drop_of_length_le (by
      rw [List.length_append, headerBytes_length]
      decide), List.nil_append]
    intro h
    have h1 := congrArg (fun l => l.getD 0 0) h
    simp only at h1
    rw [getD_replicate_lt 512 255 0 (by norm_num), getD_replicate_lt 512 0 0 (by norm_num)] at h1
    omega
  · rw [codeword_4096]
    decide

/-- C10, amended. Uniform block scenario: for the buffer of 4096 bytes all equal to
`0x41`, `writeHBuffer` emits the size prefix `0x10 0x00`, the 128 header bytes of the
computed lengths, in which `length[0x41] = 1` and every one of the 255 other symbols has
a length from 2 to 12, and a payload of 4096 bits that are all 1 (512 bytes `0xFF`),
that is the code assigned to `0x41` is the single bit 1; the block is 642 bytes long. -/
theorem C10_uniform_block_amended :
    writeHBuffer [] (List.replicate 4096 0x41) 4096
      = [0x10, 0x00]
          ++ headerBytes (generateLength (countFreq (List.replicate 4096 0x41) 4096) 256)
          ++ List.replicate 512 0xFF ∧
    (generateLength (countFreq (List.replicate 4096 0x41) 4096) 256).getD 0x41 0 = 1 ∧
    (∀ c, c < 256 → c ≠ 0x41 →
      2 ≤ (generateLength (countFreq (List.replicate 4096 0x41) 4096) 256).getD c 0 ∧
      (generateLength (countFreq (List.replicate 4096 0x41) 4096) 256).getD c 0 ≤ 12) ∧
    codeword (generatePrefix (List.replicate 256 0)
        (generateLength (countFreq (List.replicate 4096 0x41) 4096) 256) 256)
      (generateLength (countFreq (List.replicate 4096 0x41) 4096) 256) 0x41 = [true] ∧
    (writeHBuffer [] (List.replicate 4096 0x41) 4096).length = 642 := by
  refine ⟨uniform_4096, ?_, ?_, codeword_4096, ?_⟩
  · exact length_uniform_heavy (List.replicate 4096 0x41) 0x41 4096 (by norm_num)
      (fun i hi => getD_replicate_lt 4096 0x41 i hi) (by norm_num) (by norm_num)
  · intro c hc hne
    exact length_uniform (List.replicate 4096 0x41) 0x41 4096 (by norm_num)
      (fun i hi => getD_replicate_lt 4096 0x41 i hi) (by norm_num) (by norm_num) c hc hne
  · rw [uniform_4096, List.length_append, List.length_append, headerBytes_length,
      List.length_replicate]
    rfl

end Comp


namespace Comp

/-! ## The uniform block cut off after the first byte of its payload -/

theorem uniform_le_15 (c : Nat) (hc : c < 256) :
    (generateLength (countFreq (List.replicate 4096 0x41) 4096) 256).getD c 0 ≤ 15 := by
  have hu : ∀ i, i < 4096 → (List.replicate 4096 0x41).getD i 0 = 0x41 :=
    fun i hi => getD_replicate_lt 4096 0x41 i hi
  by_cases hcb : c = 0x41
  · rw [hcb, length_uniform_heavy (List.replicate 4096 0x41) 0x41 4096 (by norm_num) hu
      (by norm_num) (by norm_num)]
    norm_num
  · have := (length_uniform (List.replicate 4096 0x41) 0x41 4096 (by norm_num) hu (by norm_num)
      (by norm_num) c hc hcb).2
    omega

theorem truncated_file :
    uniformBlock.take 131
      = [4096 / 256, 4096 % 256] ++ headerBytes (generateLength (countFreq (List.replicate 4096 0x41) 4096) 256) ++ [0xFF] := by
  unfold uniformBlock
  rw [uniform_4096, List.take_append_eq_append_take, List.take_of_length_le (by
    rw [List.length_append, headerBytes_length]
    decide)]
  have e1 : 131 - ([0x10, 0x00] ++ headerBytes (generateLength (countFreq (List.replicate 4096 0x41) 4096) 256)).length = 1 := by
    rw [List.length_append, headerBytes_length]
    rfl
  have e2 : List.replicate 512 0xFF = 0xFF :: List.replicate 511 0xFF := List.replicate_succ _ _
  have e3 : [4096 / 256, 4096 % 256] = [0x10, 0x00] := by decide
  rw [e1, e2, e3, List.take_succ_cons, List.take_zero]

theorem initHufInput_file (str : HInStream) (f : List Nat) : (initHufInput str f).bs.file = f :=
  rfl

theorem initHufInput_curChar (str : HInStream) (f : List Nat) :
    (initHufInput str f).bs.curChar = 0 :=
  rfl

theorem initHufInput_nBit (str : HInStream) (f : List Nat) : (initHufInput str f).bs.nBit = 0 :=
  rfl

theorem initHufInput_nbr (str : HInStream) (f : List Nat) : (initHufInput str f).nbr = 0 :=
  rfl

theorem initHufInput_decode (str : HInStream) (f : List Nat) :
    (initHufInput str f).decode = str.decode :=
  rfl

theorem mk_decode (a : BitStream) (b : List HDecodeNode) (c : Int) :
    (HInStream.mk a b c).decode = b :=
  rfl

theorem truncated_bits :
    bytesBits truncatedReader.bs.file
      = seqBits ((4096, 16) :: (List.range 256).map (fun i => (lenOf (generateLength (countFreq (List.replicate 4096 0x41) 4096) 256) i, 4)))
        ++ (((List.replicate 8 0x41).map (codeword
            (generatePrefix (List.replicate 256 0)
              (generateLength (countFreq (List.replicate 4096 0x41) 4096) 256) 256)
            (generateLength (countFreq (List.replicate 4096 0x41) 4096) 256))).flatten ++ []) := by
  have hL : ∀ c, c < 256 → lenOf (generateLength (countFreq (List.replicate 4096 0x41) 4096) 256) c ≤ 15 := by
    intro c hc
    have := uniform_le_15 c hc
    unfold lenOf
    omega
  have e : ((List.replicate 8 0x41).map (codeword
      (generatePrefix (List.replicate 256 0)
        (generateLength (countFreq (List.replicate 4096 0x41) 4096) 256) 256)
      (generateLength (countFreq (List.replicate 4096 0x41) 4096) 256))).flatten
      = ((List.replicate 8 0x41).map (fun _ => [true])).flatten := by
    exact congrArg List.flatten (List.map_congr_left (fun a ha => by
      rw [List.eq_of_mem_replicate ha]
      exact codeword_4096))
  have e4 : bytesBits [0xFF] = ((List.replicate 8 0x41).map (codeword
      (generatePrefix (List.replicate 256 0)
        (generateLength (countFreq (List.replicate 4096 0x41) 4096) 256) 256)
      (generateLength (countFreq (List.replicate 4096 0x41) 4096) 256))).flatten ++ [] := by
    rw [List.append_nil, e]
    decide
  unfold truncatedReader
  rw [initHufInput_file, truncated_file, bytesBits_append, ← e4]
  exact congrArg (fun l => l ++ bytesBits [0xFF]) (header_bits (generateLength (countFreq (List.replicate 4096 0x41) 4096) 256) 4096 (by norm_num) hL)

/-- The eight calls of `getHufInput` that the payload byte of the truncated uniform block
serves. -/
theorem truncated_calls :
    (getHufInputSeq 8 truncatedReader).1 = List.replicate 8 (0x41 : Int) ∧
    (getHufInputSeq 8 truncatedReader).2.nbr = 4088 ∧
    (getHufInputSeq 8 truncatedReader).2.decode = (buildDecodeTable (List.replicate 256 ⟨0, 0⟩)
        (generatePrefix (List.replicate 256 0)
          (generateLength (countFreq (List.replicate 4096 0x41) 4096) 256) 256)
        (generateLength (countFreq (List.replicate 4096 0x41) 4096) 256) 256) ∧
    rbits (getHufInputSeq 8 truncatedReader).2.bs = [] := by
  have h2 : 2 ≤ 256 := by norm_num
  have htab : 256 ≤ (List.replicate 256 (0 : Nat)).length := by rw [List.length_replicate]
  have hdec : 256 ≤ (List.replicate 256 (⟨0, 0⟩ : HDecodeNode)).length := by
    rw [List.length_replicate]
  have hnbr : truncatedReader.nbr = 0 := by
    unfold truncatedReader
    exact initHufInput_nbr _ _
  have hcur : 0 ≤ truncatedReader.bs.curChar := by
    unfold truncatedReader
    rw [initHufInput_curChar]
  have hdeco : truncatedReader.decode = List.replicate 256 ⟨0, 0⟩ := by
    unfold truncatedReader
    exact initHufInput_decode _ _
  obtain ⟨bsH, e1, r1, r2, _, _⟩ := getHufInput_header truncatedReader
    (generateLength (countFreq (List.replicate 4096 0x41) 4096) 256) 4096 _ hnbr hcur (by norm_num) (by norm_num)
    (generateLength_length _ _)
    (fun c hc => ⟨by have := generateLength_pos (countFreq (List.replicate 4096 0x41) 4096) 256 h2 c hc; omega, uniform_le_15 c hc⟩)
    truncated_bits
  rw [hdeco] at e1
  obtain ⟨_, _, _, t4⟩ := decodeTree_spec (countFreq (List.replicate 4096 0x41) 4096) (List.replicate 256 0)
    (List.replicate 256 ⟨0, 0⟩) 256 h2 symbols_fit htab hdec
  have e2 := getHufInputSeq_congr 7 _ _ e1
  obtain ⟨i1, i2, i3, i4, i5, _, _⟩ := getHufInputSeq_symbols (codeword
      (generatePrefix (List.replicate 256 0)
        (generateLength (countFreq (List.replicate 4096 0x41) 4096) 256) 256)
      (generateLength (countFreq (List.replicate 4096 0x41) 4096) 256)) (buildDecodeTable (List.replicate 256 ⟨0, 0⟩)
      (generatePrefix (List.replicate 256 0)
        (generateLength (countFreq (List.replicate 4096 0x41) 4096) 256) 256)
      (generateLength (countFreq (List.replicate 4096 0x41) 4096) 256) 256)
    (fun s hs => ⟨walkInside_mono _ _ _ (by norm_num) _ _ (t4 s hs).2, (t4 s hs).1, by
      unfold codeword
      rw [bitsOf_length]
      have := uniform_le_15 s hs
      unfold lenOf
      omega⟩)
    (List.replicate 8 0x41) (HInStream.mk bsH (buildDecodeTable (List.replicate 256 ⟨0, 0⟩)
        (generatePrefix (List.replicate 256 0)
          (generateLength (countFreq (List.replicate 4096 0x41) 4096) 256) 256)
        (generateLength (countFreq (List.replicate 4096 0x41) 4096) 256) 256) ((4096 : Nat) : Int)) []
    (fun b hb => by rw [List.eq_of_mem_replicate hb]; norm_num) (mk_decode _ _ _)
    (by rw [List.length_replicate]; norm_num) r1 r2
  rw [List.length_replicate] at i1 i2 i3 i5
  rw [e2]
  refine ⟨?_, ?_, i3, i5⟩
  · rw [i1]
    decide
  · rw [i2]
    norm_num

end Comp


namespace Comp

/-! ## The archive -/

/-- A file may be added at the end of an archive. -/
theorem archive_snoc (name content E : List Nat) (hE : Blocks E content) :
    ∀ (A : List Nat) (files : List (List Nat × List Nat)), Archive A files →
    Archive (A ++ name.length :: (name ++ (E ++ [0, 0]))) (files ++ [(name, content)]) := by
  intro A files hA
  induction hA with
  | nil => exact Archive.cons name content E [] [] hE Archive.nil
  | cons name' content' E' A' files' hE' _ ih =>
    have := Archive.cons name' content' E' _ _ hE' ih
    rw [List.cons_append, List.append_assoc, List.append_assoc]
    exact this

/-- The rounds of the compress branch add the files to the archive. -/
theorem compress_fold : ∀ (files2 : List (List Nat × List Nat)) (m A1 : List Nat)
    (files1 : List (List Nat × List Nat)), Archive A1 files1 →
    (∀ p ∈ files2, p.1.length ≤ 255 ∧ ∀ c ∈ p.1, c < 256) →
    (∀ p ∈ files2, ∀ b ∈ p.2, b < 256) →
    ∃ A, Archive A (files1 ++ files2) ∧
      files2.foldl (fun (f : List Nat) (p : List Nat × List Nat) => compressFile f p.1 p.2)
        (m ++ A1) = m ++ A := by
  intro files2
  induction files2 with
  | nil =>
    intro m A1 files1 hA _ _
    exact ⟨A1, by rw [List.append_nil]; exact hA, rfl⟩
  | cons p files2 ih =>
    intro m A1 files1 hA hn hb
    obtain ⟨hn1, hn2⟩ := hn p (List.mem_cons_self _ _)
    obtain ⟨E, hE, hc⟩ := compressFile_spec (m ++ A1) p.1 p.2 hn2 hn1
      (hb p (List.mem_cons_self _ _))
    obtain ⟨A, hA2, hf⟩ := ih m (A1 ++ p.1.length :: (p.1 ++ (E ++ [0, 0]))) (files1 ++ [p])
      (archive_snoc p.1 p.2 E hE A1 files1 hA)
      (fun q hq => hn q (List.mem_cons_of_mem _ hq))
      (fun q hq => hb q (List.mem_cons_of_mem _ hq))
    refine ⟨A, ?_, ?_⟩
    · rw [List.append_assoc] at hA2
      exact hA2
    · rw [List.foldl_cons, hc, List.append_assoc]
      exact hf

/-- The archive that the compress branch of `main` writes. -/
theorem compressMain_spec (files : List (List Nat × List Nat))
    (hn : ∀ p ∈ files, p.1.length ≤ 255 ∧ ∀ c ∈ p.1, c < 256)
    (hb : ∀ p ∈ files, ∀ b ∈ p.2, b < 256) :
    ∃ A, Archive A files ∧ compressMain files = 0x5C :: 0x2F :: A := by
  obtain ⟨A, hA, hf⟩ := compress_fold files [0x5C, 0x2F] [] [] Archive.nil hn hb
  refine ⟨A, by rw [List.nil_append] at hA; exact hA, ?_⟩
  unfold compressMain
  have e : putc 0x2F (putc 0x5C []) = [0x5C, 0x2F] ++ [] := by decide
  rw [e, hf]
  rfl

theorem readName_append (name : List Nat) (hn : ∀ c ∈ name, c < 256) : ∀ rest : List Nat,
    readName name.length (name ++ rest) = (name, rest) := by
  induction name with
  | nil => intro rest; rfl
  | cons c name ih =>
    intro rest
    have hc := hn c (List.mem_cons_self _ _)
    have e : ((c : Int) % 256).toNat = c := by omega
    rw [List.length_cons, List.cons_append, readName]
    show ((((c : Int) % 256).toNat) :: (readName name.length (name ++ rest)).1,
      (readName name.length (name ++ rest)).2) = (c :: name, rest)
    rw [ih (fun x hx => hn x (List.mem_cons_of_mem _ hx)) rest, e]

/-- The outer loop of the extract branch on an archive: it delivers the files. -/
theorem extractFiles_spec (A : List Nat) (files : List (List Nat × List Nat))
    (hA : Archive A files) :
    ∀ (hin : HInStream) (done : List (List Nat × List Nat)) (f1 f2 : Nat),
    256 ≤ hin.decode.length →
    (∀ p ∈ files, 1 ≤ p.1.length ∧ p.1.length ≤ 255 ∧ ∀ c ∈ p.1, c ≠ 0 ∧ c < 256) →
    files.length < f1 → (∀ p ∈ files, p.2.length < f2) →
    extractFiles f1 f2 hin A done = some (done ++ files) := by
  induction hA with
  | nil =>
    intro hin done f1 f2 _ _ hf1 _
    obtain ⟨f, rfl⟩ : ∃ f, f1 = f + 1 := ⟨f1 - 1, by rw [List.length_nil] at hf1; omega⟩
    have hle : (getc ([] : List Nat)).1 ≤ 0 := by
      show (-1 : Int) ≤ 0
      decide
    rw [extractFiles, if_pos hle, List.append_nil]
  | cons name content E A files hE _ ih =>
    intro hin done f1 f2 hd hn hf1 hf2
    obtain ⟨f, rfl⟩ : ∃ f, f1 = f + 1 := ⟨f1 - 1, by rw [List.length_cons] at hf1; omega⟩
    obtain ⟨n1, n2, n3⟩ := hn (name, content) (List.mem_cons_self _ _)
    have hg : getc (name.length :: (name ++ (E ++ 0 :: 0 :: A)))
        = ((name.length : Int), name ++ (E ++ 0 :: 0 :: A)) := rfl
    have hnot : ¬ ((name.length : Int), name ++ (E ++ 0 :: 0 :: A)).1 ≤ 0 := by
      show ¬ (name.length : Int) ≤ 0
      have : 1 ≤ name.length := n1
      omega
    have hrn := readName_append name (fun c hc => (n3 c hc).2) (E ++ 0 :: 0 :: A)
    have hcs : cString name = name := by
      unfold cString
      rw [List.takeWhile_eq_self_iff]
      intro c hc
      have := (n3 c hc).1
      simpa using this
    obtain ⟨str', e1, e2, e3⟩ := extract_blocks E content hE
      (initHufInput hin (E ++ 0 :: 0 :: A)) A [] f2 (initHufInput_nbr _ _)
      (by rw [initHufInput_curChar]) (by rw [initHufInput_decode]; exact hd)
      (initHufInput_file _ _) (hf2 (name, content) (List.mem_cons_self _ _))
    rw [List.nil_append] at e1
    have hrec := ih str' (done ++ [(name, content)]) f f2 e3
      (fun p hp => hn p (List.mem_cons_of_mem _ hp))
      (by rw [List.length_cons] at hf1; omega)
      (fun p hp => hf2 p (List.mem_cons_of_mem _ hp))
    rw [extractFiles, hg, if_neg hnot]
    simp only [Int.toNat_ofNat, hrn, e1, hcs, e2]
    rw [hrec, List.append_assoc]
    rfl

end Comp


namespace Comp

/-! ## Claim on the round trip of a block -/

/-- C1. Block round trip: for every byte sequence `B` with `1 ≤ |B| ≤ 4096`, a decoder
opened with `initHufInput` on the bytes that `writeHBuffer` emits for `B`, followed by
the terminator `00 00` (and by any further bytes), delivers exactly the bytes of `B`, in
order, in `|B|` calls of `getHufInput`, and the next call returns `EOF` (`-1`).  The
array `decode` of the decoder may hold anything before. -/
theorem C1_block_round_trip (B tail : List Nat) (str0 : HInStream)
    (hB : ∀ b ∈ B, b < 256) (h1 : 1 ≤ B.length) (h2 : B.length ≤ 4096)
    (hdec : str0.decode.length = 256) :
    (getHufInputSeq B.length
      (initHufInput str0 (writeHBuffer [] B B.length ++ 0 :: 0 :: tail))).1
      = B.map (fun (b : Nat) => (b : Int)) ∧
    (getHufInput (getHufInputSeq B.length
      (initHufInput str0 (writeHBuffer [] B B.length ++ 0 :: 0 :: tail))).2).1 = -1 := by
  obtain ⟨r1, r2, r3, r4, _⟩ := block_round_trip
    (initHufInput str0 (writeHBuffer [] B B.length ++ 0 :: 0 :: tail)) B (0 :: 0 :: tail)
    hB h1 h2 (initHufInput_nbr _ _) (by rw [initHufInput_curChar])
    (by rw [initHufInput_decode, hdec]) (initHufInput_file _ _)
  exact ⟨r1, (getHufInput_terminator _ tail r2 r4 r3).1⟩

/-- Witness of C1: the block of the single byte `0x41`. -/
theorem C1_block_round_trip_witness :
    (getHufInputSeq [0x41].length
      (initHufInput ⟨initBits [], List.replicate 256 ⟨0, 0⟩, 0⟩
        (writeHBuffer [] [0x41] [0x41].length ++ 0 :: 0 :: []))).1
      = [0x41].map (fun (b : Nat) => (b : Int)) ∧
    (getHufInput (getHufInputSeq [0x41].length
      (initHufInput ⟨initBits [], List.replicate 256 ⟨0, 0⟩, 0⟩
        (writeHBuffer [] [0x41] [0x41].length ++ 0 :: 0 :: []))).2).1 = -1 :=
  C1_block_round_trip [0x41] [] ⟨initBits [], List.replicate 256 ⟨0, 0⟩, 0⟩
    (fun b hb => by
      rw [List.mem_singleton] at hb
      rw [hb]
      norm_num)
    (le_refl 1) (by norm_num) (List.length_replicate 256 _)

end Comp


namespace Comp

/-! ## Claim on the round trip of an archive -/

/-- C2. Archive round trip: for every list of files whose names are 1 to 255 bytes long
without a NUL byte and whose contents are any sequences of bytes, the extract branch of
`main`, run on the byte stream that the compress branch of `main` writes for the list,
ends and delivers exactly the same sequence of pairs of a name and the bytes of the
file.  The decoder of the extract branch may hold anything in its array `decode` at the
start; the two loops of the extract branch end within `f1` rounds and `f2` calls of
`getHufInput` a file, for every `f1` above the number of files and every `f2` above the
lengths of the files. -/
theorem C2_archive_round_trip (files : List (List Nat × List Nat)) (hin : HInStream)
    (f1 f2 : Nat)
    (hnames : ∀ p ∈ files, 1 ≤ p.1.length ∧ p.1.length ≤ 255 ∧ ∀ c ∈ p.1, c ≠ 0 ∧ c < 256)
    (hbytes : ∀ p ∈ files, ∀ b ∈ p.2, b < 256)
    (hdec : hin.decode.length = 256)
    (hf1 : files.length < f1) (hf2 : ∀ p ∈ files, p.2.length < f2) :
    extractMain f1 f2 hin (compressMain files) = some files := by
  obtain ⟨A, hA, hc⟩ := compressMain_spec files
    (fun p hp => ⟨(hnames p hp).2.1, fun c hc => ((hnames p hp).2.2 c hc).2⟩) hbytes
  have h := extractFiles_spec A files hA hin [] f1 f2 (le_of_eq hdec.symm) hnames hf1 hf2
  rw [List.nil_append] at h
  rw [hc]
  unfold extractMain
  have g1 : (getc (0x5C :: 0x2F :: A)) = ((0x5C : Int), 0x2F :: A) := rfl
  have g2 : (getc (0x2F :: A)) = ((0x2F : Int), A) := rfl
  rw [g1]
  simp only [g2]
  rw [if_neg (fun hne => hne rfl), if_neg (fun hne => hne rfl)]
  exact h

/-- Witness of C2: the archive of one file, of name `a`, that holds the byte `0x41`. -/
theorem C2_archive_round_trip_witness :
    extractMain 2 2 ⟨initBits [], List.replicate 256 ⟨0, 0⟩, 0⟩
      (compressMain [([0x61], [0x41])]) = some [([0x61], [0x41])] :=
  C2_archive_round_trip [([0x61], [0x41])] ⟨initBits [], List.replicate 256 ⟨0, 0⟩, 0⟩ 2 2
    (fun p hp => by
      rw [List.mem_singleton] at hp
      rw [hp]
      refine ⟨le_refl 1, by norm_num, fun c hc => ?_⟩
      rw [List.mem_singleton] at hc
      rw [hc]
      exact ⟨by norm_num, by norm_num⟩)
    (fun p hp b hb => by
      rw [List.mem_singleton] at hp
      rw [hp, List.mem_singleton] at hb
      rw [hb]
      norm_num)
    (List.length_replicate 256 _)
    (by norm_num)
    (fun p hp => by
      rw [List.mem_singleton] at hp
      rw [hp]
      norm_num)

end Comp


namespace Comp

/-! ## Claims on the canonical order -/

set_option maxRecDepth 100000 in
/-- C11, counterexample. For the length vector `1, 2, 2, 0, 0, ...` the symbol with the
smallest key `length[i]*256+i` is symbol 0, but `generatePrefix` extracts the symbols in
the order 2, 1, 0: symbol 2 is the first one assigned, symbol 0 the last one, and symbol
0 receives the code 1, not 0. -/
theorem C11_canonical_order_counterexample :
    extractOrder lengths122 256 = [2, 1, 0] ∧
    (generatePrefix (List.replicate 256 0) lengths122 256).getD 0 0 = 1 ∧
    (generatePrefix (List.replicate 256 0) lengths122 256).getD 2 0 = 0 := by
  decide

/-- C11, amended. Canonical order: for every length vector `length[0..256)` with at least
one positive entry and all entries below `2^23` (the keys `length[i]*256 + i` then fit
in an `int`), `generatePrefix` extracts the symbols with a positive length in descending
order of the key `length[i]*256 + i`, so the symbol with the largest key (longest
length, then highest index) is the first one assigned and receives code 0, and lengths
never increase along the extraction order. -/
theorem C11_canonical_order_amended (length : List Int) (table : List Nat)
    (hex : ∃ a, a < 256 ∧ 0 < length.getD a 0)
    (hlen : ∀ i, i < 256 → length.getD i 0 < 2 ^ 23) (htab : table.length = 256) :
    (∀ a, a ∈ extractOrder length 256 ↔ (a < 256 ∧ 0 < length.getD a 0)) ∧
    (extractOrder length 256).Pairwise
      (fun a b => length.getD b 0 * 256 + b < length.getD a 0 * 256 + a) ∧
    (extractOrder length 256).Pairwise (fun a b => length.getD b 0 ≤ length.getD a 0) ∧
    (∀ a, a < 256 → 0 < length.getD a 0 →
      length.getD a 0 * 256 + a
        ≤ length.getD ((extractOrder length 256).headD 0) 0 * 256
          + ((extractOrder length 256).headD 0 : Nat)) ∧
    (generatePrefix table length 256).getD ((extractOrder length 256).headD 0) 0 = 0 := by
  have hfit : KeysFit length 256 := by
    intro i hi _
    have := hlen i hi
    push_cast
    omega
  obtain ⟨h1, h2⟩ := extractOrder_spec length 256 hex hfit
  have h2' : (extractOrder length 256).Pairwise
      (fun a b => length.getD b 0 * 256 + b < length.getD a 0 * 256 + a) := h2
  refine ⟨h1, h2', ?_, ?_, generatePrefix_first table length 256 hex (by omega) hfit⟩
  · refine List.Pairwise.imp_of_mem ?_ h2'
    intro a b ha hb hab
    exact key_le_length 256 _ _ _ _ ((h1 b).mp hb).1 (le_of_lt hab) ((h1 a).mp ha).1
  · intro a ha hpos
    have hcons : extractOrder length 256
        = (extractOrder length 256).headD 0 :: (extractOrder length 256).tail := rfl
    have hmem := (h1 a).mpr ⟨ha, hpos⟩
    rw [hcons, List.pairwise_cons] at h2'
    rw [hcons, List.mem_cons] at hmem
    rcases hmem with e | e
    · rw [← e]
    · exact le_of_lt (h2'.1 a e)

set_option maxRecDepth 100000 in
/-- Witness of the amended C11: the length vector `1, 2, 2, 0, 0, ...`. -/
theorem C11_canonical_order_amended_witness :
    (∀ a, a ∈ extractOrder lengths122 256 ↔
      (a < 256 ∧ 0 < lengths122.getD a 0)) ∧
    (extractOrder lengths122 256).Pairwise
      (fun a b => lengths122.getD b 0 * 256 + b
        < lengths122.getD a 0 * 256 + a) ∧
    (extractOrder lengths122 256).Pairwise
      (fun a b => lengths122.getD b 0
        ≤ lengths122.getD a 0) ∧
    (∀ a, a < 256 → 0 < lengths122.getD a 0 →
      lengths122.getD a 0 * 256 + a
        ≤ lengths122.getD
            ((extractOrder lengths122 256).headD 0) 0 * 256
          + ((extractOrder lengths122 256).headD 0 : Nat)) ∧
    (generatePrefix (List.replicate 256 0) lengths122 256).getD
      ((extractOrder lengths122 256).headD 0) 0 = 0 :=
  C11_canonical_order_amended lengths122 (List.replicate 256 0)
    ⟨0, by decide, by decide⟩ (by decide) (List.length_replicate 256 0)

end Comp


namespace Comp

/-! ## Claims on the priority queue -/

/-- C12, counterexample. After `putPrio (1, 5)` and `putPrio (2, 7)` on a fresh queue,
`getPrio` returns the payload 2 and leaves the priority 7 in slot 0, although the
priority 5 of the other stored element is smaller. -/
theorem C12_min_heap_counterexample :
    (getPrio (putPrioSeq [(1, 5), (2, 7)] (initPrio 2))).1 = 2 ∧
    (getPrio (putPrioSeq [(1, 5), (2, 7)] (initPrio 2))).2.priority.getD 0 0 = 7 ∧
    (1, 5) ∈ [((1 : Nat), (5 : Int)), (2, 7)] ∧ (5 : Int) < 7 := by
  decide

/-- C12, amended. The priority queue is a max-heap: for every non-empty sequence of
`putPrio` calls on a fresh queue (within capacity), `getPrio` returns the payload of an
element whose priority is the largest among the elements stored, and leaves that
priority in slot 0. -/
theorem C12_max_heap_amended (N : Nat) (items : List (Nat × Int)) (hne : items ≠ [])
    (hcap : items.length ≤ N) :
    ∃ x ∈ items, (getPrio (putPrioSeq items (initPrio N))).1 = (x.1 : Int) ∧
      (getPrio (putPrioSeq items (initPrio N))).2.priority.getD 0 0 = x.2 ∧
      ∀ y ∈ items, y.2 ≤ x.2 := by
  obtain ⟨h1, h2, h3, h4, h5⟩ := initPrio_spec N
  obtain ⟨s1, s2, s3, s4⟩ := putPrioSeq_spec items (initPrio N) h1 h5 (by rw [h2, h3]; omega)
  rw [h4, add_zero] at s4
  have hlen : 0 < items.length := List.length_pos.mpr hne
  obtain ⟨x, hx, g1, g2, g3⟩ := getPrio_max _ s1 s2 (by rw [s3, h2]; omega)
  rw [s4] at hx g3
  exact ⟨x, by simpa using hx, g1, g2, fun y hy => g3 y (by simpa using hy)⟩

/-- Witness of the amended C12: two elements in a queue for two. -/
theorem C12_max_heap_amended_witness :
    ∃ x ∈ [((1 : Nat), (5 : Int)), (2, 7)],
      (getPrio (putPrioSeq [(1, 5), (2, 7)] (initPrio 2))).1 = (x.1 : Int) ∧
      (getPrio (putPrioSeq [(1, 5), (2, 7)] (initPrio 2))).2.priority.getD 0 0 = x.2 ∧
      ∀ y ∈ [((1 : Nat), (5 : Int)), (2, 7)], y.2 ≤ x.2 :=
  C12_max_heap_amended 2 [(1, 5), (2, 7)] (by decide) (by decide)

/-- C18. Heap-order invariant: in every queue state reachable from `initPrio` by a
sequence of `putPrio` and `getPrio` calls (within capacity, `getPrio` only on a non-empty
queue), for every stored index `k` with `2 ≤ k < top`, `priority[k/2]` is greater than or
equal to `priority[k]`; consequently `getPrio` returns an element of maximal priority. -/
theorem C18_heap_order (N : Nat) (ops : List QOp) (q : PriorityQueue)
    (h : runOps ops (initPrio N) = some q) :
    (∀ k, 2 ≤ k → k < q.top → q.priority.getD k 0 ≤ q.priority.getD (k / 2) 0) ∧
    HeapOrd q ∧
    (1 < q.top → ∃ x ∈ contents q, (getPrio q).1 = (x.1 : Int) ∧ ∀ y ∈ contents q, y.2 ≤ x.2) := by
  obtain ⟨h1, h2, h3, _, h5⟩ := initPrio_spec N
  obtain ⟨r1, r2, _⟩ := runOps_spec ops (initPrio N) q h1 h5 (by rw [h2, h3]; omega) h
  refine ⟨r2, r2, fun ht => ?_⟩
  obtain ⟨x, hx, g1, _, g3⟩ := getPrio_max q r1 r2 ht
  exact ⟨x, hx, g1, g3⟩

/-- Witness of C18: two `putPrio`, a `getPrio` and a third `putPrio` on a queue for
three elements. -/
theorem C18_heap_order_witness :
    (∀ k, 2 ≤ k → k < (putPrio 3 6 (getPrio (putPrio 2 7 (putPrio 1 5 (initPrio 3)))).2).top →
      (putPrio 3 6 (getPrio (putPrio 2 7 (putPrio 1 5 (initPrio 3)))).2).priority.getD k 0
        ≤ (putPrio 3 6 (getPrio (putPrio 2 7 (putPrio 1 5 (initPrio 3)))).2).priority.getD (k / 2) 0) ∧
    HeapOrd (putPrio 3 6 (getPrio (putPrio 2 7 (putPrio 1 5 (initPrio 3)))).2) ∧
    (1 < (putPrio 3 6 (getPrio (putPrio 2 7 (putPrio 1 5 (initPrio 3)))).2).top →
      ∃ x ∈ contents (putPrio 3 6 (getPrio (putPrio 2 7 (putPrio 1 5 (initPrio 3)))).2),
        (getPrio (putPrio 3 6 (getPrio (putPrio 2 7 (putPrio 1 5 (initPrio 3)))).2)).1 = (x.1 : Int) ∧
        ∀ y ∈ contents (putPrio 3 6 (getPrio (putPrio 2 7 (putPrio 1 5 (initPrio 3)))).2),
          y.2 ≤ x.2) :=
  C18_heap_order 3 [QOp.put 1 5, QOp.put 2 7, QOp.get, QOp.put 3 6] _ (by decide)

end Comp


namespace Comp

/-! ## Claims on the state of a bit stream -/

/-- C13, the code at a failing input. After `putBits (0, 4)` on a fresh stream
(`nBit = 4`), `putBits (0xFFF, 8)` with a value that does not fit in 8 bits does not
append the bits of `0xFFF mod 2^8` to the bits written before: it also sets the four
bits that were written, and `closeBits` then gives the bytes `0xFF 0xF0` where the low 8
bits of the value behind four bits 0 are `0x0F 0xF0`.  The comment of `putBits` says
that `nBit` is the number of bits from the lower order to put; its mask `(1 << nBit)-1`
takes the width of the whole value where the number `toSend` of the bits sent is meant. -/
theorem C13_putBits_low_bits_failing :
    (putBits 0 4 (initBits [])).nBit = 4 ∧
    wbits (putBits 0xFFF 8 (putBits 0 4 (initBits [])))
      ≠ wbits (putBits 0 4 (initBits [])) ++ bitsOf 8 (0xFFF % 2 ^ 8) ∧
    (closeBits (putBits 0xFFF 8 (putBits 0 4 (initBits [])))).file = [0xFF, 0xF0] ∧
    packBits (wbits (putBits 0 4 (initBits [])) ++ bitsOf 8 (0xFFF % 2 ^ 8)) = [0x0F, 0xF0] := by
  decide

/-- C14, the code at a failing input. After `putBits (1, 1)` on a fresh stream and
`closeBits`, which emits `0x80`, a second `closeBits` emits a further byte `0x00`:
`closeBits` clears `curChar` but leaves `nBit = 1`, where the flush inside `putBits`
clears both. -/
theorem C14_flush_idempotent_failing :
    (closeBits (putBits 1 1 (initBits []))).file = [0x80] ∧
    (closeBits (putBits 1 1 (initBits []))).nBit = 1 ∧
    (closeBits (closeBits (putBits 1 1 (initBits [])))).file = [0x80, 0x00] ∧
    closeBits (closeBits (putBits 1 1 (initBits []))) ≠ closeBits (putBits 1 1 (initBits [])) := by
  decide

/-- C15, counterexample. After `putBits (0xAB, 8)` on a fresh stream the bit counter is 8:
the full byte stays in `curChar` until the next `putBits` or `closeBits`. -/
theorem C15_nBit_invariant_counterexample :
    (putBitsSeq [(0xAB, 8)] (initBits [])).nBit = 8 ∧ ¬ (8 < 8) := by
  decide

/-- C15, amended. Bit-stream state invariant: in every state reachable from `initBits` by
any sequence of `putBits` calls the bit counter satisfies `0 ≤ nBit ≤ 8`, and in every
state reachable from `initBits` by any sequence of `getBits` calls it satisfies
`0 ≤ nBit < 8`. -/
theorem C15_nBit_invariant_amended (ps : List (Nat × Nat)) (ws : List Nat) (f g : List Nat) :
    (putBitsSeq ps (initBits f)).nBit ≤ 8 ∧ (getBitsSeq ws (initBits g)).2.nBit < 8 :=
  ⟨putBitsSeq_nBit ps _ (by simp [initBits]), getBitsSeq_nBit ws _ (by simp [initBits])⟩

end Comp


namespace Comp

/-! ## Claims on the decoding tree -/

/-- C16. Decode tree realises the code table: for every length vector produced by
`generateLength` from a frequency vector, with all lengths `≤ 15`, with
`table = generatePrefix (length)` and `tree = buildDecodeTable (table, length)`, for every
symbol `s`, starting at node 0 and following `n1` / `n0` for the `length[s]` bits of
`table[s]` from the most to the least significant bit passes only through indices `< 256`
and ends at the slot value `256 + s`; the walk takes `length[s]` links, hence the depth
of the tree equals the maximum length.  The arrays `table` and `decode` may hold anything
before the calls, and `freq` may be any vector, also one for which the sums of priorities
in `generateLength` wrap around. -/
theorem C16_decode_tree (freq : List Int) (table : List Nat) (decode : List HDecodeNode)
    (htab : table.length = 256) (hdec : decode.length = 256)
    (hlen : ∀ c, c < 256 → (generateLength freq 256).getD c 0 ≤ 15) (s : Nat) (hs : s < 256) :
    walk (buildDecodeTable decode (generatePrefix table (generateLength freq 256) 256)
        (generateLength freq 256) 256)
      (codeword (generatePrefix table (generateLength freq 256) 256) (generateLength freq 256) s) 0
      = 256 + (s : Int) ∧
    walkInside (buildDecodeTable decode (generatePrefix table (generateLength freq 256) 256)
        (generateLength freq 256) 256) 256
      (codeword (generatePrefix table (generateLength freq 256) 256) (generateLength freq 256) s) 0 ∧
    (codeword (generatePrefix table (generateLength freq 256) 256)
      (generateLength freq 256) s).length = ((generateLength freq 256).getD s 0).toNat := by
  have _ := hlen
  have h2 : 2 ≤ 256 := by norm_num
  obtain ⟨_, _, _, h⟩ := decodeTree_spec freq table decode 256 h2 symbols_fit (le_of_eq htab.symm)
    (le_of_eq hdec.symm)
  obtain ⟨w1, w2⟩ := h s hs
  refine ⟨w1, walkInside_mono _ _ _ (by norm_num) _ _ w2, ?_⟩
  unfold codeword
  rw [bitsOf_length]
  rfl

/-- Witness of C16: symbol 7 for the frequency vector of the empty buffer. -/
theorem C16_decode_tree_witness :
    walk (buildDecodeTable (List.replicate 256 ⟨0, 0⟩)
        (generatePrefix (List.replicate 256 0) (generateLength (countFreq [] 0) 256) 256)
        (generateLength (countFreq [] 0) 256) 256)
      (codeword (generatePrefix (List.replicate 256 0) (generateLength (countFreq [] 0) 256) 256)
        (generateLength (countFreq [] 0) 256) 7) 0
      = 256 + ((7 : Nat) : Int) ∧
    walkInside (buildDecodeTable (List.replicate 256 ⟨0, 0⟩)
        (generatePrefix (List.replicate 256 0) (generateLength (countFreq [] 0) 256) 256)
        (generateLength (countFreq [] 0) 256) 256) 256
      (codeword (generatePrefix (List.replicate 256 0) (generateLength (countFreq [] 0) 256) 256)
        (generateLength (countFreq [] 0) 256) 7) 0 ∧
    (codeword (generatePrefix (List.replicate 256 0) (generateLength (countFreq [] 0) 256) 256)
      (generateLength (countFreq [] 0) 256) 7).length
      = ((generateLength (countFreq [] 0) 256).getD 7 0).toNat :=
  C16_decode_tree (countFreq [] 0) (List.replicate 256 0) (List.replicate 256 ⟨0, 0⟩)
    (List.length_replicate 256 0) (List.length_replicate 256 _)
    (fun c hc => length_le_15_of_small [] 0 (fun i hi => absurd hi (Nat.not_lt_zero i))
      (Nat.zero_le _) c hc) 7 (by norm_num)

/-- C20. Decode-tree node bound: for every length vector produced by `generateLength`
from a frequency vector, with all lengths `≤ 15`, `buildDecodeTable` allocates exactly 255
nodes: its counter `top` never exceeds 255 and ends at 255, the array keeps its 256
entries, and the walk of `getHufInput` along the codeword of a symbol takes its links at
indices below 255, so every node index written or read is within the 256-entry `decode`
array of `HInStream`.  The vector `freq` may be any vector, also one for which the sums of
priorities in `generateLength` wrap around. -/
theorem C20_decode_tree_bound (freq : List Int) (table : List Nat) (decode : List HDecodeNode)
    (htab : table.length = 256) (hdec : decode.length = 256)
    (hlen : ∀ c, c < 256 → (generateLength freq 256).getD c 0 ≤ 15) :
    (buildDecodeLoop decode (generatePrefix table (generateLength freq 256) 256)
      (generateLength freq 256) 256).2 = 255 ∧
    (∀ k, k ≤ 256 →
      ((List.range k).foldl (buildDecodeStep (generatePrefix table (generateLength freq 256) 256)
        (generateLength freq 256) 256) (decode.set 0 ⟨-1, -1⟩, 1)).2 ≤ 255) ∧
    (buildDecodeTable decode (generatePrefix table (generateLength freq 256) 256)
      (generateLength freq 256) 256).length = 256 ∧
    ∀ s, s < 256 →
      walkInside (buildDecodeTable decode (generatePrefix table (generateLength freq 256) 256)
          (generateLength freq 256) 256) 255
        (codeword (generatePrefix table (generateLength freq 256) 256)
          (generateLength freq 256) s) 0 := by
  have _ := hlen
  have h2 : 2 ≤ 256 := by norm_num
  obtain ⟨a1, a2, a3, a4⟩ := decodeTree_spec freq table decode 256 h2 symbols_fit (le_of_eq htab.symm)
    (le_of_eq hdec.symm)
  refine ⟨by omega, fun k hk => ?_, by rw [a3, hdec], fun s hs => ?_⟩
  · have := a1 k hk
    omega
  · exact walkInside_mono _ _ _ (by norm_num) _ _ (a4 s hs).2

/-- Witness of C20: the frequency vector of the empty buffer. -/
theorem C20_decode_tree_bound_witness :
    (buildDecodeLoop (List.replicate 256 ⟨0, 0⟩)
      (generatePrefix (List.replicate 256 0) (generateLength (countFreq [] 0) 256) 256)
      (generateLength (countFreq [] 0) 256) 256).2 = 255 ∧
    (∀ k, k ≤ 256 →
      ((List.range k).foldl (buildDecodeStep
        (generatePrefix (List.replicate 256 0) (generateLength (countFreq [] 0) 256) 256)
        (generateLength (countFreq [] 0) 256) 256)
        ((List.replicate 256 (⟨0, 0⟩ : HDecodeNode)).set 0 ⟨-1, -1⟩, 1)).2 ≤ 255) ∧
    (buildDecodeTable (List.replicate 256 ⟨0, 0⟩)
      (generatePrefix (List.replicate 256 0) (generateLength (countFreq [] 0) 256) 256)
      (generateLength (countFreq [] 0) 256) 256).length = 256 ∧
    ∀ s, s < 256 →
      walkInside (buildDecodeTable (List.replicate 256 ⟨0, 0⟩)
          (generatePrefix (List.replicate 256 0) (generateLength (countFreq [] 0) 256) 256)
          (generateLength (countFreq [] 0) 256) 256) 255
        (codeword (generatePrefix (List.replicate 256 0) (generateLength (countFreq [] 0) 256) 256)
          (generateLength (countFreq [] 0) 256) s) 0 :=
  C20_decode_tree_bound (countFreq [] 0) (List.replicate 256 0) (List.replicate 256 ⟨0, 0⟩)
    (List.length_replicate 256 0) (List.length_replicate 256 _)
    (fun c hc => length_le_15_of_small [] 0 (fun i hi => absurd hi (Nat.not_lt_zero i))
      (Nat.zero_le _) c hc)

end Comp


namespace Comp

/-! ## Claim on the truncated payload -/

/-- C17, the code at a failing input. The decoder is opened on the first 131 bytes of
the block of 4096 bytes `0x41`: size field, header and one byte of payload. Eight calls
of `getHufInput` deliver `0x41`; then `getBits` reports the end of the file (`-1`) for
the first bit of the ninth code, and the ninth call of `getHufInput` does not return
`EOF` (`-1`) but the byte `0x41`: the test `if (getBits(&str->bs,1))` of `getHufInput`
takes the `-1` of `getBits` for a bit 1, where the read of the size field treats a
result `<= 0` as the end. -/
theorem C17_truncated_payload_failing :
    (getHufInputSeq 8 truncatedReader).1 = List.replicate 8 (0x41 : Int) ∧
    (getBits (getHufInputSeq 8 truncatedReader).2.bs 1).1 = -1 ∧
    (getHufInput (getHufInputSeq 8 truncatedReader).2).1 = 0x41 ∧
    (getHufInput (getHufInputSeq 8 truncatedReader).2).1 ≠ -1 := by
  obtain ⟨c1, c2, c3, c4⟩ := truncated_calls
  have h2 : 2 ≤ 256 := by norm_num
  have htab : 256 ≤ (List.replicate 256 (0 : Nat)).length := by rw [List.length_replicate]
  have hdec : 256 ≤ (List.replicate 256 (⟨0, 0⟩ : HDecodeNode)).length := by
    rw [List.length_replicate]
  obtain ⟨n0, f0⟩ := rbits_nil _ c4
  obtain ⟨s, t, hs, ht, hc, hv, _, _, _⟩ := getHufInput_truncated
    (countFreq (List.replicate 4096 0x41) 4096) (List.replicate 256 ⟨0, 0⟩)
    (getHufInputSeq 8 truncatedReader).2 [] hdec uniform_le_15 c3 (by rw [c2]; norm_num)
    (Or.inl rfl) c4 (nil_proper _ _)
  have hs41 : s = 0x41 := by
    by_contra hne
    apply code_prefix_free (countFreq (List.replicate 4096 0x41) 4096) (List.replicate 256 0) 256 h2 symbols_fit htab 0x41 s (by norm_num) hs
      (fun h => hne h.symm)
    rw [codeword_4096, hc, List.nil_append]
    obtain ⟨u, rfl⟩ : ∃ u, t = u + 1 := ⟨t - 1, by omega⟩
    rw [List.replicate_succ]
    exact ⟨List.replicate u true, rfl⟩
  have hv41 : (getHufInput (getHufInputSeq 8 truncatedReader).2).1 = 0x41 := by
    rw [hv, hs41]
    rfl
  refine ⟨c1, ?_, hv41, ?_⟩
  · rw [getBits_eof _ n0 f0]
  · rw [hv41]
    decide

end Comp


namespace Comp

/-! ## Claims on the code lengths -/

/-- C19. Lengths form a full binary tree: for every frequency vector `freq[0..256)` of
non-negative counts, the vector `length = generateLength (freq, 256)` has every entry
`≥ 1` (also for zero-frequency symbols) and satisfies the Kraft equality: the sum over
all 256 symbols of `2 ^ (-length[s])` equals exactly 1.  This holds also where the sums
of priorities in `generateLength` leave the range of an `int` and wrap around: the loop
builds a full binary tree on the 256 symbols whatever the priorities are. -/
theorem C19_kraft_equality (freq : List Int) (hfreq : freq.length = 256 ∧ ∀ x ∈ freq, 0 ≤ x) :
    (∀ s, s < 256 → 1 ≤ (generateLength freq 256).getD s 0) ∧
    ∑ s ∈ Finset.range 256, (1 / 2 : ℚ) ^ ((generateLength freq 256).getD s 0).toNat = 1 := by
  have _ := hfreq
  have h2 : 2 ≤ 256 := by norm_num
  refine ⟨fun s hs => generateLength_pos freq 256 h2 s hs, ?_⟩
  refine Eq.trans (Finset.sum_congr rfl ?_) (finalDepth_kraft freq 256 h2)
  intro s hs
  have := lenOf_generateLength freq 256 h2 s (Finset.mem_range.mp hs)
  unfold lenOf at this
  rw [this]

/-- Witness of C19: the all-zero frequency vector. -/
theorem C19_kraft_equality_witness :
    (∀ s, s < 256 → 1 ≤ (generateLength (List.replicate 256 0) 256).getD s 0) ∧
    ∑ s ∈ Finset.range 256,
      (1 / 2 : ℚ) ^ ((generateLength (List.replicate 256 0) 256).getD s 0).toNat = 1 :=
  C19_kraft_equality (List.replicate 256 0)
    ⟨List.length_replicate 256 0, fun x hx => le_of_eq (List.eq_of_mem_replicate hx).symm⟩

end Comp

